import Mathlib

/-!
# cgroup-exporter: the collector

A shallow embedding of `collector/collector.go`: the text decoders, the registry built
by `New` and the collection pass `Collect`.

Modelling conventions.

* A file (`io.Reader`) is the string of its complete content, read without an error and
  with the end of the input reported by a read of its own, as `os.File` does.  Contents
  are Unicode strings, that is valid UTF-8; the section `Bytes` has the decoders of
  key-value files on strings of bytes, for the contents that are not.  `bufio.Scanner` delivers the lines
  that fit its buffer of 64 KiB, and `scanner.Err()` is `bufio.ErrTooLong` after a line
  that does not fit.
* The metric channel `m chan<- prometheus.Metric` is the list of values sent,
  in order.  Code that sends is written in the monad `Exec`, which also
  carries Go panics (an index out of range, `MustNewConstMetric` on a label
  count mismatch or on a label value that is not valid UTF-8).
* A Go `error` result is an `Option GoError`, `none` being `nil`.
* `float64` is idealised by exact rationals; `strconv.ParseFloat` is a
  parameter `ParseFloat : String → Option ℚ` of the decoders (`none` is a
  non-nil error).
* A Go `map[string]T` is an association list read with `List.lookup`.
* The file system `fs.FS` is a tree `Node`; `fs.WalkDir` is modelled on it, `fs.Glob`
  is computed for the pattern `*` and is a parameter for every other pattern.
* A collection pass yields the list of its events in order: the calls of `Open` on the
  file system value, the metrics sent, the errors logged with `slog.Error`.  `Collect`
  is the pass on a file system value with the methods `Stat` and `ReadDir`, as the value
  of `os.DirFS` that `main` uses, where the collector alone calls `Open`; `CollectOn` is
  the pass on any file system value, where `fs.Stat`, `fs.ReadDir` and `fs.Glob` call
  `Open` for a method that the value lacks.
-/

namespace Collector

set_option linter.dupNamespace false

/-! ## Prometheus client values -/

/-- Value kinds of `prometheus.ValueType`. -/
inductive ValueType where
  | CounterValue
  | GaugeValue
  | UntypedValue
deriving DecidableEq, Repr

/-- Descriptor `prometheus.Desc`: metric name, help text and the ordered label schema. -/
structure Desc where
  fqName : String
  help : String
  variableLabels : List String
deriving DecidableEq, Repr

/-- Constructor `prometheus.NewDesc` without constant labels (always `nil` in the collector). -/
def NewDesc (fqName help : String) (variableLabels : List String) : Desc :=
  ⟨fqName, help, variableLabels⟩

/-- Constant metric built by `prometheus.NewConstMetric`: the measurement record. -/
structure Metric where
  desc : Desc
  valueType : ValueType
  value : ℚ
  labelValues : List String
deriving DecidableEq, Repr

/-! ## Errors, panics and the execution monad -/

/-- Errors of `fmt.Fscanf` that the verb `%s` can raise. -/
inductive ScanError where
  | unexpectedNewline
  | eof
deriving DecidableEq, Repr

/-- Errors of the file system (`fs.ErrNotExist`, `fs.ErrInvalid`, `fs.ErrPermission`, any
other I/O error). -/
inductive FsError where
  | notExist
  | invalid
  | permission
  | io
deriving DecidableEq, Repr

/-- Non-nil `error` values, one constructor per `fmt.Errorf` site of the collector,
`path.ErrBadPattern`, and `bufio.ErrTooLong` (`token too long`). -/
inductive GoError where
  | failedToReadValue (cause : ScanError)
  | failedToParseValue (v : String)
  | invalidKeyValuePair (line : String)
  | invalidNestedKeyValuePair (k v : String) (n : Nat)
  | unknownPressureType (n : String)
  | failedToWalk (cause : FsError)
  | failedToOpen (path : String) (cause : FsError)
  | badPattern
  | tokenTooLong
  | other (msg : String)
deriving DecidableEq, Repr

/-- Run-time panics the collector could raise. -/
inductive Panic where
  | indexOutOfRange
  | inconsistentCardinality
  | invalidLabelValue
  | nilDereference
deriving DecidableEq, Repr

/-- Completion of a Go call: a normal return or a panic. -/
inductive Ret (α : Type) where
  | returned (a : α)
  | panicked (p : Panic)
deriving DecidableEq, Repr

/-- Effectful Go code: the values sent on the channel, in order, and how the call ended. -/
structure Exec (ε α : Type) where
  sent : List ε
  ret : Ret α
deriving DecidableEq, Repr

/-- Return without sending. -/
def Exec.pure {ε α : Type} (a : α) : Exec ε α :=
  ⟨[], .returned a⟩

/-- Sequencing: a panic stops the execution, keeping what was sent before it. -/
def Exec.bind {ε α β : Type} (x : Exec ε α) (f : α → Exec ε β) : Exec ε β :=
  match x.ret with
  | .panicked p => ⟨x.sent, .panicked p⟩
  | .returned a => ⟨x.sent ++ (f a).sent, (f a).ret⟩

instance {ε : Type} : Monad (Exec ε) where
  pure := Exec.pure
  bind := Exec.bind

/-- Channel send `m <- e`. -/
def send {ε : Type} (e : ε) : Exec ε Unit :=
  ⟨[e], .returned ()⟩

/-- Go `panic`. -/
def goPanic {ε α : Type} (p : Panic) : Exec ε α :=
  ⟨[], .panicked p⟩

/-- Function `prometheus.NewConstMetric`: fails unless there is one label value per
label of the schema and every label value is valid UTF-8.  Here the label values are
Unicode strings, which are valid UTF-8, so that the second check always passes; on byte
strings it is `Bytes.NewConstMetric`, which does the same on encodings
(`bytes_MustNewConstMetric_encode`).  (The descriptors of the collector are built from
valid literal names.) -/
def NewConstMetric (desc : Desc) (valueType : ValueType) (value : ℚ)
    (labelValues : List String) : Option Metric :=
  if labelValues.length ≠ desc.variableLabels.length then none
  else some ⟨desc, valueType, value, labelValues⟩

/-- Function `prometheus.MustNewConstMetric`: panics where `NewConstMetric` fails. -/
def MustNewConstMetric {ε : Type} (desc : Desc) (valueType : ValueType) (value : ℚ)
    (labelValues : List String) : Exec ε Metric :=
  match NewConstMetric desc valueType value labelValues with
  | some m => Exec.pure m
  | none => goPanic .inconsistentCardinality

/-! ## Library text functions -/

deriving instance DecidableEq for Except

/-- White space of `fmt` (the table `space` of fmt/scan.go), the same set as `unicode.IsSpace`. -/
def isSpace (r : Char) : Bool :=
  (0x0009 ≤ r.toNat && r.toNat ≤ 0x000d) || r.toNat == 0x0020 || r.toNat == 0x0085 ||
  r.toNat == 0x00a0 || r.toNat == 0x1680 || (0x2000 ≤ r.toNat && r.toNat ≤ 0x200a) ||
  (0x2028 ≤ r.toNat && r.toNat ≤ 0x2029) || r.toNat == 0x202f || r.toNat == 0x205f ||
  r.toNat == 0x3000

/-- Method `(*ss).SkipSpace` in the mode of `Fscanf`, where a newline is not white space:
the unread input after the skipped blanks, or the error `unexpected newline`. -/
def SkipSpace : List Char → Except ScanError (List Char)
  | [] => .ok []
  | r :: rest =>
    if r = '\r' ∧ rest.head? = some '\n' then SkipSpace rest
    else if r = '\n' then .error .unexpectedNewline
    else if !isSpace r then .ok (r :: rest)
    else SkipSpace rest

/-- Call `fmt.Fscanf(f, "%s", &val)`: `doScanf` skips blanks before the verb, then
`convertString` skips blanks, requires input (`notEOF`) and reads the next word with
`token(true, notSpace)`. -/
def Fscanf_s (f : String) : Except ScanError String := do
  let r1 ← SkipSpace f.data
  let r2 ← SkipSpace r1
  if r2 = [] then throw ScanError.eof
  let r3 ← SkipSpace r2
  return ⟨r3.takeWhile (fun r => !isSpace r)⟩

/-- Fields of `strings.Split` on a one-character separator: the first field and the
list of the following ones. -/
def splitFields (sep : Char) : List Char → List Char × List (List Char)
  | [] => ([], [])
  | c :: cs =>
    if c = sep then ([], (splitFields sep cs).1 :: (splitFields sep cs).2)
    else (c :: (splitFields sep cs).1, (splitFields sep cs).2)

/-- Function `strings.Split(s, sep)` for a separator of one character, the only kind the
collector uses (`" "` and `"="`). -/
def Split (s : String) (sep : Char) : List String :=
  ((splitFields sep s.data).1 :: (splitFields sep s.data).2).map String.mk

/-- Function `strings.TrimSpace`: the string without leading and trailing white space. -/
def TrimSpace (s : String) : String :=
  ⟨((s.data.dropWhile isSpace).reverse.dropWhile isSpace).reverse⟩

/-- Helper `dropCR` of bufio: a trailing carriage return is removed. -/
def dropCR (data : List Char) : List Char :=
  if data.getLast? = some '\r' then data.dropLast else data

/-- Raw lines of `bufio.ScanLines`: the input is cut after every newline, and a
non-empty rest without newline is a last line. -/
def rawLines : List Char → List (List Char)
  | [] => []
  | c :: cs =>
    if c = '\n' then [] :: rawLines cs
    else
      match rawLines cs with
      | [] => [[c]]
      | l :: ls => (c :: l) :: ls

/-- Constant `bufio.MaxScanTokenSize`: the size to which the buffer of a scanner made by
`bufio.NewScanner` may grow. -/
def MaxScanTokenSize : Nat := 64 * 1024

/-- Number of bytes of a character in UTF-8 (`utf8.RuneLen`). -/
def utf8Len (c : Char) : Nat :=
  if c.toNat < 0x80 then 1
  else if c.toNat < 0x800 then 2
  else if c.toNat < 0x10000 then 3
  else 4

/-- Length in bytes of a run of characters, as the buffer of the scanner holds it. -/
def byteLen (data : List Char) : Nat :=
  (data.map utf8Len).sum

/-- Test that the scanner can deliver a raw line (the bytes before the newline, a carriage
return included): the buffer, of `MaxScanTokenSize` bytes at most, has to hold the line
and one byte more, the newline or the room for the read that reports the end of the
input.  On a line of `MaxScanTokenSize` bytes or more `scanner.Scan()` returns false with
`bufio.ErrTooLong`. -/
def fits (line : List Char) : Bool :=
  decide (byteLen line < MaxScanTokenSize)

/-- Lines delivered by `bufio.NewScanner(r)` through `scanner.Scan()` / `scanner.Text()`:
the raw lines up to the first one that does not fit, without their carriage return. -/
def scanLines (r : String) : List String :=
  ((rawLines r.data).takeWhile fits).map (fun l => String.mk (dropCR l))

/-- Value of `scanner.Err()` after `scanner.Scan()` has returned false: `bufio.ErrTooLong`
when a raw line does not fit, and nil at the end of the input. -/
def scanErr (r : String) : Option GoError :=
  if (rawLines r.data).all fits then none else some .tokenTooLong

/-! ## The collector -/

/-- Type `desc` of the collector: a descriptor with an optional unit modifier
(`none` is the `nil` modifier). -/
structure desc where
  desc : Desc
  modifier : Option (ℚ → ℚ)

/-- Type `collectFunc`: reader content, cgroup path, descriptor; the channel is the
`Exec` trace. -/
abbrev collectFunc := String → String → Desc → Exec Metric (Option GoError)

/-- Type `collectMultipleFunc`: reader content, cgroup path, sub-key mapping. -/
abbrev collectMultipleFunc := String → String → List (String × desc) → Exec Metric (Option GoError)

/-- Unit modifier `microSecondsToSeconds`: `microseconds / 1e6`. -/
def microSecondsToSeconds (microseconds : ℚ) : ℚ :=
  microseconds / 1000000

/-- Type `kvVisitor`: called with a key and a value, may send and returns an `error`. -/
abbrev kvVisitor (ε : Type) := String → String → Exec ε (Option GoError)

/-- Type `entryVisitor`: called with an entry name, returns `(kvVisitor, error)`. -/
abbrev entryVisitor (ε : Type) := String → Exec ε (Except GoError (kvVisitor ε))

/-- Body of the inner loop `for _, v := range vs` of `visitNestedKeyed` for the token `v`:
`some r` when the function returns `r` there, `none` when the loop goes on.  The error
returned by `visitKV(kv[0], kv[1])` is discarded, as in the source. -/
def visitNestedKeyedToken {ε : Type} (k : String) (visitKV : kvVisitor ε) (v : String) :
    Exec ε (Option (Option GoError)) :=
  if (Split v '=').length = 0 then pure (some none)
  else if (Split v '=').length ≠ 2 then
    pure (some (some (.invalidNestedKeyValuePair k v (Split v '=').length)))
  else
    match (Split v '=')[0]?, (Split v '=')[1]? with
    | some kv0, some kv1 => do
      let _ ← visitKV kv0 kv1
      pure none
    | _, _ => goPanic .indexOutOfRange

/-- Inner loop `for _, v := range vs` of `visitNestedKeyed`. -/
def visitNestedKeyedTokens {ε : Type} (k : String) (visitKV : kvVisitor ε) :
    List String → Exec ε (Option (Option GoError))
  | [] => pure none
  | v :: vs => do
    match ← visitNestedKeyedToken k visitKV v with
    | some r => pure (some r)
    | none => visitNestedKeyedTokens k visitKV vs

/-- Body of the loop `for scanner.Scan()` of `visitNestedKeyed` for one line: `some r`
when the function returns `r` there, `none` when the loop goes on. -/
def visitNestedKeyedLine {ε : Type} (visitEntry : entryVisitor ε) (line : String) :
    Exec ε (Option (Option GoError)) :=
  match Split (TrimSpace line) ' ' with
  | [] => goPanic .indexOutOfRange
  | k :: vs => do
    match ← visitEntry k with
    | .error err => pure (some (some err))
    | .ok visitKV => visitNestedKeyedTokens k visitKV vs

/-- Loop `for scanner.Scan()` of `visitNestedKeyed` over the lines that the scanner
delivers, ending with `return scanner.Err()`, where `atEnd` is the value of
`scanner.Err()`. -/
def visitNestedKeyedLines {ε : Type} (visitEntry : entryVisitor ε) (atEnd : Option GoError) :
    List String → Exec ε (Option GoError)
  | [] => pure atEnd
  | line :: rest => do
    match ← visitNestedKeyedLine visitEntry line with
    | some r => pure r
    | none => visitNestedKeyedLines visitEntry atEnd rest

/-- Function `visitNestedKeyed`: parses `r` into nested key-values
`KEY0 SUB_KEY0=VAL00 SUB_KEY1=VAL01`, one entry per line. -/
def visitNestedKeyed {ε : Type} (r : String) (visitEntry : entryVisitor ε) :
    Exec ε (Option GoError) :=
  visitNestedKeyedLines visitEntry (scanErr r) (scanLines r)

/-- Body of the loop `for scanner.Scan()` of `visitFlatKeyed` for one line: `some err`
when the function returns `err` there, `none` when the loop goes on. -/
def visitFlatKeyedLine {ε : Type} (visitKV : kvVisitor ε) (line : String) :
    Exec ε (Option GoError) :=
  if (Split line ' ').length ≠ 2 then pure (some (.invalidKeyValuePair line))
  else
    match (Split line ' ')[0]?, (Split line ' ')[1]? with
    | some kv0, some kv1 => visitKV kv0 kv1
    | _, _ => goPanic .indexOutOfRange

/-- Loop `for scanner.Scan()` of `visitFlatKeyed` over the lines that the scanner
delivers: `some err` when the function returns `err` from inside the loop, `none` when
the loop comes to its end. -/
def visitFlatKeyedLines {ε : Type} (visitKV : kvVisitor ε) :
    List String → Exec ε (Option GoError)
  | [] => pure none
  | line :: rest => do
    match ← visitFlatKeyedLine visitKV line with
    | some err => pure (some err)
    | none => visitFlatKeyedLines visitKV rest

/-- Function `visitFlatKeyed`: parses `r` into key-values `KEY0 VAL0`, one per line.  After
the loop it returns `scanner.Err()`. -/
def visitFlatKeyed {ε : Type} (r : String) (visitKV : kvVisitor ε) : Exec ε (Option GoError) := do
  match ← visitFlatKeyedLines visitKV (scanLines r) with
  | some err => pure (some err)
  | none => pure (scanErr r)

section Decoders

variable (ParseFloat : String → Option ℚ)

/-- Function `collectIOStat`: every entry is a device, every known sub-key a counter
labelled `(device, path)`. -/
def collectIOStat : collectMultipleFunc := fun f path descs =>
  visitNestedKeyed f (fun n =>
    let device := n
    pure (.ok (fun k v =>
      match List.lookup k descs with
      | none => pure none
      | some desc =>
        match ParseFloat v with
        | none => pure (some (.failedToParseValue v))
        | some value => do
          send (← MustNewConstMetric desc.desc .CounterValue value [device, path])
          pure none)))

/-- Function `collectSingleValue`: reads one word; `max` yields nothing, a number one
metric of the given value type. -/
def collectSingleValue (valueType : ValueType) : collectFunc := fun f path desc =>
  match Fscanf_s f with
  | .error err => pure (some (.failedToReadValue err))
  | .ok val =>
    if val = "max" then pure none
    else
      match ParseFloat val with
      | none => pure (some (.failedToParseValue val))
      | some value => do
        send (← MustNewConstMetric desc valueType value [path])
        pure none

/-- Function `collectFlatKeyed`: collects a file with multiple key-value pairs. -/
def collectFlatKeyed (valueType : ValueType) : collectMultipleFunc := fun f path descs =>
  visitFlatKeyed f (fun k v =>
    match List.lookup k descs with
    | none => pure none
    | some desc =>
      match ParseFloat v with
      | none => pure (some (.failedToParseValue v))
      | some value => do
        let value := match desc.modifier with
          | some modifier => modifier value
          | none => value
        send (← MustNewConstMetric desc.desc valueType value [path])
        pure none)

/-- Function `collectPressure`: collects a file with pressure values; only `total` is
collected. -/
def collectPressure : collectMultipleFunc := fun f path descs =>
  visitNestedKeyed f (fun n =>
    match List.lookup n descs with
    | none => pure (.error (.unknownPressureType n))
    | some desc =>
      pure (.ok (fun k v =>
        if k = "total" then
          match ParseFloat v with
          | none => pure (some (.failedToParseValue v))
          | some value => do
            let value := match desc.modifier with
              | some modifier => modifier value
              | none => value
            send (← MustNewConstMetric desc.desc .CounterValue value [path])
            pure none
        else pure none)))

end Decoders

/-! ## The registry built by `New` -/

/-- Type `collector`: a single-value handler. -/
structure collector where
  desc : Desc
  collect : collectFunc

/-- Type `multipleCollector`: a multi-value handler. -/
structure multipleCollector where
  descs : List (String × desc)
  collect : collectMultipleFunc

/-- Sub-key mapping `descs` of the entry `"memory.stat"` in `New`. -/
def memoryStatDescs : List (String × desc) :=
  [
    ("anon", ⟨NewDesc "cgroup_memory_anon_bytes" "Amount of memory used in anonymous mappings such as brk(), sbrk(), and mmap(MAP_ANONYMOUS)" ["cgroup"], none⟩),
    ("file", ⟨NewDesc "cgroup_memory_file_bytes" "Amount of memory used to cache filesystem data, including tmpfs and shared memory." ["cgroup"], none⟩),
    ("kernel", ⟨NewDesc "cgroup_memory_kernel_bytes" "Amount of total kernel memory, including (kernel_stack, pagetables, percpu, vmalloc, slab) in addition to other kernel memory use cases." ["cgroup"], none⟩),
    ("kernel_stack", ⟨NewDesc "cgroup_memory_kernel_stack_bytes" "Amount of memory allocated to kernel stacks." ["cgroup"], none⟩),
    ("pagetables", ⟨NewDesc "cgroup_memory_pagetables_bytes" "Amount of memory allocated for page tables." ["cgroup"], none⟩),
    ("sec_pagetables", ⟨NewDesc "cgroup_memory_sec_pagetables_bytes" "Amount of memory allocated for secondary page tables, this currently includes KVM mmu allocations on x86 and arm64 and IOMMU page tables." ["cgroup"], none⟩),
    ("percpu", ⟨NewDesc "cgroup_memory_percpu_bytes" "Amount of memory used for storing per-cpu kernel data structures." ["cgroup"], none⟩),
    ("sock", ⟨NewDesc "cgroup_memory_sock_bytes" "Amount of memory used in network transmission buffers" ["cgroup"], none⟩),
    ("vmalloc", ⟨NewDesc "cgroup_memory_vmalloc_bytes" "Amount of memory used for vmap backed memory." ["cgroup"], none⟩),
    ("shmem", ⟨NewDesc "cgroup_memory_shmem_bytes" "Amount of cached filesystem data that is swap-backed, such as tmpfs, shm segments, shared anonymous mmap()s" ["cgroup"], none⟩),
    ("zswap", ⟨NewDesc "cgroup_memory_zswap_bytes" "Amount of memory consumed by the zswap compression backend." ["cgroup"], none⟩),
    ("zswapped", ⟨NewDesc "cgroup_memory_zswapped_bytes" "Amount of application memory swapped out to zswap." ["cgroup"], none⟩),
    ("file_mapped", ⟨NewDesc "cgroup_memory_file_mapped_bytes" "Amount of cached filesystem data mapped with mmap()" ["cgroup"], none⟩),
    ("file_dirty", ⟨NewDesc "cgroup_memory_file_dirty_bytes" "Amount of cached filesystem data that was modified but not yet written back to disk" ["cgroup"], none⟩),
    ("file_writeback", ⟨NewDesc "cgroup_memory_file_writeback_bytes" "Amount of cached filesystem data that was modified and is currently being written back to disk" ["cgroup"], none⟩),
    ("swapcached", ⟨NewDesc "cgroup_memory_swapcached_bytes" "Amount of swap cached in memory. The swapcache is accounted against both memory and swap usage." ["cgroup"], none⟩),
    ("anon_thp", ⟨NewDesc "cgroup_memory_anon_thp_bytes" "Amount of memory used in anonymous mappings backed by transparent hugepages" ["cgroup"], none⟩),
    ("file_thp", ⟨NewDesc "cgroup_memory_file_thp_bytes" "Amount of cached filesystem data backed by transparent hugepages" ["cgroup"], none⟩),
    ("shmem_thp", ⟨NewDesc "cgroup_memory_shmem_thp_bytes" "Amount of shm, tmpfs, shared anonymous mmap()s backed by transparent hugepages" ["cgroup"], none⟩),
    ("inactive_anon", ⟨NewDesc "cgroup_memory_inactive_anon_bytes" "Amount of memory on the inactive anonymous list" ["cgroup"], none⟩),
    ("active_anon", ⟨NewDesc "cgroup_memory_active_anon_bytes" "Amount of memory on the active anonymous list" ["cgroup"], none⟩),
    ("inactive_file", ⟨NewDesc "cgroup_memory_inactive_file_bytes" "Amount of memory on the inactive file list" ["cgroup"], none⟩),
    ("active_file", ⟨NewDesc "cgroup_memory_active_file_bytes" "Amount of memory on the active file list" ["cgroup"], none⟩),
    ("unevictable", ⟨NewDesc "cgroup_memory_unevictable_bytes" "Amount of memory that cannot be reclaimed" ["cgroup"], none⟩),
    ("slab_reclaimable", ⟨NewDesc "cgroup_memory_slab_reclaimable_bytes" "Amount of slab memory that might be reclaimed, such as dentries and inodes." ["cgroup"], none⟩),
    ("slab_unreclaimable", ⟨NewDesc "cgroup_memory_slab_unreclaimable_bytes" "Amount of slab memory that cannot be reclaimed under memory pressure." ["cgroup"], none⟩),
    ("slab", ⟨NewDesc "cgroup_memory_slab_bytes" "Amount of memory used for storing in-kernel data structures." ["cgroup"], none⟩),
    ("workingset_refault_anon", ⟨NewDesc "cgroup_memory_workingset_refault_anon" "Number of refaults of previously evicted anonymous pages." ["cgroup"], none⟩),
    ("workingset_refault_file", ⟨NewDesc "cgroup_memory_workingset_refault_file" "Number of refaults of previously evicted file pages." ["cgroup"], none⟩),
    ("workingset_activate_anon", ⟨NewDesc "cgroup_memory_workingset_activate_anon" "Number of refaulted anonymous pages that were immediately activated." ["cgroup"], none⟩),
    ("workingset_activate_file", ⟨NewDesc "cgroup_memory_workingset_activate_file" "Number of refaulted file pages that were immediately activated." ["cgroup"], none⟩),
    ("workingset_restore_anon", ⟨NewDesc "cgroup_memory_workingset_restore_anon" "Number of restored anonymous pages detected as an active workingset before they got reclaimed." ["cgroup"], none⟩),
    ("workingset_restore_file", ⟨NewDesc "cgroup_memory_workingset_restore_file" "Number of restored file pages detected as an active workingset before they got reclaimed." ["cgroup"], none⟩),
    ("workingset_nodereclaim", ⟨NewDesc "cgroup_memory_workingset_nodereclaim" "Number of times a shadow node has been reclaimed." ["cgroup"], none⟩),
    ("pgscan", ⟨NewDesc "cgroup_memory_pgscan" "Amount of scanned pages (in an inactive LRU list)" ["cgroup"], none⟩),
    ("pgsteal", ⟨NewDesc "cgroup_memory_pgsteal" "Amount of reclaimed pages." ["cgroup"], none⟩),
    ("pgscan_kswapd", ⟨NewDesc "cgroup_memory_pgscan_kswapd" "Amount of scanned pages by kswapd (in an inactive LRU list)" ["cgroup"], none⟩),
    ("pgscan_direct", ⟨NewDesc "cgroup_memory_pgscan_direct" "Amount of scanned pages directly (in an inactive LRU list)" ["cgroup"], none⟩),
    ("pgscan_khugepaged", ⟨NewDesc "cgroup_memory_pgscan_khugepaged" "Amount of scanned pages by khugepaged (in an inactive LRU list)" ["cgroup"], none⟩),
    ("pgsteal_kswapd", ⟨NewDesc "cgroup_memory_pgsteal_kswapd" "Amount of reclaimed pages by kswapd" ["cgroup"], none⟩),
    ("pgsteal_direct", ⟨NewDesc "cgroup_memory_pgsteal_direct" "Amount of reclaimed pages directly" ["cgroup"], none⟩),
    ("pgsteal_khugepaged", ⟨NewDesc "cgroup_memory_pgsteal_khugepaged" "Amount of reclaimed pages by khugepaged" ["cgroup"], none⟩),
    ("pgfault", ⟨NewDesc "cgroup_memory_pgfault" "Total number of page faults incurred." ["cgroup"], none⟩),
    ("pgmajfault", ⟨NewDesc "cgroup_memory_pgmajfault" "Number of major page faults incurred." ["cgroup"], none⟩),
    ("pgrefill", ⟨NewDesc "cgroup_memory_pgrefill" "Amount of scanned pages (in an active LRU list)." ["cgroup"], none⟩),
    ("pgactivate", ⟨NewDesc "cgroup_memory_pgactivate" "Amount of pages moved to the active LRU list." ["cgroup"], none⟩),
    ("pgdeactivate", ⟨NewDesc "cgroup_memory_pgdeactivate" "Amount of pages moved to the inactive LRU list." ["cgroup"], none⟩),
    ("pglazyfree", ⟨NewDesc "cgroup_memory_pglazyfree" "Amount of pages postponed to be freed under memory pressure." ["cgroup"], none⟩),
    ("pglazyfreed", ⟨NewDesc "cgroup_memory_pglazyfreed" "Amount of reclaimed lazyfree pages." ["cgroup"], none⟩),
    ("zswpin", ⟨NewDesc "cgroup_memory_zswpin" "Number of pages moved in to memory from zswap." ["cgroup"], none⟩),
    ("zswpout", ⟨NewDesc "cgroup_memory_zswpout" "Number of pages moved out of memory to zswap." ["cgroup"], none⟩),
    ("zswpwb", ⟨NewDesc "cgroup_memory_zswpwb" "Number of pages written from zswap to swap." ["cgroup"], none⟩),
    ("thp_fault_alloc", ⟨NewDesc "cgroup_memory_thp_fault_alloc" "Number of transparent hugepages allocated to satisfy a page fault." ["cgroup"], none⟩),
    ("thp_collapse_alloc", ⟨NewDesc "cgroup_memory_thp_collapse_alloc" "Number of transparent hugepages allocated to allow collapsing an existing range of pages." ["cgroup"], none⟩),
    ("thp_swpout", ⟨NewDesc "cgroup_memory_thp_swpout" "Number of transparent hugepages which are swapout in one piece without splitting." ["cgroup"], none⟩),
    ("thp_swpout_fallback", ⟨NewDesc "cgroup_memory_thp_swpout_fallback" "Number of transparent hugepages split before swapout due to failed allocation of continuous swap space." ["cgroup"], none⟩)
  ]

/-- Sub-key mapping `descs` of the entry `"memory.events"` in `New`. -/
def memoryEventsDescs : List (String × desc) :=
  [
    ("low", ⟨NewDesc "cgroup_memory_events_low_total" "" ["cgroup"], none⟩),
    ("high", ⟨NewDesc "cgroup_memory_events_high_total" "" ["cgroup"], none⟩),
    ("max", ⟨NewDesc "cgroup_memory_events_max_total" "" ["cgroup"], none⟩),
    ("oom", ⟨NewDesc "cgroup_memory_events_oom_total" "" ["cgroup"], none⟩),
    ("oom_kill", ⟨NewDesc "cgroup_memory_events_oom_kill_total" "" ["cgroup"], none⟩),
    ("oom_group_kill", ⟨NewDesc "cgroup_memory_events_oom_group_kill_total" "" ["cgroup"], none⟩)
  ]

/-- Sub-key mapping `descs` of the entry `"memory.pressure"` in `New`. -/
def memoryPressureDescs : List (String × desc) :=
  [
    ("some", ⟨NewDesc "cgroup_memory_pressure_waiting_seconds_total" "" ["cgroup"], some microSecondsToSeconds⟩),
    ("full", ⟨NewDesc "cgroup_memory_pressure_stalled_seconds_total" "" ["cgroup"], some microSecondsToSeconds⟩)
  ]

/-- Sub-key mapping `descs` of the entry `"cpu.pressure"` in `New`. -/
def cpuPressureDescs : List (String × desc) :=
  [
    ("some", ⟨NewDesc "cgroup_cpu_pressure_waiting_seconds_total" "" ["cgroup"], some microSecondsToSeconds⟩),
    ("full", ⟨NewDesc "cgroup_cpu_pressure_stalled_seconds_total" "" ["cgroup"], some microSecondsToSeconds⟩)
  ]

/-- Sub-key mapping `descs` of the entry `"io.pressure"` in `New`. -/
def ioPressureDescs : List (String × desc) :=
  [
    ("some", ⟨NewDesc "cgroup_io_pressure_waiting_seconds_total" "" ["cgroup"], some microSecondsToSeconds⟩),
    ("full", ⟨NewDesc "cgroup_io_pressure_stalled_seconds_total" "" ["cgroup"], some microSecondsToSeconds⟩)
  ]

/-- Sub-key mapping `descs` of the entry `"cpu.stat"` in `New`. -/
def cpuStatDescs : List (String × desc) :=
  [
    ("usage_usec", ⟨NewDesc "cgroup_cpu_usage_seconds_total" "" ["cgroup"], some microSecondsToSeconds⟩),
    ("user_usec", ⟨NewDesc "cgroup_cpu_user_seconds_total" "" ["cgroup"], some microSecondsToSeconds⟩),
    ("system_usec", ⟨NewDesc "cgroup_cpu_system_seconds_total" "" ["cgroup"], some microSecondsToSeconds⟩),
    ("nr_periods", ⟨NewDesc "cgroup_cpu_periods_total" "" ["cgroup"], none⟩),
    ("nr_throttled", ⟨NewDesc "cgroup_cpu_throttled_total" "" ["cgroup"], none⟩),
    ("throttled_usec", ⟨NewDesc "cgroup_cpu_throttled_seconds_total" "" ["cgroup"], some microSecondsToSeconds⟩),
    ("nr_bursts", ⟨NewDesc "cgroup_cpu_bursts_total" "" ["cgroup"], none⟩),
    ("burst_usec", ⟨NewDesc "cgroup_cpu_burst_seconds_total" "" ["cgroup"], some microSecondsToSeconds⟩),
    ("core_sched.force_idle_usec", ⟨NewDesc "cgroup_cpu_core_sched_force_idle_seconds_total" "" ["cgroup"], some microSecondsToSeconds⟩)
  ]

/-- Sub-key mapping `descs` of the entry `"io.stat"` in `New`. -/
def ioStatDescs : List (String × desc) :=
  [
    ("rbytes", ⟨NewDesc "cgroup_io_read_bytes_total" "" ["device", "cgroup"], none⟩),
    ("wbytes", ⟨NewDesc "cgroup_io_write_bytes_total" "" ["device", "cgroup"], none⟩),
    ("dbytes", ⟨NewDesc "cgroup_io_discard_bytes_total" "" ["device", "cgroup"], none⟩),
    ("rios", ⟨NewDesc "cgroup_io_read_operations_total" "" ["device", "cgroup"], none⟩),
    ("wios", ⟨NewDesc "cgroup_io_write_operations_total" "" ["device", "cgroup"], none⟩),
    ("dios", ⟨NewDesc "cgroup_io_discard_operations_total" "" ["device", "cgroup"], none⟩)
  ]

/-- Sub-key mapping `descs` of the entry `"pids.events"` in `New`. -/
def pidsEventsDescs : List (String × desc) :=
  [
    ("max", ⟨NewDesc "cgroup_pids_events_max_total" "" ["cgroup"], none⟩)
  ]

section Registry

variable (ParseFloat : String → Option ℚ)

/-- Map `singleCollectors` of the collector built by `New`. -/
def singleCollectors : List (String × collector) :=
  [
    ("memory.min", ⟨NewDesc "cgroup_memory_min_bytes" "" ["cgroup"], collectSingleValue ParseFloat .GaugeValue⟩),
    ("memory.low", ⟨NewDesc "cgroup_memory_low_bytes" "" ["cgroup"], collectSingleValue ParseFloat .GaugeValue⟩),
    ("memory.high", ⟨NewDesc "cgroup_memory_high_bytes" "" ["cgroup"], collectSingleValue ParseFloat .GaugeValue⟩),
    ("memory.max", ⟨NewDesc "cgroup_memory_max_bytes" "" ["cgroup"], collectSingleValue ParseFloat .GaugeValue⟩),
    ("memory.current", ⟨NewDesc "cgroup_memory_current_bytes" "" ["cgroup"], collectSingleValue ParseFloat .GaugeValue⟩),
    ("memory.swap.high", ⟨NewDesc "cgroup_memory_swap_high_bytes" "" ["cgroup"], collectSingleValue ParseFloat .GaugeValue⟩),
    ("memory.swap.max", ⟨NewDesc "cgroup_memory_swap_max_bytes" "" ["cgroup"], collectSingleValue ParseFloat .GaugeValue⟩),
    ("memory.swap.current", ⟨NewDesc "cgroup_memory_swap_current_bytes" "" ["cgroup"], collectSingleValue ParseFloat .GaugeValue⟩),
    ("memory.zswap.max", ⟨NewDesc "cgroup_memory_zswap_max_bytes" "" ["cgroup"], collectSingleValue ParseFloat .GaugeValue⟩),
    ("memory.zswap.current", ⟨NewDesc "cgroup_memory_zswap_current_bytes" "" ["cgroup"], collectSingleValue ParseFloat .GaugeValue⟩),
    ("pids.current", ⟨NewDesc "cgroup_pids_current" "" ["cgroup"], collectSingleValue ParseFloat .GaugeValue⟩),
    ("pids.max", ⟨NewDesc "cgroup_pids_max" "" ["cgroup"], collectSingleValue ParseFloat .GaugeValue⟩)
  ]

/-- Map `multipleCollectors` of the collector built by `New`. -/
def multipleCollectors : List (String × multipleCollector) :=
  [
    ("memory.stat", ⟨memoryStatDescs, collectFlatKeyed ParseFloat .GaugeValue⟩),
    ("memory.events", ⟨memoryEventsDescs, collectFlatKeyed ParseFloat .CounterValue⟩),
    ("memory.pressure", ⟨memoryPressureDescs, collectPressure ParseFloat⟩),
    ("cpu.pressure", ⟨cpuPressureDescs, collectPressure ParseFloat⟩),
    ("io.pressure", ⟨ioPressureDescs, collectPressure ParseFloat⟩),
    ("cpu.stat", ⟨cpuStatDescs, collectFlatKeyed ParseFloat .CounterValue⟩),
    ("io.stat", ⟨ioStatDescs, collectIOStat ParseFloat⟩),
    ("pids.events", ⟨pidsEventsDescs, collectFlatKeyed ParseFloat .CounterValue⟩)
  ]

end Registry

/-! ## Paths and the file system

The file system `fs.FS` is a tree: a file has a content or fails to open, a directory
lists its entries in the order `ReadDir` returns them (sorted by name) or fails to be
read.  `fs.Stat`, `fs.ReadDir`, `fs.Glob` and `fs.WalkDir` are modelled by what they
answer on the tree.  In this section and the next the file system value has the methods
`Stat` and `ReadDir`, so that the calls `c.fs.Open(path)` of the collector are the only
opens; the section after them has the walk and the pass on a value without these
methods.  Paths are Unix paths. -/

/-- File or directory of the tree.  A directory carries the error of `ReadDir`, if any,
and the entries `ReadDir` returns. -/
inductive Node where
  | file (content : Except FsError String)
  | dir (readErr : Option FsError) (entries : List (String × Node))

/-- Path of the elements joined with slashes. -/
def joinElems : List String → String
  | [] => ""
  | [e] => e
  | e :: es => e ++ "/" ++ joinElems es

/-- Step of `Clean` on one path element: `st.1` holds the elements written so far, last
first, and `st.2` counts the leading `..` elements among them, which a later `..` cannot
remove. -/
def cleanStep (rooted : Bool) (st : List String × Nat) (e : String) : List String × Nat :=
  if e = "" ∨ e = "." then st
  else if e = ".." then
    if st.1.length > st.2 then (st.1.tail, st.2)
    else if !rooted then (".." :: st.1, st.1.length + 1)
    else st
  else (e :: st.1, st.2)

/-- Function `path.Clean` (and `filepath.Clean` on Unix), stated on the path elements:
empty and `.` elements are dropped, `..` removes the element before it, and the empty
result is `.`. -/
def Clean (path : String) : String :=
  if path = "" then "."
  else
    let rooted := path.data.head? = some '/'
    let out := ((Split path '/').foldl (cleanStep rooted) ([], 0)).1.reverse
    let s := (if rooted then "/" else "") ++ joinElems out
    if s = "" then "." else s

/-- Function `path.Join` on two elements. -/
def Join (a b : String) : String :=
  if a = "" ∧ b = "" then ""
  else Clean (if a = "" then b else a ++ "/" ++ b)

/-- Function `filepath.Dir` on Unix: `Clean` of the path up to its last slash. -/
def Dir (path : String) : String :=
  Clean ⟨(path.data.reverse.dropWhile (fun c => c ≠ '/')).reverse⟩

/-- Function `path.Base`: the last element of the path. -/
def Base (path : String) : String :=
  if path = "" then "."
  else if ((path.data.reverse.dropWhile (fun c => c = '/')).takeWhile (fun c => c ≠ '/')) = []
    then "/"
  else ⟨((path.data.reverse.dropWhile (fun c => c = '/')).takeWhile (fun c => c ≠ '/')).reverse⟩

/-- Function `fs.ValidPath`: `.` or slash-separated elements none of which is empty,
`.` or `..`. -/
def ValidPath (name : String) : Bool :=
  name = "." || (Split name '/').all (fun e => e ≠ "" && e ≠ "." && e ≠ "..")

/-- Elements of a valid path, none for the root `.`. -/
def pathElems (name : String) : List String :=
  if name = "." then [] else Split name '/'

/-- Node reached from a node along the elements. -/
def Node.find : List String → Node → Option Node
  | [], n => some n
  | e :: es, .dir _ entries => (List.lookup e entries).bind (Node.find es)
  | _ :: _, .file _ => none

/-- Node of the file system named by a path, or the error of `Stat` and `Open`. -/
def lookupNode (fsys : Node) (name : String) : Except FsError Node :=
  if ValidPath name = false then .error .invalid
  else
    match fsys.find (pathElems name) with
    | none => .error .notExist
    | some n => .ok n

/-- Call `c.fs.Open(path)` followed by the reads of the decoder: the content of the
file, or the error of `Open`.  (Opening a directory succeeds in Go and its first read
fails; the collector opens no directory entry.) -/
def Open (fsys : Node) (name : String) : Except FsError String :=
  match lookupNode fsys name with
  | .error err => .error err
  | .ok (.file content) => content
  | .ok (.dir _ _) => .error .invalid

/-- Type `fs.DirEntry`, with its methods `Name()` and `IsDir()`. -/
structure DirEntry where
  Name : String
  IsDir : Bool
deriving DecidableEq, Repr

/-- Type `fs.WalkDirFunc`: called with the path, the entry (`nil` when `Stat` of the
root failed) and the error met. -/
abbrev WalkDirFunc (ε : Type) := String → Option DirEntry → Option FsError →
  Exec ε (Option GoError)

mutual

/-- Function `walkDir` of `io/fs` on a file system value with the method `ReadDir`: the
callback on the entry, then, for a directory, on the error of `ReadDir` if any, then the
walk of the entries; an error returned by the callback ends the walk.  (No callback of
the collector returns `SkipDir` or `SkipAll`.) -/
def walkDir {ε : Type} (fn : WalkDirFunc ε) : String → String → Node → Exec ε (Option GoError)
  | name, dname, .file _ => fn name (some ⟨dname, false⟩) none
  | name, dname, .dir readErr entries => do
    match ← fn name (some ⟨dname, true⟩) none with
    | some err => pure (some err)
    | none =>
      match readErr with
      | some e =>
        match ← fn name (some ⟨dname, true⟩) (some e) with
        | some err => pure (some err)
        | none => walkDirEntries fn name entries
      | none => walkDirEntries fn name entries

/-- Loop `for _, d1 := range dirs` of `walkDir`. -/
def walkDirEntries {ε : Type} (fn : WalkDirFunc ε) :
    String → List (String × Node) → Exec ε (Option GoError)
  | _, [] => pure none
  | name, (n1, d1) :: rest => do
    match ← walkDir fn (Join name n1) n1 d1 with
    | some err => pure (some err)
    | none => walkDirEntries fn name rest

end

/-- Function `fs.WalkDir` on a file system value with the methods `Stat` and `ReadDir`,
which `fs.Stat` and `fs.ReadDir` call without any call of `Open`: `Stat` of the root,
whose failure is reported to the callback, then `walkDir`.  On any file system value it
is `WalkDirOn`. -/
def WalkDir {ε : Type} (fsys : Node) (root : String) (fn : WalkDirFunc ε) :
    Exec ε (Option GoError) :=
  match lookupNode fsys root with
  | .error err => fn root none (some err)
  | .ok node => walkDir fn root (Base root) node

/-- Function `fs.Glob`.  For the pattern `*` the matches are the entries of the root
directory, in `ReadDir` order, and none when the root cannot be read; the matches of any
other pattern are left to the parameter `otherGlob`. -/
def Glob (otherGlob : Node → String → List String × Option GoError) (fsys : Node)
    (pattern : String) : List String × Option GoError :=
  if pattern = "*" then
    match fsys with
    | .dir none entries =>
      (((entries.map Prod.fst).filter (fun n => '/' ∉ n.data)).map (Join "."), none)
    | _ => ([], none)
  else otherGlob fsys pattern

/-! ## The collection pass -/

/-- What a collection pass does that can be observed: a call of `Open` on the file system
value, a metric sent on the channel, an error logged with `slog.Error`. -/
inductive Event where
  | opened (path : String)
  | sent (m : Metric)
  | logged (msg : String) (err : GoError)
deriving DecidableEq, Repr

/-- A decoder run inside the pass: its metrics become events of the pass. -/
def liftSent {α : Type} (x : Exec Metric α) : Exec Event α :=
  ⟨x.sent.map Event.sent, x.ret⟩

/-- Type `cgroupCollector`. -/
structure cgroupCollector where
  fs : Node
  glob : String
  singleCollectors : List (String × collector)
  multipleCollectors : List (String × multipleCollector)

/-- Function `New`: the empty glob is replaced by `*`. -/
def New (ParseFloat : String → Option ℚ) (fs : Node) (glob : String) : cgroupCollector :=
  { fs := fs
    glob := if glob = "" then "*" else glob
    singleCollectors := singleCollectors ParseFloat
    multipleCollectors := multipleCollectors ParseFloat }

/-- Block `if col, ok := c.singleCollectors[name]; ok` of the walk callback: `some err`
when the callback returns `err` there. -/
def cgroupCollector.singleBlock (c : cgroupCollector) (path name : String) :
    Exec Event (Option GoError) :=
  match List.lookup name c.singleCollectors with
  | none => pure none
  | some col => do
    send (Event.opened path)
    match Open c.fs path with
    | .error err => pure (some (.failedToOpen path err))
    | .ok f => do
      match ← liftSent (col.collect f (Dir path) col.desc) with
      | some err => send (Event.logged "failed to collect cgroup" err)
      | none => pure ()
      pure none

/-- Block `if col, ok := c.multipleCollectors[name]; ok` of the walk callback: `some err`
when the callback returns `err` there. -/
def cgroupCollector.multipleBlock (c : cgroupCollector) (path name : String) :
    Exec Event (Option GoError) :=
  match List.lookup name c.multipleCollectors with
  | none => pure none
  | some col => do
    send (Event.opened path)
    match Open c.fs path with
    | .error err => pure (some (.failedToOpen path err))
    | .ok f => do
      match ← liftSent (col.collect f (Dir path) col.descs) with
      | some err => send (Event.logged "failed to collect cgroup" err)
      | none => pure ()
      pure none

/-- Callback passed by `Collect` to `fs.WalkDir`. -/
def cgroupCollector.walkFn (c : cgroupCollector) : WalkDirFunc Event := fun path d err =>
  match err with
  | some err => pure (some (.failedToWalk err))
  | none =>
    match d with
    | none => goPanic .nilDereference
    | some d =>
      if d.IsDir then pure none
      else do
        let name := d.Name
        match ← c.singleBlock path name with
        | some err => pure (some err)
        | none =>
          match ← c.multipleBlock path name with
          | some err => pure (some err)
          | none => pure none

section Pass

variable (otherGlob : Node → String → List String × Option GoError)

/-- Loop `for _, match := range matches` of `Collect`. -/
def cgroupCollector.collectMatches (c : cgroupCollector) : List String → Exec Event Unit
  | [] => pure ()
  | m :: rest => do
    match ← WalkDir c.fs m c.walkFn with
    | some err => send (Event.logged "failed to walk cgroup" err)
    | none => pure ()
    c.collectMatches rest

/-- Method `Collect`, which implements `prometheus.Collector`, on a file system value with
the methods `Stat` and `ReadDir`; on any file system value it is `CollectOn`. -/
def cgroupCollector.Collect (c : cgroupCollector) : Exec Event Unit := do
  match (Glob otherGlob c.fs c.glob).2 with
  | some err => send (Event.logged "failed to glob cgroups" err)
  | none => pure ()
  c.collectMatches (Glob otherGlob c.fs c.glob).1

end Pass

/-! ## File systems without the methods `Stat`, `ReadDir` and `Glob`

The functions above are `fs.WalkDir` and `fs.Glob` on a file system value that implements
`fs.StatFS` and `fs.ReadDirFS`, as the value of `os.DirFS` that `main` passes to `New`:
there the library calls these methods, and the only calls of `Open` are those of the
collector.  On a value that lacks a method, `fs.Stat` and `fs.ReadDir` go through
`fsys.Open`; the functions below are `fs.WalkDir` and the pass on any value, with these
calls of `Open` among the events. -/

/-- Interfaces of `io/fs` that a file system value implements besides `fs.FS`, which is
the method `Open` alone. -/
structure Methods where
  StatFS : Bool
  ReadDirFS : Bool
  GlobFS : Bool
deriving DecidableEq, Repr

/-- Function `fs.Stat`: the method `Stat` of a file system that has it; otherwise
`fsys.Open(name)`, whose error is returned, followed by the `Stat` of the file opened.
(A directory opens; its error is the error of its listing.) -/
def Stat (ms : Methods) (fsys : Node) (name : String) : Exec Event (Except FsError Node) :=
  if ms.StatFS then pure (lookupNode fsys name)
  else do
    send (Event.opened name)
    match lookupNode fsys name with
    | .ok (.file (.error err)) => pure (.error err)
    | r => pure r

/-- Call of `fsys.Open(name)` that `fs.ReadDir(fsys, name)` makes on a file system without
the method `ReadDir`, before it lists the directory opened. -/
def readDirOpen (ms : Methods) (name : String) : Exec Event Unit :=
  if ms.ReadDirFS then pure () else send (Event.opened name)

mutual

/-- Function `walkDir` of `io/fs` on any file system value: the callback on the entry,
then, for a directory, `fs.ReadDir`, the callback on its error if any, and the walk of
the entries; an error returned by the callback ends the walk. -/
def walkDirOn (ms : Methods) (fn : WalkDirFunc Event) :
    String → String → Node → Exec Event (Option GoError)
  | name, dname, .file _ => fn name (some ⟨dname, false⟩) none
  | name, dname, .dir readErr entries => do
    match ← fn name (some ⟨dname, true⟩) none with
    | some err => pure (some err)
    | none =>
      readDirOpen ms name
      match readErr with
      | some e =>
        match ← fn name (some ⟨dname, true⟩) (some e) with
        | some err => pure (some err)
        | none => walkDirEntriesOn ms fn name entries
      | none => walkDirEntriesOn ms fn name entries

/-- Loop `for _, d1 := range dirs` of `walkDir` on any file system value. -/
def walkDirEntriesOn (ms : Methods) (fn : WalkDirFunc Event) :
    String → List (String × Node) → Exec Event (Option GoError)
  | _, [] => pure none
  | name, (n1, d1) :: rest => do
    match ← walkDirOn ms fn (Join name n1) n1 d1 with
    | some err => pure (some err)
    | none => walkDirEntriesOn ms fn name rest

end

/-- Function `fs.WalkDir` on any file system value: `fs.Stat` of the root, whose failure
is reported to the callback, then `walkDir`. -/
def WalkDirOn (ms : Methods) (fsys : Node) (root : String) (fn : WalkDirFunc Event) :
    Exec Event (Option GoError) := do
  match ← Stat ms fsys root with
  | .error err => fn root none (some err)
  | .ok node => walkDirOn ms fn root (Base root) node

/-- Paths that `fs.Glob(fsys, pattern)` opens with `fsys.Open`.  For the pattern `*` it
lists the root with `fs.ReadDir(fsys, ".")`, which opens `.` on a file system that has
neither the method `Glob` nor the method `ReadDir`; the paths opened for any other
pattern are left to the parameter `otherOpens`. -/
def globOpens (ms : Methods) (otherOpens : Node → String → List String) (fsys : Node)
    (pattern : String) : List String :=
  if pattern = "*" then
    if ms.GlobFS || ms.ReadDirFS then [] else ["."]
  else otherOpens fsys pattern

section PassOn

variable (ms : Methods) (otherOpens : Node → String → List String)
  (otherGlob : Node → String → List String × Option GoError)

/-- Loop `for _, match := range matches` of `Collect` on any file system value. -/
def cgroupCollector.collectMatchesOn (c : cgroupCollector) : List String → Exec Event Unit
  | [] => pure ()
  | m :: rest => do
    match ← WalkDirOn ms c.fs m c.walkFn with
    | some err => send (Event.logged "failed to walk cgroup" err)
    | none => pure ()
    c.collectMatchesOn rest

/-- Method `Collect` on any file system value: the events of a pass, with the calls of
`Open` that `fs.Glob` and `fs.WalkDir` make. -/
def cgroupCollector.CollectOn (c : cgroupCollector) : Exec Event Unit := do
  (⟨(globOpens ms otherOpens c.fs c.glob).map Event.opened, .returned ()⟩ : Exec Event Unit)
  match (Glob otherGlob c.fs c.glob).2 with
  | some err => send (Event.logged "failed to glob cgroups" err)
  | none => pure ()
  c.collectMatchesOn ms (Glob otherGlob c.fs c.glob).1

end PassOn

/-! ## A concrete parser for examples -/

/-- Value of a string of decimal digits read from the left, `acc` being the value so far. -/
def digitsValue : List Char → ℕ → Option ℕ
  | [], acc => some acc
  | c :: cs, acc =>
    if c.isDigit then digitsValue cs (10 * acc + (c.toNat - 48)) else none

/-- Unsigned decimal integers, a fragment of what `strconv.ParseFloat` accepts; it
instantiates the parser parameter at concrete inputs. -/
def parseUnsigned (s : String) : Option ℚ :=
  if s.data = [] then none else (digitsValue s.data 0).map (fun n => (n : ℚ))

/-! ## Reference definitions for the statements -/

/-- Closure passed by `collectFlatKeyed` to `visitFlatKeyed`, under a name. -/
def collectFlatKeyedKV (ParseFloat : String → Option ℚ) (valueType : ValueType) (path : String)
    (descs : List (String × desc)) : kvVisitor Metric := fun k v =>
  match List.lookup k descs with
  | none => pure none
  | some desc =>
    match ParseFloat v with
    | none => pure (some (.failedToParseValue v))
    | some value => do
      let value := match desc.modifier with
        | some modifier => modifier value
        | none => value
      send (← MustNewConstMetric desc.desc valueType value [path])
      pure none

/-- Content of a flat key-value file: one line `KEY VALUE` per pair, each ended by a
newline. -/
def flatContent : List (String × String) → String
  | [] => ""
  | p :: rest => p.1 ++ " " ++ p.2 ++ "\n" ++ flatContent rest

/-- Value after the optional unit modifier of a descriptor. -/
def applyModifier (d : desc) (value : ℚ) : ℚ :=
  match d.modifier with
  | some modifier => modifier value
  | none => value

/-- Records the specification expects from the lines `KEY VALUE`: in line order, one
record per line whose key is in the sub-key mapping, with the parsed value after the unit
modifier and the cgroup path as single label value. -/
def flatRecords (ParseFloat : String → Option ℚ) (valueType : ValueType) (path : String)
    (descs : List (String × desc)) (kvs : List (String × String)) : List Metric :=
  kvs.filterMap (fun p =>
    match List.lookup p.1 descs, ParseFloat p.2 with
    | some d, some x => some ⟨d.desc, valueType, applyModifier d x, [path]⟩
    | _, _ => none)

/-- Text of a token `SUBKEY=VALUE`. -/
def tokenText (t : String × String) : String :=
  t.1 ++ "=" ++ t.2

/-- Text of the tokens of a nested line, each after one space. -/
def tokensText : List (String × String) → String
  | [] => ""
  | t :: ts => " " ++ tokenText t ++ tokensText ts

/-- Line of a nested key-value file: the entry name, its tokens `SUBKEY=VALUE` as
pairs, and the text after the last token. -/
structure NestedLine where
  entry : String
  tokens : List (String × String)
  trail : String

/-- Text of a nested line: the entry name, then each token after one space, then the
trailing text. -/
def NestedLine.text (l : NestedLine) : String :=
  l.entry ++ tokensText l.tokens ++ l.trail

/-- Well-formed nested line: no white space inside the entry name, the sub-keys and the
values, no `=` inside the sub-keys and the values, only white space after the last
token, and an entry name that is empty only on a line without tokens. -/
def NestedLine.wellFormed (l : NestedLine) : Prop :=
  (∀ c ∈ l.entry.data, isSpace c = false) ∧
  (∀ t ∈ l.tokens, (∀ c ∈ t.1.data, isSpace c = false ∧ c ≠ '=') ∧
    (∀ c ∈ t.2.data, isSpace c = false ∧ c ≠ '=')) ∧
  (∀ c ∈ l.trail.data, isSpace c = true) ∧
  (l.entry ≠ "" ∨ l.tokens = [])

instance (l : NestedLine) : Decidable l.wellFormed := by
  unfold NestedLine.wellFormed
  infer_instance

/-- Step of a loop whose body may return: the result of `x` when it is `some a` (the
function returns there), otherwise the execution goes on with `next`. -/
def firstSome {ε α : Type} (x next : Exec ε (Option α)) : Exec ε (Option α) :=
  Exec.bind x (fun r =>
    match r with
    | some a => ⟨[], .returned (some a)⟩
    | none => next)

/-- End of `visitNestedKeyed`: the value returned from inside the loop, or the value
`atEnd` of `scanner.Err()`. -/
def finish {ε : Type} (atEnd : Option GoError) (x : Exec ε (Option (Option GoError))) :
    Exec ε (Option GoError) :=
  Exec.bind x (fun r =>
    match r with
    | some r => ⟨[], .returned r⟩
    | none => ⟨[], .returned atEnd⟩)

/-- Loop of `visitNestedKeyed` over some lines, keeping apart a return from inside the
loop (`some r`) and the end of the lines (`none`). -/
def visitNestedKeyedRun {ε : Type} (visitEntry : entryVisitor ε) :
    List String → Exec ε (Option (Option GoError))
  | [] => ⟨[], .returned none⟩
  | line :: rest => firstSome (visitNestedKeyedLine visitEntry line)
      (visitNestedKeyedRun visitEntry rest)

/-- Inner closure of `collectIOStat`, under a name. -/
def collectIOStatKV (ParseFloat : String → Option ℚ) (path : String)
    (descs : List (String × desc)) (device : String) : kvVisitor Metric := fun k v =>
  match List.lookup k descs with
  | none => pure none
  | some desc =>
    match ParseFloat v with
    | none => pure (some (.failedToParseValue v))
    | some value => do
      send (← MustNewConstMetric desc.desc .CounterValue value [device, path])
      pure none

/-- Closure passed by `collectIOStat` to `visitNestedKeyed`, under a name. -/
def collectIOStatEntry (ParseFloat : String → Option ℚ) (path : String)
    (descs : List (String × desc)) : entryVisitor Metric := fun n =>
  let device := n
  pure (.ok (collectIOStatKV ParseFloat path descs device))

/-- Inner closure of `collectPressure`, under a name. -/
def collectPressureKV (ParseFloat : String → Option ℚ) (path : String) (desc : desc) :
    kvVisitor Metric := fun k v =>
  if k = "total" then
    match ParseFloat v with
    | none => pure (some (.failedToParseValue v))
    | some value => do
      let value := match desc.modifier with
        | some modifier => modifier value
        | none => value
      send (← MustNewConstMetric desc.desc .CounterValue value [path])
      pure none
  else pure none

/-- Closure passed by `collectPressure` to `visitNestedKeyed`, under a name. -/
def collectPressureEntry (ParseFloat : String → Option ℚ) (path : String)
    (descs : List (String × desc)) : entryVisitor Metric := fun n =>
  match List.lookup n descs with
  | none => pure (.error (.unknownPressureType n))
  | some desc => pure (.ok (collectPressureKV ParseFloat path desc))

/-- Records the specification expects from the tokens of one I/O line: in token order,
one counter per token whose sub-key is in the mapping and whose value is numeric, with
the label values `(device, path)`. -/
def ioStatLineRecords (ParseFloat : String → Option ℚ) (path : String)
    (descs : List (String × desc)) (device : String) (toks : List (String × String)) :
    List Metric :=
  toks.filterMap (fun t =>
    match List.lookup t.1 descs, ParseFloat t.2 with
    | some d, some x => some ⟨d.desc, .CounterValue, x, [device, path]⟩
    | _, _ => none)

/-- Records the specification expects from the lines of an I/O accounting file, in line
order; a line without tokens contributes none. -/
def ioStatRecords (ParseFloat : String → Option ℚ) (path : String)
    (descs : List (String × desc)) : List NestedLine → List Metric
  | [] => []
  | l :: ls => ioStatLineRecords ParseFloat path descs l.entry l.tokens ++
      ioStatRecords ParseFloat path descs ls

/-- Records the specification expects from the tokens of one pressure line: a counter
for every numeric `total`, after the unit modifier, labelled with the path. -/
def pressureLineRecords (ParseFloat : String → Option ℚ) (path : String) (d : desc)
    (toks : List (String × String)) : List Metric :=
  toks.filterMap (fun t =>
    if t.1 = "total" then
      match ParseFloat t.2 with
      | some x => some ⟨d.desc, .CounterValue, applyModifier d x, [path]⟩
      | none => none
    else none)

/-- Entry visitor that sends every `(entry, key, value)` it is called with and returns
no error; it makes the calls of a run visible. -/
def recordingEntry : entryVisitor (String × String × String) := fun n =>
  pure (.ok (fun k v => do
    send (n, k, v)
    pure none))

/-- Tokens of the lines of an I/O accounting file whose sub-key is in the mapping, in
line and token order, each with the device of its line and the mapped descriptor. -/
def registeredTokens (descs : List (String × desc)) :
    List NestedLine → List (String × (String × String) × desc)
  | [] => []
  | l :: ls =>
    l.tokens.filterMap (fun t => (List.lookup t.1 descs).map (fun d => (l.entry, t, d))) ++
      registeredTokens descs ls

/-- Record `m` is the counter of the registered token `x = (device, (key, value), d)`:
descriptor `d`, the parsed value, and the label values `(device, path)`. -/
def isCounterOf (ParseFloat : String → Option ℚ) (path : String) (m : Metric)
    (x : String × (String × String) × desc) : Prop :=
  m.desc = x.2.2.desc ∧ m.valueType = .CounterValue ∧ ParseFloat x.2.1.2 = some m.value ∧
    m.labelValues = [x.1, path]

/-- Entry visitor whose key-value visitor fails on every token, as the visitor of
`TestVisitNestedKeyed` does on an unexpected value. -/
def failingEntry : entryVisitor Unit := fun _ =>
  pure (.ok (fun _ _ => pure (some (.other "unexpected value"))))

/-- Key-value visitor that sends every `(key, value)` it is called with and returns no
error. -/
def recordingKV : kvVisitor (String × String) := fun k v => do
  send (k, v)
  pure none

/-- Calls of a key-value visitor on the tokens, in order, its returned errors being
discarded. -/
def visitAll {ε : Type} (visitKV : kvVisitor ε) : List (String × String) → Exec ε Unit
  | [] => pure ()
  | t :: ts => do
    let _ ← visitKV t.1 t.2
    visitAll visitKV ts

/-- Valid path element: not empty, not `.`, not `..`, without slash. -/
def validElem (e : String) : Bool :=
  e ≠ "" && e ≠ "." && e ≠ ".." && decide ('/' ∉ e.data)

/-- Path of a list of elements relative to the root of the file system: `.` for the
root itself, otherwise the elements joined with slashes. -/
def pathOf (es : List String) : String :=
  if es = [] then "." else joinElems es

/-- One invocation of the callback of `fs.WalkDir`: the path, the directory entry and
the error handed to it. -/
structure Visit where
  path : String
  entry : Option DirEntry
  err : Option FsError
deriving DecidableEq, Repr

mutual
/-- Invocations that `walkDir` makes on a node when no invocation returns an error,
in their order. -/
def visits : String → String → Node → List Visit
  | name, dname, .file _ => [⟨name, some ⟨dname, false⟩, none⟩]
  | name, dname, .dir readErr entries =>
    ⟨name, some ⟨dname, true⟩, none⟩ ::
      ((match readErr with
        | some e => [⟨name, some ⟨dname, true⟩, some e⟩]
        | none => []) ++ visitsEntries name entries)
/-- Invocations of `walkDir` on the entries of the directory `name`. -/
def visitsEntries : String → List (String × Node) → List Visit
  | _, [] => []
  | name, (n1, d1) :: rest => visits (Join name n1) n1 d1 ++ visitsEntries name rest
end

/-- Invocations that `WalkDir` makes on a root when none returns an error. -/
def rootVisits (fsys : Node) (root : String) : List Visit :=
  match lookupNode fsys root with
  | .error err => [⟨root, none, some err⟩]
  | .ok node => visits root (Base root) node

/-- The callback on the invocations of a list, up to the first one that returns an
error. -/
def runVisits {ε : Type} (fn : WalkDirFunc ε) : List Visit → Exec ε (Option GoError)
  | [] => ⟨[], .returned none⟩
  | v :: vs => firstSome (fn v.path v.entry v.err) (runVisits fn vs)

mutual
/-- The predicate holds at every node of the tree. -/
def Node.every (P : Node → Bool) : Node → Bool
  | .file content => P (.file content)
  | .dir readErr entries => P (.dir readErr entries) && Node.everyEntry P entries
/-- The predicate holds at every node below the entries. -/
def Node.everyEntry (P : Node → Bool) : List (String × Node) → Bool
  | [] => true
  | (_, d1) :: rest => Node.every P d1 && Node.everyEntry P rest
end

/-- The entries of the directory have valid names. -/
def validNamesAt : Node → Bool
  | .file _ => true
  | .dir _ entries => entries.all (fun p => validElem p.1)

/-- The entries of the directory have different names. -/
def uniqueNamesAt : Node → Bool
  | .file _ => true
  | .dir _ entries => decide (entries.map Prod.fst).Nodup

/-- The file can be read, the directory can be listed. -/
def readableAt : Node → Bool
  | .file (.ok _) => true
  | .file (.error _) => false
  | .dir none _ => true
  | .dir (some _) _ => false

/-- Every directory of the tree has entries with valid names. -/
def Node.validNames (n : Node) : Bool := n.every validNamesAt

/-- Every directory of the tree has entries with valid, different names. -/
def Node.wellFormed (n : Node) : Bool :=
  n.every (fun m => validNamesAt m && uniqueNamesAt m)

/-- Every file of the tree can be read and every directory can be listed. -/
def Node.readable (n : Node) : Bool := n.every readableAt

/-- A glob that matches nothing, for patterns other than `*`. -/
def noGlob : Node → String → List String × Option GoError := fun _ _ => ([], none)

/-- A tree with a file in the root, an unregistered file and a cgroup directory. -/
def sliceTree : Node :=
  .dir none [
    ("io.stat", .file (.ok "8:0 rbytes=5\n")),
    ("notes.txt", .file (.ok "x\n")),
    ("system.slice", .dir none [
      ("cgroup.procs", .file (.ok "1\n")),
      ("memory.max", .file (.ok "max\n")),
      ("pids.current", .file (.ok "7\n"))])]

/-- Events of the callback for a registered file that opens: the open, the records of
the handler, and the log of the handler's error. -/
def handlerEvents (path : String) (x : Exec Metric (Option GoError)) : List Event :=
  Event.opened path :: (x.sent.map Event.sent ++
    match x.ret with
    | .returned (some err) => [Event.logged "failed to collect cgroup" err]
    | _ => [])

/-- Events of the callback for a file of a name and a content at a path: those of the
handler registered for the name, none without a handler. -/
def fileEvents (ParseFloat : String → Option ℚ) (path name content : String) : List Event :=
  match List.lookup name (singleCollectors ParseFloat) with
  | some col => handlerEvents path (col.collect content (Dir path) col.desc)
  | none =>
    match List.lookup name (multipleCollectors ParseFloat) with
    | some col => handlerEvents path (col.collect content (Dir path) col.descs)
    | none => []

/-- Events of the loop body of `Collect` for one match: those of the walk, followed by
the log of the error the walk returns. -/
def cgroupCollector.matchEvents (c : cgroupCollector) (m : String) : List Event :=
  (WalkDir c.fs m c.walkFn).sent ++
    match (WalkDir c.fs m c.walkFn).ret with
    | .returned (some err) => [Event.logged "failed to walk cgroup" err]
    | _ => []

/-- Log of the error of `fs.Glob`. -/
def globEvents (err : Option GoError) : List Event :=
  match err with
  | some err => [Event.logged "failed to glob cgroups" err]
  | none => []

/-- A tree in which the file `system.slice/cpu.stat` cannot be opened. -/
def brokenTree : Node :=
  .dir none [
    ("system.slice", .dir none [
      ("cpu.stat", .file (.error .permission)),
      ("memory.max", .file (.ok "100\n")),
      ("sub", .dir none [("pids.max", .file (.ok "5\n"))])]),
    ("user.slice", .dir none [("pids.current", .file (.ok "7\n"))])]

/-- A tree in which the file `system.slice/memory.stat` has a line of three fields. -/
def malformedTree : Node :=
  .dir none [
    ("system.slice", .dir none [
      ("memory.stat", .file (.ok "anon 1 2\n")),
      ("pids.current", .file (.ok "7\n"))]),
    ("user.slice", .dir none [("pids.current", .file (.ok "3\n"))])]

/-- An entry visitor that accepts every name and whose key-value visitor does nothing. -/
def idleEntry : entryVisitor Metric := fun _ => pure (.ok (fun _ _ => pure none))

/-- A key-value visitor that does nothing. -/
def idleKV : kvVisitor Metric := fun _ _ => pure none

/-- A content with an empty line, a line of white space, a token without `=`, a line
that is `=` alone and a line of three fields. -/
def oddContent : String := "\n \t\nsome x\n=\nanon 1 2\n"

/-- The invocation is on an entry that is no directory. -/
def Visit.isFile (v : Visit) : Bool :=
  match v.entry with
  | some d => !d.IsDir
  | none => false

/-- A word of `MaxScanTokenSize` letters `a`: one byte more than a line that the scanner
can deliver. -/
def longWord : String :=
  String.mk (List.replicate MaxScanTokenSize 'a')


/-- A run of `MaxScanTokenSize` digits `0`. -/
def longZeros : String :=
  String.mk (List.replicate MaxScanTokenSize '0')

/-- A run of `MaxScanTokenSize` spaces. -/
def longBlank : String :=
  String.mk (List.replicate MaxScanTokenSize ' ')


/-- Test that a name is a key of the registry, of `singleCollectors` or of
`multipleCollectors`. -/
def registered (ParseFloat : String → Option ℚ) (name : String) : Bool :=
  (List.lookup name (singleCollectors ParseFloat)).isSome ||
    (List.lookup name (multipleCollectors ParseFloat)).isSome

/-- A file system value with the method `Open` alone, as the instrumented file system of
`TestDoesntOpenFilesThatItDoesntHaveDescriptionsFor`. -/
def openOnly : Methods := ⟨false, false, false⟩

/-- A file system value with the methods `Stat` and `ReadDir`, as the value of
`os.DirFS`. -/
def statReadDir : Methods := ⟨true, true, false⟩

/-- No path opened by `fs.Glob` for patterns other than `*`. -/
def noOpens : Node → String → List String := fun _ _ => []

/-- The callback of a walk followed, after a call without error on a directory that
returns `nil`, by the open that `fs.ReadDir` makes on the directory. -/
def withReadDir (ms : Methods) (fn : WalkDirFunc Event) : WalkDirFunc Event :=
  fun path d err =>
    match err, d with
    | none, some ⟨dname, true⟩ => do
      match ← fn path (some ⟨dname, true⟩) none with
      | some e => pure (some e)
      | none => do
        readDirOpen ms path
        pure none
    | _, _ => fn path d err


/-! ## Contents that are not valid UTF-8

A Go string is a string of bytes.  The decoders above take the contents that are valid
UTF-8, as Unicode strings.  A content with bytes that are not valid UTF-8 passes through
the scanner and the splits as it is, and `collectIOStat` hands the first field of a line
to `MustNewConstMetric` as the device label, where `prometheus.NewConstMetric` rejects a
label value that is not valid UTF-8.  This section has the decoders of key-value files
on strings of bytes; a byte is a number below 256.  On the encoding of a Unicode string
they do what the decoders above do on the string (`bytes_collectIOStat_encode`,
`bytes_collectPressure_encode`, `bytes_collectFlatKeyed_encode`). -/

namespace Bytes

/-- Constant `utf8.RuneError`. -/
def RuneError : Nat := 0xFFFD

/-- Continuation byte `10xxxxxx`. -/
def isCont (b : Nat) : Bool :=
  0x80 ≤ b && b ≤ 0xBF

/-- Function `utf8.DecodeRuneInString`: the first rune of the bytes and its width,
`(RuneError, 1)` when the encoding is not valid, `(RuneError, 0)` when there is no
byte. -/
def DecodeRune : List Nat → Nat × Nat
  | [] => (RuneError, 0)
  | s0 :: rest =>
    if s0 < 0x80 then (s0, 1)
    else if 0xC2 ≤ s0 ∧ s0 ≤ 0xDF then
      match rest with
      | s1 :: _ =>
        if isCont s1 then ((s0 % 0x20) * 0x40 + s1 % 0x40, 2) else (RuneError, 1)
      | [] => (RuneError, 1)
    else if 0xE0 ≤ s0 ∧ s0 ≤ 0xEF then
      match rest with
      | s1 :: s2 :: _ =>
        if (if s0 = 0xE0 then 0xA0 else 0x80) ≤ s1 ∧ s1 ≤ (if s0 = 0xED then 0x9F else 0xBF) ∧
            isCont s2 = true then
          ((s0 % 0x10) * 0x1000 + (s1 % 0x40) * 0x40 + s2 % 0x40, 3)
        else (RuneError, 1)
      | _ => (RuneError, 1)
    else if 0xF0 ≤ s0 ∧ s0 ≤ 0xF4 then
      match rest with
      | s1 :: s2 :: s3 :: _ =>
        if (if s0 = 0xF0 then 0x90 else 0x80) ≤ s1 ∧ s1 ≤ (if s0 = 0xF4 then 0x8F else 0xBF) ∧
            isCont s2 = true ∧ isCont s3 = true then
          ((s0 % 0x08) * 0x40000 + (s1 % 0x40) * 0x1000 + (s2 % 0x40) * 0x40 + s3 % 0x40, 4)
        else (RuneError, 1)
      | _ => (RuneError, 1)
    else (RuneError, 1)

/-- Function `utf8.DecodeLastRuneInString`: the last rune of the bytes and its width.  A
last byte below `0x80` is the rune; otherwise the rune starts at the nearest of the three
bytes before the last one that is not a continuation byte, and it has to end with the
last byte. -/
def DecodeLastRune (s : List Nat) : Nat × Nat :=
  match s.reverse with
  | [] => (RuneError, 0)
  | c :: before =>
    if c < 0x80 then (c, 1)
    else
      match (before.take 3).findIdx? (fun b => !isCont b) with
      | none => (RuneError, 1)
      | some k =>
        if (DecodeRune (s.drop (s.length - (k + 2)))).2 = k + 2 then
          DecodeRune (s.drop (s.length - (k + 2)))
        else (RuneError, 1)

/-- Runes of a string of bytes that is valid UTF-8, and `none` for a string that is not:
the test is `utf8.ValidString`.  The first argument bounds the number of runes. -/
def decodeRunes : Nat → List Nat → Option (List Char)
  | _, [] => some []
  | 0, _ :: _ => none
  | fuel + 1, b :: bs =>
    if (DecodeRune (b :: bs)).1 = RuneError ∧ (DecodeRune (b :: bs)).2 = 1 then none
    else
      (decodeRunes fuel ((b :: bs).drop (DecodeRune (b :: bs)).2)).map
        (fun cs => Char.ofNat (DecodeRune (b :: bs)).1 :: cs)

/-- Unicode string of a string of bytes that is valid UTF-8. -/
def decode (s : List Nat) : Option String :=
  (decodeRunes s.length s).map String.mk

/-- Function `utf8.ValidString`. -/
def ValidString (s : List Nat) : Bool :=
  (decode s).isSome

/-- Runes of a string of bytes as `range` and the verb `%q` read them: `utf8.RuneError`
stands for every byte that is not valid. -/
def runes : Nat → List Nat → List Char
  | _, [] => []
  | 0, _ :: _ => []
  | fuel + 1, b :: bs =>
    Char.ofNat (DecodeRune (b :: bs)).1 ::
      runes fuel ((b :: bs).drop (DecodeRune (b :: bs)).2)

/-- Text of a string of bytes in an error message. -/
def text (s : List Nat) : String :=
  String.mk (runes s.length s)

/-- Bytes of a character in UTF-8. -/
def encodeChar (c : Char) : List Nat :=
  if c.toNat < 0x80 then [c.toNat]
  else if c.toNat < 0x800 then [0xC0 + c.toNat / 0x40, 0x80 + c.toNat % 0x40]
  else if c.toNat < 0x10000 then
    [0xE0 + c.toNat / 0x1000, 0x80 + c.toNat / 0x40 % 0x40, 0x80 + c.toNat % 0x40]
  else
    [0xF0 + c.toNat / 0x40000, 0x80 + c.toNat / 0x1000 % 0x40, 0x80 + c.toNat / 0x40 % 0x40,
      0x80 + c.toNat % 0x40]

/-- Bytes of a Unicode string: its UTF-8 encoding. -/
def encode (s : String) : List Nat :=
  s.data.flatMap encodeChar

/-- Function `prometheus.NewConstMetric` on label values that are strings of bytes: fails
unless there is one label value per label of the schema and every label value is valid
UTF-8. -/
def NewConstMetric (desc : Desc) (valueType : ValueType) (value : ℚ)
    (labelValues : List (List Nat)) : Except Panic Metric :=
  if labelValues.length ≠ desc.variableLabels.length then .error .inconsistentCardinality
  else if labelValues.all ValidString then
    .ok ⟨desc, valueType, value, labelValues.filterMap decode⟩
  else .error .invalidLabelValue

/-- Function `prometheus.MustNewConstMetric`: panics where `NewConstMetric` fails. -/
def MustNewConstMetric {ε : Type} (desc : Desc) (valueType : ValueType) (value : ℚ)
    (labelValues : List (List Nat)) : Exec ε Metric :=
  match NewConstMetric desc valueType value labelValues with
  | .ok m => Exec.pure m
  | .error p => goPanic p

/-- Fields of `strings.Split` on a separator of one byte: the first field and the list of
the following ones. -/
def splitFields (sep : Nat) : List Nat → List Nat × List (List Nat)
  | [] => ([], [])
  | c :: cs =>
    if c = sep then ([], (splitFields sep cs).1 :: (splitFields sep cs).2)
    else (c :: (splitFields sep cs).1, (splitFields sep cs).2)

/-- Function `strings.Split(s, sep)` for a separator of one byte. -/
def Split (s : List Nat) (sep : Nat) : List (List Nat) :=
  (splitFields sep s).1 :: (splitFields sep s).2

/-- Function `strings.TrimLeftFunc(s, unicode.IsSpace)`; the first argument bounds the
number of runes. -/
def trimLeft : Nat → List Nat → List Nat
  | 0, s => s
  | fuel + 1, s =>
    if (DecodeRune s).2 ≠ 0 ∧ isSpace (Char.ofNat (DecodeRune s).1) = true then
      trimLeft fuel (s.drop (DecodeRune s).2)
    else s

/-- Function `strings.TrimRightFunc(s, unicode.IsSpace)`; the first argument bounds the
number of runes. -/
def trimRight : Nat → List Nat → List Nat
  | 0, s => s
  | fuel + 1, s =>
    if (DecodeLastRune s).2 ≠ 0 ∧ isSpace (Char.ofNat (DecodeLastRune s).1) = true then
      trimRight fuel (s.take (s.length - (DecodeLastRune s).2))
    else s

/-- Function `strings.TrimSpace`: the string without leading and trailing white space. -/
def TrimSpace (s : List Nat) : List Nat :=
  trimRight s.length (trimLeft s.length s)

/-- Helper `dropCR` of bufio: a trailing carriage return is removed. -/
def dropCR (data : List Nat) : List Nat :=
  if data.getLast? = some 13 then data.dropLast else data

/-- Raw lines of `bufio.ScanLines`: the input is cut after every newline, and a
non-empty rest without newline is a last line. -/
def rawLines : List Nat → List (List Nat)
  | [] => []
  | c :: cs =>
    if c = 10 then [] :: rawLines cs
    else
      match rawLines cs with
      | [] => [[c]]
      | l :: ls => (c :: l) :: ls

/-- Lines delivered by the scanner: the raw lines up to the first one of
`MaxScanTokenSize` bytes or more, without their carriage return. -/
def scanLines (r : List Nat) : List (List Nat) :=
  ((rawLines r).takeWhile (fun l => decide (l.length < MaxScanTokenSize))).map dropCR

/-- Value of `scanner.Err()` after `scanner.Scan()` has returned false. -/
def scanErr (r : List Nat) : Option GoError :=
  if (rawLines r).all (fun l => decide (l.length < MaxScanTokenSize)) then none
  else some .tokenTooLong

/-- Type `kvVisitor` on strings of bytes. -/
abbrev kvVisitor (ε : Type) := List Nat → List Nat → Exec ε (Option GoError)

/-- Type `entryVisitor` on strings of bytes. -/
abbrev entryVisitor (ε : Type) := List Nat → Exec ε (Except GoError (kvVisitor ε))

/-- Body of the inner loop `for _, v := range vs` of `visitNestedKeyed` for the token
`v`. -/
def visitNestedKeyedToken {ε : Type} (k : List Nat) (visitKV : kvVisitor ε) (v : List Nat) :
    Exec ε (Option (Option GoError)) :=
  if (Split v 61).length = 0 then pure (some none)
  else if (Split v 61).length ≠ 2 then
    pure (some (some (.invalidNestedKeyValuePair (text k) (text v) (Split v 61).length)))
  else
    match (Split v 61)[0]?, (Split v 61)[1]? with
    | some kv0, some kv1 => do
      let _ ← visitKV kv0 kv1
      pure none
    | _, _ => goPanic .indexOutOfRange

/-- Inner loop `for _, v := range vs` of `visitNestedKeyed`. -/
def visitNestedKeyedTokens {ε : Type} (k : List Nat) (visitKV : kvVisitor ε) :
    List (List Nat) → Exec ε (Option (Option GoError))
  | [] => pure none
  | v :: vs => do
    match ← visitNestedKeyedToken k visitKV v with
    | some r => pure (some r)
    | none => visitNestedKeyedTokens k visitKV vs

/-- Body of the loop `for scanner.Scan()` of `visitNestedKeyed` for one line. -/
def visitNestedKeyedLine {ε : Type} (visitEntry : entryVisitor ε) (line : List Nat) :
    Exec ε (Option (Option GoError)) :=
  match Split (TrimSpace line) 32 with
  | [] => goPanic .indexOutOfRange
  | k :: vs => do
    match ← visitEntry k with
    | .error err => pure (some (some err))
    | .ok visitKV => visitNestedKeyedTokens k visitKV vs

/-- Loop `for scanner.Scan()` of `visitNestedKeyed`, ending with `return scanner.Err()`,
where `atEnd` is the value of `scanner.Err()`. -/
def visitNestedKeyedLines {ε : Type} (visitEntry : entryVisitor ε) (atEnd : Option GoError) :
    List (List Nat) → Exec ε (Option GoError)
  | [] => pure atEnd
  | line :: rest => do
    match ← visitNestedKeyedLine visitEntry line with
    | some r => pure r
    | none => visitNestedKeyedLines visitEntry atEnd rest

/-- Function `visitNestedKeyed` on a content of bytes. -/
def visitNestedKeyed {ε : Type} (r : List Nat) (visitEntry : entryVisitor ε) :
    Exec ε (Option GoError) :=
  visitNestedKeyedLines visitEntry (scanErr r) (scanLines r)

/-- Function `collectIOStat` on a content of bytes: every entry is a device, every known
sub-key a counter labelled `(device, path)`.  A key of the mapping is a string of the
source, which a string of bytes equals when it decodes to it; `strconv.ParseFloat`
rejects what is not valid UTF-8. -/
def collectIOStat (ParseFloat : String → Option ℚ) (f : List Nat) (path : String)
    (descs : List (String × desc)) : Exec Metric (Option GoError) :=
  visitNestedKeyed f (fun n =>
    let device := n
    pure (.ok (fun k v =>
      match (decode k).bind (fun key => List.lookup key descs) with
      | none => pure none
      | some desc =>
        match (decode v).bind ParseFloat with
        | none => pure (some (.failedToParseValue (text v)))
        | some value => do
          send (← MustNewConstMetric desc.desc .CounterValue value [device, encode path])
          pure none)))

/-- Device identifier of a line of `io.stat`: the first field `split[0]` of the trimmed
line. -/
def device (line : List Nat) : List Nat :=
  (Split (TrimSpace line) 32).headD []

/-- Body of the loop `for scanner.Scan()` of `visitFlatKeyed` for one line. -/
def visitFlatKeyedLine {ε : Type} (visitKV : kvVisitor ε) (line : List Nat) :
    Exec ε (Option GoError) :=
  if (Split line 32).length ≠ 2 then pure (some (.invalidKeyValuePair (text line)))
  else
    match (Split line 32)[0]?, (Split line 32)[1]? with
    | some kv0, some kv1 => visitKV kv0 kv1
    | _, _ => goPanic .indexOutOfRange

/-- Loop `for scanner.Scan()` of `visitFlatKeyed` over the lines that the scanner
delivers: `some err` when the function returns `err` from inside the loop, `none` when
the loop comes to its end. -/
def visitFlatKeyedLines {ε : Type} (visitKV : kvVisitor ε) :
    List (List Nat) → Exec ε (Option GoError)
  | [] => pure none
  | line :: rest => do
    match ← visitFlatKeyedLine visitKV line with
    | some err => pure (some err)
    | none => visitFlatKeyedLines visitKV rest

/-- Function `visitFlatKeyed` on a content of bytes. -/
def visitFlatKeyed {ε : Type} (r : List Nat) (visitKV : kvVisitor ε) :
    Exec ε (Option GoError) := do
  match ← visitFlatKeyedLines visitKV (scanLines r) with
  | some err => pure (some err)
  | none => pure (scanErr r)

/-- Function `collectFlatKeyed` on a content of bytes. -/
def collectFlatKeyed (ParseFloat : String → Option ℚ) (valueType : ValueType) (f : List Nat)
    (path : String) (descs : List (String × desc)) : Exec Metric (Option GoError) :=
  visitFlatKeyed f (fun k v =>
    match (decode k).bind (fun key => List.lookup key descs) with
    | none => pure none
    | some desc =>
      match (decode v).bind ParseFloat with
      | none => pure (some (.failedToParseValue (text v)))
      | some value => do
        let value := match desc.modifier with
          | some modifier => modifier value
          | none => value
        send (← MustNewConstMetric desc.desc valueType value [encode path])
        pure none)

/-- Function `collectPressure` on a content of bytes. -/
def collectPressure (ParseFloat : String → Option ℚ) (f : List Nat) (path : String)
    (descs : List (String × desc)) : Exec Metric (Option GoError) :=
  visitNestedKeyed f (fun n =>
    match (decode n).bind (fun key => List.lookup key descs) with
    | none => pure (.error (.unknownPressureType (text n)))
    | some desc =>
      pure (.ok (fun k v =>
        if decode k = some "total" then
          match (decode v).bind ParseFloat with
          | none => pure (some (.failedToParseValue (text v)))
          | some value => do
            let value := match desc.modifier with
              | some modifier => modifier value
              | none => value
            send (← MustNewConstMetric desc.desc .CounterValue value [encode path])
            pure none
        else pure none)))

/-- An entry visitor that does nothing. -/
def idleEntry : entryVisitor Metric := fun _ => pure (.ok (fun _ _ => pure none))

/-- A key-value visitor that does nothing. -/
def idleKV : kvVisitor Metric := fun _ _ => pure none

/-- A content with an empty line, a line of white space, a token without `=`, a line
that is `=` alone, a line of three fields, and a last line whose value is the byte
`0xff`, which is not valid UTF-8. -/
def oddBytes : List Nat :=
  encode "\n \t\nsome x\n=\nanon 1 2\n8:0 rbytes=" ++ [0xff, 10]

/-- A visitor of key-value pairs on bytes does on the encodings of a key and a value what
the visitor `visitKV` does on the strings. -/
def kvAgrees {ε : Type} (bytesKV : kvVisitor ε) (visitKV : Collector.kvVisitor ε) : Prop :=
  ∀ k v : String, bytesKV (encode k) (encode v) = visitKV k v

/-- An entry visitor on bytes does on the encoding of an entry name what the visitor
`visitEntry` does on the name: it sends the same, and it ends the same way, with
consumers that agree. -/
def entryAgrees {ε : Type} (bytesEntry : entryVisitor ε)
    (visitEntry : Collector.entryVisitor ε) : Prop :=
  ∀ n : String, (bytesEntry (encode n)).sent = (visitEntry n).sent ∧
    match (bytesEntry (encode n)).ret, (visitEntry n).ret with
    | .returned (.ok bytesKV), .returned (.ok visitKV) => kvAgrees bytesKV visitKV
    | .returned (.error e1), .returned (.error e2) => e1 = e2
    | .panicked p1, .panicked p2 => p1 = p2
    | _, _ => False

end Bytes


/-! ## Lemmas on the text functions -/

theorem isSpace_ne_of_not {c d : Char} (hc : isSpace c = false) (hd : isSpace d = true) :
    c ≠ d := by
  intro h
  rw [h, hd] at hc
  exact Bool.noConfusion hc

theorem SkipSpace_cons_of_not_isSpace (c : Char) (rest : List Char) (hc : isSpace c = false) :
    SkipSpace (c :: rest) = .ok (c :: rest) := by
  have h1 : c ≠ '\r' := isSpace_ne_of_not hc (by decide)
  have h2 : c ≠ '\n' := isSpace_ne_of_not hc (by decide)
  simp [SkipSpace, h1, h2, hc]

theorem SkipSpace_blanks_append (pre rest : List Char)
    (hpre : ∀ c ∈ pre, isSpace c = true ∧ c ≠ '\n') :
    SkipSpace (pre ++ rest) = SkipSpace rest := by
  induction pre with
  | nil => rfl
  | cons c cs ih =>
    have hc := hpre c (List.mem_cons_self _ _)
    have ih' := ih (fun d hd => hpre d (List.mem_cons_of_mem _ hd))
    simp only [List.cons_append, SkipSpace, hc.2, hc.1, if_false, Bool.not_true]
    simpa using ih'

theorem SkipSpace_spaces_append (pre : List Char) (c : Char) (rest : List Char)
    (hpre : ∀ d ∈ pre, isSpace d = true) (hc : isSpace c = false) :
    SkipSpace (pre ++ c :: rest) = .error .unexpectedNewline ∨
      SkipSpace (pre ++ c :: rest) = .ok (c :: rest) := by
  induction pre with
  | nil => exact Or.inr (SkipSpace_cons_of_not_isSpace c rest hc)
  | cons d ds ih =>
    have hd := hpre d (List.mem_cons_self _ _)
    have ih' := ih (fun e he => hpre e (List.mem_cons_of_mem _ he))
    simp only [List.cons_append, SkipSpace, hd, Bool.not_true]
    split
    · exact ih'
    · split
      · exact Or.inl rfl
      · simpa using ih'

theorem takeWhile_word (tok rest : List Char) (htok : ∀ c ∈ tok, isSpace c = false)
    (hrest : ∀ c, rest.head? = some c → isSpace c = true) :
    (tok ++ rest).takeWhile (fun r => !isSpace r) = tok := by
  induction tok with
  | nil =>
    cases rest with
    | nil => rfl
    | cons c cs => simp [List.takeWhile, hrest c rfl]
  | cons t ts ih =>
    have ht := htok t (List.mem_cons_self _ _)
    simp [List.takeWhile, ht, ih (fun c hc => htok c (List.mem_cons_of_mem _ hc))]

/-- What `Fscanf` reads when the first word `t :: ts` follows blanks without a newline. -/
theorem Fscanf_s_word (pre : List Char) (t : Char) (ts rest : List Char)
    (hpre : ∀ c ∈ pre, isSpace c = true ∧ c ≠ '\n')
    (htok : ∀ c ∈ t :: ts, isSpace c = false)
    (hrest : ∀ c, rest.head? = some c → isSpace c = true) :
    Fscanf_s ⟨pre ++ (t :: ts) ++ rest⟩ = .ok ⟨t :: ts⟩ := by
  have ht := htok t (List.mem_cons_self _ _)
  have h0 : SkipSpace (t :: (ts ++ rest)) = .ok (t :: (ts ++ rest)) :=
    SkipSpace_cons_of_not_isSpace t _ ht
  have h1 : SkipSpace (pre ++ (t :: (ts ++ rest))) = .ok (t :: (ts ++ rest)) := by
    rw [SkipSpace_blanks_append pre _ hpre, h0]
  have h2 := takeWhile_word (t :: ts) rest htok hrest
  simp only [List.cons_append] at h2
  simp [Fscanf_s, List.append_assoc, h1, h0, bind, Except.bind, pure, Except.pure, h2]

/-- What `Fscanf` does when the first word `t :: ts` follows any white space: it reads
the word or fails. -/
theorem Fscanf_s_word_or_error (pre : List Char) (t : Char) (ts rest : List Char)
    (hpre : ∀ c ∈ pre, isSpace c = true)
    (htok : ∀ c ∈ t :: ts, isSpace c = false)
    (hrest : ∀ c, rest.head? = some c → isSpace c = true) :
    Fscanf_s ⟨pre ++ (t :: ts) ++ rest⟩ = .error .unexpectedNewline ∨
      Fscanf_s ⟨pre ++ (t :: ts) ++ rest⟩ = .ok ⟨t :: ts⟩ := by
  have ht := htok t (List.mem_cons_self _ _)
  have h0 : SkipSpace (t :: (ts ++ rest)) = .ok (t :: (ts ++ rest)) :=
    SkipSpace_cons_of_not_isSpace t _ ht
  have h2 := takeWhile_word (t :: ts) rest htok hrest
  simp only [List.cons_append] at h2
  rcases SkipSpace_spaces_append pre t (ts ++ rest) hpre ht with h1 | h1
  · left
    simp [Fscanf_s, List.append_assoc, h1, bind, Except.bind]
  · right
    simp [Fscanf_s, List.append_assoc, h1, h0, bind, Except.bind, pure, Except.pure, h2]

/-- Reading of a content made of blanks without newline, the word `tok`, and a rest that
is empty or starts with white space. -/
theorem Fscanf_s_first_word (pre tok rest : String)
    (hpre : ∀ c ∈ pre.data, isSpace c = true ∧ c ≠ '\n')
    (hne : tok ≠ "") (htok : ∀ c ∈ tok.data, isSpace c = false)
    (hrest : ∀ c, rest.data.head? = some c → isSpace c = true) :
    Fscanf_s (pre ++ tok ++ rest) = .ok tok := by
  obtain ⟨l⟩ := tok
  cases l with
  | nil => exact absurd rfl hne
  | cons t ts => exact Fscanf_s_word pre.data t ts rest.data hpre htok hrest

/-- Reading of a content made of white space, the word `tok`, and a rest that is empty
or starts with white space: the word, or the newline error. -/
theorem Fscanf_s_first_word_or_error (pre tok rest : String)
    (hpre : ∀ c ∈ pre.data, isSpace c = true)
    (hne : tok ≠ "") (htok : ∀ c ∈ tok.data, isSpace c = false)
    (hrest : ∀ c, rest.data.head? = some c → isSpace c = true) :
    Fscanf_s (pre ++ tok ++ rest) = .error .unexpectedNewline ∨
      Fscanf_s (pre ++ tok ++ rest) = .ok tok := by
  obtain ⟨l⟩ := tok
  cases l with
  | nil => exact absurd rfl hne
  | cons t ts => exact Fscanf_s_word_or_error pre.data t ts rest.data hpre htok hrest

/-! ## Lemmas on `Exec` -/

@[simp] theorem bind_eq_Exec_bind {ε α β : Type} (x : Exec ε α) (f : α → Exec ε β) :
    x >>= f = Exec.bind x f := rfl

@[simp] theorem pure_eq_mk {ε α : Type} (a : α) : (pure a : Exec ε α) = ⟨[], .returned a⟩ := rfl

@[simp] theorem Exec_pure_eq_mk {ε α : Type} (a : α) :
    (Exec.pure a : Exec ε α) = ⟨[], .returned a⟩ := rfl

@[simp] theorem Exec_mk_eta {ε α : Type} (x : Exec ε α) : (⟨x.sent, x.ret⟩ : Exec ε α) = x := rfl

@[simp] theorem Exec_bind_returned {ε α β : Type} (l : List ε) (a : α) (f : α → Exec ε β) :
    Exec.bind ⟨l, .returned a⟩ f = ⟨l ++ (f a).sent, (f a).ret⟩ := rfl

@[simp] theorem Exec_bind_panicked {ε α β : Type} (l : List ε) (p : Panic)
    (f : α → Exec ε β) :
    Exec.bind (⟨l, .panicked p⟩ : Exec ε α) f = ⟨l, .panicked p⟩ := rfl

theorem Exec.bind_assoc {ε α β γ : Type} (x : Exec ε α) (f : α → Exec ε β)
    (g : β → Exec ε γ) :
    Exec.bind (Exec.bind x f) g = Exec.bind x (fun a => Exec.bind (f a) g) := by
  obtain ⟨l, r⟩ := x
  cases r with
  | panicked p => rfl
  | returned a =>
    simp only [Exec_bind_returned]
    cases h : (f a).ret with
    | panicked p => simp [Exec.bind, h]
    | returned b => simp [Exec.bind, h]

/-! ## Lemmas on `Split` and the scanner -/

theorem splitFields_of_not_mem (sep : Char) (l : List Char) (h : sep ∉ l) :
    splitFields sep l = (l, []) := by
  induction l with
  | nil => rfl
  | cons c cs ih =>
    have hc : c ≠ sep := fun e => h (e ▸ List.mem_cons_self _ _)
    have ih' := ih (fun hm => h (List.mem_cons_of_mem _ hm))
    simp [splitFields, hc, ih']

theorem splitFields_append_sep (sep : Char) (a b : List Char) (h : sep ∉ a) :
    splitFields sep (a ++ sep :: b) = (a, (splitFields sep b).1 :: (splitFields sep b).2) := by
  induction a with
  | nil => simp [splitFields]
  | cons c cs ih =>
    have hc : c ≠ sep := fun e => h (e ▸ List.mem_cons_self _ _)
    have ih' := ih (fun hm => h (List.mem_cons_of_mem _ hm))
    simp [splitFields, hc, ih']

/-- Splitting of `a ++ sep ++ b` when the separator occurs in neither part. -/
theorem Split_pair (sep : Char) (a b : String) (ha : sep ∉ a.data) (hb : sep ∉ b.data) :
    Split (a ++ String.singleton sep ++ b) sep = [a, b] := by
  have h : (a ++ String.singleton sep ++ b).data = a.data ++ sep :: b.data := by
    simp [String.data_append, String.singleton]
  simp [Split, h, splitFields_append_sep sep _ _ ha, splitFields_of_not_mem sep _ hb]

/-- Splitting of a string without the separator. -/
theorem Split_single (sep : Char) (a : String) (ha : sep ∉ a.data) : Split a sep = [a] := by
  simp [Split, splitFields_of_not_mem sep _ ha]

theorem rawLines_line (l rest : List Char) (h : '\n' ∉ l) :
    rawLines (l ++ '\n' :: rest) = l :: rawLines rest := by
  induction l with
  | nil => simp [rawLines]
  | cons c cs ih =>
    have hc : c ≠ '\n' := fun e => h (e ▸ List.mem_cons_self _ _)
    have ih' := ih (fun hm => h (List.mem_cons_of_mem _ hm))
    simp [rawLines, hc, ih']

theorem dropCR_of_not_mem (l : List Char) (h : '\r' ∉ l) : dropCR l = l := by
  unfold dropCR
  split
  · rename_i hl
    exact absurd (List.mem_of_getLast?_eq_some hl) h
  · rfl

/-- Scanning of a first line ended by a newline, when the line fits the buffer. -/
theorem scanLines_line (line rest : String) (hn : '\n' ∉ line.data) (hr : '\r' ∉ line.data)
    (hfit : byteLen line.data < MaxScanTokenSize) :
    scanLines (line ++ "\n" ++ rest) = line :: scanLines rest := by
  have h : (line ++ "\n" ++ rest).data = line.data ++ '\n' :: rest.data := by
    simp [String.data_append]
  have hf : fits line.data = true := by simp [fits, hfit]
  simp [scanLines, h, rawLines_line _ _ hn, dropCR_of_not_mem _ hr, List.takeWhile_cons, hf]

/-- The error of the scanner after a first line that fits the buffer is the error on the
rest. -/
theorem scanErr_line (line rest : String) (hn : '\n' ∉ line.data)
    (hfit : byteLen line.data < MaxScanTokenSize) :
    scanErr (line ++ "\n" ++ rest) = scanErr rest := by
  have h : (line ++ "\n" ++ rest).data = line.data ++ '\n' :: rest.data := by
    simp [String.data_append]
  have hf : fits line.data = true := by simp [fits, hfit]
  simp [scanErr, h, rawLines_line _ _ hn, hf]

/-- A first line that does not fit the buffer: the scanner delivers nothing and its error
is `bufio.ErrTooLong`. -/
theorem scan_long_line (line rest : String) (hn : '\n' ∉ line.data)
    (hlong : MaxScanTokenSize ≤ byteLen line.data) :
    scanLines (line ++ "\n" ++ rest) = [] ∧
      scanErr (line ++ "\n" ++ rest) = some .tokenTooLong := by
  have h : (line ++ "\n" ++ rest).data = line.data ++ '\n' :: rest.data := by
    simp [String.data_append]
  have hf : fits line.data = false := by simp [fits, hlong]
  simp [scanLines, scanErr, h, rawLines_line _ _ hn, List.takeWhile_cons, hf]

theorem not_mem_of_not_isSpace {l : List Char} {d : Char} (hl : ∀ c ∈ l, isSpace c = false)
    (hd : isSpace d = true) : d ∉ l :=
  fun hm => isSpace_ne_of_not (hl d hm) hd rfl

/-! ## Scalar decoder -/

/-- C1 as stated fails: the content `"\nmax"` has `max` as its sole word, yet
`collectSingleValue` returns the error `failed to read value: unexpected newline`. -/
theorem collectSingleValue_max_after_newline :
    (∀ c ∈ "\n".data, isSpace c = true) ∧ (∀ c ∈ "".data, isSpace c = true) ∧
    collectSingleValue parseUnsigned .GaugeValue ("\n" ++ "max" ++ "") "system.slice"
        (NewDesc "cgroup_memory_max_bytes" "" ["cgroup"]) =
      ⟨[], .returned (some (.failedToReadValue .unexpectedNewline))⟩ := by
  decide

/-- C1 (amended): for every cgroup path, descriptor and value kind, on a content whose
sole word is `max`, preceded only by white space other than a newline and followed by any
white space (a trailing newline included), `collectSingleValue` sends no metric and
returns `nil`. -/
theorem collectSingleValue_max (ParseFloat : String → Option ℚ) (valueType : ValueType)
    (path : String) (desc : Desc) (pre post : String)
    (hpre : ∀ c ∈ pre.data, isSpace c = true ∧ c ≠ '\n')
    (hpost : ∀ c ∈ post.data, isSpace c = true) :
    collectSingleValue ParseFloat valueType (pre ++ "max" ++ post) path desc =
      ⟨[], .returned none⟩ := by
  have hread : Fscanf_s (pre ++ "max" ++ post) = .ok "max" :=
    Fscanf_s_first_word pre "max" post hpre (by decide) (by decide)
      (fun c hc => hpost c (List.mem_of_mem_head? hc))
  simp only [collectSingleValue, hread]
  rfl

theorem collectSingleValue_max_witness :
    (∀ c ∈ " ".data, isSpace c = true ∧ c ≠ '\n') ∧ (∀ c ∈ "\n".data, isSpace c = true) ∧
    collectSingleValue parseUnsigned .GaugeValue (" " ++ "max" ++ "\n") "system.slice"
        (NewDesc "cgroup_memory_max_bytes" "" ["cgroup"]) = ⟨[], .returned none⟩ :=
  ⟨by decide, by decide,
    collectSingleValue_max parseUnsigned .GaugeValue "system.slice"
      (NewDesc "cgroup_memory_max_bytes" "" ["cgroup"]) " " "\n" (by decide) (by decide)⟩

/-- C2 as stated fails: the first word of `"\n1\n"` is `1`, which parses as a number, yet
`collectSingleValue` sends nothing and returns an error. -/
theorem collectSingleValue_number_after_newline :
    (∀ c ∈ "\n".data, isSpace c = true) ∧ "1" ≠ "max" ∧ parseUnsigned "1" = some 1 ∧
    collectSingleValue parseUnsigned .GaugeValue ("\n" ++ "1" ++ "\n") "system.slice"
        (NewDesc "cgroup_memory_min_bytes" "" ["cgroup"]) =
      ⟨[], .returned (some (.failedToReadValue .unexpectedNewline))⟩ := by
  decide

/-- C2 (amended): on a content whose first word `tok` is preceded only by white space
other than a newline, is not `max` and parses as the number `v`, `collectSingleValue`
returns `nil` and sends exactly one metric, built from the descriptor (of one label, as
for every scalar handler) and the value kind, with value `v` and the cgroup path as its
single label value. -/
theorem collectSingleValue_number (ParseFloat : String → Option ℚ) (valueType : ValueType)
    (path : String) (desc : Desc) (pre tok rest : String) (v : ℚ)
    (hpre : ∀ c ∈ pre.data, isSpace c = true ∧ c ≠ '\n')
    (hne : tok ≠ "") (htok : ∀ c ∈ tok.data, isSpace c = false)
    (hrest : ∀ c, rest.data.head? = some c → isSpace c = true)
    (hmax : tok ≠ "max") (hv : ParseFloat tok = some v)
    (hlabels : desc.variableLabels.length = 1) :
    collectSingleValue ParseFloat valueType (pre ++ tok ++ rest) path desc =
      ⟨[⟨desc, valueType, v, [path]⟩], .returned none⟩ := by
  have hread := Fscanf_s_first_word pre tok rest hpre hne htok hrest
  simp only [collectSingleValue, hread, hmax, if_false, hv]
  simp [MustNewConstMetric, NewConstMetric, hlabels, goPanic, send]

theorem collectSingleValue_number_witness :
    collectSingleValue parseUnsigned .GaugeValue ("" ++ "1" ++ "\n") "system.slice"
        (NewDesc "cgroup_memory_min_bytes" "" ["cgroup"]) =
      ⟨[⟨NewDesc "cgroup_memory_min_bytes" "" ["cgroup"], .GaugeValue, 1, ["system.slice"]⟩],
        .returned none⟩ :=
  collectSingleValue_number parseUnsigned .GaugeValue "system.slice"
    (NewDesc "cgroup_memory_min_bytes" "" ["cgroup"]) "" "1" "\n" 1
    (by decide) (by decide) (by decide) (by decide) (by decide) (by decide) (by decide)

/-- C3: on a content whose first word is neither `max` nor accepted by `ParseFloat`,
`collectSingleValue` returns an error and sends no metric. -/
theorem collectSingleValue_unparseable (ParseFloat : String → Option ℚ)
    (valueType : ValueType) (path : String) (desc : Desc) (pre tok rest : String)
    (hpre : ∀ c ∈ pre.data, isSpace c = true)
    (hne : tok ≠ "") (htok : ∀ c ∈ tok.data, isSpace c = false)
    (hrest : ∀ c, rest.data.head? = some c → isSpace c = true)
    (hmax : tok ≠ "max") (hv : ParseFloat tok = none) :
    ∃ e, collectSingleValue ParseFloat valueType (pre ++ tok ++ rest) path desc =
      ⟨[], .returned (some e)⟩ := by
  rcases Fscanf_s_first_word_or_error pre tok rest hpre hne htok hrest with hread | hread
  · exact ⟨.failedToReadValue .unexpectedNewline, by simp only [collectSingleValue, hread]; rfl⟩
  · exact ⟨.failedToParseValue tok, by simp only [collectSingleValue, hread, hmax, if_false, hv]; rfl⟩

theorem collectSingleValue_unparseable_witness :
    ∃ e, collectSingleValue parseUnsigned .GaugeValue ("" ++ "1x" ++ "\n") "system.slice"
        (NewDesc "cgroup_memory_min_bytes" "" ["cgroup"]) = ⟨[], .returned (some e)⟩ :=
  collectSingleValue_unparseable parseUnsigned .GaugeValue "system.slice"
    (NewDesc "cgroup_memory_min_bytes" "" ["cgroup"]) "" "1x" "\n"
    (by decide) (by decide) (by decide) (by decide) (by decide) (by decide)

/-! ## Flat decoder -/

/-- The flat parser is its loop over the delivered lines followed by the final
`return scanner.Err()`. -/
theorem visitFlatKeyed_eq {ε : Type} (r : String) (visitKV : kvVisitor ε) :
    visitFlatKeyed r visitKV =
      firstSome (visitFlatKeyedLines visitKV (scanLines r)) ⟨[], .returned (scanErr r)⟩ := by
  unfold visitFlatKeyed firstSome
  simp only [bind_eq_Exec_bind]
  congr 1
  funext x
  cases x <;> rfl

theorem firstSome_end_sent {ε α : Type} (x : Exec ε (Option α)) (a : Option α) :
    (firstSome x ⟨[], .returned a⟩).sent = x.sent := by
  obtain ⟨l, r⟩ := x
  cases r with
  | panicked p => rfl
  | returned b => cases b <;> simp [firstSome]

theorem firstSome_end_ret {ε α : Type} (x y : Exec ε (Option α)) (e : α)
    (h : x.ret = .returned (some e)) : (firstSome x y).ret = .returned (some e) := by
  obtain ⟨l, r⟩ := x
  simp only at h
  subst h
  simp [firstSome]

theorem firstSome_end_none {ε α : Type} (l : List ε) (a : Option α) :
    firstSome (⟨l, .returned none⟩ : Exec ε (Option α)) ⟨[], .returned a⟩ =
      ⟨l, .returned a⟩ := by
  simp [firstSome]

theorem firstSome_end_returns {ε α : Type} (x : Exec ε (Option α)) (a : Option α)
    (h : ∃ r, x.ret = .returned r) : ∃ r, (firstSome x ⟨[], .returned a⟩).ret = .returned r := by
  obtain ⟨l, r⟩ := x
  obtain ⟨b, hb⟩ := h
  simp only at hb
  subst hb
  cases b <;> simp [firstSome]

theorem collectFlatKeyed_eq (ParseFloat : String → Option ℚ) (valueType : ValueType)
    (f path : String) (descs : List (String × desc)) :
    collectFlatKeyed ParseFloat valueType f path descs =
      firstSome
        (visitFlatKeyedLines (collectFlatKeyedKV ParseFloat valueType path descs) (scanLines f))
        ⟨[], .returned (scanErr f)⟩ :=
  visitFlatKeyed_eq f _

/-- Every raw line of a content fits the buffer: the scanner delivers all the lines and
ends without an error. -/
theorem scanErr_of_fits (r : String)
    (hfit : ∀ l ∈ rawLines r.data, byteLen l < MaxScanTokenSize) : scanErr r = none := by
  have h : (rawLines r.data).all fits = true := by
    rw [List.all_eq_true]
    intro l hl
    simp [fits, hfit l hl]
  simp [scanErr, h]

theorem scanLines_of_fits (r : String)
    (hfit : ∀ l ∈ rawLines r.data, byteLen l < MaxScanTokenSize) :
    scanLines r = (rawLines r.data).map (fun l => String.mk (dropCR l)) := by
  have h : (rawLines r.data).takeWhile fits = rawLines r.data := by
    rw [List.takeWhile_eq_self_iff]
    intro l hl
    simp [fits, hfit l hl]
  simp [scanLines, h]

theorem collectFlatKeyedKV_unknown (ParseFloat : String → Option ℚ) (valueType : ValueType)
    (path : String) (descs : List (String × desc)) (k v : String)
    (hk : List.lookup k descs = none) :
    collectFlatKeyedKV ParseFloat valueType path descs k v = ⟨[], .returned none⟩ := by
  simp only [collectFlatKeyedKV, hk]
  rfl

theorem collectFlatKeyedKV_unparseable (ParseFloat : String → Option ℚ)
    (valueType : ValueType) (path : String) (descs : List (String × desc)) (k v : String)
    (d : desc) (hk : List.lookup k descs = some d) (hv : ParseFloat v = none) :
    collectFlatKeyedKV ParseFloat valueType path descs k v =
      ⟨[], .returned (some (.failedToParseValue v))⟩ := by
  simp only [collectFlatKeyedKV, hk, hv]
  rfl

theorem collectFlatKeyedKV_known (ParseFloat : String → Option ℚ) (valueType : ValueType)
    (path : String) (descs : List (String × desc)) (k v : String) (d : desc) (x : ℚ)
    (hk : List.lookup k descs = some d) (hv : ParseFloat v = some x)
    (hd : d.desc.variableLabels.length = 1) :
    collectFlatKeyedKV ParseFloat valueType path descs k v =
      ⟨[⟨d.desc, valueType, applyModifier d x, [path]⟩], .returned none⟩ := by
  simp only [collectFlatKeyedKV, hk, hv]
  simp [MustNewConstMetric, NewConstMetric, hd, goPanic, send, applyModifier]

/-- A list of length two is a pair. -/
theorem length_two {α : Type} {l : List α} (h : l.length = 2) : ∃ a b, l = [a, b] := by
  match l, h with
  | [a, b], _ => exact ⟨a, b, rfl⟩

/-- The loop body of `visitFlatKeyed` either rejects the line or calls the visitor on
its two fields. -/
theorem visitFlatKeyedLine_cases {ε : Type} (visitKV : kvVisitor ε) (line : String) :
    ((Split line ' ').length ≠ 2 ∧
      visitFlatKeyedLine visitKV line = ⟨[], .returned (some (.invalidKeyValuePair line))⟩) ∨
    ∃ a b, Split line ' ' = [a, b] ∧ visitFlatKeyedLine visitKV line = visitKV a b := by
  by_cases h : (Split line ' ').length = 2
  · right
    obtain ⟨a, b, hab⟩ := length_two h
    exact ⟨a, b, hab, by simp [visitFlatKeyedLine, hab]⟩
  · left
    exact ⟨h, by simp [visitFlatKeyedLine, h]⟩

theorem visitFlatKeyedLine_pair {ε : Type} (visitKV : kvVisitor ε) (k v : String)
    (hk : ' ' ∉ k.data) (hv : ' ' ∉ v.data) :
    visitFlatKeyedLine visitKV (k ++ " " ++ v) = visitKV k v := by
  have h : Split (k ++ " " ++ v) ' ' = [k, v] := Split_pair ' ' k v hk hv
  simp [visitFlatKeyedLine, h]

theorem visitFlatKeyedLines_cons {ε : Type} (visitKV : kvVisitor ε) (line : String)
    (rest : List String) :
    visitFlatKeyedLines visitKV (line :: rest) =
      Exec.bind (visitFlatKeyedLine visitKV line) (fun r =>
        match r with
        | some err => ⟨[], .returned (some err)⟩
        | none => visitFlatKeyedLines visitKV rest) := rfl

theorem visitFlatKeyedLines_append {ε : Type} (visitKV : kvVisitor ε)
    (pre rest : List String) :
    visitFlatKeyedLines visitKV (pre ++ rest) =
      Exec.bind (visitFlatKeyedLines visitKV pre) (fun r =>
        match r with
        | some err => ⟨[], .returned (some err)⟩
        | none => visitFlatKeyedLines visitKV rest) := by
  induction pre with
  | nil => simp [visitFlatKeyedLines]
  | cons line ls ih =>
    simp only [List.cons_append, visitFlatKeyedLines_cons, Exec.bind_assoc]
    congr 1
    funext r
    cases r with
    | none => exact ih
    | some err => simp

theorem lookup_mem_snd {β : Type} (k : String) (d : β) (l : List (String × β))
    (h : List.lookup k l = some d) : ∃ p ∈ l, p.2 = d := by
  induction l with
  | nil => simp [List.lookup] at h
  | cons q qs ih =>
    obtain ⟨a, b⟩ := q
    simp only [List.lookup] at h
    split at h
    · exact ⟨(a, b), List.mem_cons_self _ _, Option.some.inj h⟩
    · obtain ⟨p, hp, hpd⟩ := ih h
      exact ⟨p, List.mem_cons_of_mem _ hp, hpd⟩

/-- With one-label descriptors the flat visitor always returns: it never panics. -/
theorem collectFlatKeyedKV_returns (ParseFloat : String → Option ℚ) (valueType : ValueType)
    (path : String) (descs : List (String × desc))
    (hlabels : ∀ p ∈ descs, p.2.desc.variableLabels.length = 1) (k v : String) :
    ∃ l r, collectFlatKeyedKV ParseFloat valueType path descs k v = ⟨l, .returned r⟩ := by
  cases hk : List.lookup k descs with
  | none => exact ⟨_, _, collectFlatKeyedKV_unknown _ _ _ _ k v hk⟩
  | some d =>
    cases hv : ParseFloat v with
    | none => exact ⟨_, _, collectFlatKeyedKV_unparseable _ _ _ _ k v d hk hv⟩
    | some x =>
      obtain ⟨p, hp, hpd⟩ := lookup_mem_snd k d descs hk
      exact ⟨_, _, collectFlatKeyedKV_known _ _ _ _ k v d x hk hv (hpd ▸ hlabels p hp)⟩

/-- With one-label descriptors the flat decoder always returns: it never panics. -/
theorem collectFlatKeyed_lines_returns (ParseFloat : String → Option ℚ)
    (valueType : ValueType) (path : String) (descs : List (String × desc))
    (hlabels : ∀ p ∈ descs, p.2.desc.variableLabels.length = 1) (lines : List String) :
    ∃ r, (visitFlatKeyedLines (collectFlatKeyedKV ParseFloat valueType path descs) lines).ret
      = .returned r := by
  induction lines with
  | nil => exact ⟨none, rfl⟩
  | cons line rest ih =>
    rw [visitFlatKeyedLines_cons]
    rcases visitFlatKeyedLine_cases (collectFlatKeyedKV ParseFloat valueType path descs) line
      with ⟨_, h⟩ | ⟨a, b, _, h⟩
    · rw [h]
      exact ⟨_, rfl⟩
    · obtain ⟨l, r, hkv⟩ := collectFlatKeyedKV_returns ParseFloat valueType path descs hlabels a b
      rw [h, hkv]
      cases r with
      | none => simpa using ih
      | some err => exact ⟨_, rfl⟩

/-- A line on which the loop body returns an error without sending anything ends the
run: what was sent is what the lines before it send, and the run ends with an error
unless it panicked before. -/
theorem visitFlatKeyedLines_stop {ε : Type} (visitKV : kvVisitor ε)
    (pre : List String) (bad : String) (post : List String) (e : GoError)
    (hbad : visitFlatKeyedLine visitKV bad = ⟨[], .returned (some e)⟩) :
    (visitFlatKeyedLines visitKV (pre ++ bad :: post)).sent =
        (visitFlatKeyedLines visitKV pre).sent ∧
      ((∃ r, (visitFlatKeyedLines visitKV pre).ret = .returned r) →
        ∃ e', (visitFlatKeyedLines visitKV (pre ++ bad :: post)).ret = .returned (some e')) := by
  rw [visitFlatKeyedLines_append, visitFlatKeyedLines_cons, hbad]
  obtain ⟨l, r⟩ := visitFlatKeyedLines visitKV pre
  cases r with
  | panicked p =>
    refine ⟨rfl, ?_⟩
    rintro ⟨r, hr⟩
    cases hr
  | returned r =>
    cases r with
    | none => exact ⟨by simp, fun _ => ⟨e, by simp⟩⟩
    | some err => exact ⟨by simp, fun _ => ⟨err, by simp⟩⟩

theorem flat_line_not_mem (k v : String) (d : Char) (hd : isSpace d = true) (hne : d ≠ ' ')
    (hk : ∀ c ∈ k.data, isSpace c = false) (hv : ∀ c ∈ v.data, isSpace c = false) :
    d ∉ (k ++ " " ++ v).data := by
  have h : (k ++ " " ++ v).data = k.data ++ ' ' :: v.data := by simp [String.data_append]
  rw [h]
  intro hm
  rcases List.mem_append.1 hm with hm | hm
  · exact not_mem_of_not_isSpace hk hd hm
  · rcases List.mem_cons.1 hm with hm | hm
    · exact hne hm
    · exact not_mem_of_not_isSpace hv hd hm

/-- The scanner reads the content `flatContent kvs` as the lines `KEY VALUE` of the pairs,
when the fields hold no white space. -/
theorem scanLines_flatContent (kvs : List (String × String))
    (hkv : ∀ p ∈ kvs, (∀ c ∈ p.1.data, isSpace c = false) ∧ (∀ c ∈ p.2.data, isSpace c = false))
    (hfit : ∀ p ∈ kvs, byteLen (p.1 ++ " " ++ p.2).data < MaxScanTokenSize) :
    scanLines (flatContent kvs) = kvs.map (fun p => p.1 ++ " " ++ p.2) := by
  induction kvs with
  | nil => rfl
  | cons p rest ih =>
    have hp := hkv p (List.mem_cons_self _ _)
    have hscan : scanLines (flatContent (p :: rest)) =
        (p.1 ++ " " ++ p.2) :: scanLines (flatContent rest) :=
      scanLines_line (p.1 ++ " " ++ p.2) (flatContent rest)
        (flat_line_not_mem p.1 p.2 '\n' (by decide) (by decide) hp.1 hp.2)
        (flat_line_not_mem p.1 p.2 '\r' (by decide) (by decide) hp.1 hp.2)
        (hfit p (List.mem_cons_self _ _))
    rw [hscan, ih (fun q hq => hkv q (List.mem_cons_of_mem _ hq))
      (fun q hq => hfit q (List.mem_cons_of_mem _ hq))]
    rfl

/-- The flat decoder on lines `KEY VALUE`. -/
theorem visitFlatKeyedLines_pairs (ParseFloat : String → Option ℚ) (valueType : ValueType)
    (path : String) (descs : List (String × desc)) (kvs : List (String × String))
    (hkv : ∀ p ∈ kvs, ' ' ∉ p.1.data ∧ ' ' ∉ p.2.data)
    (hnum : ∀ p ∈ kvs, (List.lookup p.1 descs).isSome = true → (ParseFloat p.2).isSome = true)
    (hlabels : ∀ p ∈ descs, p.2.desc.variableLabels.length = 1) :
    visitFlatKeyedLines (collectFlatKeyedKV ParseFloat valueType path descs)
        (kvs.map (fun p => p.1 ++ " " ++ p.2)) =
      ⟨flatRecords ParseFloat valueType path descs kvs, .returned none⟩ := by
  induction kvs with
  | nil => rfl
  | cons p rest ih =>
    have hp := hkv p (List.mem_cons_self _ _)
    have ih' := ih (fun q hq => hkv q (List.mem_cons_of_mem _ hq))
      (fun q hq => hnum q (List.mem_cons_of_mem _ hq))
    rw [List.map_cons, visitFlatKeyedLines_cons, ih',
      visitFlatKeyedLine_pair _ p.1 p.2 hp.1 hp.2]
    cases hk : List.lookup p.1 descs with
    | none =>
      rw [collectFlatKeyedKV_unknown _ _ _ _ _ _ hk]
      simp [flatRecords, List.filterMap_cons, hk]
    | some d =>
      obtain ⟨x, hx⟩ := Option.isSome_iff_exists.1
        (hnum p (List.mem_cons_self _ _) (by rw [hk]; rfl))
      obtain ⟨q, hq, hqd⟩ := lookup_mem_snd p.1 d descs hk
      rw [collectFlatKeyedKV_known _ _ _ _ _ _ d x hk hx (hqd ▸ hlabels q hq)]
      simp [flatRecords, List.filterMap_cons, hk, hx]

theorem byteLen_append (a b : List Char) : byteLen (a ++ b) = byteLen a + byteLen b := by
  simp [byteLen]

theorem byteLen_replicate (n : Nat) (c : Char) :
    byteLen (List.replicate n c) = n * utf8Len c := by
  simp [byteLen]

/-- The word `longWord` has `MaxScanTokenSize` bytes, and holds neither a newline nor a
space. -/
theorem longWord_facts :
    byteLen longWord.data = MaxScanTokenSize ∧ '\n' ∉ longWord.data ∧ ' ' ∉ longWord.data := by
  refine ⟨?_, ?_, ?_⟩
  · show byteLen (List.replicate MaxScanTokenSize 'a') = MaxScanTokenSize
    rw [byteLen_replicate, show utf8Len 'a' = 1 from rfl, Nat.mul_one]
  · intro h
    exact absurd (List.eq_of_mem_replicate h) (by decide)
  · intro h
    exact absurd (List.eq_of_mem_replicate h) (by decide)

/-- C4 as stated fails: the content of the three lines `low 1`, `unknownkey aaa...`
(`MaxScanTokenSize` letters `a`) and `oom_kill 3` is well formed, every line being
`KEY VALUE` with a numeric value for the registered keys `low` and `oom_kill`, so that
the records expected are those of `low` and `oom_kill`.  But the scanner does not
deliver the second line: `collectFlatKeyed` sends the record of `low` only and returns
the error `token too long` of `bufio`. -/
theorem collectFlatKeyed_line_too_long :
    flatRecords parseUnsigned .CounterValue "system.slice" memoryEventsDescs
        [("low", "1"), ("unknownkey", longWord), ("oom_kill", "3")] =
      [⟨NewDesc "cgroup_memory_events_low_total" "" ["cgroup"], .CounterValue, 1,
          ["system.slice"]⟩,
        ⟨NewDesc "cgroup_memory_events_oom_kill_total" "" ["cgroup"], .CounterValue, 3,
          ["system.slice"]⟩] ∧
      collectFlatKeyed parseUnsigned .CounterValue
          (flatContent [("low", "1"), ("unknownkey", longWord), ("oom_kill", "3")])
          "system.slice" memoryEventsDescs =
        ⟨[⟨NewDesc "cgroup_memory_events_low_total" "" ["cgroup"], .CounterValue, 1,
          ["system.slice"]⟩], .returned (some .tokenTooLong)⟩ := by
  have hn : '\n' ∉ ("unknownkey" ++ " " ++ longWord).data := by
    rw [String.data_append]
    intro h
    rcases List.mem_append.1 h with h | h
    · exact absurd h (by decide)
    · exact longWord_facts.2.1 h
  have hlong : MaxScanTokenSize ≤ byteLen ("unknownkey" ++ " " ++ longWord).data := by
    rw [String.data_append, byteLen_append, longWord_facts.1]
    exact Nat.le_add_left _ _
  have h1 := scanLines_line ("low" ++ " " ++ "1")
    (flatContent [("unknownkey", longWord), ("oom_kill", "3")]) (by decide) (by decide)
    (by decide)
  have h1e := scanErr_line ("low" ++ " " ++ "1")
    (flatContent [("unknownkey", longWord), ("oom_kill", "3")]) (by decide) (by decide)
  have h2 := scan_long_line ("unknownkey" ++ " " ++ longWord) (flatContent [("oom_kill", "3")])
    hn hlong
  have hs : scanLines (flatContent [("low", "1"), ("unknownkey", longWord), ("oom_kill", "3")])
      = ["low 1"] := by
    rw [show flatContent [("low", "1"), ("unknownkey", longWord), ("oom_kill", "3")] =
      ("low" ++ " " ++ "1") ++ "\n" ++
        flatContent [("unknownkey", longWord), ("oom_kill", "3")] from rfl, h1]
    rw [show flatContent [("unknownkey", longWord), ("oom_kill", "3")] =
      ("unknownkey" ++ " " ++ longWord) ++ "\n" ++ flatContent [("oom_kill", "3")] from rfl,
      h2.1]
    rfl
  have he : scanErr (flatContent [("low", "1"), ("unknownkey", longWord), ("oom_kill", "3")])
      = some .tokenTooLong := by
    rw [show flatContent [("low", "1"), ("unknownkey", longWord), ("oom_kill", "3")] =
      ("low" ++ " " ++ "1") ++ "\n" ++
        flatContent [("unknownkey", longWord), ("oom_kill", "3")] from rfl, h1e]
    exact h2.2
  refine ⟨?_, ?_⟩
  · rfl
  · rw [collectFlatKeyed_eq, hs, he]
    decide

/-- C4 (amended): on a content of which the scanner delivers the lines `KEY VALUE` of
`kvs` (two fields without a space, joined by one space) and in which the value of every
registered key is numeric, for a sub-key mapping of one-label descriptors (as for every
flat handler of the registry), `collectFlatKeyed` sends exactly the records
`flatRecords`: in line order, one per line whose key is in the mapping, with the
mapping's descriptor, the parsed value after the unit modifier if any, and the cgroup
path as single label value; lines with unknown keys send nothing and raise no error.  It
returns the error of the scanner, which is `nil` when every raw line of the content is
shorter than `MaxScanTokenSize` bytes: then the scanner delivers all the lines of the
content, and `collectFlatKeyed` returns `nil`. -/
theorem collectFlatKeyed_wellformed (ParseFloat : String → Option ℚ) (valueType : ValueType)
    (path : String) (descs : List (String × desc)) (content : String)
    (kvs : List (String × String))
    (hlines : scanLines content = kvs.map (fun p => p.1 ++ " " ++ p.2))
    (hkv : ∀ p ∈ kvs, ' ' ∉ p.1.data ∧ ' ' ∉ p.2.data)
    (hnum : ∀ p ∈ kvs, (List.lookup p.1 descs).isSome = true → (ParseFloat p.2).isSome = true)
    (hlabels : ∀ p ∈ descs, p.2.desc.variableLabels.length = 1) :
    collectFlatKeyed ParseFloat valueType content path descs =
        ⟨flatRecords ParseFloat valueType path descs kvs, .returned (scanErr content)⟩ ∧
      ((∀ l ∈ rawLines content.data, byteLen l < MaxScanTokenSize) →
        (rawLines content.data).map (fun l => String.mk (dropCR l)) =
            kvs.map (fun p => p.1 ++ " " ++ p.2) ∧
          collectFlatKeyed ParseFloat valueType content path descs =
            ⟨flatRecords ParseFloat valueType path descs kvs, .returned none⟩) := by
  have h : collectFlatKeyed ParseFloat valueType content path descs =
      ⟨flatRecords ParseFloat valueType path descs kvs, .returned (scanErr content)⟩ := by
    rw [collectFlatKeyed_eq, hlines,
      visitFlatKeyedLines_pairs ParseFloat valueType path descs kvs hkv hnum hlabels,
      firstSome_end_none]
  refine ⟨h, fun hfit => ⟨?_, ?_⟩⟩
  · rw [← scanLines_of_fits content hfit, hlines]
  · rw [h, scanErr_of_fits content hfit]

/-- Instance of C4 (amended) on three lines of a `memory.events` file, one with an unknown
key: two counters, for `low` and `oom_kill`, and `nil`. -/
theorem collectFlatKeyed_wellformed_witness :
    collectFlatKeyed parseUnsigned .CounterValue "low 1\nunknownkey x\noom_kill 3\n"
        "system.slice" memoryEventsDescs =
      ⟨[⟨NewDesc "cgroup_memory_events_low_total" "" ["cgroup"], .CounterValue, 1,
          ["system.slice"]⟩,
        ⟨NewDesc "cgroup_memory_events_oom_kill_total" "" ["cgroup"], .CounterValue, 3,
          ["system.slice"]⟩], .returned none⟩ :=
  ((collectFlatKeyed_wellformed parseUnsigned .CounterValue "system.slice" memoryEventsDescs
    "low 1\nunknownkey x\noom_kill 3\n" [("low", "1"), ("unknownkey", "x"), ("oom_kill", "3")]
    (by decide) (by decide) (by decide) (by decide)).2 (by decide)).2.trans (by decide)

/-- C6: when the lines of a content are those of `before` followed by a line `KEY VALUE`
whose key is in the sub-key mapping and whose value `ParseFloat` rejects (and any further
lines), `collectFlatKeyed`, for a sub-key mapping of one-label descriptors, returns an
error and sends exactly what it sends on `before` alone: no record for that line or any
later line. -/
theorem collectFlatKeyed_unparseable_value (ParseFloat : String → Option ℚ)
    (valueType : ValueType) (path : String) (descs : List (String × desc))
    (content before bad k v : String) (post : List String)
    (hlines : scanLines content = scanLines before ++ bad :: post)
    (hsplit : Split bad ' ' = [k, v])
    (hk : (List.lookup k descs).isSome = true) (hv : ParseFloat v = none)
    (hlabels : ∀ p ∈ descs, p.2.desc.variableLabels.length = 1) :
    (∃ e, (collectFlatKeyed ParseFloat valueType content path descs).ret = .returned (some e)) ∧
      (collectFlatKeyed ParseFloat valueType content path descs).sent =
        (collectFlatKeyed ParseFloat valueType before path descs).sent := by
  obtain ⟨d, hd⟩ := Option.isSome_iff_exists.1 hk
  have hline : visitFlatKeyedLine (collectFlatKeyedKV ParseFloat valueType path descs) bad =
      ⟨[], .returned (some (.failedToParseValue v))⟩ := by
    simp [visitFlatKeyedLine, hsplit, collectFlatKeyedKV_unparseable _ _ _ _ k v d hd hv]
  have hstop := visitFlatKeyedLines_stop (collectFlatKeyedKV ParseFloat valueType path descs)
    (scanLines before) bad post _ hline
  obtain ⟨e, he⟩ :=
    hstop.2 (collectFlatKeyed_lines_returns ParseFloat valueType path descs hlabels _)
  simp only [collectFlatKeyed_eq, hlines, firstSome_end_sent]
  exact ⟨⟨e, firstSome_end_ret _ _ e he⟩, hstop.1⟩

/-- Instance of C6: a `memory.events` content whose second line has a non-numeric value
for the registered key `high`. -/
theorem collectFlatKeyed_unparseable_value_witness :
    (∃ e, (collectFlatKeyed parseUnsigned .CounterValue "low 1\nhigh x\nmax 4\n"
        "system.slice" memoryEventsDescs).ret = .returned (some e)) ∧
      (collectFlatKeyed parseUnsigned .CounterValue "low 1\nhigh x\nmax 4\n"
        "system.slice" memoryEventsDescs).sent =
        (collectFlatKeyed parseUnsigned .CounterValue "low 1\n"
          "system.slice" memoryEventsDescs).sent :=
  collectFlatKeyed_unparseable_value parseUnsigned .CounterValue "system.slice"
    memoryEventsDescs "low 1\nhigh x\nmax 4\n" "low 1\n" "high x" "high" "x" ["max 4"]
    (by decide) (by decide) (by decide) (by decide) (by decide)

/-! ## Text of nested lines -/

theorem Split_length_pos (s : String) (sep : Char) : 0 < (Split s sep).length := by
  simp [Split]

theorem tokenText_data (t : String × String) :
    (tokenText t).data = t.1.data ++ '=' :: t.2.data := by
  simp [tokenText, String.data_append]

theorem tokensText_cons_data (t : String × String) (ts : List (String × String)) :
    (tokensText (t :: ts)).data = ' ' :: ((tokenText t).data ++ (tokensText ts).data) := by
  simp [tokensText, String.data_append]

/-- No character of a token is white space when none of its key and value is. -/
theorem tokenText_not_isSpace (t : String × String)
    (h1 : ∀ c ∈ t.1.data, isSpace c = false) (h2 : ∀ c ∈ t.2.data, isSpace c = false) :
    ∀ c ∈ (tokenText t).data, isSpace c = false := by
  intro c hc
  rw [tokenText_data] at hc
  rcases List.mem_append.1 hc with hc | hc
  · exact h1 c hc
  · rcases List.mem_cons.1 hc with hc | hc
    · rw [hc]; decide
    · exact h2 c hc

theorem tokenText_ne_nil (t : String × String) : (tokenText t).data ≠ [] := by
  rw [tokenText_data]
  simp

theorem splitFields_tokensText (e : List Char) (toks : List (String × String))
    (he : ' ' ∉ e) (htoks : ∀ t ∈ toks, ' ' ∉ (tokenText t).data) :
    splitFields ' ' (e ++ (tokensText toks).data) =
      (e, toks.map (fun t => (tokenText t).data)) := by
  induction toks generalizing e with
  | nil => simpa [tokensText] using splitFields_of_not_mem ' ' e he
  | cons t ts ih =>
    rw [tokensText_cons_data, splitFields_append_sep ' ' e _ he,
      ih (tokenText t).data (htoks t (List.mem_cons_self _ _))
        (fun u hu => htoks u (List.mem_cons_of_mem _ hu))]
    rfl

/-- The last character of a list ending in a non-empty run of non-blank characters. -/
theorem getLast?_not_isSpace (l1 l2 : List Char) (hne : l2 ≠ [])
    (h2 : ∀ c ∈ l2, isSpace c = false) :
    ∀ c, (l1 ++ l2).getLast? = some c → isSpace c = false := by
  intro c hc
  rw [List.getLast?_append_of_ne_nil l1 hne] at hc
  exact h2 c (List.mem_of_getLast?_eq_some hc)

theorem tokensText_getLast (e : List Char) (toks : List (String × String))
    (he : ∀ c, e.getLast? = some c → isSpace c = false)
    (htoks : ∀ t ∈ toks, ∀ c ∈ (tokenText t).data, isSpace c = false) :
    ∀ c, (e ++ (tokensText toks).data).getLast? = some c → isSpace c = false := by
  induction toks generalizing e with
  | nil => simpa [tokensText] using he
  | cons t ts ih =>
    have h := ih (e ++ ' ' :: (tokenText t).data)
      (by
        have := getLast?_not_isSpace (e ++ [' ']) (tokenText t).data (tokenText_ne_nil t)
          (htoks t (List.mem_cons_self _ _))
        simpa using this)
      (fun u hu => htoks u (List.mem_cons_of_mem _ hu))
    rw [tokensText_cons_data]
    simpa using h

/-- Trimming of a text that neither starts nor ends with white space, followed by white
space. -/
theorem trim_body_trail (body trail : List Char)
    (hfirst : ∀ c, body.head? = some c → isSpace c = false)
    (hlast : ∀ c, body.getLast? = some c → isSpace c = false)
    (htrail : ∀ c ∈ trail, isSpace c = true) :
    (((body ++ trail).dropWhile isSpace).reverse.dropWhile isSpace).reverse = body := by
  cases body with
  | nil =>
    have h : trail.dropWhile isSpace = [] := List.dropWhile_eq_nil_iff.2 htrail
    simp [h]
  | cons b bs =>
    have hb : isSpace b = false := hfirst b rfl
    have h1 : ((b :: bs) ++ trail).dropWhile isSpace = (b :: bs) ++ trail := by
      simp [List.dropWhile, hb]
    rw [h1, List.reverse_append,
      List.dropWhile_append_of_pos (fun c hc => htrail c (List.mem_reverse.1 hc))]
    have h2 : (b :: bs).reverse.dropWhile isSpace = (b :: bs).reverse := by
      cases hr : (b :: bs).reverse with
      | nil => rfl
      | cons x xs =>
        have hx : (b :: bs).getLast? = some x := by
          rw [List.getLast?_eq_head?_reverse, hr]
          rfl
        simp [List.dropWhile, hlast x hx]
    rw [h2, List.reverse_reverse]

/-- Trimming and splitting of a nested line gives the entry name and the tokens. -/
theorem Split_TrimSpace_text (entry : String) (toks : List (String × String))
    (trail : String)
    (hentry : ∀ c ∈ entry.data, isSpace c = false)
    (htoks : ∀ t ∈ toks, (∀ c ∈ t.1.data, isSpace c = false) ∧ (∀ c ∈ t.2.data, isSpace c = false))
    (htrail : ∀ c ∈ trail.data, isSpace c = true)
    (hne : entry ≠ "" ∨ toks = []) :
    Split (TrimSpace (NestedLine.mk entry toks trail).text) ' ' =
      entry :: toks.map tokenText := by
  have htok : ∀ t ∈ toks, ∀ c ∈ (tokenText t).data, isSpace c = false :=
    fun t ht => tokenText_not_isSpace t (htoks t ht).1 (htoks t ht).2
  have hfirst : ∀ c, (entry.data ++ (tokensText toks).data).head? = some c →
      isSpace c = false := by
    intro c hc
    cases he : entry.data with
    | nil =>
      rcases hne with hne | hne
      · exact absurd (String.ext he) hne
      · rw [he, hne] at hc
        simp [tokensText] at hc
    | cons x xs =>
      rw [he] at hc
      simp only [List.cons_append, List.head?_cons, Option.some.injEq] at hc
      exact hc ▸ hentry x (he ▸ List.mem_cons_self _ _)
  have hlast := tokensText_getLast entry.data toks
    (fun c hc => hentry c (List.mem_of_getLast?_eq_some hc)) htok
  have htrim : TrimSpace (NestedLine.mk entry toks trail).text = entry ++ tokensText toks := by
    have h := trim_body_trail (entry.data ++ (tokensText toks).data) trail.data hfirst hlast
      htrail
    apply String.ext
    simpa [TrimSpace, NestedLine.text, String.data_append] using h
  have hsplit := splitFields_tokensText entry.data toks
    (not_mem_of_not_isSpace hentry (by decide))
    (fun t ht => not_mem_of_not_isSpace (htok t ht) (by decide))
  simp [htrim, Split, String.data_append, hsplit, Function.comp_def]

/-! ## Loops with an early return -/

theorem firstSome_some {ε α : Type} (l : List ε) (a : α) (next : Exec ε (Option α)) :
    firstSome ⟨l, .returned (some a)⟩ next = ⟨l, .returned (some a)⟩ := by
  simp [firstSome]

theorem firstSome_none {ε α : Type} (l : List ε) (next : Exec ε (Option α)) :
    firstSome ⟨l, .returned none⟩ next = ⟨l ++ next.sent, next.ret⟩ := by
  simp [firstSome]

theorem firstSome_panicked {ε α : Type} (l : List ε) (p : Panic) (next : Exec ε (Option α)) :
    firstSome ⟨l, .panicked p⟩ next = ⟨l, .panicked p⟩ := by
  simp [firstSome]

theorem firstSome_nil_none {ε α : Type} (next : Exec ε (Option α)) :
    firstSome ⟨[], .returned none⟩ next = next := by
  simp [firstSome]

theorem firstSome_right_none {ε α : Type} (x : Exec ε (Option α)) :
    firstSome x ⟨[], .returned none⟩ = x := by
  obtain ⟨l, r⟩ := x
  cases r with
  | panicked p => rfl
  | returned a => cases a <;> simp [firstSome]

theorem firstSome_assoc {ε α : Type} (x y z : Exec ε (Option α)) :
    firstSome (firstSome x y) z = firstSome x (firstSome y z) := by
  obtain ⟨l, r⟩ := x
  cases r with
  | panicked p => rfl
  | returned a =>
    cases a with
    | some a => simp [firstSome]
    | none =>
      obtain ⟨l2, r2⟩ := y
      cases r2 with
      | panicked p => simp [firstSome]
      | returned b => cases b <;> simp [firstSome]

theorem firstSome_bind {ε α β : Type} (x : Exec ε β) (g : β → Exec ε (Option α))
    (next : Exec ε (Option α)) :
    firstSome (Exec.bind x g) next = Exec.bind x (fun b => firstSome (g b) next) := by
  simp only [firstSome, Exec.bind_assoc]

/-- Once a step returns without sending, what follows it does not matter. -/
theorem firstSome_stop {ε α : Type} (a : α) (next : Exec ε (Option α)) :
    firstSome ⟨[], .returned (some a)⟩ next = ⟨[], .returned (some a)⟩ :=
  firstSome_some [] a next

/-- A run that is stopped by an error after `y`: it sends what `y` sends, and it returns
an error when `y` neither panics nor returns `nil` from inside the loop. -/
theorem finish_firstSome_stop {ε : Type} {a b : Option GoError}
    (y : Exec ε (Option (Option GoError))) (e : GoError) :
    (finish a (firstSome y ⟨[], .returned (some (some e))⟩)).sent = (finish b y).sent ∧
      (y.ret ≠ .returned (some none) → (∃ r, (finish b y).ret = .returned r) →
        ∃ e', (finish a (firstSome y ⟨[], .returned (some (some e))⟩)).ret =
          .returned (some e')) := by
  obtain ⟨l, r⟩ := y
  cases r with
  | panicked p =>
    refine ⟨rfl, fun _ h => ?_⟩
    obtain ⟨r, hr⟩ := h
    cases hr
  | returned a =>
    cases a with
    | none => exact ⟨by simp [finish, firstSome], fun _ _ => ⟨e, by simp [finish, firstSome]⟩⟩
    | some b =>
      cases b with
      | none => exact ⟨by simp [finish, firstSome], fun h _ => absurd rfl h⟩
      | some e' =>
        exact ⟨by simp [finish, firstSome], fun _ _ => ⟨e', by simp [finish, firstSome]⟩⟩

/-! ## Nested decoder: structure of the loops -/

theorem visitNestedKeyedTokens_cons {ε : Type} (k : String) (visitKV : kvVisitor ε)
    (v : String) (vs : List String) :
    visitNestedKeyedTokens k visitKV (v :: vs) =
      firstSome (visitNestedKeyedToken k visitKV v) (visitNestedKeyedTokens k visitKV vs) := by
  rw [visitNestedKeyedTokens]
  simp only [firstSome, bind_eq_Exec_bind, pure_eq_mk]
  congr 1
  funext r
  cases r <;> rfl

theorem visitNestedKeyedTokens_append {ε : Type} (k : String) (visitKV : kvVisitor ε)
    (vs1 vs2 : List String) :
    visitNestedKeyedTokens k visitKV (vs1 ++ vs2) =
      firstSome (visitNestedKeyedTokens k visitKV vs1)
        (visitNestedKeyedTokens k visitKV vs2) := by
  induction vs1 with
  | nil => exact (firstSome_nil_none _).symm
  | cons v vs ih =>
    rw [List.cons_append, visitNestedKeyedTokens_cons, visitNestedKeyedTokens_cons, ih,
      firstSome_assoc]

theorem visitNestedKeyedRun_cons {ε : Type} (visitEntry : entryVisitor ε) (line : String)
    (rest : List String) :
    visitNestedKeyedRun visitEntry (line :: rest) =
      firstSome (visitNestedKeyedLine visitEntry line) (visitNestedKeyedRun visitEntry rest) :=
  rfl

theorem visitNestedKeyedRun_append {ε : Type} (visitEntry : entryVisitor ε)
    (pre rest : List String) :
    visitNestedKeyedRun visitEntry (pre ++ rest) =
      firstSome (visitNestedKeyedRun visitEntry pre) (visitNestedKeyedRun visitEntry rest) := by
  induction pre with
  | nil => exact (firstSome_nil_none _).symm
  | cons line ls ih =>
    rw [List.cons_append, visitNestedKeyedRun_cons, visitNestedKeyedRun_cons, ih,
      firstSome_assoc]

/-- The loop of `visitNestedKeyed` is the run over the lines followed by the final
`return`. -/
theorem visitNestedKeyedLines_eq_finish {ε : Type} (visitEntry : entryVisitor ε)
    (atEnd : Option GoError) (lines : List String) :
    visitNestedKeyedLines visitEntry atEnd lines =
      finish atEnd (visitNestedKeyedRun visitEntry lines) := by
  induction lines with
  | nil => rfl
  | cons line rest ih =>
    simp only [visitNestedKeyedLines, visitNestedKeyedRun, finish, firstSome,
      bind_eq_Exec_bind, Exec.bind_assoc]
    congr 1
    funext r
    cases r with
    | some a => simp
    | none => simpa [finish] using ih

theorem visitNestedKeyed_eq {ε : Type} (r : String) (visitEntry : entryVisitor ε) :
    visitNestedKeyed r visitEntry =
      finish (scanErr r) (visitNestedKeyedRun visitEntry (scanLines r)) :=
  visitNestedKeyedLines_eq_finish visitEntry (scanErr r) (scanLines r)

theorem visitNestedKeyedToken_malformed {ε : Type} (k : String) (visitKV : kvVisitor ε)
    (v : String) (hv : (Split v '=').length ≠ 2) :
    visitNestedKeyedToken k visitKV v =
      ⟨[], .returned (some (some (.invalidNestedKeyValuePair k v (Split v '=').length)))⟩ := by
  have h0 : (Split v '=').length ≠ 0 := Nat.pos_iff_ne_zero.1 (Split_length_pos v '=')
  simp [visitNestedKeyedToken, h0, hv]

theorem visitNestedKeyedToken_split {ε : Type} (k : String) (visitKV : kvVisitor ε)
    (v a b : String) (hv : Split v '=' = [a, b]) :
    visitNestedKeyedToken k visitKV v =
      Exec.bind (visitKV a b) (fun _ => ⟨[], .returned none⟩) := by
  simp [visitNestedKeyedToken, hv]

theorem visitNestedKeyedLine_split {ε : Type} (visitEntry : entryVisitor ε) (line k : String)
    (vs : List String) (h : Split (TrimSpace line) ' ' = k :: vs) :
    visitNestedKeyedLine visitEntry line =
      Exec.bind (visitEntry k) (fun x =>
        match x with
        | .error err => ⟨[], .returned (some (some err))⟩
        | .ok visitKV => visitNestedKeyedTokens k visitKV vs) := by
  simp only [visitNestedKeyedLine, h]
  rfl

theorem Split_eq_cons (s : String) (sep : Char) : ∃ k vs, Split s sep = k :: vs :=
  ⟨_, _, rfl⟩

theorem firstSome_ret_ne {ε α : Type} (x y : Exec ε (Option (Option α)))
    (hx : x.ret ≠ .returned (some none)) (hy : y.ret ≠ .returned (some none)) :
    (firstSome x y).ret ≠ .returned (some none) := by
  obtain ⟨l, r⟩ := x
  cases r with
  | panicked p => simp [firstSome]
  | returned a =>
    cases a with
    | none => simpa [firstSome] using hy
    | some b => simpa [firstSome] using hx

/-- The loop body for a token never makes the function return `nil`. -/
theorem visitNestedKeyedToken_ret {ε : Type} (k : String) (visitKV : kvVisitor ε) (v : String) :
    (visitNestedKeyedToken k visitKV v).ret ≠ .returned (some none) := by
  by_cases hv : (Split v '=').length = 2
  · obtain ⟨a, b, hab⟩ := length_two hv
    rw [visitNestedKeyedToken_split k visitKV v a b hab]
    obtain ⟨l, r⟩ := visitKV a b
    cases r <;> simp
  · rw [visitNestedKeyedToken_malformed k visitKV v hv]
    simp

theorem visitNestedKeyedTokens_ret {ε : Type} (k : String) (visitKV : kvVisitor ε)
    (vs : List String) :
    (visitNestedKeyedTokens k visitKV vs).ret ≠ .returned (some none) := by
  induction vs with
  | nil => simp [visitNestedKeyedTokens]
  | cons v vs ih =>
    rw [visitNestedKeyedTokens_cons]
    exact firstSome_ret_ne _ _ (visitNestedKeyedToken_ret k visitKV v) ih

theorem visitNestedKeyedLine_ret {ε : Type} (visitEntry : entryVisitor ε) (line : String) :
    (visitNestedKeyedLine visitEntry line).ret ≠ .returned (some none) := by
  obtain ⟨k, vs, h⟩ := Split_eq_cons (TrimSpace line) ' '
  rw [visitNestedKeyedLine_split visitEntry line k vs h]
  obtain ⟨l, r⟩ := visitEntry k
  cases r with
  | panicked p => simp
  | returned x =>
    cases x with
    | error err => simp
    | ok visitKV => simpa using visitNestedKeyedTokens_ret k visitKV vs

/-- The loop of `visitNestedKeyed` never returns `nil` from inside: it returns `nil` only
after the last line. -/
theorem visitNestedKeyedRun_ret {ε : Type} (visitEntry : entryVisitor ε) (lines : List String) :
    (visitNestedKeyedRun visitEntry lines).ret ≠ .returned (some none) := by
  induction lines with
  | nil => simp [visitNestedKeyedRun]
  | cons line rest ih =>
    rw [visitNestedKeyedRun_cons]
    exact firstSome_ret_ne _ _ (visitNestedKeyedLine_ret visitEntry line) ih

/-- A line on which the loop body returns an error without sending ends the run. -/
theorem visitNestedKeyedRun_stop {ε : Type} (visitEntry : entryVisitor ε)
    (pre : List String) (bad : String) (post : List String) (e : GoError)
    (hbad : visitNestedKeyedLine visitEntry bad = ⟨[], .returned (some (some e))⟩) :
    visitNestedKeyedRun visitEntry (pre ++ bad :: post) =
      firstSome (visitNestedKeyedRun visitEntry pre) ⟨[], .returned (some (some e))⟩ := by
  rw [visitNestedKeyedRun_append, visitNestedKeyedRun_cons, hbad, firstSome_stop]

/-- A line whose token `v` is malformed behaves as the line cut before `v`, followed by
the error. -/
theorem visitNestedKeyedLine_malformed_token {ε : Type} (visitEntry : entryVisitor ε)
    (bad cut k : String) (vs1 : List String) (v : String) (vs2 : List String)
    (hbad : Split (TrimSpace bad) ' ' = k :: (vs1 ++ v :: vs2))
    (hcut : Split (TrimSpace cut) ' ' = k :: vs1)
    (hv : (Split v '=').length ≠ 2) :
    visitNestedKeyedLine visitEntry bad =
      firstSome (visitNestedKeyedLine visitEntry cut)
        ⟨[], .returned (some (some (.invalidNestedKeyValuePair k v (Split v '=').length)))⟩ := by
  rw [visitNestedKeyedLine_split visitEntry bad k _ hbad,
    visitNestedKeyedLine_split visitEntry cut k _ hcut, firstSome_bind]
  congr 1
  funext x
  cases x with
  | error err => simp [firstSome]
  | ok visitKV =>
    simp only []
    rw [visitNestedKeyedTokens_append, visitNestedKeyedTokens_cons,
      visitNestedKeyedToken_malformed k visitKV v hv, firstSome_stop]

/-- C9: when a line `bad` of a content has, after its entry name `k` and the tokens
`vs1`, a token `v` that does not split on `=` into exactly two parts, `visitNestedKeyed`
behaves as on the content `truncated` that ends right before `v` (same lines before,
then the entry name with the tokens `vs1` only): the visitors are called, and send,
exactly as there, so no token of the line from `v` on and no later line is processed; and
it returns an error, unless a visitor panicked before `v` was reached. -/
theorem visitNestedKeyed_malformed_token {ε : Type} (visitEntry : entryVisitor ε)
    (content truncated : String) (pre : List String) (bad cut : String) (post : List String)
    (k : String) (vs1 : List String) (v : String) (vs2 : List String)
    (hlines : scanLines content = pre ++ bad :: post)
    (htrunc : scanLines truncated = pre ++ [cut])
    (hbad : Split (TrimSpace bad) ' ' = k :: (vs1 ++ v :: vs2))
    (hcut : Split (TrimSpace cut) ' ' = k :: vs1)
    (hv : (Split v '=').length ≠ 2) :
    (visitNestedKeyed content visitEntry).sent = (visitNestedKeyed truncated visitEntry).sent ∧
      ((∃ r, (visitNestedKeyed truncated visitEntry).ret = .returned r) →
        ∃ e, (visitNestedKeyed content visitEntry).ret = .returned (some e)) := by
  have hrun : visitNestedKeyedRun visitEntry (pre ++ bad :: post) =
      firstSome (visitNestedKeyedRun visitEntry (pre ++ [cut]))
        ⟨[], .returned (some (some (.invalidNestedKeyValuePair k v (Split v '=').length)))⟩ := by
    rw [visitNestedKeyedRun_append, visitNestedKeyedRun_cons,
      visitNestedKeyedLine_malformed_token visitEntry bad cut k vs1 v vs2 hbad hcut hv,
      firstSome_assoc, firstSome_stop, visitNestedKeyedRun_append, visitNestedKeyedRun_cons,
      firstSome_assoc]
    simp only [visitNestedKeyedRun, firstSome_right_none]
  rw [visitNestedKeyed_eq, visitNestedKeyed_eq, hlines, htrunc, hrun]
  have h := @finish_firstSome_stop ε (scanErr content) (scanErr truncated)
    (visitNestedKeyedRun visitEntry (pre ++ [cut]))
    (.invalidNestedKeyValuePair k v (Split v '=').length)
  exact ⟨h.1, h.2 (visitNestedKeyedRun_ret visitEntry _)⟩

/-- Instance of C9: the token `avg60` of the first line has no `=`; the calls made are
those made on the content cut before it, and the result is an error. -/
theorem visitNestedKeyed_malformed_token_witness :
    (visitNestedKeyed "some avg10=0.08 avg60 total=1\nfull total=2\n" recordingEntry).sent =
        (visitNestedKeyed "some avg10=0.08\n" recordingEntry).sent ∧
      ∃ e, (visitNestedKeyed "some avg10=0.08 avg60 total=1\nfull total=2\n"
        recordingEntry).ret = .returned (some e) :=
  have h := visitNestedKeyed_malformed_token recordingEntry
    "some avg10=0.08 avg60 total=1\nfull total=2\n" "some avg10=0.08\n" []
    "some avg10=0.08 avg60 total=1" "some avg10=0.08" ["full total=2"] "some" ["avg10=0.08"]
    "avg60" ["total=1"] (by decide) (by decide) (by decide) (by decide) (by decide)
  ⟨h.1, h.2 ⟨none, by decide⟩⟩

/-! ## Pressure and I/O decoders -/

theorem collectPressure_eq (ParseFloat : String → Option ℚ) (f path : String)
    (descs : List (String × desc)) :
    collectPressure ParseFloat f path descs =
      visitNestedKeyed f (collectPressureEntry ParseFloat path descs) := rfl

theorem collectIOStat_eq (ParseFloat : String → Option ℚ) (f path : String)
    (descs : List (String × desc)) :
    collectIOStat ParseFloat f path descs =
      visitNestedKeyed f (collectIOStatEntry ParseFloat path descs) := rfl

theorem collectPressureKV_other (ParseFloat : String → Option ℚ) (path : String) (d : desc)
    (k v : String) (hk : k ≠ "total") :
    collectPressureKV ParseFloat path d k v = ⟨[], .returned none⟩ := by
  simp [collectPressureKV, hk]

theorem collectPressureKV_unparseable (ParseFloat : String → Option ℚ) (path : String)
    (d : desc) (v : String) (hv : ParseFloat v = none) :
    collectPressureKV ParseFloat path d "total" v =
      ⟨[], .returned (some (.failedToParseValue v))⟩ := by
  simp [collectPressureKV, hv]

theorem collectPressureKV_total (ParseFloat : String → Option ℚ) (path : String) (d : desc)
    (v : String) (x : ℚ) (hv : ParseFloat v = some x)
    (hd : d.desc.variableLabels.length = 1) :
    collectPressureKV ParseFloat path d "total" v =
      ⟨[⟨d.desc, .CounterValue, applyModifier d x, [path]⟩], .returned none⟩ := by
  simp [collectPressureKV, hv, MustNewConstMetric, NewConstMetric, hd, goPanic, send,
    applyModifier]

/-- With a one-label descriptor the pressure visitor sends what `pressureLineRecords`
lists for the token and returns, possibly with an error. -/
theorem collectPressureKV_sent (ParseFloat : String → Option ℚ) (path : String) (d : desc)
    (t : String × String) (hd : d.desc.variableLabels.length = 1) :
    ∃ r, collectPressureKV ParseFloat path d t.1 t.2 =
      ⟨pressureLineRecords ParseFloat path d [t], .returned r⟩ := by
  by_cases hk : t.1 = "total"
  · cases hv : ParseFloat t.2 with
    | none =>
      exact ⟨some (.failedToParseValue t.2), by
        rw [hk, collectPressureKV_unparseable _ _ _ _ hv]; simp [pressureLineRecords, hk, hv]⟩
    | some x =>
      exact ⟨none, by
        rw [hk, collectPressureKV_total _ _ _ _ x hv hd]; simp [pressureLineRecords, hk, hv]⟩
  · exact ⟨none, by rw [collectPressureKV_other _ _ _ _ _ hk]; simp [pressureLineRecords, hk]⟩

theorem pressureLineRecords_cons (ParseFloat : String → Option ℚ) (path : String) (d : desc)
    (t : String × String) (ts : List (String × String)) :
    pressureLineRecords ParseFloat path d (t :: ts) =
      pressureLineRecords ParseFloat path d [t] ++ pressureLineRecords ParseFloat path d ts := by
  simp only [pressureLineRecords, List.filterMap_cons, List.filterMap_nil]
  split <;> simp

theorem tokenText_split (t : String × String)
    (h1 : ∀ c ∈ t.1.data, isSpace c = false ∧ c ≠ '=')
    (h2 : ∀ c ∈ t.2.data, isSpace c = false ∧ c ≠ '=') :
    Split (tokenText t) '=' = [t.1, t.2] :=
  Split_pair '=' t.1 t.2 (fun hm => (h1 _ hm).2 rfl) (fun hm => (h2 _ hm).2 rfl)

/-- The pressure decoder on the well-formed tokens of a line. -/
theorem collectPressure_tokens (ParseFloat : String → Option ℚ) (path : String) (d : desc)
    (k : String) (toks : List (String × String))
    (htoks : ∀ t ∈ toks, (∀ c ∈ t.1.data, isSpace c = false ∧ c ≠ '=') ∧
      (∀ c ∈ t.2.data, isSpace c = false ∧ c ≠ '='))
    (hd : d.desc.variableLabels.length = 1) :
    visitNestedKeyedTokens k (collectPressureKV ParseFloat path d) (toks.map tokenText) =
      ⟨pressureLineRecords ParseFloat path d toks, .returned none⟩ := by
  induction toks with
  | nil => rfl
  | cons t ts ih =>
    have ht := htoks t (List.mem_cons_self _ _)
    obtain ⟨r, hr⟩ := collectPressureKV_sent ParseFloat path d t hd
    rw [List.map_cons, visitNestedKeyedTokens_cons,
      visitNestedKeyedToken_split k _ _ t.1 t.2 (tokenText_split t ht.1 ht.2), hr,
      ih (fun u hu => htoks u (List.mem_cons_of_mem _ hu)),
      pressureLineRecords_cons ParseFloat path d t ts]
    simp [firstSome]

theorem NestedLine.split_text (l : NestedLine) (h : l.wellFormed) :
    Split (TrimSpace l.text) ' ' = l.entry :: l.tokens.map tokenText :=
  Split_TrimSpace_text l.entry l.tokens l.trail h.1
    (fun t ht => ⟨fun c hc => ((h.2.1 t ht).1 c hc).1, fun c hc => ((h.2.1 t ht).2 c hc).1⟩)
    h.2.2.1 h.2.2.2

/-- The pressure decoder on a well-formed line whose entry name is registered. -/
theorem collectPressure_line (ParseFloat : String → Option ℚ) (path : String)
    (descs : List (String × desc)) (l : NestedLine) (d : desc) (hl : l.wellFormed)
    (hentry : List.lookup l.entry descs = some d) (hd : d.desc.variableLabels.length = 1) :
    visitNestedKeyedLine (collectPressureEntry ParseFloat path descs) l.text =
      ⟨pressureLineRecords ParseFloat path d l.tokens, .returned none⟩ := by
  rw [visitNestedKeyedLine_split _ _ _ _ (l.split_text hl)]
  simp only [collectPressureEntry, hentry, pure_eq_mk, Exec_bind_returned]
  rw [collectPressure_tokens ParseFloat path d l.entry l.tokens hl.2.1 hd]
  simp

/-- Records of a pressure line `avg10=… avg60=… avg300=… total=…`: the `total` alone. -/
theorem pressureLineRecords_avg_total (ParseFloat : String → Option ℚ) (path : String)
    (d : desc) (a1 a2 a3 t : String) (n : ℚ) (hn : ParseFloat t = some n) :
    pressureLineRecords ParseFloat path d
        [("avg10", a1), ("avg60", a2), ("avg300", a3), ("total", t)] =
      [⟨d.desc, .CounterValue, applyModifier d n, [path]⟩] := by
  simp [pressureLineRecords, hn]

/-- A pressure line `avg10=… avg60=… avg300=… total=…` is well formed when its values
hold neither white space nor `=`. -/
theorem avg_total_wellFormed (entry a1 a2 a3 t : String)
    (hentry : ∀ c ∈ entry.data, isSpace c = false) (hne : entry ≠ "")
    (hvals : ∀ s ∈ [a1, a2, a3, t], ∀ c ∈ s.data, isSpace c = false ∧ c ≠ '=') :
    (NestedLine.mk entry
      [("avg10", a1), ("avg60", a2), ("avg300", a3), ("total", t)] "").wellFormed := by
  have k1 : ∀ c ∈ "avg10".data, isSpace c = false ∧ c ≠ '=' := by decide
  have k2 : ∀ c ∈ "avg60".data, isSpace c = false ∧ c ≠ '=' := by decide
  have k3 : ∀ c ∈ "avg300".data, isSpace c = false ∧ c ≠ '=' := by decide
  have k4 : ∀ c ∈ "total".data, isSpace c = false ∧ c ≠ '=' := by decide
  have htrail : ∀ c ∈ "".data, isSpace c = true := by decide
  refine ⟨hentry, ?_, htrail, Or.inl hne⟩
  intro u hu
  simp only [List.mem_cons, List.mem_singleton, List.not_mem_nil, or_false] at hu
  rcases hu with rfl | rfl | rfl | rfl
  · exact ⟨k1, hvals a1 (by simp)⟩
  · exact ⟨k2, hvals a2 (by simp)⟩
  · exact ⟨k3, hvals a3 (by simp)⟩
  · exact ⟨k4, hvals t (by simp)⟩

/-- The pressure decoder on a `some` line and a `full` line, for any sub-key mapping
that knows both names with one-label descriptors. -/
theorem collectPressure_two_lines (ParseFloat : String → Option ℚ) (path content : String)
    (descs : List (String × desc)) (dsome dfull : desc)
    (a1 a2 a3 t1 b1 b2 b3 t2 : String) (n1 n2 : ℚ)
    (hsome : List.lookup "some" descs = some dsome)
    (hfull : List.lookup "full" descs = some dfull)
    (hdsome : dsome.desc.variableLabels.length = 1)
    (hdfull : dfull.desc.variableLabels.length = 1)
    (hlines : scanLines content =
      [(NestedLine.mk "some"
          [("avg10", a1), ("avg60", a2), ("avg300", a3), ("total", t1)] "").text,
        (NestedLine.mk "full"
          [("avg10", b1), ("avg60", b2), ("avg300", b3), ("total", t2)] "").text])
    (hvals : ∀ s ∈ [a1, a2, a3, t1, b1, b2, b3, t2],
      ∀ c ∈ s.data, isSpace c = false ∧ c ≠ '=')
    (h1 : ParseFloat t1 = some n1) (h2 : ParseFloat t2 = some n2) :
    collectPressure ParseFloat content path descs =
      ⟨[⟨dsome.desc, .CounterValue, applyModifier dsome n1, [path]⟩,
        ⟨dfull.desc, .CounterValue, applyModifier dfull n2, [path]⟩],
        .returned (scanErr content)⟩ := by
  have hwf1 := avg_total_wellFormed "some" a1 a2 a3 t1 (by decide) (by decide)
    (fun s hs => hvals s (by
      simp only [List.mem_cons, List.mem_singleton, List.not_mem_nil, or_false] at hs ⊢
      tauto))
  have hwf2 := avg_total_wellFormed "full" b1 b2 b3 t2 (by decide) (by decide)
    (fun s hs => hvals s (by
      simp only [List.mem_cons, List.mem_singleton, List.not_mem_nil, or_false] at hs ⊢
      tauto))
  rw [collectPressure_eq, visitNestedKeyed_eq, hlines, visitNestedKeyedRun_cons,
    visitNestedKeyedRun_cons,
    collectPressure_line ParseFloat path descs _ dsome hwf1 hsome hdsome,
    collectPressure_line ParseFloat path descs _ dfull hwf2 hfull hdfull,
    pressureLineRecords_avg_total ParseFloat path dsome a1 a2 a3 t1 n1 h1,
    pressureLineRecords_avg_total ParseFloat path dfull b1 b2 b3 t2 n2 h2]
  simp [visitNestedKeyedRun, firstSome, finish]

theorem digitsValue_zeros (n : Nat) (ds : List Char) :
    digitsValue (List.replicate n '0' ++ ds) 0 = digitsValue ds 0 := by
  induction n with
  | zero => rfl
  | succ n ih =>
    rw [List.replicate_succ, List.cons_append, digitsValue, if_pos (by decide)]
    exact ih

/-- The run of zeros followed by the digit `7` is a numeral of the value 7, of more than
`MaxScanTokenSize` bytes, without white space and without `=`. -/
theorem longZeros_facts :
    parseUnsigned (longZeros ++ "7") = some 7 ∧
      MaxScanTokenSize ≤ byteLen (longZeros ++ "7").data ∧
      ∀ c ∈ (longZeros ++ "7").data, isSpace c = false ∧ c ≠ '=' := by
  have hd : (longZeros ++ "7").data = List.replicate MaxScanTokenSize '0' ++ ['7'] := rfl
  refine ⟨?_, ?_, ?_⟩
  · unfold parseUnsigned
    rw [hd, if_neg (by simp), digitsValue_zeros]
    rfl
  · rw [hd, byteLen_append, byteLen_replicate, show utf8Len '0' = 1 from rfl, Nat.mul_one]
    exact Nat.le_add_right _ _
  · intro c hc
    rw [hd] at hc
    rcases List.mem_append.1 hc with h | h
    · rw [List.eq_of_mem_replicate h]
      decide
    · rw [List.mem_singleton.1 h]
      decide

/-- C7 as stated fails: in this content of a `some` line and a `full` line, each with the
tokens `avg10=`, `avg60=`, `avg300=` and `total=`, the total of the `some` line is the
numeral of `MaxScanTokenSize` zeros and the digit 7, of the value 7.  The scanner does not
deliver this line: `collectPressure` sends no record and returns the error
`token too long` of `bufio`. -/
theorem collectPressure_line_too_long :
    parseUnsigned (longZeros ++ "7") = some 7 ∧
      collectPressure parseUnsigned
          ((NestedLine.mk "some"
              [("avg10", "0.08"), ("avg60", "0.03"), ("avg300", "0.06"),
                ("total", longZeros ++ "7")] "").text ++ "\n" ++
            "full avg10=0.00 avg60=0.00 avg300=0.00 total=0\n")
          "system.slice" memoryPressureDescs =
        ⟨[], .returned (some .tokenTooLong)⟩ := by
  have htext : (NestedLine.mk "some"
      [("avg10", "0.08"), ("avg60", "0.03"), ("avg300", "0.06"),
        ("total", longZeros ++ "7")] "").text =
      "some avg10=0.08 avg60=0.03 avg300=0.06 total=" ++ (longZeros ++ "7") := by
    apply String.ext
    simp only [NestedLine.text, tokensText, tokenText, String.data_append,
      List.append_assoc]
    rfl
  have hn : '\n' ∉ ("some avg10=0.08 avg60=0.03 avg300=0.06 total=" ++
      (longZeros ++ "7")).data := by
    rw [String.data_append]
    intro h
    rcases List.mem_append.1 h with h | h
    · exact absurd h (by decide)
    · exact absurd (longZeros_facts.2.2 _ h).1 (by decide)
  have hlong : MaxScanTokenSize ≤ byteLen ("some avg10=0.08 avg60=0.03 avg300=0.06 total=" ++
      (longZeros ++ "7")).data := by
    rw [String.data_append, byteLen_append]
    exact Nat.le_trans longZeros_facts.2.1 (Nat.le_add_left _ _)
  have h := scan_long_line _ "full avg10=0.00 avg60=0.00 avg300=0.00 total=0\n" hn hlong
  refine ⟨longZeros_facts.1, ?_⟩
  rw [htext, collectPressure_eq, visitNestedKeyed_eq, h.1, h.2]
  rfl

/-- C7 (amended): for each of the pressure files of the registry (`memory.pressure`,
`cpu.pressure`, `io.pressure`), on a content of which the scanner delivers a `some` line
and a `full` line, each with the tokens `avg10=`, `avg60=`, `avg300=` and `total=`
(values without white space or `=`) whose totals parse as `n1` and `n2`, the registered
decoder sends exactly two counters, in line order, with the registered `some` and `full`
descriptors, the values `n1 / 1000000` and `n2 / 1000000` and the cgroup path as label
value; nothing is sent for the `avg` tokens.  It returns the error of the scanner, which
is `nil` when every raw line of the content is shorter than `MaxScanTokenSize` bytes:
then the two lines are all the lines of the content, and the decoder returns `nil`. -/
theorem collectPressure_some_full (ParseFloat : String → Option ℚ) (path content : String)
    (name : String) (col : multipleCollector) (dsome dfull : desc)
    (a1 a2 a3 t1 b1 b2 b3 t2 : String) (n1 n2 : ℚ)
    (hname : name = "memory.pressure" ∨ name = "cpu.pressure" ∨ name = "io.pressure")
    (hcol : List.lookup name (multipleCollectors ParseFloat) = some col)
    (hsome : List.lookup "some" col.descs = some dsome)
    (hfull : List.lookup "full" col.descs = some dfull)
    (hlines : scanLines content =
      [(NestedLine.mk "some"
          [("avg10", a1), ("avg60", a2), ("avg300", a3), ("total", t1)] "").text,
        (NestedLine.mk "full"
          [("avg10", b1), ("avg60", b2), ("avg300", b3), ("total", t2)] "").text])
    (hvals : ∀ s ∈ [a1, a2, a3, t1, b1, b2, b3, t2],
      ∀ c ∈ s.data, isSpace c = false ∧ c ≠ '=')
    (h1 : ParseFloat t1 = some n1) (h2 : ParseFloat t2 = some n2) :
    col.collect content path col.descs =
        ⟨[⟨dsome.desc, .CounterValue, n1 / 1000000, [path]⟩,
          ⟨dfull.desc, .CounterValue, n2 / 1000000, [path]⟩],
          .returned (scanErr content)⟩ ∧
      ((∀ l ∈ rawLines content.data, byteLen l < MaxScanTokenSize) →
        (rawLines content.data).map (fun l => String.mk (dropCR l)) =
            [(NestedLine.mk "some"
                [("avg10", a1), ("avg60", a2), ("avg300", a3), ("total", t1)] "").text,
              (NestedLine.mk "full"
                [("avg10", b1), ("avg60", b2), ("avg300", b3), ("total", t2)] "").text] ∧
          col.collect content path col.descs =
            ⟨[⟨dsome.desc, .CounterValue, n1 / 1000000, [path]⟩,
              ⟨dfull.desc, .CounterValue, n2 / 1000000, [path]⟩], .returned none⟩) := by
  have h : col.collect content path col.descs =
      ⟨[⟨dsome.desc, .CounterValue, n1 / 1000000, [path]⟩,
        ⟨dfull.desc, .CounterValue, n2 / 1000000, [path]⟩],
        .returned (scanErr content)⟩ := by
    rcases hname with rfl | rfl | rfl
    · simp [multipleCollectors, List.lookup] at hcol
      subst hcol
      have hs := hsome
      have hf := hfull
      simp [memoryPressureDescs, List.lookup] at hs hf
      subst hs hf
      exact collectPressure_two_lines ParseFloat path content memoryPressureDescs _ _
        a1 a2 a3 t1 b1 b2 b3 t2 n1 n2 hsome hfull rfl rfl hlines hvals h1 h2
    · simp [multipleCollectors, List.lookup] at hcol
      subst hcol
      have hs := hsome
      have hf := hfull
      simp [cpuPressureDescs, List.lookup] at hs hf
      subst hs hf
      exact collectPressure_two_lines ParseFloat path content cpuPressureDescs _ _
        a1 a2 a3 t1 b1 b2 b3 t2 n1 n2 hsome hfull rfl rfl hlines hvals h1 h2
    · simp [multipleCollectors, List.lookup] at hcol
      subst hcol
      have hs := hsome
      have hf := hfull
      simp [ioPressureDescs, List.lookup] at hs hf
      subst hs hf
      exact collectPressure_two_lines ParseFloat path content ioPressureDescs _ _
        a1 a2 a3 t1 b1 b2 b3 t2 n1 n2 hsome hfull rfl rfl hlines hvals h1 h2
  refine ⟨h, fun hfit => ⟨?_, ?_⟩⟩
  · rw [← scanLines_of_fits content hfit, hlines]
  · rw [h, scanErr_of_fits content hfit]

/-- Instance of C7 (amended): the content of `TestParsesPressure`; the totals 7113021 and
0 give the values 7.113021 and 0. -/
theorem collectPressure_some_full_witness :
    collectPressure parseUnsigned
        "some avg10=0.08 avg60=0.03 avg300=0.06 total=7113021\nfull avg10=0.00 avg60=0.00 avg300=0.00 total=0\n"
        "system.slice" memoryPressureDescs =
      ⟨[⟨NewDesc "cgroup_memory_pressure_waiting_seconds_total" "" ["cgroup"], .CounterValue,
          7113021 / 1000000, ["system.slice"]⟩,
        ⟨NewDesc "cgroup_memory_pressure_stalled_seconds_total" "" ["cgroup"], .CounterValue,
          0 / 1000000, ["system.slice"]⟩], .returned none⟩ ∧
      (7113021 : ℚ) / 1000000 = 7.113021 ∧ (0 : ℚ) / 1000000 = 0 :=
  ⟨((collectPressure_some_full parseUnsigned "system.slice"
      "some avg10=0.08 avg60=0.03 avg300=0.06 total=7113021\nfull avg10=0.00 avg60=0.00 avg300=0.00 total=0\n"
      "memory.pressure" ⟨memoryPressureDescs, collectPressure parseUnsigned⟩
      ⟨NewDesc "cgroup_memory_pressure_waiting_seconds_total" "" ["cgroup"],
        some microSecondsToSeconds⟩
      ⟨NewDesc "cgroup_memory_pressure_stalled_seconds_total" "" ["cgroup"],
        some microSecondsToSeconds⟩
      "0.08" "0.03" "0.06" "7113021" "0.00" "0.00" "0.00" "0" 7113021 0
      (Or.inl rfl) rfl rfl rfl (by decide) (by decide) (by decide) (by decide)).2
        (by decide)).2,
    by norm_num, by norm_num⟩

theorem firstSome_returns {ε α : Type} (x y : Exec ε (Option α))
    (hx : ∃ r, x.ret = .returned r) (hy : ∃ r, y.ret = .returned r) :
    ∃ r, (firstSome x y).ret = .returned r := by
  obtain ⟨l, r⟩ := x
  obtain ⟨rx, hrx⟩ := hx
  simp only at hrx
  subst hrx
  cases rx with
  | none => simpa [firstSome] using hy
  | some a => exact ⟨some a, by simp [firstSome]⟩

theorem finish_returns {ε : Type} {a : Option GoError} (x : Exec ε (Option (Option GoError)))
    (hx : ∃ r, x.ret = .returned r) : ∃ r, (finish a x).ret = .returned r := by
  obtain ⟨l, r⟩ := x
  obtain ⟨rx, hrx⟩ := hx
  simp only at hrx
  subst hrx
  cases rx with
  | none => exact ⟨a, by simp [finish]⟩
  | some b => exact ⟨b, by simp [finish]⟩

/-- With visitors that always return, the loop of `visitNestedKeyed` returns: neither
`split[0]`, `split[1:]` nor `kv[0]`, `kv[1]` is out of range. -/
theorem visitNestedKeyedRun_returns {ε : Type} (visitEntry : entryVisitor ε)
    (hve : ∀ n, ∃ l r, visitEntry n = ⟨l, .returned r⟩ ∧
      ∀ visitKV, r = .ok visitKV → ∀ a b, ∃ l' r', visitKV a b = ⟨l', .returned r'⟩)
    (lines : List String) :
    ∃ r, (visitNestedKeyedRun visitEntry lines).ret = .returned r := by
  induction lines with
  | nil => exact ⟨none, rfl⟩
  | cons line rest ih =>
    rw [visitNestedKeyedRun_cons]
    refine firstSome_returns _ _ ?_ ih
    obtain ⟨k, vs, h⟩ := Split_eq_cons (TrimSpace line) ' '
    rw [visitNestedKeyedLine_split visitEntry line k vs h]
    obtain ⟨l, r, hr, hkv⟩ := hve k
    rw [hr]
    cases r with
    | error err => exact ⟨_, rfl⟩
    | ok visitKV =>
      have htoks : ∃ r, (visitNestedKeyedTokens k visitKV vs).ret = .returned r := by
        clear h
        induction vs with
        | nil => exact ⟨none, rfl⟩
        | cons v vs ihv =>
          rw [visitNestedKeyedTokens_cons]
          refine firstSome_returns _ _ ?_ ihv
          by_cases hv : (Split v '=').length = 2
          · obtain ⟨a, b, hab⟩ := length_two hv
            obtain ⟨l', r', hvis⟩ := hkv visitKV rfl a b
            rw [visitNestedKeyedToken_split k visitKV v a b hab, hvis]
            exact ⟨_, rfl⟩
          · rw [visitNestedKeyedToken_malformed k visitKV v hv]
            exact ⟨_, rfl⟩
      simpa using htoks

/-- With one-label descriptors the visitors of `collectPressure` always return. -/
theorem collectPressureEntry_returns (ParseFloat : String → Option ℚ) (path : String)
    (descs : List (String × desc))
    (hlabels : ∀ p ∈ descs, p.2.desc.variableLabels.length = 1) :
    ∀ n, ∃ l r, collectPressureEntry ParseFloat path descs n = ⟨l, .returned r⟩ ∧
      ∀ visitKV, r = .ok visitKV → ∀ a b, ∃ l' r', visitKV a b = ⟨l', .returned r'⟩ := by
  intro n
  cases hn : List.lookup n descs with
  | none =>
    refine ⟨[], .error (.unknownPressureType n), by simp [collectPressureEntry, hn], ?_⟩
    intro visitKV h
    cases h
  | some d =>
    refine ⟨[], .ok (collectPressureKV ParseFloat path d), by simp [collectPressureEntry, hn], ?_⟩
    intro visitKV h a b
    cases h
    obtain ⟨p, hp, hpd⟩ := lookup_mem_snd n d descs hn
    obtain ⟨r, hr⟩ := collectPressureKV_sent ParseFloat path d (a, b) (hpd ▸ hlabels p hp)
    exact ⟨_, r, hr⟩

/-- C8: when the lines of a pressure content are those of `before` followed by a line
whose entry name `k` (its first token) is not a key of the sub-key mapping (and any
further lines), `collectPressure`, for a sub-key mapping of one-label descriptors,
returns an error and sends exactly what it sends on `before` alone: no record for that
line or any later line. -/
theorem collectPressure_unknown_entry (ParseFloat : String → Option ℚ) (path : String)
    (descs : List (String × desc)) (content before bad k : String) (vs post : List String)
    (hlines : scanLines content = scanLines before ++ bad :: post)
    (hbad : Split (TrimSpace bad) ' ' = k :: vs)
    (hk : List.lookup k descs = none)
    (hlabels : ∀ p ∈ descs, p.2.desc.variableLabels.length = 1) :
    (∃ e, (collectPressure ParseFloat content path descs).ret = .returned (some e)) ∧
      (collectPressure ParseFloat content path descs).sent =
        (collectPressure ParseFloat before path descs).sent := by
  have hline : visitNestedKeyedLine (collectPressureEntry ParseFloat path descs) bad =
      ⟨[], .returned (some (some (.unknownPressureType k)))⟩ := by
    rw [visitNestedKeyedLine_split _ _ _ _ hbad]
    simp [collectPressureEntry, hk]
  rw [collectPressure_eq, collectPressure_eq, visitNestedKeyed_eq, visitNestedKeyed_eq, hlines,
    visitNestedKeyedRun_stop _ _ _ _ _ hline]
  have h := @finish_firstSome_stop Metric (scanErr content) (scanErr before)
    (visitNestedKeyedRun (collectPressureEntry ParseFloat path descs) (scanLines before))
    (.unknownPressureType k)
  exact ⟨h.2 (visitNestedKeyedRun_ret _ _)
    (finish_returns _ (visitNestedKeyedRun_returns _
      (collectPressureEntry_returns ParseFloat path descs hlabels) _)), h.1⟩

/-- Instance of C8: a `memory.pressure` content whose second line is named `most`. -/
theorem collectPressure_unknown_entry_witness :
    (∃ e, (collectPressure parseUnsigned "some total=1\nmost total=2\nfull total=3\n"
        "system.slice" memoryPressureDescs).ret = .returned (some e)) ∧
      (collectPressure parseUnsigned "some total=1\nmost total=2\nfull total=3\n"
        "system.slice" memoryPressureDescs).sent =
        (collectPressure parseUnsigned "some total=1\n" "system.slice" memoryPressureDescs).sent :=
  collectPressure_unknown_entry parseUnsigned "system.slice" memoryPressureDescs
    "some total=1\nmost total=2\nfull total=3\n" "some total=1\n" "most total=2" "most"
    ["total=2"] ["full total=3"] (by decide) (by decide) rfl (by decide)

theorem collectIOStatKV_sent (ParseFloat : String → Option ℚ) (path : String)
    (descs : List (String × desc)) (device : String) (t : String × String)
    (hlabels : ∀ p ∈ descs, p.2.desc.variableLabels.length = 2) :
    ∃ r, collectIOStatKV ParseFloat path descs device t.1 t.2 =
      ⟨ioStatLineRecords ParseFloat path descs device [t], .returned r⟩ := by
  cases hk : List.lookup t.1 descs with
  | none => exact ⟨none, by simp [collectIOStatKV, ioStatLineRecords, hk]⟩
  | some d =>
    cases hv : ParseFloat t.2 with
    | none =>
      exact ⟨some (.failedToParseValue t.2), by simp [collectIOStatKV, ioStatLineRecords, hk, hv]⟩
    | some x =>
      obtain ⟨p, hp, hpd⟩ := lookup_mem_snd t.1 d descs hk
      have hd : d.desc.variableLabels.length = 2 := hpd ▸ hlabels p hp
      exact ⟨none, by
        simp [collectIOStatKV, ioStatLineRecords, hk, hv, MustNewConstMetric, NewConstMetric,
          hd, goPanic, send]⟩

theorem ioStatLineRecords_cons (ParseFloat : String → Option ℚ) (path : String)
    (descs : List (String × desc)) (device : String) (t : String × String)
    (ts : List (String × String)) :
    ioStatLineRecords ParseFloat path descs device (t :: ts) =
      ioStatLineRecords ParseFloat path descs device [t] ++
        ioStatLineRecords ParseFloat path descs device ts := by
  simp only [ioStatLineRecords, List.filterMap_cons, List.filterMap_nil]
  split <;> simp

/-- The I/O decoder on the well-formed tokens of a line. -/
theorem collectIOStat_tokens (ParseFloat : String → Option ℚ) (path : String)
    (descs : List (String × desc)) (device : String) (toks : List (String × String))
    (htoks : ∀ t ∈ toks, (∀ c ∈ t.1.data, isSpace c = false ∧ c ≠ '=') ∧
      (∀ c ∈ t.2.data, isSpace c = false ∧ c ≠ '='))
    (hlabels : ∀ p ∈ descs, p.2.desc.variableLabels.length = 2) :
    visitNestedKeyedTokens device (collectIOStatKV ParseFloat path descs device)
        (toks.map tokenText) =
      ⟨ioStatLineRecords ParseFloat path descs device toks, .returned none⟩ := by
  induction toks with
  | nil => rfl
  | cons t ts ih =>
    have ht := htoks t (List.mem_cons_self _ _)
    obtain ⟨r, hr⟩ := collectIOStatKV_sent ParseFloat path descs device t hlabels
    rw [List.map_cons, visitNestedKeyedTokens_cons,
      visitNestedKeyedToken_split device _ _ t.1 t.2 (tokenText_split t ht.1 ht.2), hr,
      ih (fun u hu => htoks u (List.mem_cons_of_mem _ hu)),
      ioStatLineRecords_cons ParseFloat path descs device t ts]
    simp [firstSome]

/-- The I/O decoder on a well-formed line: the records of its tokens, and the loop goes
on. -/
theorem collectIOStat_line (ParseFloat : String → Option ℚ) (path : String)
    (descs : List (String × desc)) (l : NestedLine) (hl : l.wellFormed)
    (hlabels : ∀ p ∈ descs, p.2.desc.variableLabels.length = 2) :
    visitNestedKeyedLine (collectIOStatEntry ParseFloat path descs) l.text =
      ⟨ioStatLineRecords ParseFloat path descs l.entry l.tokens, .returned none⟩ := by
  rw [visitNestedKeyedLine_split _ _ _ _ (l.split_text hl)]
  simp only [collectIOStatEntry, pure_eq_mk, Exec_bind_returned]
  rw [collectIOStat_tokens ParseFloat path descs l.entry l.tokens hl.2.1 hlabels]
  simp

/-- The I/O decoder on well-formed lines. -/
theorem collectIOStat_lines (ParseFloat : String → Option ℚ) (path : String)
    (descs : List (String × desc)) (lines : List NestedLine)
    (hwf : ∀ l ∈ lines, l.wellFormed)
    (hlabels : ∀ p ∈ descs, p.2.desc.variableLabels.length = 2) :
    visitNestedKeyedRun (collectIOStatEntry ParseFloat path descs)
        (lines.map NestedLine.text) =
      ⟨ioStatRecords ParseFloat path descs lines, .returned none⟩ := by
  induction lines with
  | nil => rfl
  | cons l ls ih =>
    rw [List.map_cons, visitNestedKeyedRun_cons,
      collectIOStat_line ParseFloat path descs l (hwf l (List.mem_cons_self _ _)) hlabels,
      ih (fun m hm => hwf m (List.mem_cons_of_mem _ hm))]
    simp [firstSome, ioStatRecords]

/-- The I/O decoder on a content of which the scanner delivers well-formed lines: the
records of the lines, and the error of the scanner. -/
theorem collectIOStat_delivered (ParseFloat : String → Option ℚ) (path : String)
    (descs : List (String × desc)) (content : String) (lines : List NestedLine)
    (hlines : scanLines content = lines.map NestedLine.text)
    (hwf : ∀ l ∈ lines, l.wellFormed)
    (hlabels : ∀ p ∈ descs, p.2.desc.variableLabels.length = 2) :
    collectIOStat ParseFloat content path descs =
      ⟨ioStatRecords ParseFloat path descs lines, .returned (scanErr content)⟩ := by
  rw [collectIOStat_eq, visitNestedKeyed_eq, hlines,
    collectIOStat_lines ParseFloat path descs lines hwf hlabels]
  simp [finish]

theorem not_mem_append_data (a b : String) (c : Char) (ha : c ∉ a.data) (hb : c ∉ b.data) :
    c ∉ (a ++ b).data := by
  rw [String.data_append]
  intro h
  rcases List.mem_append.1 h with h | h
  · exact ha h
  · exact hb h

/-- The run `longBlank` has `MaxScanTokenSize` bytes, all of them spaces. -/
theorem longBlank_facts :
    byteLen longBlank.data = MaxScanTokenSize ∧ ∀ c ∈ longBlank.data, c = ' ' := by
  refine ⟨?_, fun c hc => List.eq_of_mem_replicate hc⟩
  show byteLen (List.replicate MaxScanTokenSize ' ') = MaxScanTokenSize
  rw [byteLen_replicate, show utf8Len ' ' = 1 from rfl, Nat.mul_one]

/-- C10 as stated fails: in this content of three lines the second one consists of the
device identifier `8:0` followed by trailing white space only, `MaxScanTokenSize` spaces,
and the other two lines are well formed, so that the records expected are those of
`rbytes=1` and `wbytes=2`.  But the scanner does not deliver the second line:
`collectIOStat` sends the record of the first line only and returns the error
`token too long` of `bufio`.  And on the content of bytes with the device line `8:0 `
and the line `\xff rbytes=1`, whose device identifier is not valid UTF-8, the decoder
panics in `MustNewConstMetric`. -/
theorem collectIOStat_line_too_long :
    (NestedLine.mk "8:0" [] longBlank).wellFormed ∧
      ioStatRecords parseUnsigned "system.slice" ioStatDescs
          [⟨"8:16", [("rbytes", "1")], ""⟩, ⟨"8:0", [], longBlank⟩,
            ⟨"8:32", [("wbytes", "2")], ""⟩] =
        [⟨NewDesc "cgroup_io_read_bytes_total" "" ["device", "cgroup"], .CounterValue, 1,
            ["8:16", "system.slice"]⟩,
          ⟨NewDesc "cgroup_io_write_bytes_total" "" ["device", "cgroup"], .CounterValue, 2,
            ["8:32", "system.slice"]⟩] ∧
      collectIOStat parseUnsigned
          ("8:16 rbytes=1" ++ "\n" ++
            ((NestedLine.mk "8:0" [] longBlank).text ++ "\n" ++ "8:32 wbytes=2\n"))
          "system.slice" ioStatDescs =
        ⟨[⟨NewDesc "cgroup_io_read_bytes_total" "" ["device", "cgroup"], .CounterValue, 1,
            ["8:16", "system.slice"]⟩], .returned (some .tokenTooLong)⟩ ∧
      Bytes.collectIOStat parseUnsigned
          (Bytes.encode "8:0 \n" ++ [0xff] ++ Bytes.encode " rbytes=1\n") "system.slice"
          ioStatDescs =
        ⟨[], .panicked .invalidLabelValue⟩ := by
  have htext : (NestedLine.mk "8:0" [] longBlank).text = "8:0" ++ longBlank := rfl
  have hn : '\n' ∉ ("8:0" ++ longBlank).data :=
    not_mem_append_data _ _ _ (by decide)
      (fun h => absurd (longBlank_facts.2 _ h) (by decide))
  have hlong : MaxScanTokenSize ≤ byteLen ("8:0" ++ longBlank).data := by
    rw [String.data_append, byteLen_append, longBlank_facts.1]
    exact Nat.le_add_left _ _
  have h1 := scanLines_line "8:16 rbytes=1" (("8:0" ++ longBlank) ++ "\n" ++ "8:32 wbytes=2\n")
    (by decide) (by decide) (by decide)
  have h1e := scanErr_line "8:16 rbytes=1" (("8:0" ++ longBlank) ++ "\n" ++ "8:32 wbytes=2\n")
    (by decide) (by decide)
  have h2 := scan_long_line ("8:0" ++ longBlank) "8:32 wbytes=2\n" hn hlong
  refine ⟨⟨by decide, by decide, ?_, Or.inl (by decide)⟩, rfl, ?_, by decide⟩
  · intro c hc
    rw [longBlank_facts.2 c hc]
    rfl
  · rw [htext, collectIOStat_eq, visitNestedKeyed_eq, h1, h1e, h2.1, h2.2]
    decide

/-- C10 (amended): on an I/O accounting content of which the scanner delivers well-formed
lines (a device identifier, then tokens `KEY=VALUE` each after one space, then possibly
trailing white space; the values of registered keys numeric), some of them without any
token, `collectIOStat`, for a sub-key mapping of two-label descriptors (as `io.stat` in
the registry), sends exactly `ioStatRecords`: nothing for the lines without tokens, and
the records of the tokens of the other lines, in order.  It returns the error of the
scanner, which is `nil` when every raw line of the content is shorter than
`MaxScanTokenSize` bytes: then the scanner delivers all the lines of the content, and
`collectIOStat` returns `nil`. -/
theorem collectIOStat_tokenless_lines (ParseFloat : String → Option ℚ) (path : String)
    (descs : List (String × desc)) (content : String) (lines : List NestedLine)
    (hlines : scanLines content = lines.map NestedLine.text)
    (hwf : ∀ l ∈ lines, l.wellFormed)
    (hnum : ∀ l ∈ lines, ∀ t ∈ l.tokens,
      (List.lookup t.1 descs).isSome = true → (ParseFloat t.2).isSome = true)
    (hlabels : ∀ p ∈ descs, p.2.desc.variableLabels.length = 2) :
    collectIOStat ParseFloat content path descs =
        ⟨ioStatRecords ParseFloat path descs lines, .returned (scanErr content)⟩ ∧
      ((∀ l ∈ rawLines content.data, byteLen l < MaxScanTokenSize) →
        (rawLines content.data).map (fun l => String.mk (dropCR l)) =
            lines.map NestedLine.text ∧
          collectIOStat ParseFloat content path descs =
            ⟨ioStatRecords ParseFloat path descs lines, .returned none⟩) := by
  have _ := hnum
  have h := collectIOStat_delivered ParseFloat path descs content lines hlines hwf hlabels
  refine ⟨h, fun hfit => ⟨?_, ?_⟩⟩
  · rw [← scanLines_of_fits content hfit, hlines]
  · rw [h, scanErr_of_fits content hfit]

/-- Instance of C10 (amended): the first lines of the content of `TestCanParseRootIOStart`,
an empty line and devices followed by one blank, then a device with tokens: the
token-less lines send nothing, the last line sends its counters. -/
theorem collectIOStat_tokenless_lines_witness :
    collectIOStat parseUnsigned "\n7:7 \n7:6 \n254:0 rbytes=4235943936 wbytes=37844828160 x=1\n"
        "." ioStatDescs =
      ⟨[⟨NewDesc "cgroup_io_read_bytes_total" "" ["device", "cgroup"], .CounterValue,
          4235943936, ["254:0", "."]⟩,
        ⟨NewDesc "cgroup_io_write_bytes_total" "" ["device", "cgroup"], .CounterValue,
          37844828160, ["254:0", "."]⟩], .returned none⟩ :=
  ((collectIOStat_tokenless_lines parseUnsigned "." ioStatDescs
    "\n7:7 \n7:6 \n254:0 rbytes=4235943936 wbytes=37844828160 x=1\n"
    [⟨"", [], ""⟩, ⟨"7:7", [], " "⟩, ⟨"7:6", [], " "⟩,
      ⟨"254:0", [("rbytes", "4235943936"), ("wbytes", "37844828160"), ("x", "1")], ""⟩]
    (by decide) (by decide) (by decide) (by decide)).2 (by decide)).2.trans (by decide)

/-! ## I/O decoder: records of well-formed contents -/

theorem ioStatLineRecords_isCounterOf (ParseFloat : String → Option ℚ) (path : String)
    (descs : List (String × desc)) (device : String) (toks : List (String × String))
    (hnum : ∀ t ∈ toks, (List.lookup t.1 descs).isSome = true → (ParseFloat t.2).isSome = true) :
    List.Forall₂ (isCounterOf ParseFloat path)
      (ioStatLineRecords ParseFloat path descs device toks)
      (toks.filterMap (fun t => (List.lookup t.1 descs).map (fun d => (device, t, d)))) := by
  induction toks with
  | nil => exact List.Forall₂.nil
  | cons t ts ih =>
    have ih' := ih (fun u hu => hnum u (List.mem_cons_of_mem _ hu))
    cases hk : List.lookup t.1 descs with
    | none => simpa [ioStatLineRecords, List.filterMap_cons, hk] using ih'
    | some d =>
      obtain ⟨x, hx⟩ := Option.isSome_iff_exists.1
        (hnum t (List.mem_cons_self _ _) (by rw [hk]; rfl))
      simp only [ioStatLineRecords, List.filterMap_cons, hk, hx, Option.map_some']
      exact List.Forall₂.cons ⟨rfl, rfl, hx, rfl⟩ ih'

theorem ioStatRecords_isCounterOf (ParseFloat : String → Option ℚ) (path : String)
    (descs : List (String × desc)) (lines : List NestedLine)
    (hnum : ∀ l ∈ lines, ∀ t ∈ l.tokens,
      (List.lookup t.1 descs).isSome = true → (ParseFloat t.2).isSome = true) :
    List.Forall₂ (isCounterOf ParseFloat path) (ioStatRecords ParseFloat path descs lines)
      (registeredTokens descs lines) := by
  induction lines with
  | nil => exact List.Forall₂.nil
  | cons l ls ih =>
    exact List.rel_append
      (ioStatLineRecords_isCounterOf ParseFloat path descs l.entry l.tokens
        (hnum l (List.mem_cons_self _ _)))
      (ih (fun m hm => hnum m (List.mem_cons_of_mem _ hm)))

/-- C11 as stated fails: the content has the single line made of the device identifier
`longWord`, of `MaxScanTokenSize` letters, and the token `rbytes=1`; the line is well
formed and one counter is expected for it.  But the scanner does not deliver the line:
`collectIOStat` sends no record and returns the error `token too long` of `bufio`, so not
any string is accepted as a device identifier.  Nor is the string of the bytes `0xc3 0x28`,
which is not valid UTF-8: on the line `\xc3\x28 wbytes=2 rbytes=1` the decoder panics in
`MustNewConstMetric`. -/
theorem collectIOStat_device_too_long :
    (NestedLine.mk longWord [("rbytes", "1")] "").wellFormed ∧
      registeredTokens ioStatDescs [⟨longWord, [("rbytes", "1")], ""⟩] =
        [(longWord, ("rbytes", "1"),
          ⟨NewDesc "cgroup_io_read_bytes_total" "" ["device", "cgroup"], none⟩)] ∧
      collectIOStat parseUnsigned
          ((NestedLine.mk longWord [("rbytes", "1")] "").text ++ "\n" ++ "")
          "system.slice" ioStatDescs =
        ⟨[], .returned (some .tokenTooLong)⟩ ∧
      Bytes.ValidString [0xc3, 0x28] = false ∧
      Bytes.collectIOStat parseUnsigned
          ([0xc3, 0x28] ++ Bytes.encode " wbytes=2 rbytes=1\n") "system.slice" ioStatDescs =
        ⟨[], .panicked .invalidLabelValue⟩ := by
  have htext : (NestedLine.mk longWord [("rbytes", "1")] "").text =
      longWord ++ " rbytes=1" := by
    apply String.ext
    simp only [NestedLine.text, tokensText, tokenText, String.data_append,
      List.append_assoc]
    rfl
  have hn : '\n' ∉ (longWord ++ " rbytes=1").data :=
    not_mem_append_data _ _ _ longWord_facts.2.1 (by decide)
  have hlong : MaxScanTokenSize ≤ byteLen (longWord ++ " rbytes=1").data := by
    rw [String.data_append, byteLen_append, longWord_facts.1]
    exact Nat.le_add_right _ _
  have h := scan_long_line (longWord ++ " rbytes=1") "" hn hlong
  refine ⟨⟨?_, by decide, by decide, Or.inl ?_⟩, rfl, ?_, by decide, by decide⟩
  · intro c hc
    rw [List.eq_of_mem_replicate hc]
    rfl
  · intro he
    have hl := congrArg (fun s => byteLen s.data) he
    simp only [longWord_facts.1] at hl
    exact absurd hl (by decide)
  · rw [htext, collectIOStat_eq, visitNestedKeyed_eq, h.1, h.2]
    rfl

/-- C11 (amended): on an I/O accounting content of which the scanner delivers well-formed
lines (a device identifier, then tokens `SUBKEY=VALUE` each after one space; numeric
values for the registered sub-keys), the records that `collectIOStat` sends, for a
sub-key mapping of two-label descriptors (as `io.stat` in the registry), correspond one
to one, in line and token order, to the tokens whose sub-key is in the mapping: each is
a counter with that sub-key's descriptor, the parsed value and the label values (device
of the line, cgroup path) in that order.  Tokens with other sub-keys yield no record and
no error, and the entry resolver accepts every name as device identifier.  The decoder
returns the error of the scanner, which is `nil` when every raw line of the content is
shorter than `MaxScanTokenSize` bytes: then the scanner delivers all the lines of the
content, and `collectIOStat` returns `nil`. -/
theorem collectIOStat_wellformed (ParseFloat : String → Option ℚ) (path : String)
    (descs : List (String × desc)) (content : String) (lines : List NestedLine)
    (hlines : scanLines content = lines.map NestedLine.text)
    (hwf : ∀ l ∈ lines, l.wellFormed)
    (hnum : ∀ l ∈ lines, ∀ t ∈ l.tokens,
      (List.lookup t.1 descs).isSome = true → (ParseFloat t.2).isSome = true)
    (hlabels : ∀ p ∈ descs, p.2.desc.variableLabels.length = 2) :
    (collectIOStat ParseFloat content path descs).ret = .returned (scanErr content) ∧
      List.Forall₂ (isCounterOf ParseFloat path)
        (collectIOStat ParseFloat content path descs).sent (registeredTokens descs lines) ∧
      (∀ n, ∃ visitKV, collectIOStatEntry ParseFloat path descs n =
        ⟨[], .returned (.ok visitKV)⟩) ∧
      ((∀ l ∈ rawLines content.data, byteLen l < MaxScanTokenSize) →
        (rawLines content.data).map (fun l => String.mk (dropCR l)) =
            lines.map NestedLine.text ∧
          (collectIOStat ParseFloat content path descs).ret = .returned none) := by
  have h := collectIOStat_delivered ParseFloat path descs content lines hlines hwf hlabels
  rw [h]
  refine ⟨rfl, ioStatRecords_isCounterOf ParseFloat path descs lines hnum,
    fun n => ⟨_, rfl⟩, fun hfit => ⟨?_, ?_⟩⟩
  · rw [← scanLines_of_fits content hfit, hlines]
  · rw [scanErr_of_fits content hfit]

/-- Instance of C11 (amended): two device lines of an `io.stat` file; the token `x=1` has
no registered sub-key. -/
theorem collectIOStat_wellformed_witness :
    (collectIOStat parseUnsigned "8:0 rbytes=5 x=1 wios=7\n8:16 dbytes=9\n" "system.slice"
        ioStatDescs).ret = .returned none ∧
      List.Forall₂ (isCounterOf parseUnsigned "system.slice")
        (collectIOStat parseUnsigned "8:0 rbytes=5 x=1 wios=7\n8:16 dbytes=9\n" "system.slice"
          ioStatDescs).sent
        (registeredTokens ioStatDescs
          [⟨"8:0", [("rbytes", "5"), ("x", "1"), ("wios", "7")], ""⟩,
            ⟨"8:16", [("dbytes", "9")], ""⟩]) ∧
      ∀ n, ∃ visitKV, collectIOStatEntry parseUnsigned "system.slice" ioStatDescs n =
        ⟨[], .returned (.ok visitKV)⟩ :=
  have h := collectIOStat_wellformed parseUnsigned "system.slice" ioStatDescs
    "8:0 rbytes=5 x=1 wios=7\n8:16 dbytes=9\n"
    [⟨"8:0", [("rbytes", "5"), ("x", "1"), ("wios", "7")], ""⟩, ⟨"8:16", [("dbytes", "9")], ""⟩]
    (by decide) (by decide) (by decide) (by decide)
  ⟨(h.2.2.2 (by decide)).2, h.2.1, h.2.2.1⟩

/-- C12 fails on the code: `visitNestedKeyed` discards the error its key-value visitor
returns.  A visitor that fails on every token, a pressure file with a non-numeric
`total` and an `io.stat` file with a non-numeric registered value all end with `nil`
(and no record), although `ParseFloat` rejects the values. -/
theorem visitNestedKeyed_discards_visitor_error :
    visitNestedKeyed "some avg10=0.08\n" failingEntry = ⟨[], .returned none⟩ ∧
      parseUnsigned "abc" = none ∧
      collectPressure parseUnsigned "some avg10=0.00 avg60=0.00 avg300=0.00 total=abc\n"
        "system.slice" memoryPressureDescs = ⟨[], .returned none⟩ ∧
      collectIOStat parseUnsigned "254:0 rbytes=abc\n" "system.slice" ioStatDescs =
        ⟨[], .returned none⟩ := by
  decide

/-! ## Field separators -/

theorem visitFlatKeyedLines_cons_firstSome {ε : Type} (visitKV : kvVisitor ε) (line : String)
    (rest : List String) :
    visitFlatKeyedLines visitKV (line :: rest) =
      firstSome (visitFlatKeyedLine visitKV line) (visitFlatKeyedLines visitKV rest) := by
  rw [visitFlatKeyedLines_cons]
  unfold firstSome
  congr 1
  funext r
  cases r <;> rfl

theorem visitFlatKeyedLines_append_firstSome {ε : Type} (visitKV : kvVisitor ε)
    (pre rest : List String) :
    visitFlatKeyedLines visitKV (pre ++ rest) =
      firstSome (visitFlatKeyedLines visitKV pre) (visitFlatKeyedLines visitKV rest) := by
  rw [visitFlatKeyedLines_append]
  unfold firstSome
  congr 1
  funext r
  cases r <;> rfl

/-- C18 as stated fails: `visitFlatKeyed` splits on the single space character.  A line
whose fields are separated by two spaces, or by a tab, is rejected with `invalid
key-value pair` and the visitor is not called. -/
theorem visitFlatKeyed_whitespace_run :
    visitFlatKeyed "anon  1\n" recordingKV =
        ⟨[], .returned (some (.invalidKeyValuePair "anon  1"))⟩ ∧
      visitFlatKeyed "anon\t1\n" recordingKV =
        ⟨[], .returned (some (.invalidKeyValuePair "anon\t1"))⟩ := by
  decide

/-- C18 (amended): the flat decoder splits each line on the space character: a line made
of `KEY`, exactly one space and `VALUE`, neither field holding a space, is taken as two
fields, and `visitFlatKeyed` calls the visitor with `(KEY, VALUE)` there: the run is the
loop on the lines before, then that call, then (unless the call returns an error, which is
returned) the loop on the lines after and the final `return scanner.Err()`.  When the
scanner ends without error on `before`, and on `after` as on the content, this is the run
of `visitFlatKeyed` on `before`, then that call, then the run of `visitFlatKeyed` on
`after`. -/
theorem visitFlatKeyed_single_space {ε : Type} (visitKV : kvVisitor ε)
    (content before after k v : String)
    (hlines : scanLines content = scanLines before ++ (k ++ " " ++ v) :: scanLines after)
    (hk : ' ' ∉ k.data) (hv : ' ' ∉ v.data) :
    visitFlatKeyed content visitKV =
        firstSome (visitFlatKeyedLines visitKV (scanLines before))
          (firstSome (visitKV k v)
            (firstSome (visitFlatKeyedLines visitKV (scanLines after))
              ⟨[], .returned (scanErr content)⟩)) ∧
      (scanErr before = none → scanErr after = scanErr content →
        visitFlatKeyed content visitKV =
          firstSome (visitFlatKeyed before visitKV)
            (firstSome (visitKV k v) (visitFlatKeyed after visitKV))) := by
  have h : visitFlatKeyed content visitKV =
      firstSome (visitFlatKeyedLines visitKV (scanLines before))
        (firstSome (visitKV k v)
          (firstSome (visitFlatKeyedLines visitKV (scanLines after))
            ⟨[], .returned (scanErr content)⟩)) := by
    rw [visitFlatKeyed_eq, hlines, visitFlatKeyedLines_append_firstSome,
      visitFlatKeyedLines_cons_firstSome, visitFlatKeyedLine_pair visitKV k v hk hv,
      firstSome_assoc, firstSome_assoc]
  refine ⟨h, fun hb ha => ?_⟩
  rw [h, visitFlatKeyed_eq before, visitFlatKeyed_eq after, hb, ha, firstSome_right_none]

/-- Instance of C18 (amended): the second line `file 2` of three. -/
theorem visitFlatKeyed_single_space_witness :
    visitFlatKeyed "anon 1\nfile 2\nslab 3\n" recordingKV =
      firstSome (visitFlatKeyed "anon 1\n" recordingKV)
        (firstSome (recordingKV "file" "2") (visitFlatKeyed "slab 3\n" recordingKV)) :=
  (visitFlatKeyed_single_space recordingKV "anon 1\nfile 2\nslab 3\n" "anon 1\n" "slab 3\n"
    "file" "2" (by decide) (by decide) (by decide)).2 (by decide) (by decide)

theorem visitNestedKeyedTokens_visitAll {ε : Type} (k : String) (visitKV : kvVisitor ε)
    (toks : List (String × String))
    (htoks : ∀ t ∈ toks, (∀ c ∈ t.1.data, isSpace c = false ∧ c ≠ '=') ∧
      (∀ c ∈ t.2.data, isSpace c = false ∧ c ≠ '=')) :
    visitNestedKeyedTokens k visitKV (toks.map tokenText) =
      Exec.bind (visitAll visitKV toks) (fun _ => ⟨[], .returned none⟩) := by
  induction toks with
  | nil => rfl
  | cons t ts ih =>
    have ht := htoks t (List.mem_cons_self _ _)
    rw [List.map_cons, visitNestedKeyedTokens_cons,
      visitNestedKeyedToken_split k _ _ t.1 t.2 (tokenText_split t ht.1 ht.2),
      ih (fun u hu => htoks u (List.mem_cons_of_mem _ hu))]
    simp only [visitAll, bind_eq_Exec_bind, firstSome, Exec.bind_assoc, Exec_bind_returned,
      List.nil_append, Exec_mk_eta]

/-- C19 as stated fails: `visitNestedKeyed` splits the trimmed line on the single space
character.  With two consecutive spaces between the entry name and a token (or between
tokens) the split yields an empty token, which is rejected with `invalid key-value
pair`; the tokens after it are not passed on. -/
theorem visitNestedKeyed_whitespace_run :
    visitNestedKeyed "some  total=1\n" recordingEntry =
        ⟨[], .returned (some (.invalidNestedKeyValuePair "some" "" 1))⟩ ∧
      visitNestedKeyed "some avg10=0.08  total=1\n" recordingEntry =
        ⟨[("some", "avg10", "0.08")], .returned (some (.invalidNestedKeyValuePair "some" "" 1))⟩ := by
  decide

/-- White space before a text is trimmed. -/
theorem TrimSpace_lead (lead s : String) (h : ∀ c ∈ lead.data, isSpace c = true) :
    TrimSpace (lead ++ s) = TrimSpace s := by
  have hd : ∀ (l r : List Char), (∀ c ∈ l, isSpace c = true) →
      (l ++ r).dropWhile isSpace = r.dropWhile isSpace := by
    intro l r hl
    induction l with
    | nil => rfl
    | cons c cs ih =>
      rw [List.cons_append, List.dropWhile_cons_of_pos (hl c (List.mem_cons_self _ _))]
      exact ih (fun d hd => hl d (List.mem_cons_of_mem _ hd))
  unfold TrimSpace
  rw [String.data_append, hd _ _ h]

/-- C19 (amended): the nested decoder trims each line and splits it on the space
character.  On a line made of white space `lead`, then an entry name and tokens
`SUBKEY=VALUE` each after exactly one space, then white space (a well-formed line after
`lead`), the body of the loop of `visitNestedKeyed` resolves the first token as the entry
name and, when the resolver returns a consumer, passes every token to it as
`(SUBKEY, VALUE)`, in order, without raising a decode error of its own, and the loop goes
on.  So on a content of which this line is the first that the scanner delivers,
`visitNestedKeyed` does this and goes on with the loop on the following lines. -/
theorem visitNestedKeyed_single_space {ε : Type} (visitEntry : entryVisitor ε)
    (lead : String) (l : NestedLine)
    (hlead : ∀ c ∈ lead.data, isSpace c = true)
    (hl : l.wellFormed) :
    visitNestedKeyedLine visitEntry (lead ++ l.text) =
        Exec.bind (visitEntry l.entry) (fun x =>
          match x with
          | .error err => ⟨[], .returned (some (some err))⟩
          | .ok visitKV =>
            Exec.bind (visitAll visitKV l.tokens) (fun _ => ⟨[], .returned none⟩)) ∧
      ∀ (content : String) (rest : List String),
        scanLines content = (lead ++ l.text) :: rest →
        visitNestedKeyed content visitEntry =
          Exec.bind (visitEntry l.entry) (fun x =>
            match x with
            | .error err => ⟨[], .returned (some err)⟩
            | .ok visitKV =>
              Exec.bind (visitAll visitKV l.tokens)
                (fun _ => visitNestedKeyedLines visitEntry (scanErr content) rest)) := by
  have hsplit : Split (TrimSpace (lead ++ l.text)) ' ' = l.entry :: l.tokens.map tokenText := by
    rw [TrimSpace_lead lead l.text hlead]
    exact l.split_text hl
  have hline : visitNestedKeyedLine visitEntry (lead ++ l.text) =
      Exec.bind (visitEntry l.entry) (fun x =>
        match x with
        | .error err => ⟨[], .returned (some (some err))⟩
        | .ok visitKV =>
          Exec.bind (visitAll visitKV l.tokens) (fun _ => ⟨[], .returned none⟩)) := by
    rw [visitNestedKeyedLine_split _ _ _ _ hsplit]
    congr 1
    funext x
    cases x with
    | error err => rfl
    | ok visitKV => exact visitNestedKeyedTokens_visitAll l.entry visitKV l.tokens hl.2.1
  refine ⟨hline, fun content rest hlines => ?_⟩
  simp only [visitNestedKeyed, hlines, visitNestedKeyedLines, bind_eq_Exec_bind]
  rw [hline, Exec.bind_assoc]
  congr 1
  funext x
  cases x with
  | error err => simp
  | ok visitKV =>
    simp only []
    rw [Exec.bind_assoc]
    simp

/-- Instance of C19 (amended): the first line of a pressure content, with a tab and a
space before the entry name and a space after the last token. -/
theorem visitNestedKeyed_single_space_witness :
    visitNestedKeyedLine recordingEntry "\t some avg10=0.08 total=1 " =
        ⟨[("some", "avg10", "0.08"), ("some", "total", "1")], .returned none⟩ ∧
      visitNestedKeyed "\t some avg10=0.08 total=1 \nfull total=2\n" recordingEntry =
        ⟨[("some", "avg10", "0.08"), ("some", "total", "1"), ("full", "total", "2")],
          .returned none⟩ :=
  have h := visitNestedKeyed_single_space recordingEntry "\t "
    ⟨"some", [("avg10", "0.08"), ("total", "1")], " "⟩ (by decide) (by decide)
  ⟨h.1.trans (by decide),
    (h.2 "\t some avg10=0.08 total=1 \nfull total=2\n" ["full total=2"]
      (by decide)).trans (by decide)⟩

/-! ## What the decoders send -/

theorem mem_bind_sent {ε α β : Type} {x : Exec ε α} {f : α → Exec ε β} {e : ε}
    (h : e ∈ (Exec.bind x f).sent) :
    e ∈ x.sent ∨ ∃ a, x.ret = .returned a ∧ e ∈ (f a).sent := by
  obtain ⟨l, r⟩ := x
  cases r with
  | panicked p => exact Or.inl h
  | returned a =>
    simp only [Exec_bind_returned, List.mem_append] at h
    rcases h with h | h
    · exact Or.inl h
    · exact Or.inr ⟨a, rfl, h⟩

theorem mem_firstSome_sent {ε α : Type} {x y : Exec ε (Option α)} {e : ε}
    (h : e ∈ (firstSome x y).sent) : e ∈ x.sent ∨ e ∈ y.sent := by
  rcases mem_bind_sent h with h | ⟨a, _, h⟩
  · exact Or.inl h
  · cases a with
    | none => exact Or.inr h
    | some b => simp at h

theorem mem_finish_sent {ε : Type} {a : Option GoError} {x : Exec ε (Option (Option GoError))}
    {e : ε} (h : e ∈ (finish a x).sent) : e ∈ x.sent := by
  rcases mem_bind_sent h with h | ⟨a, _, h⟩
  · exact h
  · cases a <;> simp at h

/-- Whatever `visitFlatKeyed` sends is sent by a call of the visitor. -/
theorem mem_visitFlatKeyedLines_sent {ε : Type} (visitKV : kvVisitor ε) (lines : List String)
    (e : ε) (h : e ∈ (visitFlatKeyedLines visitKV lines).sent) :
    ∃ a b, e ∈ (visitKV a b).sent := by
  induction lines with
  | nil => simp [visitFlatKeyedLines] at h
  | cons line rest ih =>
    rw [visitFlatKeyedLines_cons_firstSome] at h
    rcases mem_firstSome_sent h with h | h
    · rcases visitFlatKeyedLine_cases visitKV line with ⟨_, hl⟩ | ⟨a, b, _, hl⟩
      · rw [hl] at h
        simp at h
      · rw [hl] at h
        exact ⟨a, b, h⟩
    · exact ih h

theorem mem_visitNestedKeyedTokens_sent {ε : Type} (k : String) (visitKV : kvVisitor ε)
    (vs : List String) (e : ε) (h : e ∈ (visitNestedKeyedTokens k visitKV vs).sent) :
    ∃ a b, e ∈ (visitKV a b).sent := by
  induction vs with
  | nil => simp [visitNestedKeyedTokens] at h
  | cons v vs ih =>
    rw [visitNestedKeyedTokens_cons] at h
    rcases mem_firstSome_sent h with h | h
    · by_cases hv : (Split v '=').length = 2
      · obtain ⟨a, b, hab⟩ := length_two hv
        rw [visitNestedKeyedToken_split k visitKV v a b hab] at h
        rcases mem_bind_sent h with h | ⟨_, _, h⟩
        · exact ⟨a, b, h⟩
        · simp at h
      · rw [visitNestedKeyedToken_malformed k visitKV v hv] at h
        simp at h
    · exact ih h

/-- Whatever `visitNestedKeyed` sends is sent by the entry visitor or by a key-value
visitor it returned. -/
theorem mem_visitNestedKeyedRun_sent {ε : Type} (visitEntry : entryVisitor ε)
    (lines : List String) (e : ε) (h : e ∈ (visitNestedKeyedRun visitEntry lines).sent) :
    ∃ k, e ∈ (visitEntry k).sent ∨
      ∃ visitKV, (visitEntry k).ret = .returned (.ok visitKV) ∧ ∃ a b, e ∈ (visitKV a b).sent := by
  induction lines with
  | nil => simp [visitNestedKeyedRun] at h
  | cons line rest ih =>
    rw [visitNestedKeyedRun_cons] at h
    rcases mem_firstSome_sent h with h | h
    · obtain ⟨k, vs, hs⟩ := Split_eq_cons (TrimSpace line) ' '
      rw [visitNestedKeyedLine_split visitEntry line k vs hs] at h
      rcases mem_bind_sent h with h | ⟨x, hx, h⟩
      · exact ⟨k, Or.inl h⟩
      · cases x with
        | error err => simp at h
        | ok visitKV =>
          exact ⟨k, Or.inr ⟨visitKV, hx, mem_visitNestedKeyedTokens_sent k visitKV vs e h⟩⟩
    · exact ih h

/-- What `MustNewConstMetric` followed by a send puts on the channel. -/
theorem mem_send_MustNewConstMetric {desc : Desc} {valueType : ValueType} {value : ℚ}
    {labelValues : List String} {m : Metric}
    (h : m ∈ (Exec.bind (MustNewConstMetric desc valueType value labelValues)
      (fun x => Exec.bind (send x) (fun _ => (⟨[], .returned none⟩ :
        Exec Metric (Option GoError))))).sent) :
    m = ⟨desc, valueType, value, labelValues⟩ ∧
      labelValues.length = desc.variableLabels.length := by
  by_cases hl : labelValues.length = desc.variableLabels.length
  · simp [MustNewConstMetric, NewConstMetric, hl, send] at h
    exact ⟨h, hl⟩
  · simp [MustNewConstMetric, NewConstMetric, hl, goPanic] at h

theorem mem_collectSingleValue_sent (ParseFloat : String → Option ℚ) (valueType : ValueType)
    (f path : String) (desc : Desc) (m : Metric)
    (h : m ∈ (collectSingleValue ParseFloat valueType f path desc).sent) :
    m.desc = desc ∧ m.labelValues = [path] ∧ [path].length = desc.variableLabels.length := by
  unfold collectSingleValue at h
  split at h
  · simp at h
  · split at h
    · simp at h
    · split at h
      · simp at h
      · obtain ⟨hm, hl⟩ := mem_send_MustNewConstMetric h
        subst hm
        exact ⟨rfl, rfl, hl⟩

theorem mem_collectFlatKeyedKV_sent (ParseFloat : String → Option ℚ) (valueType : ValueType)
    (path : String) (descs : List (String × desc)) (k v : String) (m : Metric)
    (h : m ∈ (collectFlatKeyedKV ParseFloat valueType path descs k v).sent) :
    ∃ d, List.lookup k descs = some d ∧ m.desc = d.desc ∧ m.labelValues = [path] := by
  unfold collectFlatKeyedKV at h
  split at h
  · simp at h
  · rename_i d hd
    split at h
    · simp at h
    · obtain ⟨hm, _⟩ := mem_send_MustNewConstMetric h
      subst hm
      exact ⟨d, hd, rfl, rfl⟩

theorem mem_collectPressureKV_sent (ParseFloat : String → Option ℚ) (path : String) (d : desc)
    (k v : String) (m : Metric) (h : m ∈ (collectPressureKV ParseFloat path d k v).sent) :
    m.desc = d.desc ∧ m.labelValues = [path] := by
  unfold collectPressureKV at h
  split at h
  · split at h
    · simp at h
    · obtain ⟨hm, _⟩ := mem_send_MustNewConstMetric h
      subst hm
      exact ⟨rfl, rfl⟩
  · simp at h

theorem mem_collectIOStatKV_sent (ParseFloat : String → Option ℚ) (path : String)
    (descs : List (String × desc)) (device k v : String) (m : Metric)
    (h : m ∈ (collectIOStatKV ParseFloat path descs device k v).sent) :
    ∃ d, List.lookup k descs = some d ∧ m.desc = d.desc ∧ m.labelValues = [device, path] := by
  unfold collectIOStatKV at h
  split at h
  · simp at h
  · rename_i d hd
    split at h
    · simp at h
    · obtain ⟨hm, _⟩ := mem_send_MustNewConstMetric h
      subst hm
      exact ⟨d, hd, rfl, rfl⟩

/-! ## Label values of the registry's decoders -/

theorem lookup_mem_pair {β : Type} (k : String) (d : β) (l : List (String × β))
    (h : List.lookup k l = some d) : (k, d) ∈ l := by
  induction l with
  | nil => simp [List.lookup] at h
  | cons q qs ih =>
    obtain ⟨a, b⟩ := q
    simp only [List.lookup] at h
    split at h
    · rename_i heq
      have hka : k = a := by simpa using heq
      have hbd : b = d := Option.some.inj h
      rw [hka, hbd]
      exact List.mem_cons_self _ _
    · exact List.mem_cons_of_mem _ (ih h)

theorem collectSingleValue_returns (ParseFloat : String → Option ℚ) (valueType : ValueType)
    (f path : String) (desc : Desc) (hd : desc.variableLabels.length = 1) :
    ∃ r, (collectSingleValue ParseFloat valueType f path desc).ret = .returned r := by
  unfold collectSingleValue
  split
  · exact ⟨_, rfl⟩
  · split
    · exact ⟨_, rfl⟩
    · split
      · exact ⟨_, rfl⟩
      · exact ⟨none, by simp [MustNewConstMetric, NewConstMetric, hd, send]⟩

/-- A scalar handler with the label schema `cgroup` never panics and labels every record
with the path alone. -/
theorem collectSingleValue_labels (ParseFloat : String → Option ℚ) (valueType : ValueType)
    (f path : String) (desc : Desc) (hd : desc.variableLabels = ["cgroup"]) :
    (∃ r, (collectSingleValue ParseFloat valueType f path desc).ret = .returned r) ∧
      ∀ m ∈ (collectSingleValue ParseFloat valueType f path desc).sent,
        m.desc.variableLabels = ["cgroup"] ∧ m.labelValues = [path] := by
  refine ⟨collectSingleValue_returns ParseFloat valueType f path desc (by rw [hd]; rfl), ?_⟩
  intro m hm
  obtain ⟨h1, h2, _⟩ := mem_collectSingleValue_sent ParseFloat valueType f path desc m hm
  exact ⟨h1 ▸ hd, h2⟩

/-- A flat handler whose descriptors have the label schema `cgroup` never panics and
labels every record with the path alone. -/
theorem collectFlatKeyed_labels (ParseFloat : String → Option ℚ) (valueType : ValueType)
    (f path : String) (descs : List (String × desc))
    (hd : ∀ p ∈ descs, p.2.desc.variableLabels = ["cgroup"]) :
    (∃ r, (collectFlatKeyed ParseFloat valueType f path descs).ret = .returned r) ∧
      ∀ m ∈ (collectFlatKeyed ParseFloat valueType f path descs).sent,
        m.desc.variableLabels = ["cgroup"] ∧ m.labelValues = [path] := by
  rw [collectFlatKeyed_eq]
  refine ⟨firstSome_end_returns _ _ (collectFlatKeyed_lines_returns ParseFloat valueType path
    descs (fun p hp => by rw [hd p hp]; rfl) _), ?_⟩
  intro m hm
  rw [firstSome_end_sent] at hm
  obtain ⟨a, b, hab⟩ := mem_visitFlatKeyedLines_sent _ _ m hm
  obtain ⟨d, hk, h1, h2⟩ := mem_collectFlatKeyedKV_sent _ _ _ _ a b m hab
  exact ⟨h1 ▸ hd (a, d) (lookup_mem_pair a d descs hk), h2⟩

/-- A pressure handler whose descriptors have the label schema `cgroup` never panics and
labels every record with the path alone. -/
theorem collectPressure_labels (ParseFloat : String → Option ℚ) (f path : String)
    (descs : List (String × desc))
    (hd : ∀ p ∈ descs, p.2.desc.variableLabels = ["cgroup"]) :
    (∃ r, (collectPressure ParseFloat f path descs).ret = .returned r) ∧
      ∀ m ∈ (collectPressure ParseFloat f path descs).sent,
        m.desc.variableLabels = ["cgroup"] ∧ m.labelValues = [path] := by
  rw [collectPressure_eq, visitNestedKeyed_eq]
  refine ⟨finish_returns _ (visitNestedKeyedRun_returns _
    (collectPressureEntry_returns ParseFloat path descs (fun p hp => by rw [hd p hp]; rfl)) _),
    ?_⟩
  intro m hm
  obtain ⟨k, h | ⟨visitKV, hret, a, b, hab⟩⟩ :=
    mem_visitNestedKeyedRun_sent _ _ m (mem_finish_sent hm)
  · unfold collectPressureEntry at h
    split at h <;> simp at h
  · unfold collectPressureEntry at hret
    split at hret
    · simp at hret
    · rename_i d hk
      simp only [pure_eq_mk, Ret.returned.injEq, Except.ok.injEq] at hret
      subst hret
      obtain ⟨h1, h2⟩ := mem_collectPressureKV_sent _ _ _ a b m hab
      exact ⟨h1 ▸ hd (k, d) (lookup_mem_pair k d descs hk), h2⟩

/-- With two-label descriptors the visitors of `collectIOStat` always return. -/
theorem collectIOStatEntry_returns (ParseFloat : String → Option ℚ) (path : String)
    (descs : List (String × desc))
    (hlabels : ∀ p ∈ descs, p.2.desc.variableLabels.length = 2) :
    ∀ n, ∃ l r, collectIOStatEntry ParseFloat path descs n = ⟨l, .returned r⟩ ∧
      ∀ visitKV, r = .ok visitKV → ∀ a b, ∃ l' r', visitKV a b = ⟨l', .returned r'⟩ := by
  intro n
  refine ⟨[], .ok (collectIOStatKV ParseFloat path descs n), rfl, ?_⟩
  intro visitKV h a b
  cases h
  obtain ⟨r, hr⟩ := collectIOStatKV_sent ParseFloat path descs n (a, b) hlabels
  exact ⟨_, r, hr⟩

/-- An I/O handler whose descriptors have the label schema `(device, cgroup)` never
panics and labels every record with a device and the path, in that order. -/
theorem collectIOStat_labels (ParseFloat : String → Option ℚ) (f path : String)
    (descs : List (String × desc))
    (hd : ∀ p ∈ descs, p.2.desc.variableLabels = ["device", "cgroup"]) :
    (∃ r, (collectIOStat ParseFloat f path descs).ret = .returned r) ∧
      ∀ m ∈ (collectIOStat ParseFloat f path descs).sent,
        m.desc.variableLabels = ["device", "cgroup"] ∧
          ∃ device, m.labelValues = [device, path] := by
  rw [collectIOStat_eq, visitNestedKeyed_eq]
  refine ⟨finish_returns _ (visitNestedKeyedRun_returns _
    (collectIOStatEntry_returns ParseFloat path descs (fun p hp => by rw [hd p hp]; rfl)) _),
    ?_⟩
  intro m hm
  obtain ⟨k, h | ⟨visitKV, hret, a, b, hab⟩⟩ :=
    mem_visitNestedKeyedRun_sent _ _ m (mem_finish_sent hm)
  · simp [collectIOStatEntry] at h
  · simp only [collectIOStatEntry, pure_eq_mk, Ret.returned.injEq, Except.ok.injEq] at hret
    subst hret
    obtain ⟨d, hk, h1, h2⟩ := mem_collectIOStatKV_sent _ _ _ k a b m hab
    exact ⟨h1 ▸ hd (a, d) (lookup_mem_pair a d descs hk), k, h2⟩

theorem memoryStatDescs_labels : ∀ p ∈ memoryStatDescs, p.2.desc.variableLabels = ["cgroup"] := by
  decide

theorem memoryEventsDescs_labels :
    ∀ p ∈ memoryEventsDescs, p.2.desc.variableLabels = ["cgroup"] := by
  decide

theorem memoryPressureDescs_labels :
    ∀ p ∈ memoryPressureDescs, p.2.desc.variableLabels = ["cgroup"] := by
  decide

theorem cpuPressureDescs_labels :
    ∀ p ∈ cpuPressureDescs, p.2.desc.variableLabels = ["cgroup"] := by
  decide

theorem ioPressureDescs_labels : ∀ p ∈ ioPressureDescs, p.2.desc.variableLabels = ["cgroup"] := by
  decide

theorem cpuStatDescs_labels : ∀ p ∈ cpuStatDescs, p.2.desc.variableLabels = ["cgroup"] := by
  decide

theorem pidsEventsDescs_labels : ∀ p ∈ pidsEventsDescs, p.2.desc.variableLabels = ["cgroup"] := by
  decide

theorem ioStatDescs_labels :
    ∀ p ∈ ioStatDescs, p.2.desc.variableLabels = ["device", "cgroup"] := by
  decide

/-- Every scalar handler of the registry is `collectSingleValue` with a descriptor of
label schema `cgroup`. -/
theorem singleCollectors_entry (ParseFloat : String → Option ℚ) (name : String)
    (col : collector) (h : List.lookup name (singleCollectors ParseFloat) = some col) :
    col.desc.variableLabels = ["cgroup"] ∧
      ∃ valueType, col.collect = collectSingleValue ParseFloat valueType := by
  have hm := lookup_mem_pair name col _ h
  simp only [singleCollectors, List.mem_cons, List.mem_singleton, Prod.mk.injEq,
    List.not_mem_nil, or_false] at hm
  rcases hm with ⟨_, rfl⟩ | ⟨_, rfl⟩ | ⟨_, rfl⟩ | ⟨_, rfl⟩ | ⟨_, rfl⟩ | ⟨_, rfl⟩ | ⟨_, rfl⟩ |
    ⟨_, rfl⟩ | ⟨_, rfl⟩ | ⟨_, rfl⟩ | ⟨_, rfl⟩ | ⟨_, rfl⟩ <;> exact ⟨rfl, _, rfl⟩

/-- Every multi-value handler of the registry is a flat or pressure decoder over
descriptors of label schema `cgroup`, except `io.stat`, which is `collectIOStat` over
descriptors of label schema `(device, cgroup)`. -/
theorem multipleCollectors_entry (ParseFloat : String → Option ℚ) (name : String)
    (col : multipleCollector) (h : List.lookup name (multipleCollectors ParseFloat) = some col) :
    (name ≠ "io.stat" ∧ (∀ p ∈ col.descs, p.2.desc.variableLabels = ["cgroup"]) ∧
        ((∃ valueType, col.collect = collectFlatKeyed ParseFloat valueType) ∨
          col.collect = collectPressure ParseFloat)) ∨
      (name = "io.stat" ∧ (∀ p ∈ col.descs, p.2.desc.variableLabels = ["device", "cgroup"]) ∧
        col.collect = collectIOStat ParseFloat) := by
  have hm := lookup_mem_pair name col _ h
  simp only [multipleCollectors, List.mem_cons, List.mem_singleton, Prod.mk.injEq,
    List.not_mem_nil, or_false] at hm
  rcases hm with h1 | h2 | h3 | h4 | h5 | h6 | h7 | h8
  · obtain ⟨rfl, rfl⟩ := h1
    exact Or.inl ⟨by decide, memoryStatDescs_labels, Or.inl ⟨_, rfl⟩⟩
  · obtain ⟨rfl, rfl⟩ := h2
    exact Or.inl ⟨by decide, memoryEventsDescs_labels, Or.inl ⟨_, rfl⟩⟩
  · obtain ⟨rfl, rfl⟩ := h3
    exact Or.inl ⟨by decide, memoryPressureDescs_labels, Or.inr rfl⟩
  · obtain ⟨rfl, rfl⟩ := h4
    exact Or.inl ⟨by decide, cpuPressureDescs_labels, Or.inr rfl⟩
  · obtain ⟨rfl, rfl⟩ := h5
    exact Or.inl ⟨by decide, ioPressureDescs_labels, Or.inr rfl⟩
  · obtain ⟨rfl, rfl⟩ := h6
    exact Or.inl ⟨by decide, cpuStatDescs_labels, Or.inl ⟨_, rfl⟩⟩
  · obtain ⟨rfl, rfl⟩ := h7
    exact Or.inr ⟨rfl, ioStatDescs_labels, rfl⟩
  · obtain ⟨rfl, rfl⟩ := h8
    exact Or.inl ⟨by decide, pidsEventsDescs_labels, Or.inl ⟨_, rfl⟩⟩

/-- C20: for every entry of the registry and every content and path, the entry's decoder
never panics, so no record construction fails on a label count, and every record it sends
carries one label value per label of its descriptor's schema: the path alone, for the
schema `cgroup`, in every scalar, flat and pressure entry, and a device followed by the
path, for the schema `(device, cgroup)`, in the `io.stat` entry. -/
theorem registry_label_values (ParseFloat : String → Option ℚ) (content path : String) :
    (∀ name col, List.lookup name (singleCollectors ParseFloat) = some col →
      (∃ r, (col.collect content path col.desc).ret = .returned r) ∧
        ∀ m ∈ (col.collect content path col.desc).sent,
          m.desc.variableLabels = ["cgroup"] ∧ m.labelValues = [path]) ∧
    (∀ name col, List.lookup name (multipleCollectors ParseFloat) = some col →
      (∃ r, (col.collect content path col.descs).ret = .returned r) ∧
        ∀ m ∈ (col.collect content path col.descs).sent,
          (name ≠ "io.stat" → m.desc.variableLabels = ["cgroup"] ∧ m.labelValues = [path]) ∧
          (name = "io.stat" → m.desc.variableLabels = ["device", "cgroup"] ∧
            ∃ device, m.labelValues = [device, path])) := by
  constructor
  · intro name col h
    obtain ⟨hd, valueType, hc⟩ := singleCollectors_entry ParseFloat name col h
    rw [hc]
    exact collectSingleValue_labels ParseFloat valueType content path col.desc hd
  · intro name col h
    rcases multipleCollectors_entry ParseFloat name col h with
      ⟨hne, hd, ⟨valueType, hc⟩ | hc⟩ | ⟨heq, hd, hc⟩
    · rw [hc]
      have hl := collectFlatKeyed_labels ParseFloat valueType content path col.descs hd
      exact ⟨hl.1, fun m hm => ⟨fun _ => hl.2 m hm, fun he => absurd he hne⟩⟩
    · rw [hc]
      have hl := collectPressure_labels ParseFloat content path col.descs hd
      exact ⟨hl.1, fun m hm => ⟨fun _ => hl.2 m hm, fun he => absurd he hne⟩⟩
    · rw [hc]
      have hl := collectIOStat_labels ParseFloat content path col.descs hd
      exact ⟨hl.1, fun m hm => ⟨fun hn => absurd heq hn, fun _ => hl.2 m hm⟩⟩

/-- Instance of C20: the `io.stat` entry on a two-line content. -/
theorem registry_label_values_witness :
    (∃ r, (collectIOStat parseUnsigned "8:0 rbytes=5\n8:16 wbytes=x\n" "system.slice"
        ioStatDescs).ret = .returned r) ∧
      ∀ m ∈ (collectIOStat parseUnsigned "8:0 rbytes=5\n8:16 wbytes=x\n" "system.slice"
          ioStatDescs).sent,
        ("io.stat" ≠ "io.stat" → m.desc.variableLabels = ["cgroup"] ∧
          m.labelValues = ["system.slice"]) ∧
        ("io.stat" = "io.stat" → m.desc.variableLabels = ["device", "cgroup"] ∧
          ∃ device, m.labelValues = [device, "system.slice"]) :=
  (registry_label_values parseUnsigned "8:0 rbytes=5\n8:16 wbytes=x\n" "system.slice").2
    "io.stat" ⟨ioStatDescs, collectIOStat parseUnsigned⟩ rfl

/-! ## Lemmas on paths -/

theorem Split_append_sep (sep : Char) (a b : String) (ha : sep ∉ a.data) :
    Split (a ++ String.singleton sep ++ b) sep = a :: Split b sep := by
  have h : (a ++ String.singleton sep ++ b).data = a.data ++ sep :: b.data := by
    simp [String.data_append, String.singleton]
  simp [Split, h, splitFields_append_sep sep _ _ ha]

theorem validElem_iff (e : String) :
    validElem e = true ↔ e ≠ "" ∧ e ≠ "." ∧ e ≠ ".." ∧ '/' ∉ e.data := by
  simp [validElem, and_assoc]

theorem joinElems_cons_cons (e e' : String) (es : List String) :
    joinElems (e :: e' :: es) = e ++ "/" ++ joinElems (e' :: es) := rfl

/-- Splitting a joined path gives back its elements. -/
theorem Split_joinElems (es : List String) (hne : es ≠ [])
    (hes : ∀ e ∈ es, '/' ∉ e.data) : Split (joinElems es) '/' = es := by
  induction es with
  | nil => exact absurd rfl hne
  | cons e rest ih =>
    cases rest with
    | nil => exact Split_single '/' e (hes e (List.mem_cons_self _ _))
    | cons e' rest' =>
      rw [joinElems_cons_cons]
      have h := Split_append_sep '/' e (joinElems (e' :: rest')) (hes e (List.mem_cons_self _ _))
      rw [show e ++ "/" ++ joinElems (e' :: rest') =
        e ++ String.singleton '/' ++ joinElems (e' :: rest') from rfl, h,
        ih (by simp) (fun x hx => hes x (List.mem_cons_of_mem _ hx))]

theorem joinElems_append_singleton (es : List String) (n : String) (hne : es ≠ []) :
    joinElems (es ++ [n]) = joinElems es ++ "/" ++ n := by
  induction es with
  | nil => exact absurd rfl hne
  | cons e rest ih =>
    cases rest with
    | nil => rfl
    | cons e' rest' =>
      rw [List.cons_append, List.cons_append, joinElems_cons_cons, ← List.cons_append,
        ih (by simp), joinElems_cons_cons]
      simp [String.append_assoc]

/-- On valid elements `Clean` keeps everything. -/
theorem foldl_cleanStep_valid (rooted : Bool) (es : List String) (st : List String) (n : Nat)
    (hes : ∀ e ∈ es, validElem e = true) :
    es.foldl (cleanStep rooted) (st, n) = (es.reverse ++ st, n) := by
  induction es generalizing st with
  | nil => rfl
  | cons e rest ih =>
    obtain ⟨h1, h2, h3, _⟩ := (validElem_iff e).1 (hes e (List.mem_cons_self _ _))
    simp [List.foldl, cleanStep, h1, h2, h3, ih _ (fun x hx => hes x (List.mem_cons_of_mem _ hx))]

theorem joinElems_ne_empty (es : List String) (hne : es ≠ [])
    (hes : ∀ e ∈ es, validElem e = true) : joinElems es ≠ "" := by
  cases es with
  | nil => exact absurd rfl hne
  | cons e rest =>
    obtain ⟨h1, _⟩ := (validElem_iff e).1 (hes e (List.mem_cons_self _ _))
    have he : e.data ≠ [] := fun h => h1 (String.ext h)
    cases rest with
    | nil => exact h1
    | cons e' rest' =>
      rw [joinElems_cons_cons]
      intro h
      have := congrArg String.data h
      simp [String.data_append, he] at this

theorem joinElems_head (es : List String) (hne : es ≠ [])
    (hes : ∀ e ∈ es, validElem e = true) : (joinElems es).data.head? ≠ some '/' := by
  cases es with
  | nil => exact absurd rfl hne
  | cons e rest =>
    obtain ⟨h1, _, _, h4⟩ := (validElem_iff e).1 (hes e (List.mem_cons_self _ _))
    have hhead : ∀ (l : List Char), (e.data ++ l).head? ≠ some '/' := by
      intro l h
      cases hd : e.data with
      | nil => exact h1 (String.ext hd)
      | cons c cs =>
        rw [hd] at h
        simp only [List.cons_append, List.head?_cons, Option.some.injEq] at h
        exact h4 (by rw [hd, h]; exact List.mem_cons_self _ _)
    cases rest with
    | nil =>
      have := hhead []
      rwa [List.append_nil] at this
    | cons e' rest' =>
      rw [joinElems_cons_cons]
      have := hhead (("/" : String).data ++ (joinElems (e' :: rest')).data)
      rwa [String.data_append, String.data_append, List.append_assoc]

/-- A path of valid elements is clean. -/
theorem Clean_joinElems (es : List String) (hne : es ≠ [])
    (hes : ∀ e ∈ es, validElem e = true) : Clean (joinElems es) = joinElems es := by
  have h1 := joinElems_ne_empty es hne hes
  have h2 := joinElems_head es hne hes
  have h3 := Split_joinElems es hne (fun e he => ((validElem_iff e).1 (hes e he)).2.2.2)
  simp [Clean, h1, h2, h3, foldl_cleanStep_valid false es [] 0 hes]

theorem pathOf_nil : pathOf [] = "." := rfl

theorem pathOf_of_ne_nil (es : List String) (hne : es ≠ []) : pathOf es = joinElems es := by
  simp [pathOf, hne]

theorem Clean_of_split (path : String) (es out : List String) (h1 : path ≠ "")
    (h2 : path.data.head? ≠ some '/') (h3 : Split path '/' = es)
    (h4 : (es.foldl (cleanStep false) ([], 0)).1.reverse = out) (h5 : joinElems out ≠ "") :
    Clean path = joinElems out := by
  have hr : decide (path.data.head? = some '/') = false := by simpa using h2
  unfold Clean
  rw [if_neg h1]
  simp only [hr, h3, h4, if_neg h2]
  have h6 : ("" : String) ++ joinElems out = joinElems out := by simp
  rw [h6, if_neg h5]

theorem Join_pathOf (es : List String) (n : String)
    (hes : ∀ e ∈ es, validElem e = true) (hn : validElem n = true) :
    Join (pathOf es) n = pathOf (es ++ [n]) := by
  obtain ⟨n1, n2, n3, n4⟩ := (validElem_iff n).1 hn
  by_cases hnil : es = []
  · subst hnil
    have hs : Split ("." ++ String.singleton '/' ++ n) '/' = [".", n] :=
      Split_pair '/' "." n (by decide) n4
    have hne : "." ++ String.singleton '/' ++ n ≠ "" := by
      intro h
      have := congrArg String.data h
      simp [String.data_append] at this
    have hhead : ("." ++ String.singleton '/' ++ n).data.head? ≠ some '/' := by
      simp [String.data_append]
    have h1 : Join "." n = Clean ("." ++ String.singleton '/' ++ n) := by
      simp [Join]
      rfl
    rw [pathOf_nil, h1, Clean_of_split _ _ [n] hne hhead hs
      (by simp [List.foldl, cleanStep, n1, n2, n3]) (by simpa [joinElems] using n1)]
    rfl
  · have hne := joinElems_ne_empty es hnil hes
    have hall : ∀ e ∈ es ++ [n], validElem e = true := by
      intro e he
      rcases List.mem_append.1 he with h | h
      · exact hes e h
      · rw [List.mem_singleton.1 h]; exact hn
    rw [pathOf_of_ne_nil es hnil, pathOf_of_ne_nil (es ++ [n]) (by simp)]
    simp only [Join, hne, false_and, if_false]
    rw [← joinElems_append_singleton es n hnil]
    exact Clean_joinElems _ (by simp) hall

theorem dropWhile_reverse_last_sep (a b : List Char) (hb : '/' ∉ b) :
    ((a ++ '/' :: b).reverse.dropWhile (fun c => c ≠ '/')).reverse = a ++ ['/'] := by
  have h : (a ++ '/' :: b).reverse = b.reverse ++ '/' :: a.reverse := by simp
  rw [h, List.dropWhile_append_of_pos (fun c hc => by
    have : c ≠ '/' := fun e => hb (e ▸ List.mem_reverse.1 hc)
    simpa using this)]
  simp [List.dropWhile]

theorem dropWhile_reverse_no_sep (b : List Char) (hb : '/' ∉ b) :
    b.reverse.dropWhile (fun c => c ≠ '/') = [] := by
  rw [List.dropWhile_eq_nil_iff]
  intro c hc
  have : c ≠ '/' := fun e => hb (e ▸ List.mem_reverse.1 hc)
  simpa using this

theorem Split_joinElems_slash (es : List String) (hne : es ≠ [])
    (hes : ∀ e ∈ es, '/' ∉ e.data) : Split (joinElems es ++ "/") '/' = es ++ [""] := by
  induction es with
  | nil => exact absurd rfl hne
  | cons e rest ih =>
    cases rest with
    | nil =>
      have h := Split_pair '/' e "" (hes e (List.mem_cons_self _ _)) (by decide)
      rw [String.append_empty] at h
      exact h
    | cons e' rest' =>
      rw [joinElems_cons_cons, String.append_assoc]
      have h := Split_append_sep '/' e (joinElems (e' :: rest') ++ "/")
        (hes e (List.mem_cons_self _ _))
      rw [show e ++ "/" ++ (joinElems (e' :: rest') ++ "/") =
        e ++ String.singleton '/' ++ (joinElems (e' :: rest') ++ "/") from rfl, h,
        ih (by simp) (fun x hx => hes x (List.mem_cons_of_mem _ hx))]
      rfl

/-- Directory part of the path of a non-empty list of valid elements. -/
theorem Dir_pathOf (es : List String) (n : String)
    (hes : ∀ e ∈ es, validElem e = true) (hn : validElem n = true) :
    Dir (pathOf (es ++ [n])) = pathOf es := by
  obtain ⟨n1, n2, n3, n4⟩ := (validElem_iff n).1 hn
  by_cases hnil : es = []
  · subst hnil
    have : pathOf ([] ++ [n]) = n := rfl
    rw [this, Dir, dropWhile_reverse_no_sep _ n4]
    rfl
  · rw [pathOf_of_ne_nil (es ++ [n]) (by simp), pathOf_of_ne_nil es hnil,
      joinElems_append_singleton es n hnil]
    have hd : (joinElems es ++ "/" ++ n).data = (joinElems es).data ++ '/' :: n.data := by
      simp [String.data_append]
    rw [Dir, hd, dropWhile_reverse_last_sep _ _ n4]
    have hs : (⟨(joinElems es).data ++ ['/']⟩ : String) = joinElems es ++ "/" := by
      apply String.ext
      simp [String.data_append]
    rw [hs]
    have h1 : joinElems es ++ "/" ≠ "" := by
      intro h
      have := congrArg String.data h
      simp [String.data_append] at this
    have h2 : (joinElems es ++ "/").data.head? ≠ some '/' := by
      have h0 := joinElems_head es hnil hes
      have hne := joinElems_ne_empty es hnil hes
      have hdne : (joinElems es).data ≠ [] := fun h => hne (String.ext h)
      rw [String.data_append]
      cases hd : (joinElems es).data with
      | nil => exact absurd hd hdne
      | cons c cs => rw [hd] at h0; simpa using h0
    have h3 := Split_joinElems_slash es hnil
      (fun e he => ((validElem_iff e).1 (hes e he)).2.2.2)
    have h4 := joinElems_ne_empty es hnil hes
    exact Clean_of_split _ _ es h1 h2 h3
      (by simp [List.foldl_append, foldl_cleanStep_valid false es [] 0 hes, cleanStep]) h4

theorem Base_of_last (a : List Char) (n : String) (hn : validElem n = true)
    (path : String) (hp : path.data = n.data ∨ path.data = a ++ '/' :: n.data) :
    Base path = n := by
  obtain ⟨n1, _, _, n4⟩ := (validElem_iff n).1 hn
  have hdne : n.data ≠ [] := fun h => n1 (String.ext h)
  have hrne : n.data.reverse ≠ [] := by simpa using hdne
  have hall : ∀ c ∈ n.data.reverse, c ≠ '/' := fun c hc e => n4 (e ▸ List.mem_reverse.1 hc)
  have hpne : path ≠ "" := by
    intro h
    rw [h] at hp
    rcases hp with h | h
    · exact hdne h.symm
    · simp at h
  obtain ⟨rest, hrest, hr⟩ : ∃ rest, path.data.reverse = n.data.reverse ++ rest ∧
      (rest = [] ∨ rest.head? = some '/') := by
    rcases hp with h | h
    · exact ⟨[], by simp [h], Or.inl rfl⟩
    · exact ⟨'/' :: a.reverse, by simp [h], Or.inr rfl⟩
  have hdrop : path.data.reverse.dropWhile (fun c => c = '/') = n.data.reverse ++ rest := by
    rw [hrest]
    cases hd : n.data.reverse with
    | nil => exact absurd hd hrne
    | cons c cs =>
      have hc : c ≠ '/' := hall c (by rw [hd]; exact List.mem_cons_self _ _)
      simp [List.dropWhile, hc]
  have htake : (n.data.reverse ++ rest).takeWhile (fun c => c ≠ '/') = n.data.reverse := by
    rw [List.takeWhile_append_of_pos (fun c hc => by simpa using hall c hc)]
    rcases hr with h | h
    · simp [h]
    · cases rest with
      | nil => simp
      | cons c cs =>
        have : c = '/' := by simpa using h
        simp [List.takeWhile, this]
  unfold Base
  rw [if_neg hpne, hdrop, htake, if_neg hrne]
  apply String.ext
  simp

/-- Last element of the path of a non-empty list of valid elements. -/
theorem Base_pathOf (es : List String) (n : String) (hn : validElem n = true) :
    Base (pathOf (es ++ [n])) = n := by
  by_cases hnil : es = []
  · subst hnil
    exact Base_of_last [] n hn _ (Or.inl rfl)
  · rw [pathOf_of_ne_nil (es ++ [n]) (by simp), joinElems_append_singleton es n hnil]
    exact Base_of_last (joinElems es).data n hn _ (Or.inr (by simp [String.data_append]))

theorem joinElems_ne_dot (es : List String) (hne : es ≠ [])
    (hes : ∀ e ∈ es, validElem e = true) : joinElems es ≠ "." := by
  intro h
  have hs := Split_joinElems es hne (fun e he => ((validElem_iff e).1 (hes e he)).2.2.2)
  rw [h] at hs
  have : es = ["."] := by rw [← hs]; decide
  have hv := hes "." (by rw [this]; exact List.mem_cons_self _ _)
  exact absurd hv (by decide)

/-- The path of valid elements is a valid path with these elements. -/
theorem ValidPath_pathOf (es : List String) (hes : ∀ e ∈ es, validElem e = true) :
    ValidPath (pathOf es) = true ∧ pathElems (pathOf es) = es := by
  by_cases hnil : es = []
  · subst hnil
    exact ⟨by decide, by decide⟩
  · have hs := Split_joinElems es hnil (fun e he => ((validElem_iff e).1 (hes e he)).2.2.2)
    have hd := joinElems_ne_dot es hnil hes
    rw [pathOf_of_ne_nil es hnil]
    refine ⟨?_, by simp [pathElems, hd, hs]⟩
    simp only [ValidPath, hs, Bool.or_eq_true, decide_eq_true_eq, List.all_eq_true]
    right
    intro e he
    obtain ⟨h1, h2, h3, _⟩ := (validElem_iff e).1 (hes e he)
    simp [h1, h2, h3]

theorem splitFields_no_sep (sep : Char) (l : List Char) :
    sep ∉ (splitFields sep l).1 ∧ ∀ x ∈ (splitFields sep l).2, sep ∉ x := by
  induction l with
  | nil => simp [splitFields]
  | cons c cs ih =>
    by_cases hc : c = sep
    · simp only [splitFields, hc, if_true]
      refine ⟨by simp, ?_⟩
      intro x hx
      rcases List.mem_cons.1 hx with h | h
      · rw [h]; exact ih.1
      · exact ih.2 x h
    · simp only [splitFields, hc, if_false]
      refine ⟨?_, ih.2⟩
      intro h
      rcases List.mem_cons.1 h with h | h
      · exact hc h.symm
      · exact ih.1 h

theorem mem_Split_no_sep (s : String) (sep : Char) (e : String) (he : e ∈ Split s sep) :
    sep ∉ e.data := by
  have h := splitFields_no_sep sep s.data
  simp only [Split, List.map_cons, List.mem_cons, List.mem_map] at he
  rcases he with h1 | ⟨x, hx, h1⟩
  · rw [h1]; exact h.1
  · rw [← h1]; exact h.2 x hx

theorem splitFields_join (sep : Char) (l : List Char) :
    (splitFields sep l).1 ++ ((splitFields sep l).2.map (fun x => sep :: x)).flatten = l := by
  induction l with
  | nil => simp [splitFields]
  | cons c cs ih =>
    by_cases hc : c = sep
    · simp only [splitFields, hc, if_true, List.map_cons, List.flatten_cons, List.nil_append,
        List.cons_append]
      rw [ih]
    · simp only [splitFields, hc, if_false, List.cons_append]
      rw [ih]

theorem joinElems_data (a : List Char) (rest : List (List Char)) :
    (joinElems ((a :: rest).map String.mk)).data =
      a ++ (rest.map (fun x => '/' :: x)).flatten := by
  induction rest generalizing a with
  | nil => simp [joinElems]
  | cons b rest ih =>
    rw [List.map_cons, List.map_cons, joinElems_cons_cons, ← List.map_cons, String.data_append,
      String.data_append, ih]
    simp

/-- Joining the elements of a path gives the path back. -/
theorem joinElems_Split (s : String) : joinElems (Split s '/') = s := by
  apply String.ext
  rw [Split, joinElems_data, splitFields_join]

/-- A valid path is the path of its elements, which are valid. -/
theorem pathOf_pathElems (name : String) (h : ValidPath name = true) :
    pathOf (pathElems name) = name ∧ ∀ e ∈ pathElems name, validElem e = true := by
  by_cases hd : name = "."
  · subst hd
    exact ⟨by decide, by decide⟩
  · have hne : Split name '/' ≠ [] := by
      obtain ⟨k, vs, hk⟩ := Split_eq_cons name '/'
      rw [hk]; simp
    simp only [ValidPath, hd, decide_False, Bool.false_or, List.all_eq_true] at h
    refine ⟨by simp [pathElems, hd, pathOf, hne, joinElems_Split], ?_⟩
    intro e he
    simp only [pathElems, hd, if_false] at he
    have h1 := h e he
    have h2 := mem_Split_no_sep name '/' e he
    simp only [Bool.and_eq_true, decide_eq_true_eq] at h1
    exact (validElem_iff e).2 ⟨by simpa using h1.1.1, by simpa using h1.1.2, by simpa using h1.2, h2⟩

/-! ## Lemmas on the walk -/

theorem firstSome_returned_none {ε α : Type} (l : List ε) (next : Exec ε (Option α)) :
    firstSome (⟨l, .returned none⟩ : Exec ε (Option α)) next = ⟨l ++ next.sent, next.ret⟩ := rfl

theorem runVisits_append {ε : Type} (fn : WalkDirFunc ε) (vs ws : List Visit) :
    runVisits fn (vs ++ ws) = firstSome (runVisits fn vs) (runVisits fn ws) := by
  induction vs with
  | nil => exact (firstSome_nil_none _).symm
  | cons v vs ih =>
    rw [List.cons_append, runVisits, runVisits, ih, firstSome_assoc]

mutual
/-- The walk of a node is the callback on its invocations. -/
theorem walkDir_eq_runVisits {ε : Type} (fn : WalkDirFunc ε) :
    ∀ (name dname : String) (node : Node),
      walkDir fn name dname node = runVisits fn (visits name dname node)
  | name, dname, .file _ => by
    rw [walkDir, visits, runVisits, runVisits, firstSome_right_none]
  | name, dname, .dir none entries => by
    rw [walkDir, visits, runVisits, List.nil_append, ← walkDirEntries_eq_runVisits fn name entries]
    unfold firstSome
    simp only [bind_eq_Exec_bind]
    congr 1
    funext r
    cases r <;> rfl
  | name, dname, .dir (some e) entries => by
    rw [walkDir, visits, runVisits, List.singleton_append, runVisits,
      ← walkDirEntries_eq_runVisits fn name entries]
    unfold firstSome
    simp only [bind_eq_Exec_bind]
    congr 1
    funext r
    cases r with
    | some err => rfl
    | none =>
      simp only
      congr 1
      funext r
      cases r <;> rfl
theorem walkDirEntries_eq_runVisits {ε : Type} (fn : WalkDirFunc ε) :
    ∀ (name : String) (entries : List (String × Node)),
      walkDirEntries fn name entries = runVisits fn (visitsEntries name entries)
  | _, [] => by
    rw [walkDirEntries, visitsEntries, runVisits]
    rfl
  | name, (n1, d1) :: rest => by
    rw [walkDirEntries, visitsEntries, runVisits_append, ← walkDir_eq_runVisits fn _ n1 d1,
      ← walkDirEntries_eq_runVisits fn name rest]
    unfold firstSome
    simp only [bind_eq_Exec_bind]
    congr 1
    funext r
    cases r <;> rfl
end

theorem WalkDir_eq_runVisits {ε : Type} (fsys : Node) (root : String) (fn : WalkDirFunc ε) :
    WalkDir fsys root fn = runVisits fn (rootVisits fsys root) := by
  unfold WalkDir rootVisits
  cases lookupNode fsys root with
  | error err => simp only [runVisits]; exact (firstSome_right_none _).symm
  | ok node => exact walkDir_eq_runVisits fn root (Base root) node

theorem mem_runVisits_sent {ε : Type} (fn : WalkDirFunc ε) (vs : List Visit) (e : ε)
    (h : e ∈ (runVisits fn vs).sent) : ∃ v ∈ vs, e ∈ (fn v.path v.entry v.err).sent := by
  induction vs with
  | nil => simp [runVisits] at h
  | cons v vs ih =>
    rw [runVisits] at h
    rcases mem_firstSome_sent h with h | h
    · exact ⟨v, List.mem_cons_self _ _, h⟩
    · obtain ⟨w, hw, hwe⟩ := ih h
      exact ⟨w, List.mem_cons_of_mem _ hw, hwe⟩

/-- When no invocation returns an error or panics, the callback runs on all of them. -/
theorem runVisits_all {ε : Type} (fn : WalkDirFunc ε) (vs : List Visit)
    (h : ∀ v ∈ vs, (fn v.path v.entry v.err).ret = .returned none) :
    (runVisits fn vs).ret = .returned none ∧
      ∀ v ∈ vs, ∀ e ∈ (fn v.path v.entry v.err).sent, e ∈ (runVisits fn vs).sent := by
  induction vs with
  | nil => exact ⟨rfl, fun v hv => absurd hv (List.not_mem_nil _)⟩
  | cons v vs ih =>
    obtain ⟨ih1, ih2⟩ := ih (fun w hw => h w (List.mem_cons_of_mem _ hw))
    have hv := h v (List.mem_cons_self _ _)
    have hx : fn v.path v.entry v.err = ⟨(fn v.path v.entry v.err).sent, .returned none⟩ := by
      rw [← hv]
    rw [runVisits, hx, firstSome_returned_none]
    refine ⟨ih1, ?_⟩
    intro w hw e he
    rcases List.mem_cons.1 hw with hw | hw
    · rw [hw] at he
      exact List.mem_append_left _ he
    · exact List.mem_append_right _ (ih2 w hw e he)

theorem mem_liftSent_sent {α : Type} (x : Exec Metric α) (e : Event)
    (h : e ∈ (liftSent x).sent) : ∃ m, e = Event.sent m ∧ m ∈ x.sent := by
  simp only [liftSent, List.mem_map] at h
  obtain ⟨m, hm, he⟩ := h
  exact ⟨m, he.symm, hm⟩

/-- Events of the single-value block: the open of the path, the records of the handler on
the content of the file, and the log of the handler's error. -/
theorem mem_singleBlock_sent (c : cgroupCollector) (path name : String) (e : Event)
    (h : e ∈ (c.singleBlock path name).sent) :
    ∃ col, List.lookup name c.singleCollectors = some col ∧
      (e = Event.opened path ∨ ∃ f, Open c.fs path = .ok f ∧
        ((∃ m, e = Event.sent m ∧ m ∈ (col.collect f (Dir path) col.desc).sent) ∨
          ∃ err, e = Event.logged "failed to collect cgroup" err ∧
            (col.collect f (Dir path) col.desc).ret = .returned (some err))) := by
  unfold cgroupCollector.singleBlock at h
  cases hl : List.lookup name c.singleCollectors with
  | none => simp [hl] at h
  | some col =>
    refine ⟨col, rfl, ?_⟩
    simp only [hl, bind_eq_Exec_bind] at h
    rcases mem_bind_sent h with h | ⟨_, _, h⟩
    · exact Or.inl (by simpa [send] using h)
    · right
      cases ho : Open c.fs path with
      | error err => simp [ho] at h
      | ok f =>
        refine ⟨f, rfl, ?_⟩
        simp only [ho] at h
        rcases mem_bind_sent h with h | ⟨r, hr, h⟩
        · obtain ⟨m, hm, hms⟩ := mem_liftSent_sent _ e h
          exact Or.inl ⟨m, hm, hms⟩
        · cases r with
          | none => simp [Exec.bind] at h
          | some err =>
            refine Or.inr ⟨err, ?_, hr⟩
            simpa [send, Exec.bind] using h

/-- Events of the multi-value block. -/
theorem mem_multipleBlock_sent (c : cgroupCollector) (path name : String) (e : Event)
    (h : e ∈ (c.multipleBlock path name).sent) :
    ∃ col, List.lookup name c.multipleCollectors = some col ∧
      (e = Event.opened path ∨ ∃ f, Open c.fs path = .ok f ∧
        ((∃ m, e = Event.sent m ∧ m ∈ (col.collect f (Dir path) col.descs).sent) ∨
          ∃ err, e = Event.logged "failed to collect cgroup" err ∧
            (col.collect f (Dir path) col.descs).ret = .returned (some err))) := by
  unfold cgroupCollector.multipleBlock at h
  cases hl : List.lookup name c.multipleCollectors with
  | none => simp [hl] at h
  | some col =>
    refine ⟨col, rfl, ?_⟩
    simp only [hl, bind_eq_Exec_bind] at h
    rcases mem_bind_sent h with h | ⟨_, _, h⟩
    · exact Or.inl (by simpa [send] using h)
    · right
      cases ho : Open c.fs path with
      | error err => simp [ho] at h
      | ok f =>
        refine ⟨f, rfl, ?_⟩
        simp only [ho] at h
        rcases mem_bind_sent h with h | ⟨r, hr, h⟩
        · obtain ⟨m, hm, hms⟩ := mem_liftSent_sent _ e h
          exact Or.inl ⟨m, hm, hms⟩
        · cases r with
          | none => simp [Exec.bind] at h
          | some err =>
            refine Or.inr ⟨err, ?_, hr⟩
            simpa [send, Exec.bind] using h

/-- The callback has events only on an entry that is no directory, those of its two
blocks. -/
theorem mem_walkFn_sent (c : cgroupCollector) (path : String) (d : Option DirEntry)
    (err : Option FsError) (e : Event) (h : e ∈ (c.walkFn path d err).sent) :
    err = none ∧ ∃ de, d = some de ∧ de.IsDir = false ∧
      (e ∈ (c.singleBlock path de.Name).sent ∨ e ∈ (c.multipleBlock path de.Name).sent) := by
  unfold cgroupCollector.walkFn at h
  cases err with
  | some err => simp at h
  | none =>
    refine ⟨rfl, ?_⟩
    cases d with
    | none => simp [goPanic] at h
    | some de =>
      refine ⟨de, rfl, ?_⟩
      cases hd : de.IsDir with
      | true => simp [hd] at h
      | false =>
        refine ⟨rfl, ?_⟩
        simp only [hd, Bool.false_eq_true, if_false, bind_eq_Exec_bind] at h
        rcases mem_bind_sent h with h | ⟨r, _, h⟩
        · exact Or.inl h
        · cases r with
          | some err => simp at h
          | none =>
            simp only at h
            rcases mem_bind_sent h with h | ⟨r, _, h⟩
            · exact Or.inr h
            · cases r <;> simp at h

/-- Every event of the loop over the matches is the log of a failed walk or an event of
the callback on an invocation of the walk of a match. -/
theorem mem_collectMatches_sent (c : cgroupCollector) (ms : List String) (e : Event)
    (h : e ∈ (c.collectMatches ms).sent) :
    (∃ err, e = Event.logged "failed to walk cgroup" err) ∨
      ∃ m ∈ ms, ∃ v ∈ rootVisits c.fs m, e ∈ (c.walkFn v.path v.entry v.err).sent := by
  induction ms with
  | nil => simp [cgroupCollector.collectMatches] at h
  | cons m rest ih =>
    rw [cgroupCollector.collectMatches] at h
    simp only [bind_eq_Exec_bind] at h
    rcases mem_bind_sent h with h | ⟨r, _, h⟩
    · rw [WalkDir_eq_runVisits] at h
      obtain ⟨v, hv, hve⟩ := mem_runVisits_sent _ _ e h
      exact Or.inr ⟨m, List.mem_cons_self _ _, v, hv, hve⟩
    · have hrest : e ∈ (c.collectMatches rest).sent →
          (∃ err, e = Event.logged "failed to walk cgroup" err) ∨
            ∃ m' ∈ m :: rest, ∃ v ∈ rootVisits c.fs m',
              e ∈ (c.walkFn v.path v.entry v.err).sent := by
        intro h'
        rcases ih h' with h' | ⟨m', hm', hv⟩
        · exact Or.inl h'
        · exact Or.inr ⟨m', List.mem_cons_of_mem _ hm', hv⟩
      cases r with
      | none =>
        rcases mem_bind_sent h with h | ⟨_, _, h⟩
        · simp at h
        · exact hrest h
      | some err =>
        rcases mem_bind_sent h with h | ⟨_, _, h⟩
        · exact Or.inl ⟨err, by simpa [send] using h⟩
        · exact hrest h

/-- Every event of a pass is a log of the pass or an event of the callback on an
invocation of the walk of a match of the glob. -/
theorem mem_Collect_sent (otherGlob : Node → String → List String × Option GoError)
    (c : cgroupCollector) (e : Event) (h : e ∈ (c.Collect otherGlob).sent) :
    (∃ err, e = Event.logged "failed to glob cgroups" err) ∨
      (∃ err, e = Event.logged "failed to walk cgroup" err) ∨
      ∃ m ∈ (Glob otherGlob c.fs c.glob).1, ∃ v ∈ rootVisits c.fs m,
        e ∈ (c.walkFn v.path v.entry v.err).sent := by
  unfold cgroupCollector.Collect at h
  simp only [bind_eq_Exec_bind] at h
  cases hg : (Glob otherGlob c.fs c.glob).2 with
  | none =>
    simp only [hg] at h
    rcases mem_bind_sent h with h | ⟨_, _, h⟩
    · simp at h
    · exact Or.inr (mem_collectMatches_sent c _ e h)
  | some err =>
    simp only [hg] at h
    rcases mem_bind_sent h with h | ⟨_, _, h⟩
    · exact Or.inl ⟨err, by simpa [send] using h⟩
    · exact Or.inr (mem_collectMatches_sent c _ e h)

theorem every_dir (P : Node → Bool) (readErr : Option FsError)
    (entries : List (String × Node)) (h : Node.every P (.dir readErr entries) = true) :
    P (.dir readErr entries) = true ∧ Node.everyEntry P entries = true := by
  rw [Node.every, Bool.and_eq_true] at h
  exact h

theorem everyEntry_cons (P : Node → Bool) (n1 : String) (d1 : Node)
    (rest : List (String × Node)) (h : Node.everyEntry P ((n1, d1) :: rest) = true) :
    Node.every P d1 = true ∧ Node.everyEntry P rest = true := by
  rw [Node.everyEntry, Bool.and_eq_true] at h
  exact h

theorem everyEntry_mem (P : Node → Bool) (entries : List (String × Node))
    (h : Node.everyEntry P entries = true) :
    ∀ p ∈ entries, Node.every P p.2 = true := by
  induction entries with
  | nil => intro p hp; exact absurd hp (List.not_mem_nil _)
  | cons q rest ih =>
    obtain ⟨n1, d1⟩ := q
    obtain ⟨h1, h2⟩ := everyEntry_cons P n1 d1 rest h
    intro p hp
    rcases List.mem_cons.1 hp with hp | hp
    · rw [hp]; exact h1
    · exact ih h2 p hp

theorem mem_visitsEntries (name : String) (entries : List (String × Node)) (v : Visit)
    (h : v ∈ visitsEntries name entries) :
    ∃ p ∈ entries, v ∈ visits (Join name p.1) p.1 p.2 := by
  induction entries with
  | nil => simp [visitsEntries] at h
  | cons q rest ih =>
    obtain ⟨n1, d1⟩ := q
    rw [visitsEntries] at h
    rcases List.mem_append.1 h with h | h
    · exact ⟨(n1, d1), List.mem_cons_self _ _, h⟩
    · obtain ⟨p, hp, hv⟩ := ih h
      exact ⟨p, List.mem_cons_of_mem _ hp, hv⟩

theorem visitsEntries_mem (name : String) (entries : List (String × Node))
    (p : String × Node) (hp : p ∈ entries) (v : Visit)
    (h : v ∈ visits (Join name p.1) p.1 p.2) : v ∈ visitsEntries name entries := by
  induction entries with
  | nil => exact absurd hp (List.not_mem_nil _)
  | cons q rest ih =>
    obtain ⟨n1, d1⟩ := q
    rw [visitsEntries]
    rcases List.mem_cons.1 hp with hp | hp
    · rw [hp] at h
      exact List.mem_append_left _ h
    · exact List.mem_append_right _ (ih hp)

theorem valid_append_singleton (es : List String) (n : String)
    (hes : ∀ e ∈ es, validElem e = true) (hn : validElem n = true) :
    ∀ e ∈ es ++ [n], validElem e = true := by
  intro e he
  rcases List.mem_append.1 he with h | h
  · exact hes e h
  · rw [List.mem_singleton.1 h]; exact hn

theorem visits_dir (name dname : String) (readErr : Option FsError)
    (entries : List (String × Node)) :
    visits name dname (.dir readErr entries) =
      ⟨name, some ⟨dname, true⟩, none⟩ ::
        ((match readErr with
          | some e => [⟨name, some ⟨dname, true⟩, some e⟩]
          | none => []) ++ visitsEntries name entries) := by
  cases readErr <;> rw [visits]

/-- In a tree with valid names, every invocation of the walk of a node at a path of
valid elements has a path of valid elements, no error apart from a read error on a
directory, and an entry named by the last element of its path. -/
theorem visits_names : ∀ (node : Node) (es : List String) (dname : String),
    (∀ e ∈ es, validElem e = true) → node.validNames = true → dname = Base (pathOf es) →
    ∀ v ∈ visits (pathOf es) dname node,
      ∃ es', (∀ e ∈ es', validElem e = true) ∧ v.path = pathOf es' ∧
        ∃ de, v.entry = some de ∧ de.Name = Base v.path ∧ (de.IsDir = false → v.err = none)
  | .file _, es, dname, hes, _, hd, v, hv => by
    rw [visits, List.mem_singleton] at hv
    rw [hv]
    exact ⟨es, hes, rfl, _, rfl, hd, fun _ => rfl⟩
  | .dir readErr entries, es, dname, hes, hn, hd, v, hv => by
    rw [visits_dir] at hv
    rcases List.mem_cons.1 hv with hv | hv
    · rw [hv]
      exact ⟨es, hes, rfl, _, rfl, hd, fun h => by simp at h⟩
    · rcases List.mem_append.1 hv with hv | hv
      · cases readErr with
        | none => simp at hv
        | some e =>
          simp only [List.mem_singleton] at hv
          rw [hv]
          exact ⟨es, hes, rfl, _, rfl, hd, fun h => by simp at h⟩
      · obtain ⟨p, hp, hpv⟩ := mem_visitsEntries _ _ v hv
        obtain ⟨h1, h2⟩ := every_dir _ _ _ hn
        have hpn : validElem p.1 = true := by
          simp only [validNamesAt, List.all_eq_true] at h1
          exact h1 p hp
        rw [Join_pathOf es p.1 hes hpn] at hpv
        exact visits_names p.2 (es ++ [p.1]) p.1 (valid_append_singleton es p.1 hes hpn)
          (everyEntry_mem _ _ h2 p hp) (Base_pathOf es p.1 hpn).symm v hpv
termination_by node => sizeOf node
decreasing_by
  all_goals simp_wf
  have h1 := List.sizeOf_lt_of_mem hp
  have h2 : sizeOf p = 1 + sizeOf p.1 + sizeOf p.2 := by
    obtain ⟨a, b⟩ := p
    rfl
  omega

theorem every_find (P : Node → Bool) : ∀ (es : List String) (fsys node : Node),
    fsys.every P = true → fsys.find es = some node → node.every P = true
  | [], fsys, node, h, hf => by
    rw [Node.find] at hf
    rw [← Option.some.inj hf]
    exact h
  | e :: es, .file _, node, _, hf => by simp [Node.find] at hf
  | e :: es, .dir readErr entries, node, h, hf => by
    rw [Node.find] at hf
    cases hl : List.lookup e entries with
    | none => simp [hl] at hf
    | some child =>
      rw [hl] at hf
      exact every_find P es child node
        (everyEntry_mem P entries (every_dir P _ _ h).2 (e, child) (lookup_mem_pair e child _ hl))
        hf

/-- In a tree with valid names, every invocation of the walk of a root either reports
that the root cannot be found, or has a path of valid elements and an entry named by the
last element of this path. -/
theorem rootVisits_names (fsys : Node) (root : String) (hn : fsys.validNames = true) :
    ∀ v ∈ rootVisits fsys root,
      (v.entry = none ∧ v.err ≠ none) ∨
      ∃ es, (∀ e ∈ es, validElem e = true) ∧ v.path = pathOf es ∧
        ∃ de, v.entry = some de ∧ de.Name = Base v.path ∧ (de.IsDir = false → v.err = none) := by
  intro v hv
  unfold rootVisits at hv
  cases hl : lookupNode fsys root with
  | error err =>
    rw [hl] at hv
    simp only [List.mem_singleton] at hv
    rw [hv]
    exact Or.inl ⟨rfl, by simp⟩
  | ok node =>
    rw [hl] at hv
    simp only at hv
    right
    unfold lookupNode at hl
    by_cases hvp : ValidPath root = false
    · simp [hvp] at hl
    · have hvp' : ValidPath root = true := by simpa using hvp
      simp only [hvp', Bool.true_eq_false, if_false] at hl
      cases hfd : fsys.find (pathElems root) with
      | none => simp [hfd] at hl
      | some nd =>
        simp only [hfd, Except.ok.injEq] at hl
        obtain ⟨h1, h2⟩ := pathOf_pathElems root hvp'
        rw [← h1] at hv
        exact visits_names node (pathElems root) (Base (pathOf (pathElems root))) h2
          (every_find _ _ fsys node hn (hl ▸ hfd)) rfl v hv

theorem lookup_dot_single (ParseFloat : String → Option ℚ) :
    List.lookup "." (singleCollectors ParseFloat) = none := rfl

theorem lookup_dot_multiple (ParseFloat : String → Option ℚ) :
    List.lookup "." (multipleCollectors ParseFloat) = none := rfl

/-- Every record of a single-value handler of the registry has the path as the value of
its last label, `cgroup`, and the handler never panics. -/
theorem single_last_label (ParseFloat : String → Option ℚ) (name : String) (col : collector)
    (h : List.lookup name (singleCollectors ParseFloat) = some col) (content path : String) :
    (∃ r, (col.collect content path col.desc).ret = .returned r) ∧
      ∀ m ∈ (col.collect content path col.desc).sent,
        m.desc.variableLabels.getLast? = some "cgroup" ∧ m.labelValues.getLast? = some path := by
  obtain ⟨hd, valueType, hc⟩ := singleCollectors_entry ParseFloat name col h
  rw [hc]
  obtain ⟨h1, h2⟩ := collectSingleValue_labels ParseFloat valueType content path col.desc hd
  refine ⟨h1, fun m hm => ?_⟩
  obtain ⟨h3, h4⟩ := h2 m hm
  rw [h3, h4]
  exact ⟨rfl, rfl⟩

/-- Every record of a multi-value handler of the registry has the path as the value of
its last label, `cgroup`, and the handler never panics. -/
theorem multiple_last_label (ParseFloat : String → Option ℚ) (name : String)
    (col : multipleCollector) (h : List.lookup name (multipleCollectors ParseFloat) = some col)
    (content path : String) :
    (∃ r, (col.collect content path col.descs).ret = .returned r) ∧
      ∀ m ∈ (col.collect content path col.descs).sent,
        m.desc.variableLabels.getLast? = some "cgroup" ∧ m.labelValues.getLast? = some path := by
  rcases multipleCollectors_entry ParseFloat name col h with
    ⟨_, hd, ⟨valueType, hc⟩ | hc⟩ | ⟨_, hd, hc⟩
  · rw [hc]
    obtain ⟨h1, h2⟩ := collectFlatKeyed_labels ParseFloat valueType content path col.descs hd
    refine ⟨h1, fun m hm => ?_⟩
    obtain ⟨h3, h4⟩ := h2 m hm
    rw [h3, h4]
    exact ⟨rfl, rfl⟩
  · rw [hc]
    obtain ⟨h1, h2⟩ := collectPressure_labels ParseFloat content path col.descs hd
    refine ⟨h1, fun m hm => ?_⟩
    obtain ⟨h3, h4⟩ := h2 m hm
    rw [h3, h4]
    exact ⟨rfl, rfl⟩
  · rw [hc]
    obtain ⟨h1, h2⟩ := collectIOStat_labels ParseFloat content path col.descs hd
    refine ⟨h1, fun m hm => ?_⟩
    obtain ⟨h3, device, h4⟩ := h2 m hm
    rw [h3, h4]
    exact ⟨rfl, rfl⟩

/-- An invocation of the callback that has an event is on a file whose name, the last
element of its path, is registered. -/
theorem walkFn_event_file (ParseFloat : String → Option ℚ) (fsys : Node) (glob : String)
    (v : Visit) (e : Event)
    (hv : (v.entry = none ∧ v.err ≠ none) ∨
      ∃ es, (∀ e ∈ es, validElem e = true) ∧ v.path = pathOf es ∧
        ∃ de, v.entry = some de ∧ de.Name = Base v.path ∧ (de.IsDir = false → v.err = none))
    (he : e ∈ ((New ParseFloat fsys glob).walkFn v.path v.entry v.err).sent) :
    ∃ ds n, (∀ x ∈ ds ++ [n], validElem x = true) ∧ v.path = pathOf (ds ++ [n]) ∧
      v.entry = some ⟨n, false⟩ ∧ v.err = none ∧
      (e ∈ ((New ParseFloat fsys glob).singleBlock (pathOf (ds ++ [n])) n).sent ∨
        e ∈ ((New ParseFloat fsys glob).multipleBlock (pathOf (ds ++ [n])) n).sent) := by
  obtain ⟨herr, de, hde, hdir, hblock⟩ := mem_walkFn_sent _ _ _ _ e he
  rcases hv with ⟨hv, _⟩ | ⟨es, hes, hp, de', hde', hname, _⟩
  · rw [hv] at hde
    exact absurd hde (by simp)
  · rw [hde] at hde'
    have hdd : de' = de := (Option.some.inj hde').symm
    rw [hdd] at hname
    have hreg : List.lookup de.Name (singleCollectors ParseFloat) ≠ none ∨
        List.lookup de.Name (multipleCollectors ParseFloat) ≠ none := by
      rcases hblock with h | h
      · obtain ⟨col, hcol, _⟩ := mem_singleBlock_sent _ _ _ e h
        exact Or.inl (by rw [show (New ParseFloat fsys glob).singleCollectors =
          singleCollectors ParseFloat from rfl] at hcol; rw [hcol]; simp)
      · obtain ⟨col, hcol, _⟩ := mem_multipleBlock_sent _ _ _ e h
        exact Or.inr (by rw [show (New ParseFloat fsys glob).multipleCollectors =
          multipleCollectors ParseFloat from rfl] at hcol; rw [hcol]; simp)
    have hne : es ≠ [] := by
      intro hnil
      rw [hnil] at hp
      rw [hp] at hname
      have hdot : de.Name = "." := by rw [hname]; decide
      rw [hdot] at hreg
      rcases hreg with h | h
      · exact h (lookup_dot_single ParseFloat)
      · exact h (lookup_dot_multiple ParseFloat)
    obtain ⟨ds, n, hds⟩ : ∃ ds n, es = ds ++ [n] :=
      ⟨es.dropLast, es.getLast hne, (List.dropLast_append_getLast hne).symm⟩
    rw [hds] at hp hes
    have hn : validElem n = true := hes n (by simp)
    have hbase : de.Name = n := by rw [hname, hp]; exact Base_pathOf ds n hn
    have hde2 : de = ⟨n, false⟩ := by
      cases de with
      | mk nm isd =>
        simp only at hbase hdir
        rw [hbase, hdir]
    rw [hp, hbase] at hblock
    exact ⟨ds, n, hes, hp, by rw [hde, hde2], herr, hblock⟩

/-! ## Theorems on the collection pass -/

set_option maxRecDepth 100000

/-- C16: for every file tree whose entries have valid names and for every glob, every
record of a collection pass is a record of the handler registered for the name `n` of a
file at a path `ds/n` of valid elements, run on the content of this file, and the value
of its last label, `cgroup`, is the directory portion of this path: the elements `ds`
joined with slashes, and the token `.` when `ds` is empty, that is for a file that lies
in the root. -/
theorem Collect_cgroup_label (ParseFloat : String → Option ℚ)
    (otherGlob : Node → String → List String × Option GoError) (fsys : Node) (glob : String)
    (hn : fsys.validNames = true) (m : Metric)
    (h : Event.sent m ∈ ((New ParseFloat fsys glob).Collect otherGlob).sent) :
    ∃ ds n content, (∀ x ∈ ds ++ [n], validElem x = true) ∧
      Open fsys (pathOf (ds ++ [n])) = .ok content ∧
      Dir (pathOf (ds ++ [n])) = pathOf ds ∧
      ((∃ col, List.lookup n (singleCollectors ParseFloat) = some col ∧
          m ∈ (col.collect content (pathOf ds) col.desc).sent) ∨
        (∃ col, List.lookup n (multipleCollectors ParseFloat) = some col ∧
          m ∈ (col.collect content (pathOf ds) col.descs).sent)) ∧
      m.desc.variableLabels.getLast? = some "cgroup" ∧
      m.labelValues.getLast? = some (pathOf ds) ∧
      (ds = [] → m.labelValues.getLast? = some ".") := by
  rcases mem_Collect_sent otherGlob _ _ h with ⟨err, he⟩ | ⟨err, he⟩ | ⟨m0, _, v, hv, he⟩
  · exact absurd he (by simp)
  · exact absurd he (by simp)
  · obtain ⟨ds, n, hvalid, hpath, _, _, hblock⟩ := walkFn_event_file ParseFloat fsys glob v _
      (rootVisits_names fsys m0 hn v hv) he
    have hes : ∀ x ∈ ds, validElem x = true := fun x hx => hvalid x (by simp [hx])
    have hn' : validElem n = true := hvalid n (by simp)
    have hdir := Dir_pathOf ds n hes hn'
    have hdot : ∀ l : Option String, l = some (pathOf ds) → ds = [] → l = some "." := by
      intro l hl hnil
      rw [hl, hnil]
      rfl
    rcases hblock with hb | hb
    · obtain ⟨col, hcol, hev⟩ := mem_singleBlock_sent _ _ _ _ hb
      rcases hev with hev | ⟨f, hopen, ⟨m', hm', hmem⟩ | ⟨err, herr, _⟩⟩
      · exact absurd hev (by simp)
      · have hmm : m = m' := Event.sent.inj hm'
        rw [← hmm, hdir] at hmem
        obtain ⟨h1, h2⟩ := (single_last_label ParseFloat n col hcol f (pathOf ds)).2 m hmem
        exact ⟨ds, n, f, hvalid, hopen, hdir, Or.inl ⟨col, hcol, hmem⟩, h1, h2, hdot _ h2⟩
      · exact absurd herr (by simp)
    · obtain ⟨col, hcol, hev⟩ := mem_multipleBlock_sent _ _ _ _ hb
      rcases hev with hev | ⟨f, hopen, ⟨m', hm', hmem⟩ | ⟨err, herr, _⟩⟩
      · exact absurd hev (by simp)
      · have hmm : m = m' := Event.sent.inj hm'
        rw [← hmm, hdir] at hmem
        obtain ⟨h1, h2⟩ := (multiple_last_label ParseFloat n col hcol f (pathOf ds)).2 m hmem
        exact ⟨ds, n, f, hvalid, hopen, hdir, Or.inr ⟨col, hcol, hmem⟩, h1, h2, hdot _ h2⟩
      · exact absurd herr (by simp)

/-- Instance of C16: the record of the file `io.stat` in the root of `sliceTree`. -/
theorem Collect_cgroup_label_witness :
    sliceTree.validNames = true ∧
      Event.sent ⟨⟨"cgroup_io_read_bytes_total", "", ["device", "cgroup"]⟩,
          .CounterValue, 5, ["8:0", "."]⟩ ∈
        ((New parseUnsigned sliceTree "").Collect noGlob).sent ∧
      ∃ ds n content, (∀ x ∈ ds ++ [n], validElem x = true) ∧
        Open sliceTree (pathOf (ds ++ [n])) = .ok content ∧
        Dir (pathOf (ds ++ [n])) = pathOf ds ∧
        ((∃ col, List.lookup n (singleCollectors parseUnsigned) = some col ∧
            (⟨⟨"cgroup_io_read_bytes_total", "", ["device", "cgroup"]⟩,
              .CounterValue, 5, ["8:0", "."]⟩ : Metric) ∈
              (col.collect content (pathOf ds) col.desc).sent) ∨
          (∃ col, List.lookup n (multipleCollectors parseUnsigned) = some col ∧
            (⟨⟨"cgroup_io_read_bytes_total", "", ["device", "cgroup"]⟩,
              .CounterValue, 5, ["8:0", "."]⟩ : Metric) ∈
              (col.collect content (pathOf ds) col.descs).sent)) ∧
        (⟨⟨"cgroup_io_read_bytes_total", "", ["device", "cgroup"]⟩,
          .CounterValue, 5, ["8:0", "."]⟩ : Metric).desc.variableLabels.getLast?
            = some "cgroup" ∧
        (⟨⟨"cgroup_io_read_bytes_total", "", ["device", "cgroup"]⟩,
          .CounterValue, 5, ["8:0", "."]⟩ : Metric).labelValues.getLast? = some (pathOf ds) ∧
        (ds = [] → (⟨⟨"cgroup_io_read_bytes_total", "", ["device", "cgroup"]⟩,
          .CounterValue, 5, ["8:0", "."]⟩ : Metric).labelValues.getLast? = some ".") :=
  ⟨by decide, by decide,
    Collect_cgroup_label parseUnsigned noGlob sliceTree "" (by decide) _ (by decide)⟩

/-! ## The callback on one entry -/

/-- No name is a key of both maps of the registry. -/
theorem registry_disjoint (ParseFloat : String → Option ℚ) (name : String) (col : collector)
    (h : List.lookup name (singleCollectors ParseFloat) = some col) :
    List.lookup name (multipleCollectors ParseFloat) = none := by
  have hm := lookup_mem_pair name col _ h
  simp only [singleCollectors, List.mem_cons, List.mem_singleton, Prod.mk.injEq,
    List.not_mem_nil, or_false] at hm
  rcases hm with ⟨rfl, _⟩ | ⟨rfl, _⟩ | ⟨rfl, _⟩ | ⟨rfl, _⟩ | ⟨rfl, _⟩ | ⟨rfl, _⟩ | ⟨rfl, _⟩ |
    ⟨rfl, _⟩ | ⟨rfl, _⟩ | ⟨rfl, _⟩ | ⟨rfl, _⟩ | ⟨rfl, _⟩ <;> rfl

theorem liftSent_bind_returned {α : Type} (x : Exec Metric α) (a : α)
    (f : α → Exec Event (Option GoError)) (h : x.ret = .returned a) :
    Exec.bind (liftSent x) f = ⟨x.sent.map Event.sent ++ (f a).sent, (f a).ret⟩ := by
  obtain ⟨l, r⟩ := x
  simp only at h
  rw [h]
  rfl

theorem singleBlock_unregistered (c : cgroupCollector) (path name : String)
    (h : List.lookup name c.singleCollectors = none) :
    c.singleBlock path name = ⟨[], .returned none⟩ := by
  unfold cgroupCollector.singleBlock
  rw [h]
  rfl

theorem multipleBlock_unregistered (c : cgroupCollector) (path name : String)
    (h : List.lookup name c.multipleCollectors = none) :
    c.multipleBlock path name = ⟨[], .returned none⟩ := by
  unfold cgroupCollector.multipleBlock
  rw [h]
  rfl

theorem singleBlock_open_error (c : cgroupCollector) (path name : String) (col : collector)
    (err : FsError) (h : List.lookup name c.singleCollectors = some col)
    (ho : Open c.fs path = .error err) :
    c.singleBlock path name =
      ⟨[Event.opened path], .returned (some (.failedToOpen path err))⟩ := by
  unfold cgroupCollector.singleBlock
  rw [h]
  simp only [ho]
  rfl

theorem multipleBlock_open_error (c : cgroupCollector) (path name : String)
    (col : multipleCollector) (err : FsError)
    (h : List.lookup name c.multipleCollectors = some col)
    (ho : Open c.fs path = .error err) :
    c.multipleBlock path name =
      ⟨[Event.opened path], .returned (some (.failedToOpen path err))⟩ := by
  unfold cgroupCollector.multipleBlock
  rw [h]
  simp only [ho]
  rfl

theorem singleBlock_open_ok (c : cgroupCollector) (path name : String) (col : collector)
    (f : String) (h : List.lookup name c.singleCollectors = some col)
    (ho : Open c.fs path = .ok f)
    (hret : ∃ r, (col.collect f (Dir path) col.desc).ret = .returned r) :
    c.singleBlock path name =
      ⟨handlerEvents path (col.collect f (Dir path) col.desc), .returned none⟩ := by
  obtain ⟨r, hr⟩ := hret
  unfold cgroupCollector.singleBlock
  rw [h]
  simp only [ho, bind_eq_Exec_bind]
  rw [liftSent_bind_returned _ r _ hr]
  unfold handlerEvents
  rw [hr]
  cases r <;> rfl

theorem multipleBlock_open_ok (c : cgroupCollector) (path name : String)
    (col : multipleCollector) (f : String)
    (h : List.lookup name c.multipleCollectors = some col)
    (ho : Open c.fs path = .ok f)
    (hret : ∃ r, (col.collect f (Dir path) col.descs).ret = .returned r) :
    c.multipleBlock path name =
      ⟨handlerEvents path (col.collect f (Dir path) col.descs), .returned none⟩ := by
  obtain ⟨r, hr⟩ := hret
  unfold cgroupCollector.multipleBlock
  rw [h]
  simp only [ho, bind_eq_Exec_bind]
  rw [liftSent_bind_returned _ r _ hr]
  unfold handlerEvents
  rw [hr]
  cases r <;> rfl

theorem walkFn_file (c : cgroupCollector) (path name : String) :
    c.walkFn path (some ⟨name, false⟩) none =
      firstSome (c.singleBlock path name) (firstSome (c.multipleBlock path name)
        ⟨[], .returned none⟩) := by
  unfold cgroupCollector.walkFn firstSome
  simp only [Bool.false_eq_true, if_false, bind_eq_Exec_bind]
  congr 1
  funext r
  cases r with
  | some err => rfl
  | none =>
    simp only
    congr 1
    funext r
    cases r <;> rfl

theorem walkFn_dir (c : cgroupCollector) (path name : String) :
    c.walkFn path (some ⟨name, true⟩) none = ⟨[], .returned none⟩ := rfl

/-- The callback on a file that opens: the events of the file, and the walk goes on. -/
theorem walkFn_file_ok (ParseFloat : String → Option ℚ) (fsys : Node) (glob : String)
    (path name content : String) (ho : Open fsys path = .ok content) :
    (New ParseFloat fsys glob).walkFn path (some ⟨name, false⟩) none =
      ⟨fileEvents ParseFloat path name content, .returned none⟩ := by
  have ho' : Open (New ParseFloat fsys glob).fs path = .ok content := ho
  rw [walkFn_file]
  unfold fileEvents
  cases hs : List.lookup name (singleCollectors ParseFloat) with
  | some col =>
    have hm := registry_disjoint ParseFloat name col hs
    rw [singleBlock_open_ok _ path name col content hs ho'
      (single_last_label ParseFloat name col hs content (Dir path)).1,
      multipleBlock_unregistered _ path name hm]
    simp [firstSome_returned_none]
  | none =>
    rw [singleBlock_unregistered _ path name hs]
    cases hm : List.lookup name (multipleCollectors ParseFloat) with
    | some col =>
      rw [multipleBlock_open_ok _ path name col content hm ho'
        (multiple_last_label ParseFloat name col hm content (Dir path)).1]
      simp [firstSome_returned_none]
    | none =>
      rw [multipleBlock_unregistered _ path name hm]
      rfl

/-- The callback on a registered file that fails to open: the open alone, and the error
is returned to the walk. -/
theorem walkFn_file_open_error (ParseFloat : String → Option ℚ) (fsys : Node) (glob : String)
    (path name : String) (err : FsError) (ho : Open fsys path = .error err)
    (hreg : (List.lookup name (singleCollectors ParseFloat)).isSome = true ∨
      (List.lookup name (multipleCollectors ParseFloat)).isSome = true) :
    (New ParseFloat fsys glob).walkFn path (some ⟨name, false⟩) none =
      ⟨[Event.opened path], .returned (some (.failedToOpen path err))⟩ := by
  have ho' : Open (New ParseFloat fsys glob).fs path = .error err := ho
  rw [walkFn_file]
  cases hs : List.lookup name (singleCollectors ParseFloat) with
  | some col =>
    rw [singleBlock_open_error _ path name col err hs ho']
    rfl
  | none =>
    rw [singleBlock_unregistered _ path name hs]
    cases hm : List.lookup name (multipleCollectors ParseFloat) with
    | some col =>
      rw [multipleBlock_open_error _ path name col err hm ho']
      rfl
    | none =>
      rw [hs, hm] at hreg
      simp at hreg

/-! ## The loop over the matches -/

theorem runVisits_returns {ε : Type} (fn : WalkDirFunc ε) (vs : List Visit)
    (h : ∀ v ∈ vs, ∃ r, (fn v.path v.entry v.err).ret = .returned r) :
    ∃ r, (runVisits fn vs).ret = .returned r := by
  induction vs with
  | nil => exact ⟨none, rfl⟩
  | cons v vs ih =>
    rw [runVisits]
    exact firstSome_returns _ _ (h v (List.mem_cons_self _ _))
      (ih (fun w hw => h w (List.mem_cons_of_mem _ hw)))

/-- When no invocation returns an error or panics, the events are those of all the
invocations in their order. -/
theorem runVisits_all_eq {ε : Type} (fn : WalkDirFunc ε) (vs : List Visit)
    (h : ∀ v ∈ vs, (fn v.path v.entry v.err).ret = .returned none) :
    runVisits fn vs = ⟨vs.flatMap (fun v => (fn v.path v.entry v.err).sent), .returned none⟩ := by
  induction vs with
  | nil => rfl
  | cons v vs ih =>
    have hv := h v (List.mem_cons_self _ _)
    have hx : fn v.path v.entry v.err = ⟨(fn v.path v.entry v.err).sent, .returned none⟩ := by
      rw [← hv]
    rw [runVisits, ih (fun w hw => h w (List.mem_cons_of_mem _ hw)), hx,
      firstSome_returned_none]
    simp [List.flatMap_cons]

theorem visits_entry : ∀ (node : Node) (name dname : String),
    ∀ v ∈ visits name dname node, v.entry ≠ none
  | .file _, name, dname, v, hv => by
    rw [visits, List.mem_singleton] at hv
    rw [hv]
    simp
  | .dir readErr entries, name, dname, v, hv => by
    rw [visits_dir] at hv
    rcases List.mem_cons.1 hv with hv | hv
    · rw [hv]; simp
    · rcases List.mem_append.1 hv with hv | hv
      · cases readErr with
        | none => simp at hv
        | some e =>
          simp only [List.mem_singleton] at hv
          rw [hv]; simp
      · obtain ⟨p, hp, hpv⟩ := mem_visitsEntries _ _ v hv
        exact visits_entry p.2 _ _ v hpv
termination_by node => sizeOf node
decreasing_by
  all_goals simp_wf
  have h1 := List.sizeOf_lt_of_mem hp
  have h2 : sizeOf p = 1 + sizeOf p.1 + sizeOf p.2 := by
    obtain ⟨a, b⟩ := p
    rfl
  omega

theorem rootVisits_entry (fsys : Node) (root : String) :
    ∀ v ∈ rootVisits fsys root, v.entry = none → v.err ≠ none := by
  intro v hv
  unfold rootVisits at hv
  cases hl : lookupNode fsys root with
  | error err =>
    rw [hl] at hv
    simp only [List.mem_singleton] at hv
    rw [hv]
    simp
  | ok node =>
    rw [hl] at hv
    intro h
    exact absurd h (visits_entry node _ _ v hv)

theorem singleBlock_returns (ParseFloat : String → Option ℚ) (fsys : Node) (glob : String)
    (path name : String) :
    ∃ r, ((New ParseFloat fsys glob).singleBlock path name).ret = .returned r := by
  cases hs : List.lookup name (singleCollectors ParseFloat) with
  | none => exact ⟨none, by rw [singleBlock_unregistered _ path name hs]⟩
  | some col =>
    cases ho : Open fsys path with
    | error err => exact ⟨_, by rw [singleBlock_open_error _ path name col err hs ho]⟩
    | ok f =>
      exact ⟨none, by rw [singleBlock_open_ok _ path name col f hs ho
        (single_last_label ParseFloat name col hs f (Dir path)).1]⟩

theorem multipleBlock_returns (ParseFloat : String → Option ℚ) (fsys : Node) (glob : String)
    (path name : String) :
    ∃ r, ((New ParseFloat fsys glob).multipleBlock path name).ret = .returned r := by
  cases hs : List.lookup name (multipleCollectors ParseFloat) with
  | none => exact ⟨none, by rw [multipleBlock_unregistered _ path name hs]⟩
  | some col =>
    cases ho : Open fsys path with
    | error err => exact ⟨_, by rw [multipleBlock_open_error _ path name col err hs ho]⟩
    | ok f =>
      exact ⟨none, by rw [multipleBlock_open_ok _ path name col f hs ho
        (multiple_last_label ParseFloat name col hs f (Dir path)).1]⟩

/-- The callback never panics on an invocation that has an entry or an error. -/
theorem walkFn_returns (ParseFloat : String → Option ℚ) (fsys : Node) (glob : String)
    (path : String) (d : Option DirEntry) (err : Option FsError)
    (h : d = none → err ≠ none) :
    ∃ r, ((New ParseFloat fsys glob).walkFn path d err).ret = .returned r := by
  cases err with
  | some e => exact ⟨_, rfl⟩
  | none =>
    cases d with
    | none => exact absurd rfl (h rfl)
    | some de =>
      obtain ⟨name, isDir⟩ := de
      cases isDir with
      | true => exact ⟨none, rfl⟩
      | false =>
        rw [walkFn_file]
        exact firstSome_returns _ _ (singleBlock_returns ParseFloat fsys glob path name)
          (firstSome_returns _ _ (multipleBlock_returns ParseFloat fsys glob path name)
            ⟨none, rfl⟩)

/-- The walk of a match never panics. -/
theorem WalkDir_returns (ParseFloat : String → Option ℚ) (fsys : Node) (glob : String)
    (m : String) :
    ∃ r, (WalkDir fsys m (New ParseFloat fsys glob).walkFn).ret = .returned r := by
  rw [WalkDir_eq_runVisits]
  exact runVisits_returns _ _ (fun v hv =>
    walkFn_returns ParseFloat fsys glob v.path v.entry v.err (rootVisits_entry fsys m v hv))

/-- The loop over the matches runs the walk of every match, whatever the walks before
have returned. -/
theorem collectMatches_eq (ParseFloat : String → Option ℚ) (fsys : Node) (glob : String)
    (ms : List String) :
    (New ParseFloat fsys glob).collectMatches ms =
      ⟨ms.flatMap (New ParseFloat fsys glob).matchEvents, .returned ()⟩ := by
  induction ms with
  | nil => rfl
  | cons m rest ih =>
    obtain ⟨r, hr⟩ := WalkDir_returns ParseFloat fsys glob m
    have hw : WalkDir (New ParseFloat fsys glob).fs m (New ParseFloat fsys glob).walkFn =
        ⟨(WalkDir fsys m (New ParseFloat fsys glob).walkFn).sent, .returned r⟩ := by
      rw [← hr]
      rfl
    rw [cgroupCollector.collectMatches, ih, List.flatMap_cons]
    unfold cgroupCollector.matchEvents
    rw [hw]
    cases r <;> simp [send]

/-- A pass logs the error of the glob and runs the walk of every match. -/
theorem Collect_eq (ParseFloat : String → Option ℚ)
    (otherGlob : Node → String → List String × Option GoError) (fsys : Node) (glob : String) :
    (New ParseFloat fsys glob).Collect otherGlob =
      ⟨globEvents (Glob otherGlob fsys (New ParseFloat fsys glob).glob).2 ++
        (Glob otherGlob fsys (New ParseFloat fsys glob).glob).1.flatMap
          (New ParseFloat fsys glob).matchEvents, .returned ()⟩ := by
  unfold cgroupCollector.Collect
  rw [collectMatches_eq]
  show (do
    match (Glob otherGlob fsys (New ParseFloat fsys glob).glob).2 with
      | some err => send (Event.logged "failed to glob cgroups" err)
      | none => pure ()
    (⟨_, .returned ()⟩ : Exec Event Unit)) = _
  cases (Glob otherGlob fsys (New ParseFloat fsys glob).glob).2 <;> rfl

/-! ## A file that fails to open -/

/-- C15, counterexample: in `brokenTree` the registered file `system.slice/cpu.stat` fails
to open.  The pass logs the failure and goes on with the match `user.slice`, but the
registered file `system.slice/memory.max`, which opens and whose handler alone emits a
record, comes after the failing file under the same match and is neither opened nor
decoded; `system.slice/sub/pids.max` is skipped as well. -/
theorem Collect_open_failure_skips_files :
    Open brokenTree "system.slice/cpu.stat" = .error .permission ∧
      Open brokenTree "system.slice/memory.max" = .ok "100\n" ∧
      fileEvents parseUnsigned "system.slice/memory.max" "memory.max" "100\n" =
        [Event.opened "system.slice/memory.max",
          Event.sent ⟨⟨"cgroup_memory_max_bytes", "", ["cgroup"]⟩, .GaugeValue, 100,
            ["system.slice"]⟩] ∧
      ((New parseUnsigned brokenTree "").Collect noGlob).sent =
        [Event.opened "system.slice/cpu.stat",
          Event.logged "failed to walk cgroup"
            (.failedToOpen "system.slice/cpu.stat" .permission),
          Event.opened "user.slice/pids.current",
          Event.sent ⟨⟨"cgroup_pids_current", "", ["cgroup"]⟩, .GaugeValue, 7,
            ["user.slice"]⟩] := by
  decide

/-- C15, amended: a failure to open a registered file is reported and ends the walk of
the match of the glob under which the file lies.  When the walk of the match `m` invokes
the callback on `vs1`, then on the file and then on `vs2`, no invocation of `vs1` returns
an error and the file fails to open, the events of the pass are the log of the glob, the
events of the matches before `m`, the events of the invocations `vs1`, the open of the
file, the log of its failure, and the events of the matches after `m`: nothing is done on
the invocations `vs2`. -/
theorem Collect_open_failure (ParseFloat : String → Option ℚ)
    (otherGlob : Node → String → List String × Option GoError) (fsys : Node) (glob : String)
    (before after : List String) (m : String) (vs1 vs2 : List Visit) (path name : String)
    (err : FsError)
    (hglob : (Glob otherGlob fsys (New ParseFloat fsys glob).glob).1 = before ++ m :: after)
    (hvis : rootVisits fsys m = vs1 ++ ⟨path, some ⟨name, false⟩, none⟩ :: vs2)
    (hpre : ∀ v ∈ vs1,
      ((New ParseFloat fsys glob).walkFn v.path v.entry v.err).ret = .returned none)
    (hreg : (List.lookup name (singleCollectors ParseFloat)).isSome = true ∨
      (List.lookup name (multipleCollectors ParseFloat)).isSome = true)
    (hopen : Open fsys path = .error err) :
    ((New ParseFloat fsys glob).Collect otherGlob).sent =
      globEvents (Glob otherGlob fsys (New ParseFloat fsys glob).glob).2 ++
        before.flatMap (New ParseFloat fsys glob).matchEvents ++
        (vs1.flatMap (fun v => ((New ParseFloat fsys glob).walkFn v.path v.entry v.err).sent) ++
          [Event.opened path,
            Event.logged "failed to walk cgroup" (.failedToOpen path err)]) ++
        after.flatMap (New ParseFloat fsys glob).matchEvents := by
  have hm : (New ParseFloat fsys glob).matchEvents m =
      vs1.flatMap (fun v => ((New ParseFloat fsys glob).walkFn v.path v.entry v.err).sent) ++
        [Event.opened path, Event.logged "failed to walk cgroup" (.failedToOpen path err)] := by
    unfold cgroupCollector.matchEvents
    have hw : WalkDir (New ParseFloat fsys glob).fs m (New ParseFloat fsys glob).walkFn =
        ⟨vs1.flatMap (fun v => ((New ParseFloat fsys glob).walkFn v.path v.entry v.err).sent)
          ++ [Event.opened path], .returned (some (.failedToOpen path err))⟩ := by
      rw [WalkDir_eq_runVisits]
      show runVisits _ (rootVisits fsys m) = _
      rw [hvis, runVisits_append, runVisits_all_eq _ vs1 hpre, runVisits,
        walkFn_file_open_error ParseFloat fsys glob path name err hopen hreg]
      rfl
    rw [hw]
    simp
  rw [Collect_eq, hglob, List.flatMap_append, List.flatMap_cons, hm]
  simp only [List.append_assoc]

/-- Instance of C15, amended: the pass on `brokenTree`, where the walk of the match
`system.slice` ends at `cpu.stat`. -/
theorem Collect_open_failure_witness :
    (Glob noGlob brokenTree (New parseUnsigned brokenTree "").glob).1 =
        [] ++ "system.slice" :: ["user.slice"] ∧
      rootVisits brokenTree "system.slice" =
        [⟨"system.slice", some ⟨"system.slice", true⟩, none⟩] ++
          ⟨"system.slice/cpu.stat", some ⟨"cpu.stat", false⟩, none⟩ ::
            [⟨"system.slice/memory.max", some ⟨"memory.max", false⟩, none⟩,
              ⟨"system.slice/sub", some ⟨"sub", true⟩, none⟩,
              ⟨"system.slice/sub/pids.max", some ⟨"pids.max", false⟩, none⟩] ∧
      Open brokenTree "system.slice/cpu.stat" = .error .permission ∧
      ((New parseUnsigned brokenTree "").Collect noGlob).sent =
        globEvents (Glob noGlob brokenTree (New parseUnsigned brokenTree "").glob).2 ++
          ([] : List String).flatMap (New parseUnsigned brokenTree "").matchEvents ++
          ([(⟨"system.slice", some ⟨"system.slice", true⟩, none⟩ : Visit)].flatMap
              (fun v => ((New parseUnsigned brokenTree "").walkFn v.path v.entry v.err).sent) ++
            [Event.opened "system.slice/cpu.stat",
              Event.logged "failed to walk cgroup"
                (.failedToOpen "system.slice/cpu.stat" .permission)]) ++
          ["user.slice"].flatMap (New parseUnsigned brokenTree "").matchEvents :=
  ⟨by decide, by decide, by decide,
    Collect_open_failure parseUnsigned noGlob brokenTree "" [] ["user.slice"] "system.slice"
      [⟨"system.slice", some ⟨"system.slice", true⟩, none⟩]
      [⟨"system.slice/memory.max", some ⟨"memory.max", false⟩, none⟩,
        ⟨"system.slice/sub", some ⟨"sub", true⟩, none⟩,
        ⟨"system.slice/sub/pids.max", some ⟨"pids.max", false⟩, none⟩]
      "system.slice/cpu.stat" "cpu.stat" .permission (by decide) (by decide) (by decide)
      (by decide) (by decide)⟩

/-! ## Trees that can be read -/

theorem find_append : ∀ (es fs : List String) (node : Node),
    node.find (es ++ fs) = (node.find es).bind (Node.find fs)
  | [], fs, node => by
    rw [List.nil_append, Node.find]
    rfl
  | e :: es, fs, .file _ => by
    rw [List.cons_append, Node.find, Node.find]
    rfl
  | e :: es, fs, .dir readErr entries => by
    rw [List.cons_append, Node.find, Node.find]
    cases List.lookup e entries with
    | none => rfl
    | some child => exact find_append es fs child

theorem lookup_of_mem_nodup {β : Type} (l : List (String × β)) (h : (l.map Prod.fst).Nodup)
    (k : String) (d : β) (hm : (k, d) ∈ l) : List.lookup k l = some d := by
  induction l with
  | nil => exact absurd hm (List.not_mem_nil _)
  | cons q qs ih =>
    obtain ⟨a, b⟩ := q
    rw [List.map_cons, List.nodup_cons] at h
    rcases List.mem_cons.1 hm with hm | hm
    · obtain ⟨h1, h2⟩ := Prod.mk.inj hm
      rw [h1, h2]
      simp [List.lookup]
    · have hne : k ≠ a := by
        intro hka
        apply h.1
        rw [← hka]
        exact List.mem_map.2 ⟨(k, d), hm, rfl⟩
      have hbeq : (k == a) = false := by simpa using hne
      rw [List.lookup, hbeq]
      exact ih h.2 hm

/-- Opening the path of valid elements that lead to a file gives the file. -/
theorem Open_pathOf (fsys : Node) (es : List String) (hes : ∀ e ∈ es, validElem e = true)
    (content : Except FsError String) (h : fsys.find es = some (.file content)) :
    Open fsys (pathOf es) = content := by
  obtain ⟨h1, h2⟩ := ValidPath_pathOf es hes
  unfold Open lookupNode
  rw [h1, h2, h]
  rfl

/-- In a tree that is well formed and can be read, every invocation of the walk of a
node found at a path of valid elements is without error, and its path opens when it is
on a file. -/
theorem visits_readable (fsys : Node) : ∀ (node : Node) (es : List String) (dname : String),
    (∀ e ∈ es, validElem e = true) → fsys.find es = some node →
    node.wellFormed = true → node.readable = true →
    ∀ v ∈ visits (pathOf es) dname node,
      v.err = none ∧ ∃ name isDir, v.entry = some ⟨name, isDir⟩ ∧
        (isDir = false → ∃ content, Open fsys v.path = .ok content)
  | .file content, es, dname, hes, hf, _, hr, v, hv => by
    rw [visits, List.mem_singleton] at hv
    rw [hv]
    refine ⟨rfl, dname, false, rfl, fun _ => ?_⟩
    cases content with
    | error e => simp [Node.readable, Node.every, readableAt] at hr
    | ok c => exact ⟨c, Open_pathOf fsys es hes _ hf⟩
  | .dir readErr entries, es, dname, hes, hf, hw, hr, v, hv => by
    obtain ⟨hr1, hr2⟩ := every_dir _ _ _ hr
    obtain ⟨hw1, hw2⟩ := every_dir _ _ _ hw
    cases readErr with
    | some e => simp [readableAt] at hr1
    | none =>
      rw [visits_dir] at hv
      rcases List.mem_cons.1 hv with hv | hv
      · rw [hv]
        exact ⟨rfl, dname, true, rfl, fun h => by simp at h⟩
      · simp only [List.nil_append] at hv
        obtain ⟨p, hp, hpv⟩ := mem_visitsEntries _ _ v hv
        simp only [Bool.and_eq_true, validNamesAt, uniqueNamesAt, List.all_eq_true,
          decide_eq_true_eq] at hw1
        have hpn : validElem p.1 = true := hw1.1 p hp
        have hfind : fsys.find (es ++ [p.1]) = some p.2 := by
          rw [find_append, hf]
          show Node.find [p.1] (.dir none entries) = some p.2
          rw [Node.find, lookup_of_mem_nodup entries hw1.2 p.1 p.2 hp]
          rfl
        rw [Join_pathOf es p.1 hes hpn] at hpv
        exact visits_readable fsys p.2 (es ++ [p.1]) p.1
          (valid_append_singleton es p.1 hes hpn) hfind
          (everyEntry_mem _ _ hw2 p hp) (everyEntry_mem _ _ hr2 p hp) v hpv
termination_by node => sizeOf node
decreasing_by
  all_goals simp_wf
  have h1 := List.sizeOf_lt_of_mem hp
  have h2 : sizeOf p = 1 + sizeOf p.1 + sizeOf p.2 := by
    obtain ⟨a, b⟩ := p
    rfl
  omega

/-- The walk of a node invokes the callback on every file below it. -/
theorem visits_of_find : ∀ (rest : List String) (node : Node) (es : List String)
    (dname : String) (content : Except FsError String),
    (∀ e ∈ es, validElem e = true) → (∀ e ∈ rest, validElem e = true) →
    node.find rest = some (.file content) →
    (⟨pathOf (es ++ rest), some ⟨rest.getLastD dname, false⟩, none⟩ : Visit) ∈
      visits (pathOf es) dname node
  | [], node, es, dname, content, _, _, hf => by
    rw [Node.find] at hf
    rw [Option.some.inj hf, visits, List.append_nil]
    exact List.mem_singleton.2 rfl
  | e :: rest, .file _, es, dname, content, _, _, hf => by
    simp [Node.find] at hf
  | e :: rest, .dir readErr entries, es, dname, content, hes, hrest, hf => by
    rw [Node.find] at hf
    cases hl : List.lookup e entries with
    | none => simp [hl] at hf
    | some child =>
      rw [hl] at hf
      have he : validElem e = true := hrest e (List.mem_cons_self _ _)
      have ih := visits_of_find rest child (es ++ [e]) e content
        (valid_append_singleton es e hes he)
        (fun x hx => hrest x (List.mem_cons_of_mem _ hx)) hf
      rw [← Join_pathOf es e hes he] at ih
      rw [visits_dir]
      apply List.mem_cons_of_mem
      apply List.mem_append_right
      have hmem := visitsEntries_mem (pathOf es) entries (e, child)
        (lookup_mem_pair e child entries hl) _ ih
      have h1 : es ++ e :: rest = es ++ [e] ++ rest := by simp
      have h2 : (e :: rest).getLastD dname = rest.getLastD e := by
        cases rest <;> rfl
      rw [h1, h2]
      exact hmem

theorem lookupNode_pathOf (fsys : Node) (es : List String)
    (hes : ∀ e ∈ es, validElem e = true) (node : Node) (h : fsys.find es = some node) :
    lookupNode fsys (pathOf es) = .ok node := by
  obtain ⟨h1, h2⟩ := ValidPath_pathOf es hes
  unfold lookupNode
  rw [h1, h2, h]
  rfl

theorem getLastD_of_append (rs rest ds : List String) (n d : String)
    (h : rs ++ rest = ds ++ [n]) (hne : rest ≠ []) : rest.getLastD d = n := by
  have h1 : (rs ++ rest).getLast? = some n := by rw [h]; simp
  rw [List.getLast?_append_of_ne_nil _ hne] at h1
  rw [List.getLastD_eq_getLast?, h1]
  rfl

/-- In a tree that is well formed and can be read, a pass has all the events of every
file that lies at or below a match of the glob. -/
theorem Collect_file_events (ParseFloat : String → Option ℚ)
    (otherGlob : Node → String → List String × Option GoError) (fsys : Node) (glob : String)
    (hw : fsys.wellFormed = true) (hr : fsys.readable = true)
    (rs rest ds : List String) (n content : String)
    (hroot : pathOf rs ∈ (Glob otherGlob fsys (New ParseFloat fsys glob).glob).1)
    (hpath : rs ++ rest = ds ++ [n]) (hvalid : ∀ x ∈ ds ++ [n], validElem x = true)
    (hfile : fsys.find (ds ++ [n]) = some (.file (.ok content))) :
    ∀ e ∈ fileEvents ParseFloat (pathOf (ds ++ [n])) n content,
      e ∈ ((New ParseFloat fsys glob).Collect otherGlob).sent := by
  intro e he
  have hn : validElem n = true := hvalid n (by simp)
  have hrs : ∀ x ∈ rs, validElem x = true := fun x hx =>
    hvalid x (by rw [← hpath]; exact List.mem_append_left _ hx)
  have hrest : ∀ x ∈ rest, validElem x = true := fun x hx =>
    hvalid x (by rw [← hpath]; exact List.mem_append_right _ hx)
  rw [← hpath, find_append] at hfile
  cases hnode : fsys.find rs with
  | none => simp [hnode] at hfile
  | some node =>
    rw [hnode] at hfile
    have hfile' : node.find rest = some (.file (.ok content)) := hfile
    have hvis : rootVisits fsys (pathOf rs) = visits (pathOf rs) (Base (pathOf rs)) node := by
      unfold rootVisits
      rw [lookupNode_pathOf fsys rs hrs node hnode]
    have hall : ∀ v ∈ rootVisits fsys (pathOf rs),
        ((New ParseFloat fsys glob).walkFn v.path v.entry v.err).ret = .returned none := by
      intro v hv
      rw [hvis] at hv
      obtain ⟨herr, name, isDir, hentry, hopen⟩ := visits_readable fsys node rs _ hrs hnode
        (every_find _ rs fsys node hw hnode) (every_find _ rs fsys node hr hnode) v hv
      rw [herr, hentry]
      cases isDir with
      | true => rfl
      | false =>
        obtain ⟨c, hc⟩ := hopen rfl
        rw [walkFn_file_ok ParseFloat fsys glob v.path name c hc]
    have hname : rest.getLastD (Base (pathOf rs)) = n := by
      by_cases hnil : rest = []
      · rw [hnil, List.append_nil] at hpath
        rw [hnil, hpath]
        exact Base_pathOf ds n hn
      · exact getLastD_of_append rs rest ds n _ hpath hnil
    have htarget := visits_of_find rest node rs (Base (pathOf rs)) (.ok content) hrs hrest hfile'
    rw [hname, hpath, ← hvis] at htarget
    have hev := (runVisits_all _ _ hall).2 _ htarget
    have hopen : Open fsys (pathOf (ds ++ [n])) = .ok content := by
      apply Open_pathOf fsys (ds ++ [n]) hvalid
      rw [← hpath, find_append, hnode]
      exact hfile'
    simp only at hev
    rw [walkFn_file_ok ParseFloat fsys glob _ n content hopen] at hev
    rw [Collect_eq]
    apply List.mem_append_right
    rw [List.mem_flatMap]
    refine ⟨pathOf rs, hroot, ?_⟩
    unfold cgroupCollector.matchEvents
    apply List.mem_append_left
    rw [WalkDir_eq_runVisits]
    exact hev e he

theorem fileEvents_single (ParseFloat : String → Option ℚ) (path name content : String)
    (col : collector) (h : List.lookup name (singleCollectors ParseFloat) = some col) :
    fileEvents ParseFloat path name content =
      handlerEvents path (col.collect content (Dir path) col.desc) := by
  unfold fileEvents
  rw [h]

theorem fileEvents_multiple (ParseFloat : String → Option ℚ) (path name content : String)
    (col : multipleCollector) (h : List.lookup name (multipleCollectors ParseFloat) = some col) :
    fileEvents ParseFloat path name content =
      handlerEvents path (col.collect content (Dir path) col.descs) := by
  unfold fileEvents
  cases hs : List.lookup name (singleCollectors ParseFloat) with
  | some col' =>
    rw [registry_disjoint ParseFloat name col' hs] at h
    exact absurd h (by simp)
  | none =>
    simp only
    rw [h]

theorem sent_mem_handlerEvents (path : String) (x : Exec Metric (Option GoError)) (m : Metric)
    (h : m ∈ x.sent) : Event.sent m ∈ handlerEvents path x := by
  unfold handlerEvents
  exact List.mem_cons_of_mem _ (List.mem_append_left _ (List.mem_map.2 ⟨m, h, rfl⟩))

theorem logged_mem_handlerEvents (path : String) (x : Exec Metric (Option GoError))
    (err : GoError) (h : x.ret = .returned (some err)) :
    Event.logged "failed to collect cgroup" err ∈ handlerEvents path x := by
  unfold handlerEvents
  rw [h]
  exact List.mem_cons_of_mem _ (List.mem_append_right _ (List.mem_singleton.2 rfl))

/-- C14: in a file tree that is well formed and can be read, whatever the contents of
its files, so also when some registered file fails to decode, a collection pass emits
every record that the handler of a registered file at or below a match of the glob
sends on the content of this file, with the directory of the file as path, and it logs
the decode error that this handler returns: a decode error ends neither the walk of the
cgroup nor the pass. -/
theorem Collect_decode_error_isolated (ParseFloat : String → Option ℚ)
    (otherGlob : Node → String → List String × Option GoError) (fsys : Node) (glob : String)
    (hw : fsys.wellFormed = true) (hr : fsys.readable = true)
    (rs rest ds : List String) (n content : String)
    (hroot : pathOf rs ∈ (Glob otherGlob fsys (New ParseFloat fsys glob).glob).1)
    (hpath : rs ++ rest = ds ++ [n]) (hvalid : ∀ x ∈ ds ++ [n], validElem x = true)
    (hfile : fsys.find (ds ++ [n]) = some (.file (.ok content))) :
    (∀ col, List.lookup n (singleCollectors ParseFloat) = some col →
      (∀ m ∈ (col.collect content (pathOf ds) col.desc).sent,
        Event.sent m ∈ ((New ParseFloat fsys glob).Collect otherGlob).sent) ∧
      (∀ err, (col.collect content (pathOf ds) col.desc).ret = .returned (some err) →
        Event.logged "failed to collect cgroup" err ∈
          ((New ParseFloat fsys glob).Collect otherGlob).sent)) ∧
    (∀ col, List.lookup n (multipleCollectors ParseFloat) = some col →
      (∀ m ∈ (col.collect content (pathOf ds) col.descs).sent,
        Event.sent m ∈ ((New ParseFloat fsys glob).Collect otherGlob).sent) ∧
      (∀ err, (col.collect content (pathOf ds) col.descs).ret = .returned (some err) →
        Event.logged "failed to collect cgroup" err ∈
          ((New ParseFloat fsys glob).Collect otherGlob).sent)) := by
  have hall := Collect_file_events ParseFloat otherGlob fsys glob hw hr rs rest ds n content
    hroot hpath hvalid hfile
  have hdir : Dir (pathOf (ds ++ [n])) = pathOf ds :=
    Dir_pathOf ds n (fun x hx => hvalid x (by simp [hx])) (hvalid n (by simp))
  constructor
  · intro col hcol
    rw [fileEvents_single ParseFloat _ n content col hcol, hdir] at hall
    exact ⟨fun m hm => hall _ (sent_mem_handlerEvents _ _ m hm),
      fun err herr => hall _ (logged_mem_handlerEvents _ _ err herr)⟩
  · intro col hcol
    rw [fileEvents_multiple ParseFloat _ n content col hcol, hdir] at hall
    exact ⟨fun m hm => hall _ (sent_mem_handlerEvents _ _ m hm),
      fun err herr => hall _ (logged_mem_handlerEvents _ _ err herr)⟩

/-- Instance of C14: in `malformedTree` the file `system.slice/memory.stat` has a line of
three fields; its decode error is logged, and the records of `system.slice/pids.current`,
which comes after it in the same cgroup, and of `user.slice/pids.current` are emitted. -/
theorem Collect_decode_error_isolated_witness :
    ((New parseUnsigned malformedTree "").Collect noGlob).sent =
        [Event.opened "system.slice/memory.stat",
          Event.logged "failed to collect cgroup" (.invalidKeyValuePair "anon 1 2"),
          Event.opened "system.slice/pids.current",
          Event.sent ⟨⟨"cgroup_pids_current", "", ["cgroup"]⟩, .GaugeValue, 7,
            ["system.slice"]⟩,
          Event.opened "user.slice/pids.current",
          Event.sent ⟨⟨"cgroup_pids_current", "", ["cgroup"]⟩, .GaugeValue, 3,
            ["user.slice"]⟩] ∧
      ((∀ col, List.lookup "pids.current" (singleCollectors parseUnsigned) = some col →
        (∀ m ∈ (col.collect "7\n" (pathOf ["system.slice"]) col.desc).sent,
          Event.sent m ∈ ((New parseUnsigned malformedTree "").Collect noGlob).sent) ∧
        (∀ err, (col.collect "7\n" (pathOf ["system.slice"]) col.desc).ret
            = .returned (some err) →
          Event.logged "failed to collect cgroup" err ∈
            ((New parseUnsigned malformedTree "").Collect noGlob).sent)) ∧
      (∀ col, List.lookup "pids.current" (multipleCollectors parseUnsigned) = some col →
        (∀ m ∈ (col.collect "7\n" (pathOf ["system.slice"]) col.descs).sent,
          Event.sent m ∈ ((New parseUnsigned malformedTree "").Collect noGlob).sent) ∧
        (∀ err, (col.collect "7\n" (pathOf ["system.slice"]) col.descs).ret
            = .returned (some err) →
          Event.logged "failed to collect cgroup" err ∈
            ((New parseUnsigned malformedTree "").Collect noGlob).sent))) :=
  ⟨by decide,
    Collect_decode_error_isolated parseUnsigned noGlob malformedTree "" (by decide) (by decide)
      ["system.slice"] ["pids.current"] ["system.slice"] "pids.current" "7\n"
      (by decide) rfl (by decide) rfl⟩

/-! ## Contents without a token -/

/-- On white space alone `SkipSpace` reaches the end of the input, unless there is a
newline, which is an error. -/
theorem SkipSpace_blank (l : List Char) (h : ∀ c ∈ l, isSpace c = true) :
    ('\n' ∉ l ∧ SkipSpace l = .ok []) ∨ ('\n' ∈ l ∧ SkipSpace l = .error .unexpectedNewline) := by
  induction l with
  | nil => exact Or.inl ⟨List.not_mem_nil _, rfl⟩
  | cons r rest ih =>
    have hr : isSpace r = true := h r (List.mem_cons_self _ _)
    have ih' := ih (fun c hc => h c (List.mem_cons_of_mem _ hc))
    by_cases h2 : r = '\n'
    · right
      refine ⟨by rw [h2]; exact List.mem_cons_self _ _, ?_⟩
      have h1 : ¬ (r = '\r' ∧ rest.head? = some '\n') := by
        intro h1
        rw [h2] at h1
        exact absurd h1.1 (by decide)
      rw [SkipSpace, if_neg h1, if_pos h2]
    · have hstep : SkipSpace (r :: rest) = SkipSpace rest := by
        rw [SkipSpace]
        by_cases h1 : r = '\r' ∧ rest.head? = some '\n'
        · rw [if_pos h1]
        · rw [if_neg h1, if_neg h2]
          simp [hr]
      rw [hstep]
      rcases ih' with ⟨h3, h4⟩ | ⟨h3, h4⟩
      · left
        refine ⟨?_, h4⟩
        intro hm
        rcases List.mem_cons.1 hm with hm | hm
        · exact h2 hm.symm
        · exact h3 hm
      · exact Or.inr ⟨List.mem_cons_of_mem _ h3, h4⟩

/-- The scan of a content of white space alone fails: with `EOF` when there is no
newline, with `unexpected newline` otherwise. -/
theorem Fscanf_s_blank (f : String) (h : ∀ c ∈ f.data, isSpace c = true) :
    ('\n' ∉ f.data ∧ Fscanf_s f = .error .eof) ∨
      ('\n' ∈ f.data ∧ Fscanf_s f = .error .unexpectedNewline) := by
  rcases SkipSpace_blank f.data h with ⟨h1, h2⟩ | ⟨h1, h2⟩
  · left
    refine ⟨h1, ?_⟩
    unfold Fscanf_s
    rw [h2]
    rfl
  · right
    refine ⟨h1, ?_⟩
    unfold Fscanf_s
    rw [h2]
    rfl

/-- C24: on a content without any token, that is the empty content or white space alone,
the scalar decoder sends no record and returns the error `failed to read value`, whose
cause is `EOF` when the content has no newline (so for the empty content) and `unexpected
newline` otherwise; no record with a default value is sent. -/
theorem collectSingleValue_no_token (ParseFloat : String → Option ℚ) (valueType : ValueType)
    (content path : String) (desc : Desc) (h : ∀ c ∈ content.data, isSpace c = true) :
    ('\n' ∉ content.data ∧ collectSingleValue ParseFloat valueType content path desc =
        ⟨[], .returned (some (.failedToReadValue .eof))⟩) ∨
      ('\n' ∈ content.data ∧ collectSingleValue ParseFloat valueType content path desc =
        ⟨[], .returned (some (.failedToReadValue .unexpectedNewline))⟩) := by
  rcases Fscanf_s_blank content h with ⟨h1, h2⟩ | ⟨h1, h2⟩
  · left
    refine ⟨h1, ?_⟩
    unfold collectSingleValue
    rw [h2]
    rfl
  · right
    refine ⟨h1, ?_⟩
    unfold collectSingleValue
    rw [h2]
    rfl

/-- Instance of C24: the empty content read by the handler of `memory.max`. -/
theorem collectSingleValue_no_token_witness :
    (∀ c ∈ ("" : String).data, isSpace c = true) ∧
      (('\n' ∉ ("" : String).data ∧
          collectSingleValue parseUnsigned .GaugeValue "" "system.slice"
            (NewDesc "cgroup_memory_max_bytes" "" ["cgroup"]) =
          ⟨[], .returned (some (.failedToReadValue .eof))⟩) ∨
        ('\n' ∈ ("" : String).data ∧
          collectSingleValue parseUnsigned .GaugeValue "" "system.slice"
            (NewDesc "cgroup_memory_max_bytes" "" ["cgroup"]) =
          ⟨[], .returned (some (.failedToReadValue .unexpectedNewline))⟩)) :=
  ⟨by decide,
    collectSingleValue_no_token parseUnsigned .GaugeValue "" "system.slice"
      (NewDesc "cgroup_memory_max_bytes" "" ["cgroup"]) (by decide)⟩

/-! ## The branch of the empty split -/

/-- When the loop of `visitNestedKeyed` comes to the end of the lines, the body has gone
to its end on every line and what was sent is what the lines send one after the other. -/
theorem visitNestedKeyedRun_none {ε : Type} (visitEntry : entryVisitor ε) (lines : List String)
    (h : (visitNestedKeyedRun visitEntry lines).ret = .returned none) :
    (∀ line ∈ lines, (visitNestedKeyedLine visitEntry line).ret = .returned none) ∧
      (visitNestedKeyedRun visitEntry lines).sent =
        lines.flatMap (fun line => (visitNestedKeyedLine visitEntry line).sent) := by
  induction lines with
  | nil => exact ⟨fun line hl => absurd hl (List.not_mem_nil _), rfl⟩
  | cons line rest ih =>
    rw [visitNestedKeyedRun_cons] at h ⊢
    have hx : visitNestedKeyedLine visitEntry line =
        ⟨(visitNestedKeyedLine visitEntry line).sent,
          (visitNestedKeyedLine visitEntry line).ret⟩ := rfl
    cases hr : (visitNestedKeyedLine visitEntry line).ret with
    | panicked p =>
      rw [hx, hr] at h
      simp [firstSome, Exec.bind] at h
    | returned a =>
      cases a with
      | some b =>
        rw [hx, hr, firstSome_some] at h
        simp at h
      | none =>
        rw [hx, hr, firstSome_none] at h ⊢
        obtain ⟨ih1, ih2⟩ := ih h
        refine ⟨?_, ?_⟩
        · intro line' hl
          rcases List.mem_cons.1 hl with hl | hl
          · rw [hl, hr]
          · exact ih1 line' hl
        · rw [List.flatMap_cons]
          simp only
          rw [ih2]

theorem finish_none {ε : Type} {a : Option GoError} (x : Exec ε (Option (Option GoError)))
    (hx : x.ret ≠ .returned (some none)) (h : (finish a x).ret = .returned none) :
    x.ret = .returned none ∧ (finish a x).sent = x.sent := by
  obtain ⟨l, r⟩ := x
  cases r with
  | panicked p => simp [finish, Exec.bind] at h
  | returned a =>
    cases a with
    | none => exact ⟨rfl, by simp [finish, Exec.bind]⟩
    | some b =>
      cases b with
      | none => exact absurd rfl hx
      | some e => simp [finish, Exec.bind] at h

/-- C25: the split of a token on `=` never has zero parts, so the body of the inner loop
of `visitNestedKeyed` never returns `nil` from the branch `len(kv) == 0`, nor does the
body of the outer loop; and `visitNestedKeyed` never stops early with success: when it
returns `nil`, the body has gone to its end on every line of the content, and what was
sent is what the lines send one after the other. -/
theorem visitNestedKeyed_no_early_success {ε : Type} (visitEntry : entryVisitor ε)
    (r : String) :
    (∀ v : String, (Split v '=').length ≠ 0) ∧
      (∀ (k : String) (visitKV : kvVisitor ε) (v : String),
        (visitNestedKeyedToken k visitKV v).ret ≠ .returned (some none)) ∧
      (∀ line : String, (visitNestedKeyedLine visitEntry line).ret ≠ .returned (some none)) ∧
      ((visitNestedKeyed r visitEntry).ret = .returned none →
        (∀ line ∈ scanLines r, (visitNestedKeyedLine visitEntry line).ret = .returned none) ∧
          (visitNestedKeyed r visitEntry).sent =
            (scanLines r).flatMap (fun line => (visitNestedKeyedLine visitEntry line).sent)) := by
  refine ⟨fun v => Nat.pos_iff_ne_zero.1 (Split_length_pos v '='),
    fun k visitKV v => visitNestedKeyedToken_ret k visitKV v,
    fun line => visitNestedKeyedLine_ret visitEntry line, ?_⟩
  intro h
  rw [visitNestedKeyed_eq] at h ⊢
  obtain ⟨h1, h2⟩ := finish_none _ (visitNestedKeyedRun_ret visitEntry (scanLines r)) h
  obtain ⟨h3, h4⟩ := visitNestedKeyedRun_none visitEntry (scanLines r) h1
  exact ⟨h3, by rw [h2, h4]⟩

/-! ## No panic of the decoders -/

theorem visitFlatKeyedLines_returns {ε : Type} (visitKV : kvVisitor ε)
    (hvk : ∀ a b, ∃ r, (visitKV a b).ret = .returned r) (lines : List String) :
    ∃ r, (visitFlatKeyedLines visitKV lines).ret = .returned r := by
  induction lines with
  | nil => exact ⟨none, rfl⟩
  | cons line rest ih =>
    rw [visitFlatKeyedLines_cons_firstSome]
    refine firstSome_returns _ _ ?_ ih
    rcases visitFlatKeyedLine_cases visitKV line with ⟨_, h⟩ | ⟨a, b, _, h⟩
    · rw [h]; exact ⟨_, rfl⟩
    · rw [h]; exact hvk a b

theorem getElem?_of_length_two {α : Type} (l : List α) (h : l.length = 2) :
    ∃ a b, l[0]? = some a ∧ l[1]? = some b := by
  obtain ⟨a, b, hab⟩ := length_two h
  rw [hab]
  exact ⟨a, b, rfl, rfl⟩

/-- On a content that is a Unicode string, so valid UTF-8, no decoder panics.  With
visitors that do not panic, `visitNestedKeyed` and `visitFlatKeyed` return (a `nil` or an
error, which may be the error `token too long` of the scanner); `collectPressure` and
`collectFlatKeyed` return for every sub-key mapping of one-label descriptors, and
`collectIOStat` for every mapping of two-label descriptors (the label counts of the
registry).  The indexing is within bounds: the split of the trimmed line has a first
element `split[0]`, and a split of length two has the elements `kv[0]` and `kv[1]`. -/
theorem text_decoders_return {ε : Type} (ParseFloat : String → Option ℚ) (valueType : ValueType)
    (content path : String) (descs statDescs : List (String × desc))
    (visitEntry : entryVisitor ε) (visitKV : kvVisitor ε)
    (hlabels : ∀ p ∈ descs, p.2.desc.variableLabels.length = 1)
    (hlabelsStat : ∀ p ∈ statDescs, p.2.desc.variableLabels.length = 2)
    (hve : ∀ n, ∃ r, (visitEntry n).ret = .returned r ∧
      ∀ kv, r = .ok kv → ∀ a b, ∃ r', (kv a b).ret = .returned r')
    (hvk : ∀ a b, ∃ r, (visitKV a b).ret = .returned r) :
    (∃ r, (visitNestedKeyed content visitEntry).ret = .returned r) ∧
      (∃ r, (visitFlatKeyed content visitKV).ret = .returned r) ∧
      (∃ r, (collectPressure ParseFloat content path descs).ret = .returned r) ∧
      (∃ r, (collectIOStat ParseFloat content path statDescs).ret = .returned r) ∧
      (∃ r, (collectFlatKeyed ParseFloat valueType content path descs).ret = .returned r) ∧
      (∀ line : String, ∃ k vs, Split (TrimSpace line) ' ' = k :: vs) ∧
      (∀ v : String, (Split v '=').length = 2 →
        ∃ kv0 kv1, (Split v '=')[0]? = some kv0 ∧ (Split v '=')[1]? = some kv1) ∧
      (∀ line : String, (Split line ' ').length = 2 →
        ∃ kv0 kv1, (Split line ' ')[0]? = some kv0 ∧ (Split line ' ')[1]? = some kv1) := by
  have hve' : ∀ n, ∃ l r, visitEntry n = ⟨l, .returned r⟩ ∧
      ∀ kv, r = .ok kv → ∀ a b, ∃ l' r', kv a b = ⟨l', .returned r'⟩ := by
    intro n
    obtain ⟨r, hr, hkv⟩ := hve n
    refine ⟨(visitEntry n).sent, r, by rw [← hr], ?_⟩
    intro kv hk a b
    obtain ⟨r', hr'⟩ := hkv kv hk a b
    exact ⟨(kv a b).sent, r', by rw [← hr']⟩
  refine ⟨?_, ?_, ?_, ?_, ?_, fun line => Split_eq_cons _ ' ',
    fun v h => getElem?_of_length_two _ h, fun line h => getElem?_of_length_two _ h⟩
  · rw [visitNestedKeyed_eq]
    exact finish_returns _ (visitNestedKeyedRun_returns visitEntry hve' _)
  · rw [visitFlatKeyed_eq]
    exact firstSome_end_returns _ _ (visitFlatKeyedLines_returns visitKV hvk _)
  · rw [collectPressure_eq, visitNestedKeyed_eq]
    exact finish_returns _ (visitNestedKeyedRun_returns _
      (collectPressureEntry_returns ParseFloat path descs hlabels) _)
  · rw [collectIOStat_eq, visitNestedKeyed_eq]
    exact finish_returns _ (visitNestedKeyedRun_returns _
      (collectIOStatEntry_returns ParseFloat path statDescs hlabelsStat) _)
  · rw [collectFlatKeyed_eq]
    exact firstSome_end_returns _ _
      (collectFlatKeyed_lines_returns ParseFloat valueType path descs hlabels _)

/-! ## Blank lines in nested files -/

theorem TrimSpace_blank (s : String) (h : ∀ c ∈ s.data, isSpace c = true) :
    TrimSpace s = "" := by
  have h1 : s.data.dropWhile isSpace = [] := List.dropWhile_eq_nil_iff.2 h
  unfold TrimSpace
  rw [h1]
  rfl

/-- A blank line is an entry with the empty name and no tokens. -/
theorem Split_TrimSpace_blank (s : String) (h : ∀ c ∈ s.data, isSpace c = true) :
    Split (TrimSpace s) ' ' = [""] := by
  rw [TrimSpace_blank s h]
  rfl

theorem collectIOStat_blank_line (ParseFloat : String → Option ℚ) (path : String)
    (descs : List (String × desc)) (blank : String)
    (h : ∀ c ∈ blank.data, isSpace c = true) :
    visitNestedKeyedLine (collectIOStatEntry ParseFloat path descs) blank =
      ⟨[], .returned none⟩ := by
  rw [visitNestedKeyedLine_split _ _ _ _ (Split_TrimSpace_blank blank h)]
  rfl

theorem collectPressure_blank_line (ParseFloat : String → Option ℚ) (path : String)
    (descs : List (String × desc)) (blank : String)
    (h : ∀ c ∈ blank.data, isSpace c = true) (hk : List.lookup "" descs = none) :
    visitNestedKeyedLine (collectPressureEntry ParseFloat path descs) blank =
      ⟨[], .returned (some (some (.unknownPressureType "")))⟩ := by
  rw [visitNestedKeyedLine_split _ _ _ _ (Split_TrimSpace_blank blank h)]
  simp [collectPressureEntry, hk]

theorem finish_sent_eq {ε : Type} (a b : Option GoError)
    (x : Exec ε (Option (Option GoError))) : (finish a x).sent = (finish b x).sent := by
  obtain ⟨l, r⟩ := x
  cases r with
  | panicked p => rfl
  | returned v => cases v <;> simp [finish]

/-- C23: a blank line, empty or of white space alone, is an entry with the empty name and
no tokens.  `collectIOStat` sends nothing and returns nothing for it: on a content with
such a line it does what it does on the content `without` the line, the final
`scanner.Err()` being the same on both; whatever the scanner ends with, it sends what it
sends on `without`.  `collectPressure`,
for a mapping of one-label descriptors without the key `""` (as the three pressure
mappings of the registry), returns an error and sends what it sends on the lines
`before` the blank line; the error is `unknown pressure type ""` when these lines decode
without error. -/
theorem blank_line_entry (ParseFloat : String → Option ℚ) (path : String)
    (statDescs descs : List (String × desc)) (content before blank without : String)
    (post : List String)
    (hlines : scanLines content = scanLines before ++ blank :: post)
    (hwithout : scanLines without = scanLines before ++ post)
    (hblank : ∀ c ∈ blank.data, isSpace c = true)
    (hk : List.lookup "" descs = none)
    (hlabels : ∀ p ∈ descs, p.2.desc.variableLabels.length = 1) :
    Split (TrimSpace blank) ' ' = [""] ∧
      (scanErr without = scanErr content →
        collectIOStat ParseFloat content path statDescs =
          collectIOStat ParseFloat without path statDescs) ∧
      (collectIOStat ParseFloat content path statDescs).sent =
        (collectIOStat ParseFloat without path statDescs).sent ∧
      (∃ e, (collectPressure ParseFloat content path descs).ret = .returned (some e)) ∧
      (collectPressure ParseFloat content path descs).sent =
        (collectPressure ParseFloat before path descs).sent ∧
      ((collectPressure ParseFloat before path descs).ret = .returned none →
        (collectPressure ParseFloat content path descs).ret =
          .returned (some (.unknownPressureType ""))) ∧
      List.lookup "" memoryPressureDescs = none ∧ List.lookup "" cpuPressureDescs = none ∧
      List.lookup "" ioPressureDescs = none := by
  have hrun : visitNestedKeyedRun (collectIOStatEntry ParseFloat path statDescs)
        (scanLines before ++ blank :: post) =
      visitNestedKeyedRun (collectIOStatEntry ParseFloat path statDescs)
        (scanLines before ++ post) := by
    rw [visitNestedKeyedRun_append, visitNestedKeyedRun_cons,
      collectIOStat_blank_line ParseFloat path statDescs blank hblank, firstSome_nil_none,
      ← visitNestedKeyedRun_append]
  refine ⟨Split_TrimSpace_blank blank hblank, ?_, ?_, ?_, ?_, ?_, rfl, rfl, rfl⟩
  · intro herr
    rw [collectIOStat_eq, collectIOStat_eq, visitNestedKeyed_eq, visitNestedKeyed_eq, hlines,
      hwithout, hrun, herr]
  · rw [collectIOStat_eq, collectIOStat_eq, visitNestedKeyed_eq, visitNestedKeyed_eq, hlines,
      hwithout, hrun]
    exact finish_sent_eq _ _ _
  · rw [collectPressure_eq, visitNestedKeyed_eq, hlines,
      visitNestedKeyedRun_stop _ _ _ _ _
        (collectPressure_blank_line ParseFloat path descs blank hblank hk)]
    exact (@finish_firstSome_stop Metric (scanErr content) (scanErr before) _ _).2
      (visitNestedKeyedRun_ret _ _)
      (finish_returns _ (visitNestedKeyedRun_returns _
        (collectPressureEntry_returns ParseFloat path descs hlabels) _))
  · rw [collectPressure_eq, collectPressure_eq, visitNestedKeyed_eq, visitNestedKeyed_eq,
      hlines, visitNestedKeyedRun_stop _ _ _ _ _
        (collectPressure_blank_line ParseFloat path descs blank hblank hk)]
    exact (finish_firstSome_stop _ _).1
  · intro hb
    rw [collectPressure_eq, visitNestedKeyed_eq] at hb ⊢
    obtain ⟨h1, _⟩ := finish_none _ (visitNestedKeyedRun_ret _ _) hb
    have hx : visitNestedKeyedRun (collectPressureEntry ParseFloat path descs)
          (scanLines before) =
        ⟨(visitNestedKeyedRun (collectPressureEntry ParseFloat path descs)
          (scanLines before)).sent, .returned none⟩ := by
      rw [← h1]
    rw [hlines, visitNestedKeyedRun_stop _ _ _ _ _
      (collectPressure_blank_line ParseFloat path descs blank hblank hk), hx, firstSome_none]
    rfl

/-- Instance of C23: a line of a blank and a tab between the two lines of a pressure
content. -/
theorem blank_line_entry_witness :
    scanLines "some total=5\n \t\nfull total=1\n" =
        scanLines "some total=5\n" ++ " \t" :: ["full total=1"] ∧
      (∀ c ∈ (" \t" : String).data, isSpace c = true) ∧
      collectIOStat parseUnsigned "some total=5\n \t\nfull total=1\n" "system.slice"
          ioStatDescs =
        collectIOStat parseUnsigned "some total=5\nfull total=1\n" "system.slice"
          ioStatDescs ∧
      (collectPressure parseUnsigned "some total=5\n \t\nfull total=1\n" "system.slice"
          memoryPressureDescs).ret = .returned (some (.unknownPressureType "")) :=
  have h := blank_line_entry parseUnsigned "system.slice" ioStatDescs memoryPressureDescs
    "some total=5\n \t\nfull total=1\n" "some total=5\n" " \t"
    "some total=5\nfull total=1\n" ["full total=1"] (by decide) (by decide) (by decide) rfl
    (fun p hp => by rw [memoryPressureDescs_labels p hp]; rfl)
  ⟨by decide, by decide, h.2.1 (by decide), h.2.2.2.2.2.1 (by decide)⟩

/-! ## One handler for a file -/

theorem count_opened_handlerEvents (path : String) (x : Exec Metric (Option GoError)) :
    (handlerEvents path x).count (Event.opened path) = 1 := by
  have h1 : Event.opened path ∉ x.sent.map Event.sent := by
    intro h
    obtain ⟨m, _, hm⟩ := List.mem_map.1 h
    exact absurd hm (by simp)
  have h2 : Event.opened path ∉
      (match x.ret with
        | .returned (some err) => [Event.logged "failed to collect cgroup" err]
        | _ => []) := by
    intro h
    split at h
    · exact absurd (List.mem_singleton.1 h) (by simp)
    · exact absurd h (List.not_mem_nil _)
  unfold handlerEvents
  rw [List.count_cons_self, List.count_append, List.count_eq_zero_of_not_mem h1,
    List.count_eq_zero_of_not_mem h2]

theorem walkFn_file_unregistered (ParseFloat : String → Option ℚ) (fsys : Node)
    (glob path name : String)
    (hs : List.lookup name (singleCollectors ParseFloat) = none)
    (hm : List.lookup name (multipleCollectors ParseFloat) = none) :
    (New ParseFloat fsys glob).walkFn path (some ⟨name, false⟩) none =
      ⟨[], .returned none⟩ := by
  rw [walkFn_file, singleBlock_unregistered _ path name hs,
    multipleBlock_unregistered _ path name hm]
  rfl

/-- The callback on a file opens the path once when the name is registered, and not at
all otherwise. -/
theorem count_opened_walkFn_file (ParseFloat : String → Option ℚ) (fsys : Node)
    (glob path name : String) :
    ((New ParseFloat fsys glob).walkFn path (some ⟨name, false⟩) none).sent.count
        (Event.opened path) =
      if (List.lookup name (singleCollectors ParseFloat)).isSome = true ∨
        (List.lookup name (multipleCollectors ParseFloat)).isSome = true then 1 else 0 := by
  cases hs : List.lookup name (singleCollectors ParseFloat) with
  | some col =>
    have hreg : (List.lookup name (singleCollectors ParseFloat)).isSome = true ∨
        (List.lookup name (multipleCollectors ParseFloat)).isSome = true :=
      Or.inl (by rw [hs]; rfl)
    rw [← hs, if_pos hreg]
    cases ho : Open fsys path with
    | error err =>
      rw [walkFn_file_open_error ParseFloat fsys glob path name err ho hreg]
      simp
    | ok content =>
      rw [walkFn_file_ok ParseFloat fsys glob path name content ho,
        fileEvents_single ParseFloat path name content col hs]
      exact count_opened_handlerEvents _ _
  | none =>
    cases hm : List.lookup name (multipleCollectors ParseFloat) with
    | some col =>
      have hreg : (List.lookup name (singleCollectors ParseFloat)).isSome = true ∨
          (List.lookup name (multipleCollectors ParseFloat)).isSome = true :=
        Or.inr (by rw [hm]; rfl)
      rw [← hs, ← hm, if_pos hreg]
      cases ho : Open fsys path with
      | error err =>
        rw [walkFn_file_open_error ParseFloat fsys glob path name err ho hreg]
        simp
      | ok content =>
        rw [walkFn_file_ok ParseFloat fsys glob path name content ho,
          fileEvents_multiple ParseFloat path name content col hm]
        exact count_opened_handlerEvents _ _
    | none =>
      rw [walkFn_file_unregistered ParseFloat fsys glob path name hs hm]
      simp

theorem firstSome_sent_cases {ε α : Type} (x y : Exec ε (Option α)) :
    (firstSome x y).sent = x.sent ∨ (firstSome x y).sent = x.sent ++ y.sent := by
  obtain ⟨l, r⟩ := x
  cases r with
  | panicked p => exact Or.inl rfl
  | returned a =>
    cases a with
    | some b => exact Or.inl (by rw [firstSome_some])
    | none => exact Or.inr (by rw [firstSome_none])

/-- The walk sends an event at most as often as the callback does on all the
invocations. -/
theorem count_runVisits_le {ε : Type} [DecidableEq ε] (fn : WalkDirFunc ε) (vs : List Visit)
    (e : ε) :
    (runVisits fn vs).sent.count e ≤
      (vs.flatMap (fun v => (fn v.path v.entry v.err).sent)).count e := by
  induction vs with
  | nil => exact Nat.le_refl _
  | cons v vs ih =>
    rw [runVisits, List.flatMap_cons, List.count_append]
    rcases firstSome_sent_cases (fn v.path v.entry v.err) (runVisits fn vs) with h | h
    · rw [h]
      exact Nat.le_add_right _ _
    · rw [h, List.count_append]
      exact Nat.add_le_add_left ih _

/-- The callback opens a path only on an invocation on a file at this path, and then at
most once. -/
theorem count_opened_walkFn_le (ParseFloat : String → Option ℚ) (fsys : Node) (glob : String)
    (v : Visit) (p : String) :
    ((New ParseFloat fsys glob).walkFn v.path v.entry v.err).sent.count (Event.opened p) ≤
      if (v.isFile && decide (v.path = p)) = true then 1 else 0 := by
  by_cases hc : (v.isFile && decide (v.path = p)) = true
  · rw [if_pos hc]
    simp only [Bool.and_eq_true, decide_eq_true_eq] at hc
    obtain ⟨hf, hp⟩ := hc
    obtain ⟨path, entry, err⟩ := v
    simp only at hp
    subst hp
    cases err with
    | some e => simp [cgroupCollector.walkFn]
    | none =>
      cases entry with
      | none => simp [Visit.isFile] at hf
      | some de =>
        obtain ⟨name, isDir⟩ := de
        cases isDir with
        | true => simp [Visit.isFile] at hf
        | false =>
          simp only
          rw [count_opened_walkFn_file]
          split <;> omega
  · rw [if_neg hc]
    apply Nat.le_of_eq
    apply List.count_eq_zero_of_not_mem
    intro hmem
    apply hc
    obtain ⟨_, de, hde, hdir, hblock⟩ := mem_walkFn_sent _ _ _ _ _ hmem
    have hpath : p = v.path := by
      rcases hblock with hb | hb
      · obtain ⟨col, _, hev⟩ := mem_singleBlock_sent _ _ _ _ hb
        rcases hev with hev | ⟨f, _, ⟨m', hm', _⟩ | ⟨err, herr, _⟩⟩
        · exact Event.opened.inj hev
        · exact absurd hm' (by simp)
        · exact absurd herr (by simp)
      · obtain ⟨col, _, hev⟩ := mem_multipleBlock_sent _ _ _ _ hb
        rcases hev with hev | ⟨f, _, ⟨m', hm', _⟩ | ⟨err, herr, _⟩⟩
        · exact Event.opened.inj hev
        · exact absurd hm' (by simp)
        · exact absurd herr (by simp)
    simp [Visit.isFile, hde, hdir, hpath]

theorem pathOf_injective (es fs : List String) (hes : ∀ e ∈ es, validElem e = true)
    (hfs : ∀ e ∈ fs, validElem e = true) (h : pathOf es = pathOf fs) : es = fs := by
  rw [← (ValidPath_pathOf es hes).2, h, (ValidPath_pathOf fs hfs).2]

/-- In a tree with valid names, the path of every invocation of the walk of a node
continues the path of the node by valid elements. -/
theorem visits_prefix : ∀ (node : Node) (es : List String) (dname : String),
    (∀ e ∈ es, validElem e = true) → node.validNames = true →
    ∀ v ∈ visits (pathOf es) dname node,
      ∃ rest, (∀ e ∈ rest, validElem e = true) ∧ v.path = pathOf (es ++ rest)
  | .file _, es, dname, _, _, v, hv => by
    rw [visits, List.mem_singleton] at hv
    rw [hv]
    exact ⟨[], fun e he => absurd he (List.not_mem_nil _), by rw [List.append_nil]⟩
  | .dir readErr entries, es, dname, hes, hn, v, hv => by
    have hself : ∃ rest, (∀ e ∈ rest, validElem e = true) ∧ pathOf es = pathOf (es ++ rest) :=
      ⟨[], fun e he => absurd he (List.not_mem_nil _), by rw [List.append_nil]⟩
    rw [visits_dir] at hv
    rcases List.mem_cons.1 hv with hv | hv
    · rw [hv]
      exact hself
    · rcases List.mem_append.1 hv with hv | hv
      · cases readErr with
        | none => simp at hv
        | some e =>
          simp only [List.mem_singleton] at hv
          rw [hv]
          exact hself
      · obtain ⟨p, hp, hpv⟩ := mem_visitsEntries _ _ v hv
        obtain ⟨h1, h2⟩ := every_dir _ _ _ hn
        have hpn : validElem p.1 = true := by
          simp only [validNamesAt, List.all_eq_true] at h1
          exact h1 p hp
        rw [Join_pathOf es p.1 hes hpn] at hpv
        obtain ⟨rest, hrest, hpath⟩ := visits_prefix p.2 (es ++ [p.1]) p.1
          (valid_append_singleton es p.1 hes hpn) (everyEntry_mem _ _ h2 p hp) v hpv
        refine ⟨p.1 :: rest, ?_, by rw [hpath]; simp⟩
        intro e he
        rcases List.mem_cons.1 he with he | he
        · rw [he]; exact hpn
        · exact hrest e he
termination_by node => sizeOf node
decreasing_by
  all_goals simp_wf
  have h1 := List.sizeOf_lt_of_mem hp
  have h2 : sizeOf p = 1 + sizeOf p.1 + sizeOf p.2 := by
    obtain ⟨a, b⟩ := p
    rfl
  omega

theorem wellFormed_validNames (node : Node) (h : node.wellFormed = true) :
    node.validNames = true := by
  have hgen : ∀ (n : Node), n.wellFormed = true → n.validNames = true := by
    intro n
    exact Node.rec
      (motive_1 := fun n => n.wellFormed = true → n.validNames = true)
      (motive_2 := fun l => Node.everyEntry (fun m => validNamesAt m && uniqueNamesAt m) l = true →
        Node.everyEntry validNamesAt l = true)
      (motive_3 := fun p => Node.every (fun m => validNamesAt m && uniqueNamesAt m) p.2 = true →
        Node.every validNamesAt p.2 = true)
      (fun content _ => rfl)
      (fun readErr entries ih hw => by
        obtain ⟨h1, h2⟩ := every_dir _ _ _ hw
        simp only [Bool.and_eq_true] at h1
        show Node.every validNamesAt (.dir readErr entries) = true
        rw [Node.every, Bool.and_eq_true]
        exact ⟨h1.1, ih h2⟩)
      (fun _ => rfl)
      (fun head tail ih1 ih2 hw => by
        obtain ⟨n1, d1⟩ := head
        obtain ⟨h1, h2⟩ := everyEntry_cons _ n1 d1 tail hw
        rw [Node.everyEntry, Bool.and_eq_true]
        exact ⟨ih1 h1, ih2 h2⟩)
      (fun fst snd ih => ih)
      n
  exact hgen node h

/-- Different entries of a directory have no invocation on a file at a common path. -/
theorem visitsEntries_countP_le (es : List String) (p : String)
    (hes : ∀ e ∈ es, validElem e = true) (entries : List (String × Node))
    (hnames : ∀ x ∈ entries, validElem x.1 = true)
    (hnodup : (entries.map Prod.fst).Nodup)
    (hvalid : ∀ x ∈ entries, x.2.validNames = true)
    (hchild : ∀ x ∈ entries, (visits (pathOf (es ++ [x.1])) x.1 x.2).countP
      (fun v => v.isFile && decide (v.path = p)) ≤ 1) :
    (visitsEntries (pathOf es) entries).countP
      (fun v => v.isFile && decide (v.path = p)) ≤ 1 := by
  induction entries with
  | nil => simp [visitsEntries]
  | cons q rest ih =>
    obtain ⟨n1, d1⟩ := q
    have hn1 : validElem n1 = true := hnames (n1, d1) (List.mem_cons_self _ _)
    rw [List.map_cons, List.nodup_cons] at hnodup
    have ih' := ih (fun x hx => hnames x (List.mem_cons_of_mem _ hx)) hnodup.2
      (fun x hx => hvalid x (List.mem_cons_of_mem _ hx))
      (fun x hx => hchild x (List.mem_cons_of_mem _ hx))
    have hhead := hchild (n1, d1) (List.mem_cons_self _ _)
    rw [visitsEntries, Join_pathOf es n1 hes hn1, List.countP_append]
    by_cases hzero : (visitsEntries (pathOf es) rest).countP
        (fun v => v.isFile && decide (v.path = p)) = 0
    · rw [hzero]
      exact hhead
    · have hpos : 0 < (visitsEntries (pathOf es) rest).countP
          (fun v => v.isFile && decide (v.path = p)) := Nat.pos_of_ne_zero hzero
      obtain ⟨v', hv', hq'⟩ := List.countP_pos_iff.1 hpos
      obtain ⟨x, hx, hxv⟩ := mem_visitsEntries _ _ v' hv'
      have hxn : validElem x.1 = true := hnames x (List.mem_cons_of_mem _ hx)
      rw [Join_pathOf es x.1 hes hxn] at hxv
      obtain ⟨r2, hr2, hpath2⟩ := visits_prefix x.2 (es ++ [x.1]) x.1
        (valid_append_singleton es x.1 hes hxn)
        (hvalid x (List.mem_cons_of_mem _ hx)) v' hxv
      have hp2 : v'.path = p := by
        simp only [Bool.and_eq_true, decide_eq_true_eq] at hq'
        exact hq'.2
      have hheadzero : (visits (pathOf (es ++ [n1])) n1 d1).countP
          (fun v => v.isFile && decide (v.path = p)) = 0 := by
        rw [List.countP_eq_zero]
        intro v hv hq
        obtain ⟨r1, hr1, hpath1⟩ := visits_prefix d1 (es ++ [n1]) n1
          (valid_append_singleton es n1 hes hn1)
          (hvalid (n1, d1) (List.mem_cons_self _ _)) v hv
        have hp1 : v.path = p := by
          simp only [Bool.and_eq_true, decide_eq_true_eq] at hq
          exact hq.2
        have hinj := pathOf_injective (es ++ [n1] ++ r1) (es ++ [x.1] ++ r2)
          (fun e he => by
            rcases List.mem_append.1 he with he | he
            · exact valid_append_singleton es n1 hes hn1 e he
            · exact hr1 e he)
          (fun e he => by
            rcases List.mem_append.1 he with he | he
            · exact valid_append_singleton es x.1 hes hxn e he
            · exact hr2 e he)
          (by rw [← hpath1, ← hpath2, hp1, hp2])
        rw [List.append_assoc, List.append_assoc] at hinj
        have htail := List.append_cancel_left hinj
        have hname : n1 = x.1 := by
          simp only [List.singleton_append, List.cons.injEq] at htail
          exact htail.1
        apply hnodup.1
        rw [hname]
        exact List.mem_map.2 ⟨x, hx, rfl⟩
      rw [hheadzero, Nat.zero_add]
      exact ih'

/-- In a well-formed tree the walk of a node has at most one invocation on a file at a
given path. -/
theorem visits_countP_le : ∀ (node : Node) (es : List String) (dname : String) (p : String),
    (∀ e ∈ es, validElem e = true) → node.wellFormed = true →
    (visits (pathOf es) dname node).countP (fun v => v.isFile && decide (v.path = p)) ≤ 1
  | .file _, es, dname, p, _, _ => by
    rw [visits]
    exact List.countP_le_length _
  | .dir readErr entries, es, dname, p, hes, hw => by
    obtain ⟨hw1, hw2⟩ := every_dir _ _ _ hw
    simp only [Bool.and_eq_true, validNamesAt, uniqueNamesAt, List.all_eq_true,
      decide_eq_true_eq] at hw1
    have hmain := visitsEntries_countP_le es p hes entries hw1.1 hw1.2
      (fun x hx => wellFormed_validNames x.2 (everyEntry_mem _ _ hw2 x hx))
      (fun x hx => visits_countP_le x.2 (es ++ [x.1]) x.1 p
        (valid_append_singleton es x.1 hes (hw1.1 x hx)) (everyEntry_mem _ _ hw2 x hx))
    rw [visits_dir]
    cases readErr with
    | none =>
      simpa [List.countP_cons, Visit.isFile] using hmain
    | some e =>
      simpa [List.countP_cons, Visit.isFile] using hmain
termination_by node => sizeOf node
decreasing_by
  all_goals simp_wf
  have h1 := List.sizeOf_lt_of_mem hx
  have h2 : sizeOf x = 1 + sizeOf x.1 + sizeOf x.2 := by
    obtain ⟨a, b⟩ := x
    rfl
  omega

theorem count_flatMap_walkFn_le (ParseFloat : String → Option ℚ) (fsys : Node) (glob : String)
    (vs : List Visit) (p : String) :
    (vs.flatMap (fun v =>
        ((New ParseFloat fsys glob).walkFn v.path v.entry v.err).sent)).count (Event.opened p) ≤
      vs.countP (fun v => v.isFile && decide (v.path = p)) := by
  induction vs with
  | nil => exact Nat.le_refl _
  | cons v vs ih =>
    rw [List.flatMap_cons, List.count_append, List.countP_cons, Nat.add_comm]
    exact Nat.add_le_add ih (count_opened_walkFn_le ParseFloat fsys glob v p)

theorem count_matchEvents_le (ParseFloat : String → Option ℚ) (fsys : Node) (glob : String)
    (m p : String) :
    ((New ParseFloat fsys glob).matchEvents m).count (Event.opened p) ≤
      (rootVisits fsys m).countP (fun v => v.isFile && decide (v.path = p)) := by
  have hlog : (match (WalkDir (New ParseFloat fsys glob).fs m
        (New ParseFloat fsys glob).walkFn).ret with
      | .returned (some err) => [Event.logged "failed to walk cgroup" err]
      | _ => []).count (Event.opened p) = 0 := by
    apply List.count_eq_zero_of_not_mem
    intro h
    split at h
    · exact absurd (List.mem_singleton.1 h) (by simp)
    · exact absurd h (List.not_mem_nil _)
  unfold cgroupCollector.matchEvents
  rw [List.count_append, hlog, Nat.add_zero, WalkDir_eq_runVisits]
  exact Nat.le_trans (count_runVisits_le _ _ _)
    (count_flatMap_walkFn_le ParseFloat fsys glob _ p)

/-- A pass opens a path at most as often as the walks of the matches have invocations on
a file at this path. -/
theorem count_Collect_le (ParseFloat : String → Option ℚ)
    (otherGlob : Node → String → List String × Option GoError) (fsys : Node)
    (glob p : String) :
    ((New ParseFloat fsys glob).Collect otherGlob).sent.count (Event.opened p) ≤
      ((Glob otherGlob fsys (New ParseFloat fsys glob).glob).1.flatMap
        (rootVisits fsys)).countP (fun v => v.isFile && decide (v.path = p)) := by
  have hglob : ∀ err : Option GoError, (globEvents err).count (Event.opened p) = 0 := by
    intro err
    apply List.count_eq_zero_of_not_mem
    intro h
    cases err with
    | none => exact absurd h (List.not_mem_nil _)
    | some e => exact absurd (List.mem_singleton.1 h) (by simp)
  have hms : ∀ ms : List String,
      (ms.flatMap (New ParseFloat fsys glob).matchEvents).count (Event.opened p) ≤
        (ms.flatMap (rootVisits fsys)).countP (fun v => v.isFile && decide (v.path = p)) := by
    intro ms
    induction ms with
    | nil => exact Nat.le_refl _
    | cons m rest ih =>
      rw [List.flatMap_cons, List.flatMap_cons, List.count_append, List.countP_append]
      exact Nat.add_le_add (count_matchEvents_le ParseFloat fsys glob m p) ih
  rw [Collect_eq]
  simp only
  rw [List.count_append, hglob, Nat.zero_add]
  exact hms _

/-- In a well-formed tree whose root lists, the invocations of the walks of the matches
of the glob `*` are those of the entries of the root. -/
theorem Glob_star_visits (otherGlob : Node → String → List String × Option GoError)
    (entries : List (String × Node))
    (hw : (Node.dir none entries).wellFormed = true) :
    (Glob otherGlob (.dir none entries) "*").1.flatMap (rootVisits (.dir none entries)) =
      visitsEntries (pathOf []) entries := by
  obtain ⟨hw1, _⟩ := every_dir _ _ _ hw
  simp only [Bool.and_eq_true, validNamesAt, uniqueNamesAt, List.all_eq_true,
    decide_eq_true_eq] at hw1
  have hsub : ∀ sub : List (String × Node), (∀ x ∈ sub, x ∈ entries) →
      ((((sub.map Prod.fst).filter (fun n => '/' ∉ n.data)).map (Join ".")).flatMap
        (rootVisits (.dir none entries))) = visitsEntries "." sub := by
    intro sub
    induction sub with
    | nil => intro _; rfl
    | cons q rest ih =>
      intro hmem
      obtain ⟨n1, d1⟩ := q
      have hin : (n1, d1) ∈ entries := hmem _ (List.mem_cons_self _ _)
      have hn1 : validElem n1 = true := hw1.1 _ hin
      have hs : '/' ∉ n1.data := ((validElem_iff n1).1 hn1).2.2.2
      have hj : Join "." n1 = pathOf [n1] :=
        Join_pathOf [] n1 (fun x hx => absurd hx (List.not_mem_nil _)) hn1
      have hfind : (Node.dir none entries).find [n1] = some d1 := by
        rw [Node.find, lookup_of_mem_nodup entries hw1.2 n1 d1 hin]
        rfl
      have hroot : rootVisits (.dir none entries) (Join "." n1) =
          visits (Join "." n1) n1 d1 := by
        unfold rootVisits
        rw [hj, lookupNode_pathOf _ [n1] (fun x hx => by
          rw [List.mem_singleton.1 hx]; exact hn1) d1 hfind]
        simp only
        rw [show pathOf [n1] = pathOf ([] ++ [n1]) from rfl, Base_pathOf [] n1 hn1]
      have hfilter : ((((n1, d1) :: rest).map Prod.fst).filter (fun n => '/' ∉ n.data)) =
          n1 :: ((rest.map Prod.fst).filter (fun n => '/' ∉ n.data)) := by
        rw [List.map_cons, List.filter_cons]
        simp [hs]
      rw [hfilter, List.map_cons, List.flatMap_cons, hroot,
        ih (fun x hx => hmem x (List.mem_cons_of_mem _ hx)), visitsEntries]
  have hg : (Glob otherGlob (.dir none entries) "*").1 =
      ((entries.map Prod.fst).filter (fun n => '/' ∉ n.data)).map (Join ".") := by
    unfold Glob
    simp
  rw [hg]
  exact hsub entries (fun x hx => hx)

/-- In a well-formed tree a pass with the default glob opens no path twice. -/
theorem count_opened_default_le (ParseFloat : String → Option ℚ)
    (otherGlob : Node → String → List String × Option GoError) (fsys : Node)
    (hw : fsys.wellFormed = true) (p : String) :
    ((New ParseFloat fsys "").Collect otherGlob).sent.count (Event.opened p) ≤ 1 := by
  refine Nat.le_trans (count_Collect_le ParseFloat otherGlob fsys "" p) ?_
  show ((Glob otherGlob fsys "*").1.flatMap (rootVisits fsys)).countP _ ≤ 1
  cases fsys with
  | file c => simp [Glob]
  | dir readErr entries =>
    cases readErr with
    | some e => simp [Glob]
    | none =>
      rw [Glob_star_visits otherGlob entries hw]
      obtain ⟨hw1, hw2⟩ := every_dir _ _ _ hw
      simp only [Bool.and_eq_true, validNamesAt, uniqueNamesAt, List.all_eq_true,
        decide_eq_true_eq] at hw1
      exact visitsEntries_countP_le [] p (fun e he => absurd he (List.not_mem_nil _)) entries
        hw1.1 hw1.2
        (fun x hx => wellFormed_validNames x.2 (everyEntry_mem _ _ hw2 x hx))
        (fun x hx => visits_countP_le x.2 ([] ++ [x.1]) x.1 p
          (valid_append_singleton [] x.1 (fun e he => absurd he (List.not_mem_nil _))
            (hw1.1 x hx))
          (everyEntry_mem _ _ hw2 x hx))

/-- C22: no name is a key of both maps of the registry.  So the callback of the walk, on
a file, opens the path once when the name of the file is a key of the registry and not
at all otherwise, and when the file opens it runs one decoder, the handler registered
for the name in the one map that has it: its events are the open, the records of this
handler on the content and the log of its error.  And in a well-formed tree a whole pass
with the default glob opens no path twice. -/
theorem registry_one_handler (ParseFloat : String → Option ℚ) (fsys : Node)
    (glob path name : String) :
    (∀ n, ¬ ((List.lookup n (singleCollectors ParseFloat)).isSome = true ∧
        (List.lookup n (multipleCollectors ParseFloat)).isSome = true)) ∧
      (((New ParseFloat fsys glob).walkFn path (some ⟨name, false⟩) none).sent.count
          (Event.opened path) =
        if (List.lookup name (singleCollectors ParseFloat)).isSome = true ∨
          (List.lookup name (multipleCollectors ParseFloat)).isSome = true then 1 else 0) ∧
      (∀ content, Open fsys path = .ok content →
        (∀ col, List.lookup name (singleCollectors ParseFloat) = some col →
          (New ParseFloat fsys glob).walkFn path (some ⟨name, false⟩) none =
            ⟨handlerEvents path (col.collect content (Dir path) col.desc),
              .returned none⟩) ∧
        (∀ col, List.lookup name (multipleCollectors ParseFloat) = some col →
          (New ParseFloat fsys glob).walkFn path (some ⟨name, false⟩) none =
            ⟨handlerEvents path (col.collect content (Dir path) col.descs),
              .returned none⟩)) ∧
      (fsys.wellFormed = true →
        ∀ (otherGlob : Node → String → List String × Option GoError) (p : String),
          ((New ParseFloat fsys "").Collect otherGlob).sent.count (Event.opened p) ≤ 1) := by
  refine ⟨?_, ?_, ?_, ?_⟩
  · intro n hn
    cases hs : List.lookup n (singleCollectors ParseFloat) with
    | none => rw [hs] at hn; simp at hn
    | some col =>
      rw [registry_disjoint ParseFloat n col hs] at hn
      simp at hn
  · exact count_opened_walkFn_file ParseFloat fsys glob path name
  · intro content ho
    constructor
    · intro col hs
      rw [walkFn_file_ok ParseFloat fsys glob path name content ho,
        fileEvents_single ParseFloat path name content col hs]
    · intro col hm
      rw [walkFn_file_ok ParseFloat fsys glob path name content ho,
        fileEvents_multiple ParseFloat path name content col hm]
  · intro hw otherGlob p
    exact count_opened_default_le ParseFloat otherGlob fsys hw p

/-- Instance of C22: in `sliceTree` the callback on `system.slice/pids.current` opens the
path once, and so does the whole pass. -/
theorem registry_one_handler_witness :
    (((New parseUnsigned sliceTree "").walkFn "system.slice/pids.current"
        (some ⟨"pids.current", false⟩) none).sent.count
          (Event.opened "system.slice/pids.current") =
      if (List.lookup "pids.current" (singleCollectors parseUnsigned)).isSome = true ∨
        (List.lookup "pids.current" (multipleCollectors parseUnsigned)).isSome = true
      then 1 else 0) ∧
      ((New parseUnsigned sliceTree "").Collect noGlob).sent.count
        (Event.opened "system.slice/pids.current") ≤ 1 :=
  have h := registry_one_handler parseUnsigned sliceTree "" "system.slice/pids.current"
    "pids.current"
  ⟨h.2.1, h.2.2.2 (by decide) noGlob "system.slice/pids.current"⟩

/-! ## The default glob -/

mutual
/-- The walk on any file system value is the walk with the callback `withReadDir`. -/
theorem walkDirOn_eq (ms : Methods) (fn : WalkDirFunc Event) :
    ∀ (name dname : String) (node : Node),
      walkDirOn ms fn name dname node = walkDir (withReadDir ms fn) name dname node
  | name, dname, .file _ => by
    rw [walkDirOn, walkDir]
    rfl
  | name, dname, .dir none entries => by
    rw [walkDirOn, walkDir, ← walkDirEntriesOn_eq ms fn name entries]
    simp only [withReadDir, bind_eq_Exec_bind, Exec.bind_assoc]
    congr 1
    funext r
    cases r with
    | some err => simp
    | none => simp [Exec.bind_assoc]
  | name, dname, .dir (some e) entries => by
    rw [walkDirOn, walkDir, ← walkDirEntriesOn_eq ms fn name entries]
    simp only [withReadDir, bind_eq_Exec_bind, Exec.bind_assoc]
    congr 1
    funext r
    cases r with
    | some err => simp
    | none => simp [Exec.bind_assoc]
theorem walkDirEntriesOn_eq (ms : Methods) (fn : WalkDirFunc Event) :
    ∀ (name : String) (entries : List (String × Node)),
      walkDirEntriesOn ms fn name entries = walkDirEntries (withReadDir ms fn) name entries
  | _, [] => by
    rw [walkDirEntriesOn, walkDirEntries]
  | name, (n1, d1) :: rest => by
    rw [walkDirEntriesOn, walkDirEntries, walkDirOn_eq ms fn _ n1 d1,
      walkDirEntriesOn_eq ms fn name rest]
end

theorem mem_readDirOpen_sent (ms : Methods) (name : String) (e : Event)
    (h : e ∈ (readDirOpen ms name).sent) : ms.ReadDirFS = false ∧ e = Event.opened name := by
  unfold readDirOpen at h
  cases hr : ms.ReadDirFS with
  | true => simp [hr] at h
  | false =>
    simp only [hr, Bool.false_eq_true, if_false, send, List.mem_singleton] at h
    exact ⟨rfl, h⟩

/-- An event of the callback `withReadDir` is an event of the callback, or the open that
`fs.ReadDir` makes on a directory. -/
theorem mem_withReadDir_sent (ms : Methods) (fn : WalkDirFunc Event) (path : String)
    (d : Option DirEntry) (err : Option FsError) (e : Event)
    (h : e ∈ (withReadDir ms fn path d err).sent) :
    e ∈ (fn path d err).sent ∨
      (ms.ReadDirFS = false ∧ e = Event.opened path ∧ err = none ∧
        ∃ dname, d = some ⟨dname, true⟩) := by
  cases err with
  | some x => exact Or.inl h
  | none =>
    cases d with
    | none => exact Or.inl h
    | some de =>
      obtain ⟨dname, isDir⟩ := de
      cases isDir with
      | false => exact Or.inl h
      | true =>
        simp only [withReadDir, bind_eq_Exec_bind] at h
        rcases mem_bind_sent h with h | ⟨r, _, h⟩
        · exact Or.inl h
        · cases r with
          | some x => simp at h
          | none =>
            simp only at h
            rcases mem_bind_sent h with h | ⟨_, _, h⟩
            · obtain ⟨h1, h2⟩ := mem_readDirOpen_sent ms path e h
              exact Or.inr ⟨h1, h2, rfl, dname, rfl⟩
            · simp at h

theorem Stat_cases (ms : Methods) (fsys : Node) (name : String) :
    ((Stat ms fsys name).sent = [] ∨
        (ms.StatFS = false ∧ (Stat ms fsys name).sent = [Event.opened name])) ∧
      ((∃ err, (Stat ms fsys name).ret = .returned (.error err)) ∨
        ∃ node, (Stat ms fsys name).ret = .returned (.ok node) ∧
          lookupNode fsys name = .ok node) := by
  unfold Stat
  cases hs : ms.StatFS with
  | true =>
    simp only [if_true]
    refine ⟨Or.inl rfl, ?_⟩
    cases hl : lookupNode fsys name with
    | error err => exact Or.inl ⟨err, rfl⟩
    | ok node => exact Or.inr ⟨node, rfl, rfl⟩
  | false =>
    simp only [Bool.false_eq_true, if_false, bind_eq_Exec_bind]
    cases hl : lookupNode fsys name with
    | error err => exact ⟨Or.inr ⟨trivial, rfl⟩, Or.inl ⟨err, rfl⟩⟩
    | ok node =>
      cases node with
      | dir r en => exact ⟨Or.inr ⟨trivial, rfl⟩, Or.inr ⟨_, rfl, rfl⟩⟩
      | file c =>
        cases c with
        | ok content => exact ⟨Or.inr ⟨trivial, rfl⟩, Or.inr ⟨_, rfl, rfl⟩⟩
        | error err => exact ⟨Or.inr ⟨trivial, rfl⟩, Or.inl ⟨err, rfl⟩⟩

/-- An event of the walk of a root on any file system value: the open that `fs.Stat`
makes on the root, an event of the callback on the error of `fs.Stat`, an event of the
callback on an invocation of the walk, or the open that `fs.ReadDir` makes on a directory
of the walk. -/
theorem mem_WalkDirOn_sent (ms : Methods) (fsys : Node) (root : String)
    (fn : WalkDirFunc Event) (e : Event) (h : e ∈ (WalkDirOn ms fsys root fn).sent) :
    (ms.StatFS = false ∧ e = Event.opened root) ∨
      (∃ err, e ∈ (fn root none (some err)).sent) ∨
      ∃ v ∈ rootVisits fsys root, e ∈ (fn v.path v.entry v.err).sent ∨
        (ms.ReadDirFS = false ∧ e = Event.opened v.path ∧ v.err = none ∧
          ∃ dname, v.entry = some ⟨dname, true⟩) := by
  unfold WalkDirOn at h
  simp only [bind_eq_Exec_bind] at h
  obtain ⟨hsent, hret⟩ := Stat_cases ms fsys root
  rcases mem_bind_sent h with h | ⟨a, ha, h⟩
  · rcases hsent with hs | ⟨hs1, hs2⟩
    · rw [hs] at h
      exact absurd h (List.not_mem_nil _)
    · rw [hs2, List.mem_singleton] at h
      exact Or.inl ⟨hs1, h⟩
  · rcases hret with ⟨err, herr⟩ | ⟨node, hnode, hl⟩
    · rw [herr] at ha
      cases ha
      exact Or.inr (Or.inl ⟨err, h⟩)
    · rw [hnode] at ha
      cases ha
      simp only at h
      rw [walkDirOn_eq, walkDir_eq_runVisits] at h
      obtain ⟨v, hv, hve⟩ := mem_runVisits_sent _ _ e h
      refine Or.inr (Or.inr ⟨v, ?_, mem_withReadDir_sent ms fn _ _ _ e hve⟩)
      unfold rootVisits
      rw [hl]
      exact hv

theorem mem_collectMatchesOn_sent (ms : Methods) (c : cgroupCollector) (l : List String)
    (e : Event) (h : e ∈ (c.collectMatchesOn ms l).sent) :
    (∃ err, e = Event.logged "failed to walk cgroup" err) ∨
      ∃ m ∈ l, e ∈ (WalkDirOn ms c.fs m c.walkFn).sent := by
  induction l with
  | nil => simp [cgroupCollector.collectMatchesOn] at h
  | cons m rest ih =>
    rw [cgroupCollector.collectMatchesOn] at h
    simp only [bind_eq_Exec_bind] at h
    have hrest : e ∈ (c.collectMatchesOn ms rest).sent →
        (∃ err, e = Event.logged "failed to walk cgroup" err) ∨
          ∃ m' ∈ m :: rest, e ∈ (WalkDirOn ms c.fs m' c.walkFn).sent := by
      intro h'
      rcases ih h' with h' | ⟨m', hm', hv⟩
      · exact Or.inl h'
      · exact Or.inr ⟨m', List.mem_cons_of_mem _ hm', hv⟩
    rcases mem_bind_sent h with h | ⟨r, _, h⟩
    · exact Or.inr ⟨m, List.mem_cons_self _ _, h⟩
    · cases r with
      | none =>
        rcases mem_bind_sent h with h | ⟨_, _, h⟩
        · simp at h
        · exact hrest h
      | some err =>
        rcases mem_bind_sent h with h | ⟨_, _, h⟩
        · exact Or.inl ⟨err, by simpa [send] using h⟩
        · exact hrest h

/-- Every event of a pass on any file system value is an open that `fs.Glob` makes, a log
of the pass, or an event of the walk of a match of the glob. -/
theorem mem_CollectOn_sent (ms : Methods) (otherOpens : Node → String → List String)
    (otherGlob : Node → String → List String × Option GoError)
    (c : cgroupCollector) (e : Event) (h : e ∈ (c.CollectOn ms otherOpens otherGlob).sent) :
    (∃ p ∈ globOpens ms otherOpens c.fs c.glob, e = Event.opened p) ∨
      (∃ err, e = Event.logged "failed to glob cgroups" err) ∨
      (∃ err, e = Event.logged "failed to walk cgroup" err) ∨
      ∃ m ∈ (Glob otherGlob c.fs c.glob).1, e ∈ (WalkDirOn ms c.fs m c.walkFn).sent := by
  unfold cgroupCollector.CollectOn at h
  simp only [bind_eq_Exec_bind] at h
  rcases mem_bind_sent h with h | ⟨_, _, h⟩
  · obtain ⟨p, hp, hpe⟩ := List.mem_map.1 h
    exact Or.inl ⟨p, hp, hpe.symm⟩
  · right
    cases hg : (Glob otherGlob c.fs c.glob).2 with
    | none =>
      simp only [hg] at h
      rcases mem_bind_sent h with h | ⟨_, _, h⟩
      · simp at h
      · exact Or.inr (mem_collectMatchesOn_sent ms c _ e h)
    | some err =>
      simp only [hg] at h
      rcases mem_bind_sent h with h | ⟨_, _, h⟩
      · exact Or.inl ⟨err, by simpa [send] using h⟩
      · exact Or.inr (mem_collectMatchesOn_sent ms c _ e h)

/-- An open among the events of the callback on an invocation of the walk is the open of
the path of the invocation, whose last element is a key of the registry. -/
theorem walkFn_opened_registered (ParseFloat : String → Option ℚ) (fsys : Node)
    (glob : String) (v : Visit) (p : String)
    (hv : (v.entry = none ∧ v.err ≠ none) ∨
      ∃ es, (∀ e ∈ es, validElem e = true) ∧ v.path = pathOf es ∧
        ∃ de, v.entry = some de ∧ de.Name = Base v.path ∧ (de.IsDir = false → v.err = none))
    (he : Event.opened p ∈ ((New ParseFloat fsys glob).walkFn v.path v.entry v.err).sent) :
    registered ParseFloat (Base p) = true := by
  obtain ⟨ds, n, hvalid, hpath, _, _, hblock⟩ := walkFn_event_file ParseFloat fsys glob v _ hv he
  have hn' : validElem n = true := hvalid n (by simp)
  unfold registered
  rw [Bool.or_eq_true]
  rcases hblock with hb | hb
  · obtain ⟨col, hcol, hev⟩ := mem_singleBlock_sent _ _ _ _ hb
    have hp : p = pathOf (ds ++ [n]) := by
      rcases hev with hev | ⟨f, _, ⟨m', hm', _⟩ | ⟨err, herr, _⟩⟩
      · exact Event.opened.inj hev
      · exact absurd hm' (by simp)
      · exact absurd herr (by simp)
    left
    rw [hp, Base_pathOf ds n hn']
    rw [show (New ParseFloat fsys glob).singleCollectors = singleCollectors ParseFloat
      from rfl] at hcol
    rw [hcol]
    rfl
  · obtain ⟨col, hcol, hev⟩ := mem_multipleBlock_sent _ _ _ _ hb
    have hp : p = pathOf (ds ++ [n]) := by
      rcases hev with hev | ⟨f, _, ⟨m', hm', _⟩ | ⟨err, herr, _⟩⟩
      · exact Event.opened.inj hev
      · exact absurd hm' (by simp)
      · exact absurd herr (by simp)
    right
    rw [hp, Base_pathOf ds n hn']
    rw [show (New ParseFloat fsys glob).multipleCollectors = multipleCollectors ParseFloat
      from rfl] at hcol
    rw [hcol]
    rfl

/-- In a well-formed tree, the path of an invocation of the walk on a directory is the
path of a directory of the tree. -/
theorem visits_resolve (fsys : Node) : ∀ (node : Node) (es : List String) (dname : String),
    (∀ e ∈ es, validElem e = true) → fsys.find es = some node → node.wellFormed = true →
    ∀ v ∈ visits (pathOf es) dname node, ∀ n, v.entry = some ⟨n, true⟩ →
      ∃ r en, lookupNode fsys v.path = .ok (.dir r en)
  | .file c, es, dname, _, _, _, v, hv, n, hn => by
    rw [visits, List.mem_singleton] at hv
    rw [hv] at hn
    simp at hn
  | .dir readErr entries, es, dname, hes, hf, hw, v, hv, n, hn => by
    obtain ⟨hw1, hw2⟩ := every_dir _ _ _ hw
    have hself : lookupNode fsys (pathOf es) = .ok (.dir readErr entries) :=
      lookupNode_pathOf fsys es hes _ hf
    rw [visits_dir] at hv
    rcases List.mem_cons.1 hv with hv | hv
    · rw [hv]
      exact ⟨_, _, hself⟩
    · rcases List.mem_append.1 hv with hv | hv
      · cases readErr with
        | none => simp at hv
        | some e =>
          simp only [List.mem_singleton] at hv
          rw [hv]
          exact ⟨_, _, hself⟩
      · obtain ⟨p, hp, hpv⟩ := mem_visitsEntries _ _ v hv
        simp only [Bool.and_eq_true, validNamesAt, uniqueNamesAt, List.all_eq_true,
          decide_eq_true_eq] at hw1
        have hpn : validElem p.1 = true := hw1.1 p hp
        have hfind : fsys.find (es ++ [p.1]) = some p.2 := by
          rw [find_append, hf]
          show Node.find [p.1] (.dir readErr entries) = some p.2
          rw [Node.find, lookup_of_mem_nodup entries hw1.2 p.1 p.2 hp]
          rfl
        rw [Join_pathOf es p.1 hes hpn] at hpv
        exact visits_resolve fsys p.2 (es ++ [p.1]) p.1
          (valid_append_singleton es p.1 hes hpn) hfind
          (everyEntry_mem _ _ hw2 p hp) v hpv n hn
termination_by node => sizeOf node
decreasing_by
  all_goals simp_wf
  have h1 := List.sizeOf_lt_of_mem hp
  have h2 : sizeOf p = 1 + sizeOf p.1 + sizeOf p.2 := by
    obtain ⟨a, b⟩ := p
    rfl
  omega

theorem rootVisits_resolve (fsys : Node) (root : String) (hw : fsys.wellFormed = true) :
    ∀ v ∈ rootVisits fsys root, ∀ n, v.entry = some ⟨n, true⟩ →
      ∃ r en, lookupNode fsys v.path = .ok (.dir r en) := by
  intro v hv n hn
  unfold rootVisits at hv
  cases hl : lookupNode fsys root with
  | error err =>
    rw [hl] at hv
    simp only [List.mem_singleton] at hv
    rw [hv] at hn
    simp at hn
  | ok node =>
    rw [hl] at hv
    simp only at hv
    unfold lookupNode at hl
    by_cases hvp : ValidPath root = false
    · simp [hvp] at hl
    · have hvp' : ValidPath root = true := by simpa using hvp
      simp only [hvp', Bool.true_eq_false, if_false] at hl
      cases hfd : fsys.find (pathElems root) with
      | none => simp [hfd] at hl
      | some nd =>
        simp only [hfd, Except.ok.injEq] at hl
        obtain ⟨h1, h2⟩ := pathOf_pathElems root hvp'
        rw [← h1] at hv
        exact visits_resolve fsys node (pathElems root) (Base (pathOf (pathElems root))) h2
          (hl ▸ hfd) (every_find _ _ fsys node hw (hl ▸ hfd)) v hv n hn

/-- C13 as stated fails: on a file system value with the method `Open` alone, as the
instrumented file system of the test, `fs.WalkDir` stats each match of the glob with
`fsys.Open`.  In `sliceTree`, with the default glob, the file `notes.txt` of the root is a
match: the pass opens it although `notes.txt` is not a key of the registry. -/
theorem CollectOn_opens_unregistered_match :
    lookupNode sliceTree "notes.txt" = .ok (.file (.ok "x\n")) ∧
      registered parseUnsigned (Base "notes.txt") = false ∧
      ((New parseUnsigned sliceTree "").CollectOn openOnly noOpens noGlob).sent =
        [Event.opened ".",
          Event.opened "io.stat",
          Event.opened "io.stat",
          Event.sent ⟨⟨"cgroup_io_read_bytes_total", "", ["device", "cgroup"]⟩, .CounterValue,
            5, ["8:0", "."]⟩,
          Event.opened "notes.txt",
          Event.opened "system.slice",
          Event.opened "system.slice",
          Event.opened "system.slice/memory.max",
          Event.opened "system.slice/pids.current",
          Event.sent ⟨⟨"cgroup_pids_current", "", ["cgroup"]⟩, .GaugeValue, 7,
            ["system.slice"]⟩] :=
  ⟨rfl, by decide, by decide⟩

/-- C13 (amended): in a well-formed file tree, for every glob and on every file system
value, when a collection pass opens a path `p` of a non-directory file, then the last
element of `p` is a key of the registry, or `fs.Glob` itself has opened `p`, or the file
system has no method `Stat` and `p` is a match of the glob, which `fs.WalkDir` stats with
`fsys.Open`.  So on a file system with the method `Stat`, as the value of `os.DirFS`, a
file without a registered handler is opened only if `fs.Glob` opens it, whatever lies next
to it, and never with the default glob when the root is a directory. -/
theorem Collect_opens_registered_only (ParseFloat : String → Option ℚ) (ms : Methods)
    (otherOpens : Node → String → List String)
    (otherGlob : Node → String → List String × Option GoError) (fsys : Node) (glob : String)
    (hw : fsys.wellFormed = true) (p : String) (c : Except FsError String)
    (hfile : lookupNode fsys p = .ok (.file c))
    (h : Event.opened p ∈
      ((New ParseFloat fsys glob).CollectOn ms otherOpens otherGlob).sent) :
    (registered ParseFloat (Base p) = true ∨
        p ∈ globOpens ms otherOpens fsys (New ParseFloat fsys glob).glob ∨
        (ms.StatFS = false ∧ p ∈ (Glob otherGlob fsys (New ParseFloat fsys glob).glob).1)) ∧
      (ms.StatFS = true → (glob = "" ∨ glob = "*") → (∃ r en, fsys = .dir r en) →
        registered ParseFloat (Base p) = true) := by
  have hmain : registered ParseFloat (Base p) = true ∨
      p ∈ globOpens ms otherOpens fsys (New ParseFloat fsys glob).glob ∨
      (ms.StatFS = false ∧ p ∈ (Glob otherGlob fsys (New ParseFloat fsys glob).glob).1) := by
    rcases mem_CollectOn_sent ms otherOpens otherGlob _ _ h with
      ⟨q, hq, he⟩ | ⟨err, he⟩ | ⟨err, he⟩ | ⟨m, hm, he⟩
    · rw [Event.opened.inj he]
      exact Or.inr (Or.inl hq)
    · exact absurd he (by simp)
    · exact absurd he (by simp)
    · rcases mem_WalkDirOn_sent ms _ m _ _ he with ⟨hs, he⟩ | ⟨err, he⟩ | ⟨v, hv, he | he⟩
      · rw [Event.opened.inj he]
        exact Or.inr (Or.inr ⟨hs, hm⟩)
      · obtain ⟨_, de, hde, _⟩ := mem_walkFn_sent _ _ _ _ _ he
        exact absurd hde (by simp)
      · exact Or.inl (walkFn_opened_registered ParseFloat fsys glob v p
          (rootVisits_names fsys m (wellFormed_validNames fsys hw) v hv) he)
      · obtain ⟨_, hp, _, dname, hd⟩ := he
        obtain ⟨r, en, hdir⟩ := rootVisits_resolve fsys m hw v hv dname hd
        rw [← Event.opened.inj hp, hfile] at hdir
        exact absurd hdir (by simp)
  refine ⟨hmain, fun hs hg hroot => ?_⟩
  rcases hmain with h1 | h1 | h1
  · exact h1
  · have hglob : (New ParseFloat fsys glob).glob = "*" := by
      rcases hg with hg | hg <;> simp [New, hg]
    rw [hglob] at h1
    unfold globOpens at h1
    simp only [if_true] at h1
    split at h1
    · exact absurd h1 (List.not_mem_nil _)
    · rw [List.mem_singleton] at h1
      obtain ⟨r, en, hr⟩ := hroot
      rw [h1, hr] at hfile
      exact absurd hfile (by simp [lookupNode, ValidPath, pathElems, Node.find])
  · rw [hs] at h1
    exact absurd h1.1 (by simp)

/-- Instance of C13 (amended): in `sliceTree`, on a file system with the method `Open`
alone, the pass opens the file `notes.txt`, a match of the default glob; on a file system
with the methods `Stat` and `ReadDir` it opens the file `system.slice/memory.max`, whose
last element is a key of the registry. -/
theorem Collect_opens_registered_only_witness :
    (registered parseUnsigned (Base "notes.txt") = true ∨
        "notes.txt" ∈ globOpens openOnly noOpens sliceTree (New parseUnsigned sliceTree "").glob ∨
        (openOnly.StatFS = false ∧
          "notes.txt" ∈ (Glob noGlob sliceTree (New parseUnsigned sliceTree "").glob).1)) ∧
      registered parseUnsigned (Base "system.slice/memory.max") = true :=
  ⟨(Collect_opens_registered_only parseUnsigned openOnly noOpens noGlob sliceTree ""
      (by decide) "notes.txt" (.ok "x\n") rfl (by decide)).1,
    (Collect_opens_registered_only parseUnsigned statReadDir noOpens noGlob sliceTree ""
      (by decide) "system.slice/memory.max" (.ok "max\n") rfl (by decide)).2
      rfl (Or.inl rfl) ⟨_, _, rfl⟩⟩

theorem bind_option_eta {ε α : Type} (x : Exec ε (Option α)) :
    Exec.bind x (fun r =>
      match r with
      | some e => ⟨[], .returned (some e)⟩
      | none => ⟨[], .returned none⟩) = x := by
  obtain ⟨l, r⟩ := x
  cases r with
  | panicked p => rfl
  | returned a => cases a <;> simp

/-- On a file system with the method `ReadDir` the walk makes no open of its own. -/
theorem withReadDir_of_ReadDirFS (ms : Methods) (fn : WalkDirFunc Event)
    (hr : ms.ReadDirFS = true) : withReadDir ms fn = fn := by
  funext path d err
  cases err with
  | some x => rfl
  | none =>
    cases d with
    | none => rfl
    | some de =>
      obtain ⟨dname, isDir⟩ := de
      cases isDir with
      | false => rfl
      | true =>
        have h := bind_option_eta (fn path (some ⟨dname, true⟩) none)
        simp only [withReadDir, readDirOpen, hr, if_true, bind_eq_Exec_bind, pure_eq_mk,
          Exec_bind_returned, List.nil_append]
        rw [← h]
        simp only [Exec.bind_assoc]
        congr 1
        funext r
        cases r <;> simp

/-- On a file system with the methods `Stat` and `ReadDir`, `WalkDirOn` is `WalkDir`. -/
theorem WalkDirOn_of_methods (ms : Methods) (fsys : Node) (root : String)
    (fn : WalkDirFunc Event) (hs : ms.StatFS = true) (hr : ms.ReadDirFS = true) :
    WalkDirOn ms fsys root fn = WalkDir fsys root fn := by
  unfold WalkDirOn WalkDir Stat
  simp only [hs, if_true, bind_eq_Exec_bind, pure_eq_mk, Exec_bind_returned, List.nil_append,
    Exec_mk_eta]
  cases lookupNode fsys root with
  | error err => rfl
  | ok node =>
    simp only
    rw [walkDirOn_eq, withReadDir_of_ReadDirFS ms fn hr]

/-- On a file system with the methods `Stat` and `ReadDir`, when `fs.Glob` opens nothing
for the patterns other than `*`, the pass `CollectOn` is the pass `Collect`: its only
opens are those of the collector. -/
theorem CollectOn_of_methods (ms : Methods)
    (otherGlob : Node → String → List String × Option GoError) (c : cgroupCollector)
    (hs : ms.StatFS = true) (hr : ms.ReadDirFS = true) :
    c.CollectOn ms noOpens otherGlob = c.Collect otherGlob := by
  have hm : ∀ l : List String, c.collectMatchesOn ms l = c.collectMatches l := by
    intro l
    induction l with
    | nil => rfl
    | cons m rest ih =>
      rw [cgroupCollector.collectMatchesOn, cgroupCollector.collectMatches, ih,
        WalkDirOn_of_methods ms c.fs m c.walkFn hs hr]
  have hg : globOpens ms noOpens c.fs c.glob = [] := by
    unfold globOpens
    split
    · simp [hr]
    · rfl
  unfold cgroupCollector.CollectOn cgroupCollector.Collect
  rw [hg, hm]
  simp only [List.map_nil, bind_eq_Exec_bind, Exec_bind_returned, List.nil_append, Exec_mk_eta]

/-! ## Contents that are not valid UTF-8: the device label -/

/-- On a content that is valid UTF-8 the decoder on bytes does what the decoder on
Unicode strings does: an instance with a device that has a character of two bytes, the white space `U+00A0`
and an unknown sub-key. -/
theorem Bytes_collectIOStat_agrees :
    Bytes.collectIOStat parseUnsigned (Bytes.encode "é:0 rbytes=5 x=1\u00a0\n8:16 wios=7\r\n")
        "system.slice" ioStatDescs =
      collectIOStat parseUnsigned "é:0 rbytes=5 x=1\u00a0\n8:16 wios=7\r\n" "system.slice"
        ioStatDescs := by
  decide

/-- C21 as stated fails: the byte `0xff` is not valid UTF-8, and on the content of the
line `\xff rbytes=1` the I/O decoder takes it as the device identifier, finds the
registered sub-key `rbytes` with the numeric value `1`, and panics in
`MustNewConstMetric`, which rejects the label value. -/
theorem collectIOStat_invalid_label_panics :
    Bytes.ValidString [0xff] = false ∧
      Bytes.collectIOStat parseUnsigned ([0xff] ++ Bytes.encode " rbytes=1\n") "system.slice"
          ioStatDescs =
        ⟨[], .panicked .invalidLabelValue⟩ := by
  decide

/-! ## No panic of the decoders on strings of bytes -/



theorem bytes_DecodeRune_encodeChar (c : Char) (rest : List Nat) :
    Bytes.DecodeRune (Bytes.encodeChar c ++ rest) = (c.toNat, (Bytes.encodeChar c).length) ∧
      0 < (Bytes.encodeChar c).length ∧
      ((Bytes.encodeChar c).length = 1 → c.toNat ≠ Bytes.RuneError) := by
  have hv : c.toNat < 0xd800 ∨ (0xdfff < c.toNat ∧ c.toNat < 0x110000) := c.valid
  unfold Bytes.encodeChar
  generalize c.toNat = n at hv ⊢
  by_cases h1 : n < 0x80
  · simp only [h1, if_true, List.singleton_append, List.length_singleton, Bytes.DecodeRune]
    refine ⟨trivial, by decide, fun _ => ?_⟩
    unfold Bytes.RuneError
    omega
  · by_cases h2 : n < 0x800
    · simp only [h1, h2, if_true, if_false, List.cons_append, List.nil_append,
        List.length_cons, List.length_nil, Bytes.DecodeRune]
      rw [if_neg (by omega), if_pos (by omega)]
      have hc : Bytes.isCont (0x80 + n % 0x40) = true := by
        simp only [Bytes.isCont, Bool.and_eq_true, decide_eq_true_eq]
        omega
      rw [if_pos hc]
      refine ⟨?_, by decide, fun h => absurd h (by decide)⟩
      congr 1
      omega
    · by_cases h3 : n < 0x10000
      · simp only [h1, h2, h3, if_true, if_false, List.cons_append, List.nil_append,
          List.length_cons, List.length_nil, Bytes.DecodeRune]
        rw [if_neg (by omega), if_neg (by omega), if_pos (by omega)]
        have hc : Bytes.isCont (0x80 + n % 0x40) = true := by
          simp only [Bytes.isCont, Bool.and_eq_true, decide_eq_true_eq]
          omega
        rw [if_pos (by
          refine ⟨?_, ?_, hc⟩
          · split <;> omega
          · split <;> omega)]
        refine ⟨?_, by decide, fun h => absurd h (by decide)⟩
        congr 1
        omega
      · simp only [h1, h2, h3, if_false, List.cons_append, List.nil_append,
          List.length_cons, List.length_nil, Bytes.DecodeRune]
        rw [if_neg (by omega), if_neg (by omega), if_neg (by omega), if_pos (by omega)]
        have hc : ∀ m, Bytes.isCont (0x80 + m % 0x40) = true := by
          intro m
          simp only [Bytes.isCont, Bool.and_eq_true, decide_eq_true_eq]
          omega
        rw [if_pos (by
          refine ⟨?_, ?_, hc _, hc _⟩
          · split <;> omega
          · split <;> omega)]
        refine ⟨?_, by decide, fun h => absurd h (by decide)⟩
        congr 1
        omega

theorem bytes_decodeRunes_encode : ∀ (cs : List Char) (fuel : Nat),
    (cs.flatMap Bytes.encodeChar).length ≤ fuel →
    Bytes.decodeRunes fuel (cs.flatMap Bytes.encodeChar) = some cs
  | [], fuel, _ => by
    cases fuel <;> rfl
  | c :: cs, fuel, h => by
    obtain ⟨hd, hpos, hne⟩ := bytes_DecodeRune_encodeChar c (cs.flatMap Bytes.encodeChar)
    rw [List.flatMap_cons] at h ⊢
    cases henc : Bytes.encodeChar c with
    | nil =>
      rw [henc] at hpos
      exact absurd hpos (by decide)
    | cons b tl =>
      rw [henc] at hd h hne
      cases fuel with
      | zero => simp at h
      | succ f =>
        have hlen : (cs.flatMap Bytes.encodeChar).length ≤ f := by
          simp only [List.cons_append, List.length_cons, List.length_append] at h
          omega
        have ih := bytes_decodeRunes_encode cs f hlen
        have hdrop : ((b :: tl) ++ cs.flatMap Bytes.encodeChar).drop (b :: tl).length =
            cs.flatMap Bytes.encodeChar := List.drop_left _ _
        have hcond : ¬ (c.toNat = Bytes.RuneError ∧ (b :: tl).length = 1) :=
          fun hc => hne hc.2 hc.1
        rw [List.cons_append] at hd hdrop ⊢
        rw [Bytes.decodeRunes, hd]
        simp only
        rw [if_neg hcond, hdrop, ih]
        simp [Char.ofNat_toNat]

theorem bytes_decode_encode (s : String) : Bytes.decode (Bytes.encode s) = some s := by
  unfold Bytes.decode Bytes.encode
  rw [bytes_decodeRunes_encode s.data _ (Nat.le_refl _)]
  rfl

theorem bytes_ValidString_encode (s : String) : Bytes.ValidString (Bytes.encode s) = true := by
  unfold Bytes.ValidString
  rw [bytes_decode_encode]
  rfl

theorem bind_returns {ε α β : Type} (x : Exec ε α) (f : α → Exec ε β)
    (hx : ∃ a, x.ret = .returned a ∧ ∃ r, (f a).ret = .returned r) :
    ∃ r, (Exec.bind x f).ret = .returned r := by
  obtain ⟨l, rx⟩ := x
  obtain ⟨a, ha, r, hr⟩ := hx
  simp only at ha
  subst ha
  exact ⟨r, by simp [hr]⟩

theorem bytes_MustNewConstMetric_returns {ε : Type} (d : Desc) (valueType : ValueType)
    (value : ℚ) (labelValues : List (List Nat))
    (hlen : labelValues.length = d.variableLabels.length)
    (hvalid : ∀ l ∈ labelValues, Bytes.ValidString l = true) :
    ∃ m, (Bytes.MustNewConstMetric d valueType value labelValues : Exec ε Metric) =
      ⟨[], .returned m⟩ := by
  have hall : labelValues.all Bytes.ValidString = true := List.all_eq_true.2 hvalid
  unfold Bytes.MustNewConstMetric Bytes.NewConstMetric
  rw [if_neg (by simp [hlen]), if_pos hall]
  exact ⟨_, rfl⟩

theorem bytes_token_returns {ε : Type} (k : List Nat) (visitKV : Bytes.kvVisitor ε)
    (v : List Nat) (hkv : ∀ a b, ∃ r, (visitKV a b).ret = .returned r) :
    ∃ r, (Bytes.visitNestedKeyedToken k visitKV v).ret = .returned r := by
  unfold Bytes.visitNestedKeyedToken
  by_cases h0 : (Bytes.Split v 61).length = 0
  · rw [if_pos h0]
    exact ⟨_, rfl⟩
  · rw [if_neg h0]
    by_cases h2 : (Bytes.Split v 61).length = 2
    · obtain ⟨a, b, hab⟩ := length_two h2
      rw [if_neg (by simp [h2]), hab]
      obtain ⟨r, hr⟩ := hkv a b
      exact bind_returns _ _ ⟨r, hr, _, rfl⟩
    · rw [if_pos h2]
      exact ⟨_, rfl⟩

theorem bytes_tokens_returns {ε : Type} (k : List Nat) (visitKV : Bytes.kvVisitor ε)
    (hkv : ∀ a b, ∃ r, (visitKV a b).ret = .returned r) (vs : List (List Nat)) :
    ∃ r, (Bytes.visitNestedKeyedTokens k visitKV vs).ret = .returned r := by
  induction vs with
  | nil => exact ⟨_, rfl⟩
  | cons v vs ih =>
    rw [Bytes.visitNestedKeyedTokens]
    obtain ⟨r, hr⟩ := bytes_token_returns k visitKV v hkv
    refine bind_returns _ _ ⟨r, hr, ?_⟩
    cases r with
    | some x => exact ⟨_, rfl⟩
    | none => exact ih

theorem bytes_line_returns {ε : Type} (visitEntry : Bytes.entryVisitor ε) (line : List Nat)
    (hve : ∃ r, (visitEntry (Bytes.device line)).ret = .returned r ∧
      ∀ kv, r = .ok kv → ∀ a b, ∃ r', (kv a b).ret = .returned r') :
    ∃ r, (Bytes.visitNestedKeyedLine visitEntry line).ret = .returned r := by
  obtain ⟨r, hr, hkv⟩ := hve
  unfold Bytes.visitNestedKeyedLine
  have hs : Bytes.Split (Bytes.TrimSpace line) 32 =
      Bytes.device line :: (Bytes.splitFields 32 (Bytes.TrimSpace line)).2 := rfl
  rw [hs]
  refine bind_returns _ _ ⟨r, hr, ?_⟩
  cases r with
  | error err => exact ⟨_, rfl⟩
  | ok kv => exact bytes_tokens_returns _ kv (hkv kv rfl) _

theorem bytes_lines_returns {ε : Type} (visitEntry : Bytes.entryVisitor ε)
    (atEnd : Option GoError) (lines : List (List Nat))
    (hve : ∀ line ∈ lines, ∃ r, (visitEntry (Bytes.device line)).ret = .returned r ∧
      ∀ kv, r = .ok kv → ∀ a b, ∃ r', (kv a b).ret = .returned r') :
    ∃ r, (Bytes.visitNestedKeyedLines visitEntry atEnd lines).ret = .returned r := by
  induction lines with
  | nil => exact ⟨_, rfl⟩
  | cons line rest ih =>
    rw [Bytes.visitNestedKeyedLines]
    obtain ⟨r, hr⟩ := bytes_line_returns visitEntry line (hve line (List.mem_cons_self _ _))
    refine bind_returns _ _ ⟨r, hr, ?_⟩
    cases r with
    | some x => exact ⟨_, rfl⟩
    | none => exact ih (fun l hl => hve l (List.mem_cons_of_mem _ hl))

theorem bytes_flat_lines_returns {ε : Type} (visitKV : Bytes.kvVisitor ε)
    (hkv : ∀ a b, ∃ r, (visitKV a b).ret = .returned r) (lines : List (List Nat)) :
    ∃ r, (Bytes.visitFlatKeyedLines visitKV lines).ret = .returned r := by
  induction lines with
  | nil => exact ⟨_, rfl⟩
  | cons line rest ih =>
    rw [Bytes.visitFlatKeyedLines]
    have hline : ∃ r, (Bytes.visitFlatKeyedLine visitKV line).ret = .returned r := by
      unfold Bytes.visitFlatKeyedLine
      by_cases h2 : (Bytes.Split line 32).length = 2
      · obtain ⟨a, b, hab⟩ := length_two h2
        rw [if_neg (by simp [h2]), hab]
        exact hkv a b
      · rw [if_pos h2]
        exact ⟨_, rfl⟩
    obtain ⟨r, hr⟩ := hline
    refine bind_returns _ _ ⟨r, hr, ?_⟩
    cases r with
    | some x => exact ⟨_, rfl⟩
    | none => exact ih

theorem bytes_visitFlatKeyed_returns {ε : Type} (content : List Nat)
    (visitKV : Bytes.kvVisitor ε) (hkv : ∀ a b, ∃ r, (visitKV a b).ret = .returned r) :
    ∃ r, (Bytes.visitFlatKeyed content visitKV).ret = .returned r := by
  unfold Bytes.visitFlatKeyed
  obtain ⟨r, hr⟩ := bytes_flat_lines_returns visitKV hkv (Bytes.scanLines content)
  refine bind_returns _ _ ⟨r, hr, ?_⟩
  cases r <;> exact ⟨_, rfl⟩

/-- The record built on valid label values is sent, and the visitor returns. -/
theorem bytes_send_returns (d : Desc) (valueType : ValueType) (value : ℚ)
    (labelValues : List (List Nat))
    (hlen : labelValues.length = d.variableLabels.length)
    (hvalid : ∀ l ∈ labelValues, Bytes.ValidString l = true) :
    ∃ r, ((do
      send (← Bytes.MustNewConstMetric d valueType value labelValues)
      pure none : Exec Metric (Option GoError))).ret = .returned r := by
  obtain ⟨m, hm⟩ := @bytes_MustNewConstMetric_returns Metric d valueType value labelValues
    hlen hvalid
  simp only [bind_eq_Exec_bind, hm]
  exact ⟨_, rfl⟩

theorem bytes_lookup_labels (descs : List (String × desc)) (n : Nat)
    (hlabels : ∀ p ∈ descs, p.2.desc.variableLabels.length = n) (k : List Nat) (d : desc)
    (h : (Bytes.decode k).bind (fun key => List.lookup key descs) = some d) :
    d.desc.variableLabels.length = n := by
  cases hk : Bytes.decode k with
  | none => simp [hk] at h
  | some key =>
    rw [hk] at h
    obtain ⟨p, hp, hpd⟩ := lookup_mem_snd key d descs h
    exact hpd ▸ hlabels p hp

theorem bytes_collectFlatKeyed_returns (ParseFloat : String → Option ℚ)
    (valueType : ValueType) (content : List Nat) (path : String)
    (descs : List (String × desc))
    (hlabels : ∀ p ∈ descs, p.2.desc.variableLabels.length = 1) :
    ∃ r, (Bytes.collectFlatKeyed ParseFloat valueType content path descs).ret =
      .returned r := by
  unfold Bytes.collectFlatKeyed
  apply bytes_visitFlatKeyed_returns
  intro a b
  cases hk : (Bytes.decode a).bind (fun key => List.lookup key descs) with
  | none => exact ⟨_, rfl⟩
  | some d =>
    simp only
    cases hv : (Bytes.decode b).bind ParseFloat with
    | none => exact ⟨_, rfl⟩
    | some x =>
      simp only
      exact bytes_send_returns d.desc valueType _ [Bytes.encode path]
        (bytes_lookup_labels descs 1 hlabels a d hk).symm
        (fun l hl => by
          rw [List.mem_singleton.1 hl]
          exact bytes_ValidString_encode path)

theorem bytes_collectPressure_returns (ParseFloat : String → Option ℚ)
    (content : List Nat) (path : String) (descs : List (String × desc))
    (hlabels : ∀ p ∈ descs, p.2.desc.variableLabels.length = 1) :
    ∃ r, (Bytes.collectPressure ParseFloat content path descs).ret = .returned r := by
  unfold Bytes.collectPressure Bytes.visitNestedKeyed
  apply bytes_lines_returns
  intro line _
  cases hk : (Bytes.decode (Bytes.device line)).bind (fun key => List.lookup key descs) with
  | none =>
    refine ⟨_, rfl, ?_⟩
    intro kv h
    cases h
  | some d =>
    refine ⟨_, rfl, ?_⟩
    intro kv h a b
    cases h
    simp only
    split
    · cases hv : (Bytes.decode b).bind ParseFloat with
      | none => exact ⟨_, rfl⟩
      | some x =>
        simp only
        exact bytes_send_returns d.desc .CounterValue _ [Bytes.encode path]
          (bytes_lookup_labels descs 1 hlabels _ d hk).symm
          (fun l hl => by
            rw [List.mem_singleton.1 hl]
            exact bytes_ValidString_encode path)
    · exact ⟨_, rfl⟩

theorem bytes_collectIOStat_returns (ParseFloat : String → Option ℚ)
    (content : List Nat) (path : String) (descs : List (String × desc))
    (hlabels : ∀ p ∈ descs, p.2.desc.variableLabels.length = 2)
    (hdev : ∀ line ∈ Bytes.scanLines content, Bytes.ValidString (Bytes.device line) = true) :
    ∃ r, (Bytes.collectIOStat ParseFloat content path descs).ret = .returned r := by
  unfold Bytes.collectIOStat Bytes.visitNestedKeyed
  apply bytes_lines_returns
  intro line hline
  refine ⟨_, rfl, ?_⟩
  intro kv h a b
  cases h
  simp only
  cases hk : (Bytes.decode a).bind (fun key => List.lookup key descs) with
  | none => exact ⟨_, rfl⟩
  | some d =>
    simp only
    cases hv : (Bytes.decode b).bind ParseFloat with
    | none => exact ⟨_, rfl⟩
    | some x =>
      simp only
      exact bytes_send_returns d.desc .CounterValue _ [Bytes.device line, Bytes.encode path]
        (bytes_lookup_labels descs 2 hlabels a d hk).symm
        (fun l hl => by
          simp only [List.mem_cons, List.mem_singleton, List.not_mem_nil, or_false] at hl
          rcases hl with hl | hl
          · rw [hl]
            exact hdev line hline
          · rw [hl]
            exact bytes_ValidString_encode path)

/-- C21 (amended): no decoder panics on malformed input, apart from the I/O decoder on a
device identifier that is not valid UTF-8.  For every content, a string of bytes: with
visitors that do not panic, `visitNestedKeyed` and `visitFlatKeyed` return (a `nil` or an
error, which may be the error `token too long` of the scanner); `collectPressure` and
`collectFlatKeyed` return for every sub-key mapping of one-label descriptors; and
`collectIOStat` returns for every mapping of two-label descriptors (the label counts of
the registry) when the device identifier of every line that the scanner delivers, the
first field of the trimmed line, is valid UTF-8.  The indexing is within bounds: the
split of the trimmed line has a first element `split[0]`, and a split of length two has
the elements `kv[0]` and `kv[1]`. -/
theorem decoders_return {ε : Type} (ParseFloat : String → Option ℚ) (valueType : ValueType)
    (content : List Nat) (path : String) (descs statDescs : List (String × desc))
    (visitEntry : Bytes.entryVisitor ε) (visitKV : Bytes.kvVisitor ε)
    (hlabels : ∀ p ∈ descs, p.2.desc.variableLabels.length = 1)
    (hlabelsStat : ∀ p ∈ statDescs, p.2.desc.variableLabels.length = 2)
    (hve : ∀ n, ∃ r, (visitEntry n).ret = .returned r ∧
      ∀ kv, r = .ok kv → ∀ a b, ∃ r', (kv a b).ret = .returned r')
    (hvk : ∀ a b, ∃ r, (visitKV a b).ret = .returned r) :
    (∃ r, (Bytes.visitNestedKeyed content visitEntry).ret = .returned r) ∧
      (∃ r, (Bytes.visitFlatKeyed content visitKV).ret = .returned r) ∧
      (∃ r, (Bytes.collectPressure ParseFloat content path descs).ret = .returned r) ∧
      (∃ r, (Bytes.collectFlatKeyed ParseFloat valueType content path descs).ret
        = .returned r) ∧
      ((∀ line ∈ Bytes.scanLines content, Bytes.ValidString (Bytes.device line) = true) →
        ∃ r, (Bytes.collectIOStat ParseFloat content path statDescs).ret = .returned r) ∧
      (∀ line : List Nat, ∃ k vs, Bytes.Split (Bytes.TrimSpace line) 32 = k :: vs) ∧
      (∀ v : List Nat, (Bytes.Split v 61).length = 2 →
        ∃ kv0 kv1, (Bytes.Split v 61)[0]? = some kv0 ∧ (Bytes.Split v 61)[1]? = some kv1) ∧
      (∀ line : List Nat, (Bytes.Split line 32).length = 2 →
        ∃ kv0 kv1, (Bytes.Split line 32)[0]? = some kv0 ∧
          (Bytes.Split line 32)[1]? = some kv1) := by
  have hsplit : ∀ (l : List (List Nat)), l.length = 2 →
      ∃ kv0 kv1, l[0]? = some kv0 ∧ l[1]? = some kv1 := by
    intro l hl
    obtain ⟨a, b, hab⟩ := length_two hl
    rw [hab]
    exact ⟨a, b, rfl, rfl⟩
  refine ⟨bytes_lines_returns visitEntry _ _ (fun line _ => hve _),
    bytes_visitFlatKeyed_returns content visitKV hvk,
    bytes_collectPressure_returns ParseFloat content path descs hlabels,
    bytes_collectFlatKeyed_returns ParseFloat valueType content path descs hlabels,
    bytes_collectIOStat_returns ParseFloat content path statDescs hlabelsStat,
    fun line => ⟨_, _, rfl⟩, fun v h => hsplit _ h, fun line h => hsplit _ h⟩

/-- Instance of C21 (amended): the decoders on `oddBytes`, a content that is not valid
UTF-8, with the descriptors of `memory.pressure` and `io.stat` and visitors that do
nothing. -/
theorem decoders_return_witness :
    Bytes.ValidString Bytes.oddBytes = false ∧
      (∃ r, (Bytes.visitNestedKeyed Bytes.oddBytes Bytes.idleEntry).ret = .returned r) ∧
      (∃ r, (Bytes.visitFlatKeyed Bytes.oddBytes Bytes.idleKV).ret = .returned r) ∧
      (∃ r, (Bytes.collectPressure parseUnsigned Bytes.oddBytes "system.slice"
        memoryPressureDescs).ret = .returned r) ∧
      (∃ r, (Bytes.collectFlatKeyed parseUnsigned .GaugeValue Bytes.oddBytes "system.slice"
        memoryPressureDescs).ret = .returned r) ∧
      (∃ r, (Bytes.collectIOStat parseUnsigned Bytes.oddBytes "system.slice" ioStatDescs).ret
        = .returned r) :=
  have h := decoders_return parseUnsigned .GaugeValue Bytes.oddBytes "system.slice"
    memoryPressureDescs ioStatDescs Bytes.idleEntry Bytes.idleKV
    (by decide) (by decide)
    (fun _ => ⟨_, rfl, fun kv hkv a b => by
      cases hkv
      exact ⟨none, rfl⟩⟩)
    (fun _ _ => ⟨none, rfl⟩)
  ⟨by decide, h.1, h.2.1, h.2.2.1, h.2.2.2.1, h.2.2.2.2.1 (by decide)⟩

/-! ## The decoders on bytes and on Unicode strings -/

/-- A byte below `0x80` occurs in the encoding of a character only as the encoding of the
character with that code; the encoding is not empty and has `utf8Len` bytes. -/
theorem bytes_encodeChar_ascii (c : Char) :
    (∀ a, a < 0x80 → a ∈ Bytes.encodeChar c → Bytes.encodeChar c = [a] ∧ c.toNat = a) ∧
      (c.toNat < 0x80 → Bytes.encodeChar c = [c.toNat]) ∧
      (Bytes.encodeChar c).length = utf8Len c ∧ Bytes.encodeChar c ≠ [] := by
  unfold Bytes.encodeChar utf8Len
  generalize c.toNat = n
  by_cases h1 : n < 0x80
  · simp only [if_pos h1]
    refine ⟨fun a _ ha => ?_, by simp, by simp, by simp⟩
    simp only [List.mem_singleton] at ha
    subst ha
    exact ⟨rfl, rfl⟩
  · by_cases h2 : n < 0x800
    · simp only [if_neg h1, if_pos h2]
      refine ⟨fun a ha hm => ?_, fun h => absurd h h1, rfl, by simp⟩
      simp only [List.mem_cons, List.mem_singleton, List.not_mem_nil, or_false] at hm
      omega
    · by_cases h3 : n < 0x10000
      · simp only [if_neg h1, if_neg h2, if_pos h3]
        refine ⟨fun a ha hm => ?_, fun h => absurd h h1, rfl, by simp⟩
        simp only [List.mem_cons, List.mem_singleton, List.not_mem_nil, or_false] at hm
        omega
      · simp only [if_neg h1, if_neg h2, if_neg h3]
        refine ⟨fun a ha hm => ?_, fun h => absurd h h1, rfl, by simp⟩
        simp only [List.mem_cons, List.mem_singleton, List.not_mem_nil, or_false] at hm
        omega

/-- The encoding of a character other than the separator `sep`, a character below
`0x80`, does not hold the byte of the separator. -/
theorem bytes_sep_not_mem (sep c : Char) (hsep : sep.toNat < 0x80) (hc : c ≠ sep) :
    sep.toNat ∉ Bytes.encodeChar c := fun hm =>
  hc (Char.ext (by
    have h := ((bytes_encodeChar_ascii c).1 _ hsep hm).2
    exact UInt32.ext (by simpa [Char.toNat, UInt32.toNat] using h)))

/-- Length in bytes of an encoding. -/
theorem bytes_length_encode (l : List Char) :
    (l.flatMap Bytes.encodeChar).length = byteLen l := by
  induction l with
  | nil => rfl
  | cons c cs ih =>
    rw [List.flatMap_cons, List.length_append, ih, (bytes_encodeChar_ascii c).2.2.1]
    simp [byteLen]

theorem bytes_splitFields_append (sep : Nat) (bs rest : List Nat) (h : sep ∉ bs) :
    Bytes.splitFields sep (bs ++ rest) =
      (bs ++ (Bytes.splitFields sep rest).1, (Bytes.splitFields sep rest).2) := by
  induction bs with
  | nil => rfl
  | cons b bs ih =>
    have hb : b ≠ sep := fun e => h (e ▸ List.mem_cons_self _ _)
    have ih1 := ih (fun hm => h (List.mem_cons_of_mem _ hm))
    rw [List.cons_append, Bytes.splitFields, if_neg hb, ih1]
    rfl

/-- Split of an encoding on the byte of a separator below `0x80`: the encodings of the
fields of the split of the characters. -/
theorem bytes_splitFields_encode (sep : Char) (hsep : sep.toNat < 0x80) (l : List Char) :
    Bytes.splitFields sep.toNat (l.flatMap Bytes.encodeChar) =
      ((splitFields sep l).1.flatMap Bytes.encodeChar,
        (splitFields sep l).2.map (fun f => f.flatMap Bytes.encodeChar)) := by
  induction l with
  | nil => rfl
  | cons c cs ih =>
    rw [List.flatMap_cons]
    by_cases hc : c = sep
    · subst hc
      rw [(bytes_encodeChar_ascii c).2.1 hsep, List.singleton_append, Bytes.splitFields,
        if_pos rfl, ih, splitFields, if_pos rfl]
      rfl
    · rw [bytes_splitFields_append _ _ _ (bytes_sep_not_mem sep c hsep hc), ih, splitFields,
        if_neg hc]
      rfl

theorem bytes_Split_encode (sep : Char) (hsep : sep.toNat < 0x80) (s : String) :
    Bytes.Split (Bytes.encode s) sep.toNat = (Split s sep).map Bytes.encode := by
  unfold Bytes.Split Split Bytes.encode
  rw [bytes_splitFields_encode sep hsep]
  simp only [List.map_cons, List.map_map]
  rfl

theorem bytes_rawLines_append (bs rest : List Nat) (hne : bs ≠ []) (h : 10 ∉ bs) :
    Bytes.rawLines (bs ++ rest) =
      match Bytes.rawLines rest with
      | [] => [bs]
      | l :: ls => (bs ++ l) :: ls := by
  induction bs with
  | nil => exact absurd rfl hne
  | cons b bs ih =>
    have hb : b ≠ 10 := fun e => h (e ▸ List.mem_cons_self _ _)
    cases bs with
    | nil =>
      rw [List.singleton_append, Bytes.rawLines, if_neg hb]
      cases Bytes.rawLines rest <;> rfl
    | cons b2 bs2 =>
      have ih1 := ih (by simp) (fun hm => h (List.mem_cons_of_mem _ hm))
      rw [List.cons_append, Bytes.rawLines, if_neg hb, ih1]
      cases Bytes.rawLines rest <;> rfl

/-- Raw lines of an encoding: the encodings of the raw lines. -/
theorem bytes_rawLines_encode (l : List Char) :
    Bytes.rawLines (l.flatMap Bytes.encodeChar) =
      (rawLines l).map (fun f => f.flatMap Bytes.encodeChar) := by
  induction l with
  | nil => rfl
  | cons c cs ih =>
    rw [List.flatMap_cons]
    by_cases hc : c = '\n'
    · subst hc
      rw [show Bytes.encodeChar '\n' = [10] from rfl, List.singleton_append, Bytes.rawLines,
        if_pos rfl, ih, rawLines, if_pos rfl]
      rfl
    · rw [bytes_rawLines_append _ _ (bytes_encodeChar_ascii c).2.2.2
        (bytes_sep_not_mem '\n' c (by decide) hc), ih, rawLines, if_neg hc]
      cases rawLines cs <;> simp [List.flatMap_cons]

/-- The carriage return at the end of an encoding. -/
theorem bytes_dropCR_encode (l : List Char) :
    Bytes.dropCR (l.flatMap Bytes.encodeChar) = (dropCR l).flatMap Bytes.encodeChar := by
  rcases List.eq_nil_or_concat l with rfl | ⟨l1, c, rfl⟩
  · rfl
  · obtain ⟨h1, h2, _, h4⟩ := bytes_encodeChar_ascii c
    unfold Bytes.dropCR dropCR
    rw [List.concat_eq_append, List.flatMap_append, List.flatMap_singleton]
    by_cases hc : c = '\r'
    · subst hc
      rw [show Bytes.encodeChar '\r' = [13] from rfl]
      simp
    · have hlast : (l1.flatMap Bytes.encodeChar ++ Bytes.encodeChar c).getLast? ≠ some 13 := by
        intro hl
        rw [List.getLast?_append_of_ne_nil _ h4] at hl
        have hm : 13 ∈ Bytes.encodeChar c := List.mem_of_getLast?_eq_some hl
        exact hc (Char.ext (UInt32.ext (by
          simpa [Char.toNat, UInt32.toNat] using (h1 13 (by decide) hm).2)))
      rw [if_neg hlast, if_neg (by simpa using hc)]
      rw [List.flatMap_append, List.flatMap_singleton]

/-- Lines that the scanner delivers of an encoding: the encodings of the lines. -/
theorem bytes_scanLines_encode (r : String) :
    Bytes.scanLines (Bytes.encode r) = (scanLines r).map Bytes.encode := by
  unfold Bytes.scanLines scanLines Bytes.encode
  rw [bytes_rawLines_encode, List.takeWhile_map, List.map_map, List.map_map]
  have hp : ((fun l : List Nat => decide (l.length < MaxScanTokenSize)) ∘
      fun f : List Char => f.flatMap Bytes.encodeChar) = fits := by
    funext l
    simp only [Function.comp, fits, bytes_length_encode]
  rw [hp]
  apply List.map_congr_left
  intro l _
  exact bytes_dropCR_encode l

/-- Error of the scanner on an encoding. -/
theorem bytes_scanErr_encode (r : String) : Bytes.scanErr (Bytes.encode r) = scanErr r := by
  unfold Bytes.scanErr scanErr Bytes.encode
  rw [bytes_rawLines_encode]
  have hp : ∀ ls : List (List Char),
      (ls.map (fun f => f.flatMap Bytes.encodeChar)).all
          (fun l => decide (l.length < MaxScanTokenSize)) = ls.all fits := by
    intro ls
    induction ls with
    | nil => rfl
    | cons l ls ih =>
      rw [List.map_cons, List.all_cons, List.all_cons, ih, bytes_length_encode]
      rfl
  rw [hp]

theorem bytes_trimLeft_encode : ∀ (fuel : Nat) (l : List Char), l.length ≤ fuel →
    Bytes.trimLeft fuel (l.flatMap Bytes.encodeChar) =
      (l.dropWhile isSpace).flatMap Bytes.encodeChar
  | 0, l, h => by
    have hl : l = [] := List.length_eq_zero.mp (Nat.le_zero.mp h)
    subst hl
    rfl
  | fuel + 1, [], _ => by
    simp [Bytes.trimLeft, Bytes.DecodeRune]
  | fuel + 1, c :: cs, h => by
    obtain ⟨hd, hpos, _⟩ := bytes_DecodeRune_encodeChar c (cs.flatMap Bytes.encodeChar)
    have ih := bytes_trimLeft_encode fuel cs (Nat.le_of_succ_le_succ h)
    rw [List.flatMap_cons, Bytes.trimLeft, hd]
    simp only [Char.ofNat_toNat, List.drop_left, List.dropWhile_cons]
    by_cases hs : isSpace c = true
    · rw [if_pos ⟨by omega, hs⟩, ih, if_pos hs]
    · rw [if_neg (fun hc => hs hc.2), if_neg hs, List.flatMap_cons]

/-- Shape of the encoding of a character: one byte below `0x80`, or a byte that is not a
continuation byte followed by one, two or three continuation bytes. -/
theorem bytes_encodeChar_shape (c : Char) :
    (∃ a, Bytes.encodeChar c = [a] ∧ a < 0x80) ∨
      (∃ b0 b1, Bytes.encodeChar c = [b0, b1] ∧ Bytes.isCont b0 = false ∧
        Bytes.isCont b1 = true) ∨
      (∃ b0 b1 b2, Bytes.encodeChar c = [b0, b1, b2] ∧ Bytes.isCont b0 = false ∧
        Bytes.isCont b1 = true ∧ Bytes.isCont b2 = true) ∨
      (∃ b0 b1 b2 b3, Bytes.encodeChar c = [b0, b1, b2, b3] ∧ Bytes.isCont b0 = false ∧
        Bytes.isCont b1 = true ∧ Bytes.isCont b2 = true ∧ Bytes.isCont b3 = true) := by
  have hv : c.toNat < 0xd800 ∨ (0xdfff < c.toNat ∧ c.toNat < 0x110000) := c.valid
  unfold Bytes.encodeChar
  generalize c.toNat = n at hv ⊢
  by_cases h1 : n < 0x80
  · exact Or.inl ⟨n, by simp only [if_pos h1], h1⟩
  · by_cases h2 : n < 0x800
    · refine Or.inr (Or.inl ⟨_, _, by rw [if_neg h1, if_pos h2], ?_, ?_⟩) <;>
        simp only [Bytes.isCont, Bool.and_eq_true, Bool.and_eq_false_iff, decide_eq_true_eq,
          decide_eq_false_iff_not] <;> omega
    · by_cases h3 : n < 0x10000
      · refine Or.inr (Or.inr (Or.inl ⟨_, _, _, by rw [if_neg h1, if_neg h2, if_pos h3],
          ?_, ?_, ?_⟩)) <;>
          simp only [Bytes.isCont, Bool.and_eq_true, Bool.and_eq_false_iff, decide_eq_true_eq,
            decide_eq_false_iff_not] <;> omega
      · refine Or.inr (Or.inr (Or.inr ⟨_, _, _, _,
          by rw [if_neg h1, if_neg h2, if_neg h3], ?_, ?_, ?_, ?_⟩)) <;>
          simp only [Bytes.isCont, Bool.and_eq_true, Bool.and_eq_false_iff, decide_eq_true_eq,
            decide_eq_false_iff_not] <;> omega

theorem bytes_isCont_not_ascii {b : Nat} (h : Bytes.isCont b = true) : ¬ b < 0x80 := by
  simp only [Bytes.isCont, Bool.and_eq_true, decide_eq_true_eq] at h
  omega

/-- The last rune of a string of bytes that ends with the encoding of a character. -/
theorem bytes_DecodeLastRune_encodeChar (pre : List Nat) (c : Char) :
    Bytes.DecodeLastRune (pre ++ Bytes.encodeChar c) =
      (c.toNat, (Bytes.encodeChar c).length) := by
  have hd := (bytes_DecodeRune_encodeChar c []).1
  rw [List.append_nil] at hd
  rcases bytes_encodeChar_shape c with ⟨a, he, ha⟩ | ⟨b0, b1, he, h0, h1⟩ |
    ⟨b0, b1, b2, he, h0, h1, h2⟩ | ⟨b0, b1, b2, b3, he, h0, h1, h2, h3⟩
  · rw [he] at hd ⊢
    simp only [Bytes.DecodeRune, if_pos ha] at hd
    simp only [Bytes.DecodeLastRune, List.reverse_append, List.reverse_cons, List.reverse_nil,
      List.nil_append, List.singleton_append, if_pos ha]
    exact hd
  · rw [he] at hd ⊢
    have hlen : (pre ++ [b0, b1]).length - (0 + 2) = pre.length := by simp
    simp only [Bytes.DecodeLastRune, List.reverse_append, List.reverse_cons, List.reverse_nil,
      List.nil_append, List.singleton_append, List.cons_append,
      if_neg (bytes_isCont_not_ascii h1), List.take_succ_cons, List.findIdx?_cons, h0,
      Bool.not_false, if_true, hlen, List.drop_left, hd]
    simp
  · rw [he] at hd ⊢
    have hlen : (pre ++ [b0, b1, b2]).length - (1 + 2) = pre.length := by simp
    simp only [Bytes.DecodeLastRune, List.reverse_append, List.reverse_cons, List.reverse_nil,
      List.nil_append, List.singleton_append, List.cons_append,
      if_neg (bytes_isCont_not_ascii h2), List.take_succ_cons, List.findIdx?_cons, h0, h1,
      Bool.not_false, Bool.not_true, if_true, hlen, List.drop_left, hd]
    simp [hd]
  · rw [he] at hd ⊢
    have hlen : (pre ++ [b0, b1, b2, b3]).length - (2 + 2) = pre.length := by simp
    simp only [Bytes.DecodeLastRune, List.reverse_append, List.reverse_cons, List.reverse_nil,
      List.nil_append, List.singleton_append, List.cons_append,
      if_neg (bytes_isCont_not_ascii h3), List.take_succ_cons, List.findIdx?_cons, h0, h1, h2,
      Bool.not_false, Bool.not_true, if_true, hlen, List.drop_left, hd]
    simp [hd]

theorem bytes_trimRight_encode : ∀ (fuel : Nat) (l : List Char), l.length ≤ fuel →
    Bytes.trimRight fuel (l.flatMap Bytes.encodeChar) =
      ((l.reverse.dropWhile isSpace).reverse).flatMap Bytes.encodeChar
  | 0, l, h => by
    have hl : l = [] := List.length_eq_zero.mp (Nat.le_zero.mp h)
    subst hl
    rfl
  | fuel + 1, l, h => by
    rcases List.eq_nil_or_concat l with rfl | ⟨l1, c, rfl⟩
    · simp [Bytes.trimRight, Bytes.DecodeLastRune]
    · rw [List.concat_eq_append] at h ⊢
      have hl1 : l1.length ≤ fuel := by
        simp only [List.length_append, List.length_singleton] at h
        omega
      have ih := bytes_trimRight_encode fuel l1 hl1
      have hpos := (bytes_DecodeRune_encodeChar c []).2.1
      rw [List.flatMap_append, List.flatMap_singleton, Bytes.trimRight,
        bytes_DecodeLastRune_encodeChar]
      simp only [Char.ofNat_toNat, List.length_append, Nat.add_sub_cancel, List.take_left,
        List.reverse_append, List.reverse_cons, List.reverse_nil, List.nil_append,
        List.singleton_append, List.dropWhile_cons]
      by_cases hs : isSpace c = true
      · rw [if_pos ⟨by omega, hs⟩, ih, if_pos hs]
      · rw [if_neg (fun hc => hs hc.2), if_neg hs]
        simp

theorem length_le_byteLen (l : List Char) : l.length ≤ byteLen l := by
  induction l with
  | nil => exact Nat.le_refl _
  | cons c cs ih =>
    have h1 : 1 ≤ utf8Len c := by
      unfold utf8Len
      split
      · exact Nat.le_refl _
      · split
        · decide
        · split <;> decide
    simp only [byteLen, List.map_cons, List.sum_cons, List.length_cons] at ih ⊢
    omega

/-- Function `strings.TrimSpace` on an encoding: the encoding of the trimmed string. -/
theorem bytes_TrimSpace_encode (s : String) :
    Bytes.TrimSpace (Bytes.encode s) = Bytes.encode (TrimSpace s) := by
  unfold Bytes.TrimSpace Bytes.encode TrimSpace
  have hlen := bytes_length_encode s.data
  have hle := length_le_byteLen s.data
  rw [bytes_trimLeft_encode _ _ (by omega),
    bytes_trimRight_encode _ _ (by
      have := (List.dropWhile_sublist isSpace (l := s.data)).length_le
      omega)]

theorem bytes_runes_encode : ∀ (cs : List Char) (fuel : Nat),
    (cs.flatMap Bytes.encodeChar).length ≤ fuel →
    Bytes.runes fuel (cs.flatMap Bytes.encodeChar) = cs
  | [], fuel, _ => by
    cases fuel <;> rfl
  | c :: cs, fuel, h => by
    obtain ⟨hd, hpos, _⟩ := bytes_DecodeRune_encodeChar c (cs.flatMap Bytes.encodeChar)
    rw [List.flatMap_cons] at h ⊢
    cases henc : Bytes.encodeChar c with
    | nil =>
      rw [henc] at hpos
      exact absurd hpos (by decide)
    | cons b tl =>
      rw [henc] at hd h
      cases fuel with
      | zero => simp at h
      | succ f =>
        have hlen : (cs.flatMap Bytes.encodeChar).length ≤ f := by
          simp only [List.cons_append, List.length_cons, List.length_append] at h
          omega
        have ih := bytes_runes_encode cs f hlen
        have hdrop : ((b :: tl) ++ cs.flatMap Bytes.encodeChar).drop (b :: tl).length =
            cs.flatMap Bytes.encodeChar := List.drop_left _ _
        rw [List.cons_append] at hd hdrop ⊢
        rw [Bytes.runes, hd]
        simp only
        rw [hdrop, ih]
        simp [Char.ofNat_toNat]

/-- Text of an encoding: the string. -/
theorem bytes_text_encode (s : String) : Bytes.text (Bytes.encode s) = s := by
  unfold Bytes.text Bytes.encode
  rw [bytes_runes_encode s.data _ (Nat.le_refl _)]

theorem bytes_token_encode {ε : Type} (k : String) (bytesKV : Bytes.kvVisitor ε)
    (visitKV : kvVisitor ε) (h : Bytes.kvAgrees bytesKV visitKV) (t : String) :
    Bytes.visitNestedKeyedToken (Bytes.encode k) bytesKV (Bytes.encode t) =
      visitNestedKeyedToken k visitKV t := by
  unfold Bytes.visitNestedKeyedToken visitNestedKeyedToken
  rw [show Bytes.Split (Bytes.encode t) 61 = (Split t '=').map Bytes.encode from
    bytes_Split_encode '=' (by decide) t]
  simp only [List.length_map, bytes_text_encode]
  rcases Split t '=' with _ | ⟨a, _ | ⟨b, _ | ⟨c, l⟩⟩⟩
  · rfl
  · rfl
  · simp only [List.map_cons, List.map_nil, List.length_cons, List.length_nil]
    simp [h a b]
  · rfl

theorem bytes_tokens_encode {ε : Type} (k : String) (bytesKV : Bytes.kvVisitor ε)
    (visitKV : kvVisitor ε) (h : Bytes.kvAgrees bytesKV visitKV) (ts : List String) :
    Bytes.visitNestedKeyedTokens (Bytes.encode k) bytesKV (ts.map Bytes.encode) =
      visitNestedKeyedTokens k visitKV ts := by
  induction ts with
  | nil => rfl
  | cons t ts ih =>
    rw [List.map_cons, Bytes.visitNestedKeyedTokens, visitNestedKeyedTokens,
      bytes_token_encode k bytesKV visitKV h t, ih]

theorem bytes_nested_line_encode {ε : Type} (bytesEntry : Bytes.entryVisitor ε)
    (visitEntry : entryVisitor ε) (h : Bytes.entryAgrees bytesEntry visitEntry)
    (line : String) :
    Bytes.visitNestedKeyedLine bytesEntry (Bytes.encode line) =
      visitNestedKeyedLine visitEntry line := by
  unfold Bytes.visitNestedKeyedLine visitNestedKeyedLine
  rw [bytes_TrimSpace_encode, show Bytes.Split (Bytes.encode (TrimSpace line)) 32 =
    (Split (TrimSpace line) ' ').map Bytes.encode from bytes_Split_encode ' ' (by decide) _]
  rcases Split (TrimSpace line) ' ' with _ | ⟨k, vs⟩
  · rfl
  · simp only [List.map_cons, bind_eq_Exec_bind]
    obtain ⟨hs, hr⟩ := h k
    rcases hb : bytesEntry (Bytes.encode k) with ⟨bs, br⟩
    rcases hv : visitEntry k with ⟨ss, sr⟩
    rw [hb, hv] at hs hr
    simp only at hs hr
    subst hs
    cases br with
    | panicked p =>
      cases sr with
      | panicked q =>
        simp only at hr
        subst hr
        rfl
      | returned y => exact absurd hr (by simp)
    | returned x =>
      cases sr with
      | panicked q => cases x <;> exact absurd hr (by simp)
      | returned y =>
        cases x with
        | error e1 =>
          cases y with
          | error e2 =>
            simp only at hr
            subst hr
            rfl
          | ok v => exact absurd hr (by simp)
        | ok bv =>
          cases y with
          | error e2 => exact absurd hr (by simp)
          | ok v =>
            simp only at hr
            simp only [Exec_bind_returned]
            rw [bytes_tokens_encode k bv v hr vs]

theorem bytes_nested_lines_encode {ε : Type} (bytesEntry : Bytes.entryVisitor ε)
    (visitEntry : entryVisitor ε) (h : Bytes.entryAgrees bytesEntry visitEntry)
    (atEnd : Option GoError) (ls : List String) :
    Bytes.visitNestedKeyedLines bytesEntry atEnd (ls.map Bytes.encode) =
      visitNestedKeyedLines visitEntry atEnd ls := by
  induction ls with
  | nil => rfl
  | cons l ls ih =>
    rw [List.map_cons, Bytes.visitNestedKeyedLines, visitNestedKeyedLines,
      bytes_nested_line_encode bytesEntry visitEntry h l, ih]

/-- The nested decoder on the encoding of a content, with an entry visitor on bytes that
agrees with `visitEntry`, does what the nested decoder does on the content with
`visitEntry`. -/
theorem bytes_visitNestedKeyed_encode {ε : Type} (bytesEntry : Bytes.entryVisitor ε)
    (visitEntry : entryVisitor ε) (h : Bytes.entryAgrees bytesEntry visitEntry)
    (r : String) :
    Bytes.visitNestedKeyed (Bytes.encode r) bytesEntry = visitNestedKeyed r visitEntry := by
  unfold Bytes.visitNestedKeyed visitNestedKeyed
  rw [bytes_scanLines_encode, bytes_scanErr_encode,
    bytes_nested_lines_encode bytesEntry visitEntry h]

theorem bytes_flat_line_encode {ε : Type} (bytesKV : Bytes.kvVisitor ε)
    (visitKV : kvVisitor ε) (h : Bytes.kvAgrees bytesKV visitKV) (line : String) :
    Bytes.visitFlatKeyedLine bytesKV (Bytes.encode line) = visitFlatKeyedLine visitKV line := by
  unfold Bytes.visitFlatKeyedLine visitFlatKeyedLine
  rw [show Bytes.Split (Bytes.encode line) 32 = (Split line ' ').map Bytes.encode from
    bytes_Split_encode ' ' (by decide) line]
  simp only [List.length_map, bytes_text_encode]
  rcases Split line ' ' with _ | ⟨a, _ | ⟨b, _ | ⟨c, l⟩⟩⟩
  · rfl
  · rfl
  · simp only [List.map_cons, List.map_nil, List.length_cons, List.length_nil]
    simp [h a b]
  · rfl

theorem bytes_flat_lines_encode {ε : Type} (bytesKV : Bytes.kvVisitor ε)
    (visitKV : kvVisitor ε) (h : Bytes.kvAgrees bytesKV visitKV) (ls : List String) :
    Bytes.visitFlatKeyedLines bytesKV (ls.map Bytes.encode) =
      visitFlatKeyedLines visitKV ls := by
  induction ls with
  | nil => rfl
  | cons l ls ih =>
    rw [List.map_cons, Bytes.visitFlatKeyedLines, visitFlatKeyedLines,
      bytes_flat_line_encode bytesKV visitKV h l, ih]

/-- The flat decoder on the encoding of a content, with a visitor on bytes that agrees
with `visitKV`, does what the flat decoder does on the content with `visitKV`. -/
theorem bytes_visitFlatKeyed_encode {ε : Type} (bytesKV : Bytes.kvVisitor ε)
    (visitKV : kvVisitor ε) (h : Bytes.kvAgrees bytesKV visitKV) (r : String) :
    Bytes.visitFlatKeyed (Bytes.encode r) bytesKV = visitFlatKeyed r visitKV := by
  unfold Bytes.visitFlatKeyed visitFlatKeyed
  rw [bytes_scanLines_encode, bytes_scanErr_encode,
    bytes_flat_lines_encode bytesKV visitKV h]

/-- Function `MustNewConstMetric` on the encodings of label values: what it does on the
label values, the check of validity passing. -/
theorem bytes_MustNewConstMetric_encode {ε : Type} (d : Desc) (valueType : ValueType)
    (value : ℚ) (ls : List String) :
    (Bytes.MustNewConstMetric d valueType value (ls.map Bytes.encode) : Exec ε Metric) =
      MustNewConstMetric d valueType value ls := by
  have hall : (ls.map Bytes.encode).all Bytes.ValidString = true := by
    rw [List.all_eq_true]
    intro x hx
    obtain ⟨s, _, rfl⟩ := List.mem_map.mp hx
    exact bytes_ValidString_encode s
  have hdec : (ls.map Bytes.encode).filterMap Bytes.decode = ls := by
    induction ls with
    | nil => rfl
    | cons s ss ih =>
      rw [List.map_cons, List.filterMap_cons, bytes_decode_encode]
      simp only
      rw [ih (by
        rw [List.all_eq_true]
        intro x hx
        obtain ⟨t, _, rfl⟩ := List.mem_map.mp hx
        exact bytes_ValidString_encode t)]
  unfold Bytes.MustNewConstMetric MustNewConstMetric Bytes.NewConstMetric NewConstMetric
  rw [List.length_map, hall, hdec]
  by_cases hl : ls.length ≠ d.variableLabels.length
  · rw [if_pos hl, if_pos hl]
  · rw [if_neg hl, if_neg hl, if_pos rfl]

/-- On a content that is valid UTF-8, the encoding of a Unicode string, the I/O decoder on
bytes does what the I/O decoder on Unicode strings does. -/
theorem bytes_collectIOStat_encode (ParseFloat : String → Option ℚ) (f path : String)
    (descs : List (String × desc)) :
    Bytes.collectIOStat ParseFloat (Bytes.encode f) path descs =
      collectIOStat ParseFloat f path descs := by
  unfold Bytes.collectIOStat collectIOStat
  apply bytes_visitNestedKeyed_encode
  intro n
  refine ⟨rfl, ?_⟩
  show Bytes.kvAgrees _ _
  intro k v
  simp only [bytes_decode_encode, Option.some_bind, bytes_text_encode]
  cases List.lookup k descs with
  | none => rfl
  | some d =>
    simp only
    cases ParseFloat v with
    | none => rfl
    | some value =>
      simp only
      rw [show [Bytes.encode n, Bytes.encode path] = [n, path].map Bytes.encode from rfl,
        bytes_MustNewConstMetric_encode]

/-- On a content that is valid UTF-8 the flat decoder on bytes does what the flat decoder
on Unicode strings does. -/
theorem bytes_collectFlatKeyed_encode (ParseFloat : String → Option ℚ)
    (valueType : ValueType) (f path : String) (descs : List (String × desc)) :
    Bytes.collectFlatKeyed ParseFloat valueType (Bytes.encode f) path descs =
      collectFlatKeyed ParseFloat valueType f path descs := by
  unfold Bytes.collectFlatKeyed collectFlatKeyed
  apply bytes_visitFlatKeyed_encode
  intro k v
  simp only [bytes_decode_encode, Option.some_bind, bytes_text_encode]
  cases List.lookup k descs with
  | none => rfl
  | some d =>
    simp only
    cases ParseFloat v with
    | none => rfl
    | some value =>
      simp only
      rw [show [Bytes.encode path] = [path].map Bytes.encode from rfl,
        bytes_MustNewConstMetric_encode]

/-- On a content that is valid UTF-8 the pressure decoder on bytes does what the pressure
decoder on Unicode strings does. -/
theorem bytes_collectPressure_encode (ParseFloat : String → Option ℚ) (f path : String)
    (descs : List (String × desc)) :
    Bytes.collectPressure ParseFloat (Bytes.encode f) path descs =
      collectPressure ParseFloat f path descs := by
  unfold Bytes.collectPressure collectPressure
  apply bytes_visitNestedKeyed_encode
  intro n
  simp only [bytes_decode_encode, Option.some_bind, bytes_text_encode]
  cases List.lookup n descs with
  | none => exact ⟨rfl, rfl⟩
  | some d =>
    refine ⟨rfl, ?_⟩
    show Bytes.kvAgrees _ _
    intro k v
    simp only [bytes_decode_encode, Option.some_bind, bytes_text_encode, Option.some.injEq]
    by_cases hk : k = "total"
    · rw [if_pos hk, if_pos hk]
      cases ParseFloat v with
      | none => rfl
      | some value =>
        simp only
        rw [show [Bytes.encode path] = [path].map Bytes.encode from rfl,
          bytes_MustNewConstMetric_encode]
    · rw [if_neg hk, if_neg hk]

end Collector
